import Mathlib

/-!
# Verification of the numerical toolkit (root finding, interpolation, matrices)

Shallow embedding of `project1.c`, `utilities.c` and `matrix.c`.

* `long double` is read as an exact ordered field `α` (the rationals when a
  definition is evaluated, the reals when a statement needs completeness).
* The namespace `long_double` holds a second embedding of `bisection_method`,
  `sample_values` and the sampled interpolations in which every operation is
  rounded to 64 significant bits; the statements that hold in exact arithmetic
  only say so, and their counterexamples are stated in that embedding.
* `matrix_engine` gives `least_squares_interpolation` over matrix routines that
  may return `NULL` at any call, as they do when an allocation fails.
* `NAN` is `none` in a field of type `Option α`.
* A `while` loop whose number of rounds is not bounded by its arguments takes a
  fuel argument and returns `none` when the fuel does not suffice.
-/

namespace Project1

/-! ## `struct result` (utilities.h) -/

/-- The `struct result` of utilities.h. `value` and `error` are `none` where the
C code stores `NAN`; `convergence_rate` is `none` where the C code leaves the
field unassigned or assigns it a `long double` that has no `unsigned char` value
(`NAN`, an infinity, or a number outside `0..255`). -/
structure result (α : Type) where
  value : Option α
  error : Option α
  iterations : Nat
  convergence_rate : Option Int
deriving DecidableEq, Repr

/-! ## `bisection_method` (project1.c, lines 33-84) -/

/-- The local variables of `bisection_method` that are live in its `while` loop:
the bracket `x0`, `x1`, the cached function values `y0`, `y1` and the fields
`value`, `error`, `iterations` of the result under construction. -/
structure bisection_state (α : Type) where
  x0 : α
  x1 : α
  y0 : α
  y1 : α
  value : α
  error : α
  iterations : Nat
deriving DecidableEq, Repr

section bisection
variable {α : Type} [LinearOrderedField α]

/-- The loop `while(result.error > tolerance) { ... }` of `bisection_method`
(lines 59-81); `tolerance` is the already halved tolerance. Each unit of fuel
pays for one round; `none` means the fuel ran out with the loop condition still
true. The counter `iterations` is an `unsigned long` that would need 2^64 rounds
to wrap and is kept as a natural number. -/
def bisection_loop (f : α → α) (tolerance : α) : Nat → bisection_state α → Option (bisection_state α)
  | 0, s => if s.error > tolerance then none else some s
  | fuel + 1, s =>
    if s.error > tolerance then
      let error := s.error / 2
      let iterations := s.iterations + 1
      if s.y0 = 0 then
        some { s with error := 0, value := s.x0, iterations := iterations }
      else if s.y1 = 0 then
        some { s with error := 0, value := s.x1, iterations := iterations }
      else
        let ym := f s.value
        if s.y0 * ym < 0 then
          bisection_loop f tolerance fuel
            { x0 := s.x0, x1 := s.value, y0 := s.y0, y1 := ym,
              value := (s.x0 + s.value) / 2, error := error, iterations := iterations }
        else
          bisection_loop f tolerance fuel
            { x0 := s.value, x1 := s.x1, y0 := ym, y1 := s.y1,
              value := (s.value + s.x1) / 2, error := error, iterations := iterations }
    else some s

/-- The state in which `bisection_method` enters its loop (lines 44-48). -/
def bisection_init (f : α → α) (x0 x1 : α) : bisection_state α :=
  { x0 := x0, x1 := x1, y0 := f x0, y1 := f x1,
    value := (x0 + x1) / 2, error := (x1 - x0) / 2, iterations := 0 }

/-- The result with `value = error = NAN` and `iterations = 0` returned on lines
36-40 and 50-54. -/
def undefined_result : result α :=
  { value := none, error := none, iterations := 0, convergence_rate := none }

/-- The final loop state of `bisection_method` on an input that passes both
guards: the loop run from `bisection_init` with the halved tolerance. -/
def bisection_run (fuel : Nat) (f : α → α) (x0 x1 tolerance : α) : Option (bisection_state α) :=
  bisection_loop f (tolerance / 2) fuel (bisection_init f x0 x1)

/-- The `struct result` returned on line 83 from the final loop state, after
`result.convergence_rate = 1`. -/
def bisection_result (s : bisection_state α) : result α :=
  { value := some s.value, error := some s.error, iterations := s.iterations,
    convergence_rate := some 1 }

/-- `struct result bisection_method(function, x0, x1, tolerance)`. The outer
`Option` is `none` only when the fuel is too small for the loop. -/
def bisection_method (fuel : Nat) (f : α → α) (x0 x1 tolerance : α) : Option (result α) :=
  if x0 ≥ x1 then some undefined_result
  else if f x0 * f x1 > 0 then some undefined_result
  else (bisection_run fuel f x0 x1 tolerance).map bisection_result

end bisection

section bisection_props
variable {α : Type} [LinearOrderedField α]

/-- The invariant of the loop of `bisection_method` at the loop test: the cached values are
`f` at the ends of the bracket, the bracket is not empty, `value` is its midpoint, `error`
its half-width, and the cached values do not have the same strict sign. -/
def bisection_inv (f : α → α) (s : bisection_state α) : Prop :=
  s.y0 = f s.x0 ∧ s.y1 = f s.x1 ∧ s.x0 < s.x1 ∧ s.value = (s.x0 + s.x1) / 2 ∧
    s.error = (s.x1 - s.x0) / 2 ∧ s.y0 * s.y1 ≤ 0

/-- The state after the loop of `bisection_method` left through one of its `break`s: the
error is `0` and the value is an end of the bracket at which `f` is exactly zero. -/
def bisection_exact (f : α → α) (s : bisection_state α) : Prop :=
  s.error = 0 ∧ ((s.value = s.x0 ∧ f s.x0 = 0) ∨ (s.value = s.x1 ∧ f s.x1 = 0))

end bisection_props

/-! ## Memory and counted loops

A buffer obtained from `malloc` is a list of its cells. A read or write outside the
buffer is undefined behaviour in C; here it makes the enclosing computation `none`. -/

section memory
variable {α : Type}

/-- Read of `buf[i]`: `none` outside the buffer. -/
def load (buf : List α) (i : Nat) : Option α := buf[i]?

/-- Write `buf[i] = v`: `none` outside the buffer. -/
def store (buf : List α) (i : Nat) (v : α) : Option (List α) :=
  if i < buf.length then some (buf.set i v) else none

variable {σ : Type}

/-- The loop `for (i = first; i < first + count; i++) body`, run on a state. -/
def for_up (body : Nat → σ → Option σ) : Nat → Nat → σ → Option σ
  | 0, _, s => some s
  | count + 1, first, s => (body first s).bind (for_up body count (first + 1))

/-- The loop `for (i = first; i < first + count && cond; i++) body`: the condition on the
state is tested before every round, and the loop ends at the first round where it fails. -/
def for_up_while (cond : σ → Bool) (body : Nat → σ → Option σ) : Nat → Nat → σ → Option σ
  | 0, _, s => some s
  | count + 1, first, s =>
    if cond s then (body first s).bind (for_up_while cond body count (first + 1)) else some s

/-- The loop `for (i = last; i >= 1 && cond; i--) body` on an unsigned counter. -/
def for_down_while (cond : σ → Bool) (body : Nat → σ → Option σ) : Nat → σ → Option σ
  | 0, s => some s
  | i + 1, s => if cond s then (body (i + 1) s).bind (for_down_while cond body i) else some s

end memory

/-! ## `struct matrix` and the matrix engine (matrix.h, matrix.c) -/

/-- The `struct matrix` of matrix.h: a row-major buffer `elements` with `cols` and `rows`. -/
structure matrix (α : Type) where
  elements : List α
  cols : Nat
  rows : Nat
deriving DecidableEq, Repr

section matrix_engine
variable {α : Type} [Field α] [DecidableEq α]

/-- `create_matrix(cols, rows)` (lines 30-45); `none` is `NULL`. Both `malloc` calls are
taken to succeed. The fresh buffer has `rows * cols` cells of indeterminate content, shown
here as zeros: every caller below writes a cell before reading it. -/
def create_matrix (cols rows : Nat) : Option (matrix α) :=
  if cols = 0 ∨ rows = 0 then none
  else some { elements := List.replicate (rows * cols) 0, cols := cols, rows := rows }

/-- `transpose_matrix(matrix)` (lines 86-96). The outer `Option` is `none` on an access
outside a buffer, the inner one is `none` for `NULL`. -/
def transpose_matrix (m : matrix α) : Option (Option (matrix α)) :=
  match (create_matrix m.rows m.cols : Option (matrix α)) with
  | none => some none
  | some transpose =>
    (for_up (fun i els =>
      for_up (fun j els => do
        let v ← load m.elements (j + i * m.cols)
        store els (i + j * m.rows) v) m.cols 0 els) m.rows 0 transpose.elements).map
      fun els => some { transpose with elements := els }

/-- `matrix_multiply(A, B)` (lines 98-115). The outer `Option` is `none` on an access
outside a buffer, the inner one is `none` for `NULL`. -/
def matrix_multiply (A B : matrix α) : Option (Option (matrix α)) :=
  if A.cols ≠ B.rows then some none
  else
    match (create_matrix B.cols A.rows : Option (matrix α)) with
    | none => some none
    | some result =>
      (for_up (fun i els =>
        for_up (fun j els => do
          let els ← store els (j + i * B.cols) 0
          for_up (fun k els => do
            let c ← load els (j + i * B.cols)
            let a ← load A.elements (i * A.cols + k)
            let b ← load B.elements (k * B.cols + j)
            store els (j + i * B.cols) (c + a * b)) A.cols 0 els) B.cols 0 els)
        A.rows 0 result.elements).map
        fun els => some { result with elements := els }

/-- The common tail of `matrix_scale_row` (lines 139-149): `scale = scale_to / element`,
fail when the quotient is not finite, otherwise multiply the row of both matrices by
`scale` unless `scale` is `1`. In exact arithmetic the quotient is not finite exactly when
`element` is zero. -/
def matrix_scale_row_finish (m s : matrix α) (row : Nat) (scale_to element : α) :
    Option (Nat × matrix α × matrix α) :=
  if element = 0 then some (1, m, s)
  else
    let scale := scale_to / element
    if scale ≠ 1 then
      (for_up (fun i (b : List α × List α) => do
        let x ← load b.1 ((row - 1) * m.cols + i)
        let me ← store b.1 ((row - 1) * m.cols + i) (x * scale)
        let y ← load b.2 ((row - 1) * m.cols + i)
        let se ← store b.2 ((row - 1) * m.cols + i) (y * scale)
        some (me, se)) m.cols 0 (m.elements, s.elements)).map
        fun b => (0, { m with elements := b.1 }, { s with elements := b.2 })
    else some (0, m, s)

/-- The pivot-repair loop of `matrix_scale_row` (lines 125-133), on the triple of the local
`element` and the two buffers. -/
def matrix_scale_row_repair (m : matrix α) (row col : Nat) (st : α × List α × List α) :
    Option (α × List α × List α) :=
  for_up (fun i (st : α × List α × List α) => do
    let element ← load st.2.1 (i * m.cols + col - 1)
    if element ≠ 0 then
      let b ← for_up (fun _ (b : List α × List α) => do
        let x ← load b.1 ((row - 1) * m.cols + i)
        let x' ← load b.1 (i * m.cols + col)
        let me ← store b.1 ((row - 1) * m.cols + i) (x + x')
        let y ← load b.2 ((row - 1) * m.cols + i)
        let y' ← load b.2 (i * m.cols + col)
        let se ← store b.2 ((row - 1) * m.cols + i) (y + y')
        some (me, se)) m.cols 0 (st.2.1, st.2.2)
      some (element, b.1, b.2)
    else some (element, st.2.1, st.2.2)) m.rows 0 st

/-- `matrix_scale_row(matrix, secondary_matrix, row, col, scale_to)` (lines 118-150). The
result is the returned `char` with the two matrices as the call leaves them; `none` is an
access outside a buffer. -/
def matrix_scale_row (m s : matrix α) (row col : Nat) (scale_to : α) :
    Option (Nat × matrix α × matrix α) :=
  if row = 0 ∨ row > m.rows ∨ col = 0 ∨ col > m.cols then some (1, m, s)
  else do
    let element ← load m.elements ((row - 1) * m.cols + col - 1)
    if element = 0 then
      let st ← matrix_scale_row_repair m row col (element, m.elements, s.elements)
      let m' : matrix α := { m with elements := st.2.1 }
      let s' : matrix α := { s with elements := st.2.2 }
      if st.1 = 0 then some (1, m', s')
      else
        let element ← load m'.elements ((row - 1) * m.cols + col - 1)
        matrix_scale_row_finish m' s' row scale_to element
    else matrix_scale_row_finish m s row scale_to element

/-- `matrix_reduce_row(matrix, secondary_matrix, row_dst, row_src, col)` (lines 153-169). -/
def matrix_reduce_row (m s : matrix α) (row_dst row_src col : Nat) :
    Option (Nat × matrix α × matrix α) :=
  if row_src = row_dst ∨ row_dst = 0 ∨ row_dst > m.rows ∨ row_src = 0 ∨ row_src > m.rows ∨
      col = 0 ∨ col > m.cols then some (1, m, s)
  else do
    let pivot ← load m.elements ((row_src - 1) * m.cols + col - 1)
    if pivot = 0 then some (1, m, s)
    else
      let scale ← load m.elements ((row_dst - 1) * m.cols + col - 1)
      if scale ≠ 0 then
        (for_up (fun i (b : List α × List α) => do
          let x ← load b.1 ((row_dst - 1) * m.cols + i)
          let x' ← load b.1 ((row_src - 1) * m.cols + i)
          let me ← store b.1 ((row_dst - 1) * m.cols + i) (x - scale * x')
          let y ← load b.2 ((row_dst - 1) * m.cols + i)
          let y' ← load b.2 ((row_src - 1) * m.cols + i)
          let se ← store b.2 ((row_dst - 1) * m.cols + i) (y - scale * y')
          some (me, se)) m.cols 0 (m.elements, s.elements)).map
          fun b => (0, { m with elements := b.1 }, { s with elements := b.2 })
      else some (0, m, s)

/-- `memcpy(dst, src, n * sizeof(long double))`: the first `n` cells of `src` replace the
first `n` cells of `dst`. -/
def memcpy (dst src : List α) (n : Nat) : Option (List α) :=
  if n ≤ dst.length ∧ n ≤ src.length then some (src.take n ++ dst.drop n) else none

/-- The loops of lines 183-187 that fill `inverse` with the identity matrix. -/
def matrix_fill_identity (rows cols : Nat) (els : List α) : Option (List α) :=
  for_up (fun i els =>
    for_up (fun j els => store els (j + i * cols) (if i = j then 1 else 0)) cols 0 els)
    rows 0 els

/-- The forward pass of the Gaussian reduction (lines 189-194) on the triple of `result`,
`temp` and `inverse`. -/
def matrix_inverse_forward (rows : Nat) (st : Nat × matrix α × matrix α) :
    Option (Nat × matrix α × matrix α) :=
  for_up_while (fun st => st.1 = 0) (fun i st => do
    let st ← matrix_scale_row st.2.1 st.2.2 i i 1
    for_up_while (fun st => st.1 = 0) (fun j st => matrix_reduce_row st.2.1 st.2.2 j i i)
      (rows - i) (i + 1) st) rows 1 st

/-- The backward pass of the Gaussian reduction (lines 195-199). -/
def matrix_inverse_backward (rows : Nat) (st : Nat × matrix α × matrix α) :
    Option (Nat × matrix α × matrix α) :=
  for_down_while (fun st => st.1 = 0) (fun i st =>
    for_down_while (fun st => st.1 = 0) (fun j st => matrix_reduce_row st.2.1 st.2.2 j i i)
      (i - 1) st) rows st

/-- `matrix_inverse(matrix)` (lines 171-212). The outer `Option` is `none` on an access
outside a buffer, the inner one is `none` for `NULL`. -/
def matrix_inverse (m : matrix α) : Option (Option (matrix α)) :=
  if m.rows ≠ m.cols then some none
  else
    match (create_matrix m.rows m.cols : Option (matrix α)) with
    | none => some none
    | some temp =>
      match (create_matrix m.rows m.cols : Option (matrix α)) with
      | none => some none
      | some inverse => do
        let te ← memcpy temp.elements m.elements (m.rows * m.cols)
        let ie ← matrix_fill_identity m.rows m.cols inverse.elements
        let st ← matrix_inverse_forward m.rows
          (0, { temp with elements := te }, { inverse with elements := ie })
        let st ← matrix_inverse_backward m.rows st
        if st.1 ≠ 0 then some none else some (some st.2.2)

end matrix_engine

section matrix_props
variable {α : Type}

/-- What every matrix produced by `create_matrix` satisfies: both dimensions are positive
and the buffer has `rows * cols` cells. -/
def matrix.valid (m : matrix α) : Prop :=
  0 < m.rows ∧ 0 < m.cols ∧ m.elements.length = m.rows * m.cols

/-- Row-major addressing: the element in row `i` and column `j` (both counted from zero) is
`elements[i * cols + j]`. -/
def matrix.entry [Zero α] (m : matrix α) (i j : Nat) : α :=
  (m.elements[i * m.cols + j]?).getD 0

/-- The cell in row `r` and column `c` of a row-major buffer with `n` columns. -/
def cell [Zero α] (n : Nat) (l : List α) (r c : Nat) : α :=
  (l[r * n + c]?).getD 0

/-- A row-major buffer read as an `n`-by-`n` matrix. -/
def cells [Zero α] (n : Nat) (l : List α) : Matrix (Fin n) (Fin n) α :=
  Matrix.of fun i j => cell n l i j

/-- The leading `m`-by-`m` block of a row-major buffer with `n` columns. -/
def lead [Zero α] (n m : Nat) (l : List α) : Matrix (Fin m) (Fin m) α :=
  Matrix.of fun i j => cell n l i j

/-- The `k`-th leading principal minor of a matrix: the determinant of its top-left
`k`-by-`k` block. -/
def matrix.leading_minor [CommRing α] (m : matrix α) (k : Nat) : α :=
  (Matrix.of fun i j : Fin k => m.entry i j).det

/-- A matrix with as many rows as columns, read as a square matrix over its row indices. -/
def matrix.square [Zero α] (m : matrix α) : Matrix (Fin m.rows) (Fin m.rows) α :=
  Matrix.of fun i j => m.entry i j

/-- Buffer `l'` is buffer `l` of an `n`-by-`n` matrix with the first `k` cells of row `r0`
replaced by the values `g 0, ..., g (k - 1)`. -/
def row_replaced (n : Nat) (l l' : List α) (r0 k : Nat) (g : Nat → α) : Prop :=
  l'.length = l.length ∧
    ∀ r c, r < n → c < n → l'[r * n + c]? = if r = r0 ∧ c < k then some (g c) else l[r * n + c]?

/-- The columns before `k` of an `n`-by-`n` buffer are reduced: `1` on the diagonal and `0`
below it. -/
def lower_done [Zero α] [One α] (n : Nat) (l : List α) (k : Nat) : Prop :=
  ∀ r c, r < n → c < k → c ≤ r → cell n l r c = if r = c then 1 else 0

/-- The columns from `k` on of an `n`-by-`n` buffer are `0` above the diagonal. -/
def upper_done [Zero α] (n : Nat) (l : List α) (k : Nat) : Prop :=
  ∀ r c, c < n → k ≤ c → r < c → cell n l r c = 0

/-- The working buffer `te` and the secondary buffer `ie` of `matrix_inverse` on the input
buffer `m0`: both have `n * n` cells and the secondary matrix times the input is the working
matrix. -/
def pass_inv [Semiring α] (n : Nat) (m0 te ie : List α) : Prop :=
  te.length = n * n ∧ ie.length = n * n ∧ cells n ie * cells n m0 = cells n te

/-- Every leading block of the working buffer `te` is singular exactly when the same block
of the input buffer `m0` is. -/
def minors_inv [CommRing α] (n : Nat) (m0 te : List α) : Prop :=
  ∀ m, m ≤ n → ((lead n m te).det = 0 ↔ (lead n m m0).det = 0)

/-- The state of the forward pass of `matrix_inverse` once the columns before `q` are
reduced. -/
def fwd_state [Field α] (n : Nat) (m0 te ie : List α) (q : Nat) : Prop :=
  pass_inv n m0 te ie ∧ minors_inv n m0 te ∧ lower_done n te q

end matrix_props

/-! ## Sampling and polynomial interpolation (utilities.c, project1.c) -/

/-- The `struct sampled_function` of utilities.h without its `name` label; `stop` is the
field `end`. -/
structure sampled_function (α : Type) where
  start : α
  stop : α
  sampling_interval : α
  n_samples : Nat
  samples : List α
deriving DecidableEq, Repr

/-- The `struct interpolation` of utilities.h without its `name` label; `stop` is the field
`end`. `sampling_interval` is `none` while the field has not been assigned. -/
structure interpolation (α : Type) where
  function : α → α
  start : α
  stop : α
  order : Nat
  coefficients : List α
  sampling_interval : Option α

section interpolation_defs
variable {α : Type} [LinearOrderedField α] [FloorRing α]

/-- `sample_values(function, start, end, sampling_interval)` (utilities.c, lines 37-70). The
inner `Option` is `none` for `NULL`. The outer `Option` is `none` where the conversion
`(size_t)nl_samples` is undefined: for a zero interval (an infinite quotient) and for a
negative `nl_samples`. Both `malloc` calls are taken to succeed. -/
def sample_values (f : α → α) (start stop sampling_interval : α) :
    Option (Option (sampled_function α)) :=
  if start ≥ stop then some none
  else if sampling_interval = 0 then none
  else
    let nl_samples : Int := ⌊(stop - start) / sampling_interval⌋ + 1
    if nl_samples < 0 then none
    else
      let n_samples := nl_samples.toNat
      some (some
        { start := start
          stop := start + (nl_samples : α) * sampling_interval
          sampling_interval := sampling_interval
          n_samples := n_samples
          samples :=
            (List.range n_samples).map fun i : Nat => f (start + sampling_interval * (i : α)) })

end interpolation_defs

section polynomial_defs
variable {α : Type} [Field α]

/-- `allocate_interpolation(function, start, end, order)` (utilities.c, lines 194-209), both
`malloc` calls taken to succeed. The `order + 1` coefficient cells have indeterminate
content, shown here as zeros. -/
def allocate_interpolation (f : α → α) (start stop : α) (order : Nat) : interpolation α :=
  { function := f, start := start, stop := stop, order := order,
    coefficients := List.replicate (order + 1) 0, sampling_interval := none }

/-- `polynomial_value(x, interpolation)` (utilities.c, lines 218-227); `none` is a read
outside the coefficient buffer. The loop state is the pair of `y` and `xn`. -/
def polynomial_value (x : α) (interp : interpolation α) : Option α := do
  let y ← load interp.coefficients 0
  let st ← for_up (fun i (st : α × α) => do
    let c ← load interp.coefficients i
    some (st.1 + c * st.2, st.2 * x)) interp.order 1 (y, x)
  some st.1

/-- The loop `for (l = first; l != 0; l--) body` on an unsigned counter. -/
def for_down {σ : Type} (body : Nat → σ → Option σ) : Nat → σ → Option σ
  | 0, s => some s
  | l + 1, s => (body (l + 1) s).bind (for_down body l)

/-- Lines 178-186 of `lagrange_interpolation`: multiply the polynomial held in
`temp_coefficients[0 .. temp_poly_degree]` by `(x + xi)`, in place. -/
def lagrange_multiply (temp : List α) (temp_poly_degree : Nat) (xi : α) : Option (List α) := do
  let v ← load temp temp_poly_degree
  let temp ← store temp (temp_poly_degree + 1) v
  let temp ← for_down (fun l temp => do
    let a ← load temp l
    let temp ← store temp l (a * xi)
    let a ← load temp l
    let b ← load temp (l - 1)
    store temp l (a + b)) temp_poly_degree temp
  let a ← load temp 0
  store temp 0 (a * xi)

/-- Lines 172-188 of `lagrange_interpolation` for the sample `i`: the loop over `j` that
builds the denominator and the numerator polynomial of the `i`-th basis term. The state is
the pair of `coefficient_denominator` and `temp_coefficients`. -/
def lagrange_basis (x0 sampling_interval : α) (order i : Nat) (sample : α) (temp : List α) :
    Option (α × List α) := do
  let temp ← store temp 0 sample
  for_up (fun j (b : α × List α) =>
    if i ≠ j then do
      let coefficient_denominator := b.1 * ((i : α) - (j : α))
      let temp_poly_degree := j - (if j > i then 1 else 0)
      let xi := -(x0 + sampling_interval * (j : α))
      let temp ← lagrange_multiply b.2 temp_poly_degree xi
      some (coefficient_denominator, temp)
    else some b) (order + 1) 0 (sampling_interval ^ order, temp)

/-- Lines 166-193 of `lagrange_interpolation`: the coefficient loops, on the pair of
`coefficients` and `temp_coefficients`. -/
def lagrange_coefficients (x0 sampling_interval : α) (order : Nat) (samples : List α)
    (coefficients temp : List α) : Option (List α × List α) := do
  let coefficients ← for_up (fun i c => store c i 0) (order + 1) 0 coefficients
  for_up (fun i (st : List α × List α) => do
    let sample ← load samples i
    let b ← lagrange_basis x0 sampling_interval order i sample st.2
    let coefficients ← for_up (fun j c => do
      let a ← load c j
      let t ← load b.2 j
      store c j (a + t / b.1)) (order + 1) 0 st.1
    some (coefficients, b.2)) (order + 1) 0 (coefficients, temp)

end polynomial_defs

section lagrange_defs
variable {α : Type} [LinearOrderedField α] [FloorRing α]

/-- `lagrange_interpolation(function, x0, x1, order)` (project1.c, lines 127-199). The inner
`Option` is `none` for `NULL`; the outer one is `none` on an access outside a buffer and for
`order = 0`, where the sampling interval is a division by zero. With `x0 < x1` and
`order ≥ 1` the interval is positive, so at least one sample is taken and the unsigned
`n_samples - 1` does not wrap. The scratch buffer `temp_coefficients` of `order + 1` cells
has indeterminate content, shown as zeros. -/
def lagrange_interpolation (f : α → α) (x0 x1 : α) (order : Nat) :
    Option (Option (interpolation α)) :=
  if x0 ≥ x1 then some none
  else if order = 0 then none
  else
    let sampling_interval := (x1 - x0) / (order : α)
    (sample_values f x0 x1 sampling_interval).bind fun r =>
      match r with
      | none => some none
      | some sampled_function =>
        let lagrange := allocate_interpolation f x0 x1 (sampled_function.n_samples - 1)
        (lagrange_coefficients x0 sampling_interval order sampled_function.samples
          lagrange.coefficients (List.replicate (order + 1) 0)).map
          fun st => some { lagrange with coefficients := st.1 }

end lagrange_defs

section interpolation_props
variable {α : Type} [Field α]

/-- The value at `x` of the polynomial with the coefficients `l[0], ..., l[d]`. -/
def peval (l : List α) (d : Nat) (x : α) : α :=
  ∑ k in Finset.range (d + 1), l.getD k 0 * x ^ k

/-- The numerator of the `i`-th Lagrange basis term after the knots before `m`: the product
of `x - (x0 + h * j)` over `j < m`, `j ≠ i`. -/
def basis_numerator (x0 h : α) (i m : Nat) (x : α) : α :=
  ∏ j in Finset.range m, if j = i then 1 else (x - (x0 + h * (j : α)))

/-- The denominator of the `i`-th Lagrange basis term after the knots before `m`:
`h ^ order` times the product of `i - j` over `j < m`, `j ≠ i`. -/
def basis_denominator (h : α) (order i m : Nat) : α :=
  h ^ order * ∏ j in Finset.range m, if j = i then 1 else ((i : α) - (j : α))

end interpolation_props

/-! ## `struct function` (utilities.h) -/

/-- The `struct function` of utilities.h without its `name`: the evaluation routine `f` and
the context `arg` it is meant to be called with. The `void const*` context is a value of a
type `κ`. -/
structure function (α κ : Type) where
  f : α → κ → α
  arg : κ

/-! ## Values outside the field -/

/-- A `long double` that may have left the field: a field element, one of the two
infinities, or `NAN`. Used for the convergence-order estimate of the Newton family, whose
quotients and logarithms have zero arguments in ordinary runs. -/
inductive extended (α : Type) where
  | finite : α → extended α
  | pos_inf : extended α
  | neg_inf : extended α
  | nan : extended α
deriving DecidableEq, Repr

section newton
variable {α κ : Type} [LinearOrderedField α] [FloorRing α]

/-- Division of `long double` values. A zero divisor is the positive zero: every divisor of
the Newton family is an absolute value or a logarithm, neither of which is ever the
negative zero. -/
def extended.div : extended α → extended α → extended α
  | .finite a, .finite b =>
    if b = 0 then (if a > 0 then .pos_inf else if a < 0 then .neg_inf else .nan)
    else .finite (a / b)
  | .finite _, .pos_inf => .finite 0
  | .finite _, .neg_inf => .finite 0
  | .pos_inf, .finite b => if b < 0 then .neg_inf else .pos_inf
  | .neg_inf, .finite b => if b < 0 then .pos_inf else .neg_inf
  | _, _ => .nan

/-- The library function `logl` on a value that may be zero, infinite or `NAN`; its values
at the positive field elements are those of the parameter `logl`. -/
def extended.logl (logl : α → α) : extended α → extended α
  | .finite x => if x > 0 then .finite (logl x) else if x = 0 then .neg_inf else .nan
  | .pos_inf => .pos_inf
  | _ => .nan

/-- The library function `roundl` on a field element: the nearest integer, halves away
from zero. -/
def roundl (x : α) : Int :=
  if 0 ≤ x then ⌊x + 1 / 2⌋ else ⌈x - 1 / 2⌉

/-- The library function `roundl` on a value that may be infinite or `NAN`. -/
def extended.roundl : extended α → extended α
  | .finite x => .finite (Project1.roundl x : α)
  | e => e

/-- The comparison `e < x` with a field element `x`; false for `NAN`. -/
def extended.lt (e : extended α) (x : α) : Bool :=
  match e with
  | .finite a => decide (a < x)
  | .neg_inf => true
  | _ => false

/-- The comparison `e >= x` with a field element `x`; false for `NAN`. -/
def extended.ge (e : extended α) (x : α) : Bool :=
  match e with
  | .finite a => decide (a ≥ x)
  | .pos_inf => true
  | _ => false

/-- The expression `roundl(logl(errors[2]/errors[1])/logl(errors[1]/errors[0]))` of
`newtons_method`, `altered_newtons_method` and `adjusting_newtons_method`. -/
def order_estimate (logl : α → α) (errors0 errors1 errors2 : α) : extended α :=
  extended.roundl
    (extended.div
      (extended.logl logl (extended.div (.finite errors2) (.finite errors1)))
      (extended.logl logl (extended.div (.finite errors1) (.finite errors0))))

/-- The conversion of a `long double` to `unsigned char` in the assignment to
`result.convergence_rate`: the fraction is discarded, and the conversion is undefined
(`none`) when the integer part is not in `0..255`, in particular for `NAN`. -/
def to_unsigned_char : extended α → Option Int
  | .finite x => if -1 < x ∧ x < 256 then some (if 0 ≤ x then ⌊x⌋ else ⌈x⌉) else none
  | _ => none

/-- The expression `(result.iterations < 3)?NAN:roundl(...)` stored in
`result.convergence_rate`. -/
def convergence_rate (logl : α → α) (iterations : Nat) (errors0 errors1 errors2 : α) :
    Option Int :=
  if iterations < 3 then to_unsigned_char (extended.nan : extended α)
  else to_unsigned_char (order_estimate logl errors0 errors1 errors2)

/-! ## `newtons_method` (project1.c, lines 86-103) -/

/-- The variables of `newtons_method` and `altered_newtons_method` that are live in the
loop: the current point `x0`, the fields `value`, `error`, `iterations` of the result under
construction and the array `errors`. -/
structure newton_state (α : Type) where
  x0 : α
  value : α
  error : α
  errors0 : α
  errors1 : α
  errors2 : α
  iterations : Nat
deriving DecidableEq, Repr

/-- One round of the body of the loop of `newtons_method` (lines 91-98). The flag is `true`
when the round left through `break`. `none` means that the round divided by zero
(`derivative` vanishes at `x0`, or the new `value` is zero): the C code goes on with an
infinity or `NAN`, which the embedding does not follow. -/
def newtons_round (function : Project1.function α κ) (derivative : Project1.function α κ)
    (tolerance : α) (s : newton_state α) : Option (Bool × newton_state α) :=
  if derivative.f s.x0 derivative.arg = 0 then none
  else
    let value := s.x0 - function.f s.x0 function.arg / derivative.f s.x0 derivative.arg
    if value = 0 then none
    else
      let error := |(value - s.x0) / value|
      if error < tolerance then some (true, { s with value := value, error := error })
      else
        some (false, { x0 := value, value := value, error := error, errors0 := s.errors1,
                       errors1 := s.errors2, errors2 := error, iterations := s.iterations })

/-- The loop `for(result.iterations = 0L; result.iterations != max_iterations;
result.iterations++)` of `newtons_method`; the first argument is the number of rounds left,
`max_iterations - result.iterations`. -/
def newtons_loop (function : Project1.function α κ) (derivative : Project1.function α κ)
    (tolerance : α) : Nat → newton_state α → Option (newton_state α)
  | 0, s => some s
  | todo + 1, s =>
    match newtons_round function derivative tolerance s with
    | none => none
    | some (true, s') => some s'
    | some (false, s') =>
      newtons_loop function derivative tolerance todo { s' with iterations := s'.iterations + 1 }

/-- The state in which the loops of the Newton family start. `value` and `error` are not
assigned before the first round; the zeros stand for their indeterminate contents, which
are read only when `max_iterations = 0`. -/
def newtons_init (x0 : α) : newton_state α :=
  { x0 := x0, value := 0, error := 0, errors0 := 0, errors1 := 0, errors2 := 0,
    iterations := 0 }

/-- The final loop state of `newtons_method`. -/
def newtons_run (function : Project1.function α κ) (derivative : Project1.function α κ)
    (x0 : α) (max_iterations : Nat) (tolerance : α) : Option (newton_state α) :=
  newtons_loop function derivative tolerance max_iterations (newtons_init x0)

/-- The `struct result` returned by the Newton family from the final loop state (lines
100-102): the error is halved and the convergence rate is estimated. -/
def newtons_result (logl : α → α) (s : newton_state α) : result α :=
  { value := some s.value, error := some (s.error / 2), iterations := s.iterations,
    convergence_rate := convergence_rate logl s.iterations s.errors0 s.errors1 s.errors2 }

/-- `struct result newtons_method(function, derivative, x0, max_iterations, tolerance)`.
`none` when a round divides by zero, and for `max_iterations = 0`, where the C code halves
the unassigned `result.error` and returns the unassigned `result.value`. -/
def newtons_method (logl : α → α) (function : Project1.function α κ)
    (derivative : Project1.function α κ) (x0 : α) (max_iterations : Nat) (tolerance : α) :
    Option (result α) :=
  if max_iterations = 0 then none
  else (newtons_run function derivative x0 max_iterations tolerance).map (newtons_result logl)

/-! ## `altered_newtons_method` (project1.c, lines 105-125) -/

/-- One round of the body of the loop of `altered_newtons_method` (lines 110-121); all
three routines are called with `function->arg`. `none` means that the round divided by
zero. -/
def altered_newtons_round (function : Project1.function α κ)
    (derivative : Project1.function α κ) (secondderivative : Project1.function α κ)
    (tolerance : α) (s : newton_state α) : Option (Bool × newton_state α) :=
  let temp_f := function.f s.x0 function.arg
  let temp_fd := derivative.f s.x0 function.arg
  let temp_fdd := secondderivative.f s.x0 function.arg
  if temp_fd * temp_fd - temp_f * temp_fdd = 0 then none
  else
    let value := s.x0 - (temp_f * temp_fd) / (temp_fd * temp_fd - temp_f * temp_fdd)
    if value = 0 then none
    else
      let error := |(value - s.x0) / value|
      if error < tolerance then some (true, { s with value := value, error := error })
      else
        some (false, { x0 := value, value := value, error := error, errors0 := s.errors1,
                       errors1 := s.errors2, errors2 := error, iterations := s.iterations })

/-- The loop of `altered_newtons_method`; the first argument is the number of rounds
left. -/
def altered_newtons_loop (function : Project1.function α κ)
    (derivative : Project1.function α κ) (secondderivative : Project1.function α κ)
    (tolerance : α) : Nat → newton_state α → Option (newton_state α)
  | 0, s => some s
  | todo + 1, s =>
    match altered_newtons_round function derivative secondderivative tolerance s with
    | none => none
    | some (true, s') => some s'
    | some (false, s') =>
      altered_newtons_loop function derivative secondderivative tolerance todo
        { s' with iterations := s'.iterations + 1 }

/-- `struct result altered_newtons_method(function, derivative, secondderivative, x0,
max_iterations, tolerance)`; `none` as for `newtons_method`. -/
def altered_newtons_method (logl : α → α) (function : Project1.function α κ)
    (derivative : Project1.function α κ) (secondderivative : Project1.function α κ)
    (x0 : α) (max_iterations : Nat) (tolerance : α) : Option (result α) :=
  if max_iterations = 0 then none
  else
    (altered_newtons_loop function derivative secondderivative tolerance max_iterations
      (newtons_init x0)).map (newtons_result logl)

/-! ## `adjusting_newtons_method` (project1.c, lines 420-445) -/

/-- The variables of `adjusting_newtons_method` that are live in its loop: those of
`newtons_method`, the flag `adjusting` and the multiplier `m`. -/
structure adjusting_state (α : Type) where
  x0 : α
  value : α
  error : α
  errors0 : α
  errors1 : α
  errors2 : α
  iterations : Nat
  adjusting : Bool
  m : α
deriving DecidableEq, Repr

/-- One round of the body of the loop of `adjusting_newtons_method` (lines 426-440). The
flag is `true` when the round left through `break`; `none` means that the round divided by
zero. -/
def adjusting_newtons_round (logl : α → α) (function : Project1.function α κ)
    (derivative : Project1.function α κ) (tolerance : α) (s : adjusting_state α) :
    Option (Bool × adjusting_state α) :=
  if derivative.f s.x0 derivative.arg = 0 then none
  else
    let value := s.x0 - s.m * function.f s.x0 function.arg / derivative.f s.x0 derivative.arg
    if value = 0 then none
    else
      let error := |(value - s.x0) / value|
      if error < tolerance then some (true, { s with value := value, error := error })
      else
        let errors0 := s.errors1
        let errors1 := s.errors2
        let errors2 := error
        if s.adjusting ∧ s.iterations > 2 ∧ s.iterations % 3 = 0 then
          if (order_estimate logl errors0 errors1 errors2).lt 2 then
            some (false, { x0 := value, value := value, error := error, errors0 := errors0,
                           errors1 := errors1, errors2 := errors2,
                           iterations := s.iterations, adjusting := s.adjusting,
                           m := s.m + 1 })
          else
            some (false, { x0 := value, value := value, error := error, errors0 := errors0,
                           errors1 := errors1, errors2 := errors2,
                           iterations := s.iterations, adjusting := false, m := s.m })
        else
          some (false, { x0 := value, value := value, error := error, errors0 := errors0,
                         errors1 := errors1, errors2 := errors2, iterations := s.iterations,
                         adjusting := s.adjusting, m := s.m })

/-- The loop of `adjusting_newtons_method`; the first argument is the number of rounds
left. -/
def adjusting_newtons_loop (logl : α → α) (function : Project1.function α κ)
    (derivative : Project1.function α κ) (tolerance : α) :
    Nat → adjusting_state α → Option (adjusting_state α)
  | 0, s => some s
  | todo + 1, s =>
    match adjusting_newtons_round logl function derivative tolerance s with
    | none => none
    | some (true, s') => some s'
    | some (false, s') =>
      adjusting_newtons_loop logl function derivative tolerance todo
        { s' with iterations := s'.iterations + 1 }

/-- The state in which the loop of `adjusting_newtons_method` starts: `adjusting = 1`,
`m = 1.0L`, and the rest as in `newtons_init`. -/
def adjusting_init (x0 : α) : adjusting_state α :=
  { x0 := x0, value := 0, error := 0, errors0 := 0, errors1 := 0, errors2 := 0,
    iterations := 0, adjusting := true, m := 1 }

/-- The `struct result` returned by `adjusting_newtons_method` from its final loop state
(lines 442-444). -/
def adjusting_result (logl : α → α) (s : adjusting_state α) : result α :=
  { value := some s.value, error := some (s.error / 2), iterations := s.iterations,
    convergence_rate := convergence_rate logl s.iterations s.errors0 s.errors1 s.errors2 }

/-- `struct result adjusting_newtons_method(function, derivative, x0, max_iterations,
tolerance)`; `none` as for `newtons_method`. -/
def adjusting_newtons_method (logl : α → α) (function : Project1.function α κ)
    (derivative : Project1.function α κ) (x0 : α) (max_iterations : Nat) (tolerance : α) :
    Option (result α) :=
  if max_iterations = 0 then none
  else
    (adjusting_newtons_loop logl function derivative tolerance max_iterations
      (adjusting_init x0)).map (adjusting_result logl)

/-! ## `square_root_calculator` (project1.c, lines 371-418) -/

/-- `static long double square_root_helper(x, k)`: `x * x - *k`. -/
def square_root_helper (x : α) (k : α) : α := x * x - k

/-- `static long double square_root_helper_derivative(x, k)`: `2 * x`. -/
def square_root_helper_derivative (x : α) (_k : α) : α := 2 * x

/-- The constant `SQUARE_ROOT_TOLERANCE`, `1E-7L`. -/
def SQUARE_ROOT_TOLERANCE : α := 1 / 10 ^ 7

/-- `struct result square_root_calculator(k)`. The initialiser `{NAN, 0, 0}` leaves
`convergence_rate` zero. `fuel` pays for the loop of `bisection_method` and `logl` is the
library logarithm used by `newtons_method`. When the bisection returns `NAN` (then
`result.error != 0.0L` holds), `newtons_method` is run from `NAN`: every value it computes
is `NAN`, no comparison with the tolerance succeeds, and all 256 rounds are made. -/
def square_root_calculator (fuel : Nat) (logl : α → α) (k : α) : Option (result α) :=
  let result : result α :=
    { value := none, error := some 0, iterations := 0, convergence_rate := some 0 }
  if k < 0 then some result
  else if k = 0 then some { result with value := some 0 }
  else if k = 1 then some { result with value := some 1 }
  else
    let f0 : Project1.function α α := { f := square_root_helper, arg := k }
    let f1 : Project1.function α α := { f := square_root_helper_derivative, arg := k }
    match bisection_method fuel (fun x => f0.f x f0.arg) 0 k (k / 16) with
    | none => none
    | some result =>
      if result.error ≠ some 0 then
        let iterations := result.iterations
        match result.value with
        | some seed =>
          (newtons_method logl f0 f1 seed 256 SQUARE_ROOT_TOLERANCE).map fun newtons_result =>
            { newtons_result with iterations := newtons_result.iterations + iterations }
        | none =>
          some { value := none, error := none, iterations := 256 + iterations,
                 convergence_rate := none }
      else some result

end newton

section newton_props
variable {α κ : Type} [LinearOrderedField α]

/-- The real function that a `struct function` stands for: its routine called with its own
context. -/
def function.eval (F : function α κ) (x : α) : α := F.f x F.arg

/-- The Newton sequence `x_0 = x0`, `x_{n+1} = x_n - f(x_n) / f'(x_n)`. -/
def newton_seq (f f' : α → α) (x0 : α) : Nat → α
  | 0 => x0
  | n + 1 => newton_seq f f' x0 n - f (newton_seq f f' x0 n) / f' (newton_seq f f' x0 n)

/-- The relative step `|(x_{n+1} - x_n) / x_{n+1}|` of the Newton sequence. -/
def rel_step (f f' : α → α) (x0 : α) (n : Nat) : α :=
  |(newton_seq f f' x0 (n + 1) - newton_seq f f' x0 n) / newton_seq f f' x0 (n + 1)|

/-- The relative step recorded in `errors[j]` after `i` rounds that did not meet the
tolerance: the step of round `i + j - 3`, or the initial `0.0L` when fewer rounds were
made. -/
def recorded_error (f f' : α → α) (x0 : α) (i j : Nat) : α :=
  if 3 ≤ i + j then rel_step f f' x0 (i + j - 3) else 0

/-- The state of the loop of `newtons_method` after `i` rounds none of which met the
tolerance. -/
def newton_after (f f' : α → α) (x0 : α) (i : Nat) : newton_state α :=
  { x0 := newton_seq f f' x0 i,
    value := if i = 0 then 0 else newton_seq f f' x0 i,
    error := if i = 0 then 0 else rel_step f f' x0 (i - 1),
    errors0 := recorded_error f f' x0 i 0,
    errors1 := recorded_error f f' x0 i 1,
    errors2 := recorded_error f f' x0 i 2,
    iterations := i }

end newton_props

/-! ### Data of a run that stops early -/

/-- A routine whose Newton steps from `1` under the derivative `unit_slope` lead to
`2/3`, `8/15`, `64/135`, `2048/4455`, so that the relative steps are `1/2`, `1/4`, `1/8`
and `1/32`. -/
def shrinking_steps : function ℚ Unit :=
  { f := fun x _ =>
      if x = 1 then 1 / 3 else if x = 2 / 3 then 2 / 15 else if x = 8 / 15 then 8 / 135
      else if x = 64 / 135 then 64 / 4455 else 0,
    arg := () }

/-- The derivative routine that is constantly `1`. -/
def unit_slope : function ℚ Unit :=
  { f := fun _ _ => 1, arg := () }

/-- The logarithm to base 2 on the powers of two from `1/16` to `16` (and `0` elsewhere).
The order estimate is a quotient of two logarithms and so is the same for every base. -/
def log2_on_powers (x : ℚ) : ℚ :=
  if x = 1 / 16 then -4 else if x = 1 / 8 then -3 else if x = 1 / 4 then -2
  else if x = 1 / 2 then -1 else if x = 1 then 0 else if x = 2 then 1 else if x = 4 then 2
  else if x = 8 then 3 else if x = 16 then 4 else 0

/-! ### Data of a call whose three routines have different contexts -/

/-- The line `x - a` with the context `a = 2`. -/
def shifted_line : function ℚ ℚ :=
  { f := fun x a => x - a, arg := 2 }

/-- The constant routine that returns its context, with the context `1`: the derivative of
`shifted_line`. -/
def constant_one : function ℚ ℚ :=
  { f := fun _ a => a, arg := 1 }

/-- The constant routine that returns its context, with the context `0`: the second
derivative of `shifted_line`. -/
def constant_zero : function ℚ ℚ :=
  { f := fun _ a => a, arg := 0 }

/-- A state of the loop of `adjusting_newtons_method` at loop index `3` with adjustment
enabled, whose recorded errors `1/2`, `1/4` are followed by the relative step `1/2` of the
next round of `shrinking_steps`. -/
def adjusting_sample : adjusting_state ℚ :=
  { x0 := 1, value := 1, error := 1 / 4, errors0 := 1, errors1 := 1 / 2, errors2 := 1 / 4,
    iterations := 3, adjusting := true, m := 1 }

section square_root_props
variable {α : Type} [LinearOrderedField α]

/-- The entry `f[0]` of the local array of `square_root_calculator`: `x * x - k` with the
context `k`. -/
def sqrt_function (k : α) : function α α :=
  { f := square_root_helper, arg := k }

/-- The entry `f[1]` of the local array of `square_root_calculator`: `2 * x` with the
context `k`. -/
def sqrt_derivative (k : α) : function α α :=
  { f := square_root_helper_derivative, arg := k }

end square_root_props

/-! ## Row setters (matrix.c) and `least_squares_interpolation` (project1.c) -/

section row_setters
variable {α : Type}

/-- `matrix_set_row(matrix, row, value)` (matrix.c, lines 53-62): the call returns without
effect for a row outside `1..rows`; `none` is a write outside the buffer. -/
def matrix_set_row (m : matrix α) (row : Nat) (value : α) : Option (matrix α) :=
  if row = 0 ∨ row > m.rows then some m
  else
    (for_up (fun i els => store els ((row - 1) * m.cols + i) value) m.cols 0 m.elements).map
      fun els => { m with elements := els }

/-- `matrix_set_row_vector_power(matrix, row, vector, power)` (matrix.c, lines 75-84). The
only caller passes the whole numbers `1, 2, ..., order` as `power`, for which `powl` is the
repeated product; `none` is an access outside a buffer. -/
def matrix_set_row_vector_power [Monoid α] (m : matrix α) (row : Nat) (vector : List α)
    (power : Nat) : Option (matrix α) :=
  if row = 0 ∨ row > m.rows then some m
  else
    (for_up (fun i els => do
      let v ← load vector i
      store els ((row - 1) * m.cols + i) (v ^ power)) m.cols 0 m.elements).map
      fun els => { m with elements := els }

end row_setters

section least_squares_defs
variable {α : Type} [LinearOrderedField α] [FloorRing α]

/-- The constant `LEAST_SQUARES_POINTS`, `524288.0L`. -/
def LEAST_SQUARES_POINTS : α := 524288

/-- Lines 294-310 of `least_squares_interpolation`: the matrix `matrix_transpose` with
`n_samples` columns and `order + 1` rows whose row `i` holds the powers `xs[c] ^ (i - 1)` of
the sample points `xs[c] = start + c * sampling_interval`. The inner `Option` is `none`
for `NULL`, the outer one on an access outside a buffer. -/
def least_squares_design (sampled_function : sampled_function α) (order : Nat) :
    Option (Option (matrix α)) :=
  match (create_matrix sampled_function.n_samples (order + 1) : Option (matrix α)) with
  | none => some none
  | some matrix_transpose =>
    (matrix_set_row matrix_transpose 1 1).bind fun matrix_transpose =>
      let xs := (List.range sampled_function.n_samples).map fun i : Nat =>
        sampled_function.start + (i : α) * sampled_function.sampling_interval
      (for_up (fun i m => matrix_set_row_vector_power m i xs (i - 1)) order 2
        matrix_transpose).map some

/-- Lines 311-335 of `least_squares_interpolation`: the transpose, the product
`matrix_transpose * matrix`, its inverse, and the two products that apply the inverse to
`matrix_transpose` and to the sample vector. The inner `Option` is `none` where the C code
jumps to an error label, the outer one on an access outside a buffer. -/
def least_squares_solve (matrix_transpose sample_vector_transpose : matrix α) :
    Option (Option (matrix α)) :=
  match transpose_matrix matrix_transpose with
  | none => none
  | some none => some none
  | some (some matrix) =>
    match matrix_multiply matrix_transpose matrix with
    | none => none
    | some none => some none
    | some (some matrix_transpose_by_matrix_product) =>
      match matrix_inverse matrix_transpose_by_matrix_product with
      | none => none
      | some none => some none
      | some (some matrix_transpose_by_matrix_product_inverse) =>
        match matrix_multiply matrix_transpose_by_matrix_product_inverse matrix_transpose with
        | none => none
        | some none => some none
        | some (some inverse_by_matrix_transpose) =>
          match matrix_multiply inverse_by_matrix_transpose sample_vector_transpose with
          | none => none
          | some none => some none
          | some (some by_sample_vector_transpose) =>
            if by_sample_vector_transpose.cols ≠ 1 then some none
            else some (some by_sample_vector_transpose)

/-- Lines 289-369 of `least_squares_interpolation`, after the samples have been taken: the
sample vector as a matrix with one column, the design matrix, the solution of the normal
equations, and the copy of the solution into the coefficients of a fresh interpolation
(lines 347-349). -/
def least_squares_fit (f : α → α) (x0 x1 : α) (order : Nat)
    (sampled_function : sampled_function α) : Option (Option (interpolation α)) :=
  let sample_vector_transpose : matrix α :=
    { elements := sampled_function.samples, cols := 1, rows := sampled_function.n_samples }
  match least_squares_design sampled_function order with
  | none => none
  | some none => some none
  | some (some matrix_transpose) =>
    match least_squares_solve matrix_transpose sample_vector_transpose with
    | none => none
    | some none => some none
    | some (some solution) =>
      let least_squares := allocate_interpolation f x0 x1 order
      (for_up (fun i coefficients => do
        let v ← load solution.elements i
        store coefficients i v) solution.rows 0 least_squares.coefficients).map
        fun coefficients => some { least_squares with coefficients := coefficients }

/-- `least_squares_interpolation(function, x0, x1, order)` (project1.c, lines 281-369). The
inner `Option` is `none` for `NULL`, the outer one on an access outside a buffer. All
`malloc` calls are taken to succeed; the field `sampling_interval` of the result is left
unassigned. -/
def least_squares_interpolation (f : α → α) (x0 x1 : α) (order : Nat) :
    Option (Option (interpolation α)) :=
  let sampling_interval := (x1 - x0) / LEAST_SQUARES_POINTS
  match sample_values f x0 x1 sampling_interval with
  | none => none
  | some none => some none
  | some (some sampled_function) => least_squares_fit f x0 x1 order sampled_function

end least_squares_defs

section least_squares_props
variable {α : Type} [LinearOrderedField α]

/-- The sample point `x_r = x0 + r * h` of the least-squares fit, `h = (x1 - x0) / 524288`. -/
def least_squares_point (x0 x1 : α) (r : Nat) : α :=
  x0 + (r : α) * ((x1 - x0) / 524288)

/-- The entry `(X^T X)[p][q]` of the normal matrix: the sum of `x_r ^ p * x_r ^ q` over the
524289 sample points. -/
def normal_matrix_entry (x0 x1 : α) (p q : Nat) : α :=
  ∑ r in Finset.range 524289, least_squares_point x0 x1 r ^ p * least_squares_point x0 x1 r ^ q

/-- The entry `(X^T y)[p]` of the right-hand side of the normal equations: the sum of
`x_r ^ p * f(x_r)` over the 524289 sample points. -/
def normal_rhs_entry (f : α → α) (x0 x1 : α) (p : Nat) : α :=
  ∑ r in Finset.range 524289, least_squares_point x0 x1 r ^ p * f (least_squares_point x0 x1 r)

end least_squares_props

/-! ## `sample_derivative`, the sampled interpolations and `function_error`
(utilities.c, project1.c) -/

section sample_derivative_defs
variable {α : Type} [LinearOrderedField α]

/-- `sample_derivative(sampled_function)` (utilities.c, lines 81-114), both `malloc` calls
taken to succeed. Line 93 reads the field `sampling_interval` of the fresh block
`sampled_derivative` before anything has been written to it: `indeterminate` is the content
of that field, any `long double`, also zero, an infinity or `NAN` (a zero is read as the
positive zero, which a zero-filled block holds). The differences are divided by it as
`long double` values, so the fields of the result may be infinite or `NAN`. The inner
`Option` is `none` for `NULL`; the outer one is `none` on a read outside the input
samples. -/
def sample_derivative (indeterminate : extended α)
    (sampled_function : Project1.sampled_function α) :
    Option (Option (Project1.sampled_function (extended α))) :=
  if sampled_function.n_samples < 2 then some none
  else
    let n_samples := sampled_function.n_samples - 1
    let sampling_interval := indeterminate
    (for_up (fun i samples => do
      let a ← load sampled_function.samples (i + 1)
      let b ← load sampled_function.samples i
      store samples i (extended.div (.finite (a - b)) sampling_interval)) n_samples 0
      (List.replicate n_samples (.finite 0))).map fun samples =>
      some { start := .finite sampled_function.start
             stop := .finite (sampled_function.stop - sampled_function.sampling_interval)
             sampling_interval := sampling_interval
             n_samples := n_samples
             samples := samples }

end sample_derivative_defs

section sampled_interpolation_defs
variable {α : Type} [LinearOrderedField α] [FloorRing α]

/-- Lines 232-234 of `piecewise_linear_interpolation`: every sample divided by the
sampling interval is written to the coefficient of the same index. -/
def piecewise_linear_fill (sampled_function : Project1.sampled_function α)
    (coefficients : List α) : Option (List α) :=
  for_up (fun i coefficients => do
    let s ← load sampled_function.samples i
    store coefficients i (s / sampled_function.sampling_interval))
    sampled_function.n_samples 0 coefficients

/-- `piecewise_linear_interpolation(function, x0, x1, order)` (project1.c, lines 201-239).
The inner `Option` is `none` for `NULL`; the outer one is `none` on an access outside a
buffer and for `order = 0`, where the sampling interval is a division by zero. All `malloc`
calls are taken to succeed. -/
def piecewise_linear_interpolation (f : α → α) (x0 x1 : α) (order : Nat) :
    Option (Option (interpolation α)) :=
  if x0 ≥ x1 then some none
  else if order = 0 then none
  else
    let sampling_interval := (x1 - x0) / (order : α)
    (sample_values f x0 x1 sampling_interval).bind fun r =>
      match r with
      | none => some none
      | some sampled_function =>
        let piecewise_linear := allocate_interpolation f x0 x1 (sampled_function.n_samples - 1)
        (piecewise_linear_fill sampled_function piecewise_linear.coefficients).map
          fun coefficients =>
            some { piecewise_linear with
              sampling_interval := some sampled_function.sampling_interval
              coefficients := coefficients }

/-- Lines 272-274 of `raised_cosine_interpolation`: half of every sample is written to the
coefficient of the same index. -/
def raised_cosine_fill (sampled_function : Project1.sampled_function α)
    (coefficients : List α) : Option (List α) :=
  for_up (fun i coefficients => do
    let s ← load sampled_function.samples i
    store coefficients i (s / 2))
    sampled_function.n_samples 0 coefficients

/-- `raised_cosine_interpolation(function, x0, x1, order)` (project1.c, lines 241-279); the
two `Option`s are as for `piecewise_linear_interpolation`. -/
def raised_cosine_interpolation (f : α → α) (x0 x1 : α) (order : Nat) :
    Option (Option (interpolation α)) :=
  if x0 ≥ x1 then some none
  else if order = 0 then none
  else
    let sampling_interval := (x1 - x0) / (order : α)
    (sample_values f x0 x1 sampling_interval).bind fun r =>
      match r with
      | none => some none
      | some sampled_function =>
        let raised_cosine := allocate_interpolation f x0 x1 (sampled_function.n_samples - 1)
        (raised_cosine_fill sampled_function raised_cosine.coefficients).map
          fun coefficients =>
            some { raised_cosine with
              sampling_interval := some sampled_function.sampling_interval
              coefficients := coefficients }

/-- `piecewise_linear_value(x, interpolation)` (utilities.c, lines 239-250). The inner
`Option` is `none` for `NAN`. The outer one is `none` where the C code is undefined or
leaves the field: the sampling interval is unassigned or zero, a conversion to `size_t`
has a negative argument, or a coefficient is read outside the buffer. -/
def piecewise_linear_value (x : α) (interp : interpolation α) : Option (Option α) :=
  if x < interp.start ∨ x > interp.stop then some none
  else
    match interp.sampling_interval with
    | none => none
    | some sampling_interval =>
      if sampling_interval = 0 then none
      else
        let x_sample := x - interp.start
        if ⌊x_sample / sampling_interval⌋ < 0 ∨ ⌈x_sample / sampling_interval⌉ < 0 then none
        else
          let x0 := ⌊x_sample / sampling_interval⌋.toNat
          let x1 := ⌈x_sample / sampling_interval⌉.toNat
          let a := sampling_interval * ((x0 : α) + 1) - x_sample
          let b := sampling_interval * (x0 : α) - x_sample
          (load interp.coefficients x0).bind fun c0 =>
            (load interp.coefficients x1).bind fun c1 =>
              some (some (c0 * a - c1 * b))

/-- `raised_cosine_value(x, interpolation)` (utilities.c, lines 262-274); `M_PI` is the
constant of that name and `cosl` the library cosine. The two `Option`s are as for
`piecewise_linear_value`. -/
def raised_cosine_value (M_PI : α) (cosl : α → α) (x : α) (interp : interpolation α) :
    Option (Option α) :=
  if x < interp.start ∨ x > interp.stop then some none
  else
    match interp.sampling_interval with
    | none => none
    | some sampling_interval =>
      if sampling_interval = 0 then none
      else
        let x_sample := x - interp.start
        if ⌊x_sample / sampling_interval⌋ < 0 ∨ ⌈x_sample / sampling_interval⌉ < 0 then none
        else
          let x0 := ⌊x_sample / sampling_interval⌋.toNat
          let x1 := ⌈x_sample / sampling_interval⌉.toNat
          let a := x_sample / sampling_interval - (x0 : α)
          let b := x_sample / sampling_interval - ((x0 : α) + 1)
          (load interp.coefficients x0).bind fun c0 =>
            (load interp.coefficients x1).bind fun c1 =>
              some (some (c0 * (1 + cosl (M_PI * a)) + c1 * (1 + cosl (M_PI * b))))

/-- The library function `sqrtl` on a value that may be infinite or `NAN`; its values at
the non-negative field elements are those of the parameter `sqrtl`. -/
def extended.sqrtl (sqrtl : α → α) : extended α → extended α
  | .finite x => if 0 ≤ x then .finite (sqrtl x) else .nan
  | .pos_inf => .pos_inf
  | _ => .nan

/-- `static long double function_error(function1, function2, start, end, points)`
(utilities.c, lines 161-192); `powl(v, 2.0L)` is the square. The result is a `long double`
that may be `NAN` or infinite, since the quotient has a zero divisor when `function1`
vanishes at every sample. The `Option` is `none` on a read outside a sample buffer and for
`points = 0`, where the sampling interval is a division by zero. The loop state is the pair
of `difference2` and `f2`. -/
def function_error (sqrtl : α → α) (f1 f2 : α → α) (start stop : α) (points : Nat) :
    Option (extended α) :=
  if stop ≤ start then some .nan
  else if points = 0 then none
  else
    let sampling_interval := (stop - start) / (points : α)
    match sample_values f1 start stop sampling_interval with
    | none => none
    | some none => some .nan
    | some (some sampled_function1) =>
      match sample_values f2 start stop sampling_interval with
      | none => none
      | some none => some .nan
      | some (some sampled_function2) =>
        let actual_points :=
          if sampled_function1.n_samples < sampled_function2.n_samples
          then sampled_function1.n_samples else sampled_function2.n_samples
        (for_up (fun i (st : α × α) => do
          let s1 ← load sampled_function1.samples i
          let s2 ← load sampled_function2.samples i
          some (st.1 + (s1 - s2) ^ 2, st.2 + s1 ^ 2)) actual_points 0 (0, 0)).map
          fun st => extended.sqrtl sqrtl (extended.div (.finite st.1) (.finite st.2))

end sampled_interpolation_defs

section least_squares_copy_defs
variable {α : Type}

/-- Lines 347-349 of `least_squares_interpolation`: the loop that copies the `rows`
elements of the solution into the coefficients. -/
def least_squares_copy (solution : matrix α) (coefficients : List α) : Option (List α) :=
  for_up (fun i coefficients => do
    let v ← load solution.elements i
    store coefficients i v) solution.rows 0 coefficients

end least_squares_copy_defs

section function_error_props
variable {α : Type} [LinearOrderedField α]

/-- The grid point `x_i = start + i * (stop - start) / points` of `function_error`. -/
def grid_point (start stop : α) (points i : Nat) : α :=
  start + (stop - start) / (points : α) * (i : α)

/-- The sum of `(f1(x_i) - f2(x_i))^2` over the grid points `x_0, ..., x_points`. -/
def squared_difference_sum (f1 f2 : α → α) (start stop : α) (points : Nat) : α :=
  ∑ i in Finset.range (points + 1),
    (f1 (grid_point start stop points i) - f2 (grid_point start stop points i)) ^ 2

/-- The sum of `f1(x_i)^2` over the grid points `x_0, ..., x_points`. -/
def squared_sum (f1 : α → α) (start stop : α) (points : Nat) : α :=
  ∑ i in Finset.range (points + 1), f1 (grid_point start stop points i) ^ 2

end function_error_props

/-! ## The writes of `transpose_matrix` -/

section transpose_writes_defs
variable {α : Type} [Field α] [DecidableEq α]

/-- `transpose_matrix(matrix)` (lines 86-96) run together with a log: every assignment to
`transpose->elements[i + j * rows]` appends its index to the log, in the order of
execution. The two `Option`s are as for `transpose_matrix`. -/
def transpose_matrix_writes (m : matrix α) : Option (Option (matrix α × List Nat)) :=
  match (create_matrix m.rows m.cols : Option (matrix α)) with
  | none => some none
  | some transpose =>
    (for_up (fun i (st : List α × List Nat) =>
      for_up (fun j (st : List α × List Nat) => do
        let v ← load m.elements (j + i * m.cols)
        let els ← store st.1 (i + j * m.rows) v
        some (els, st.2 ++ [i + j * m.rows])) m.cols 0 st) m.rows 0
        (transpose.elements, [])).map
      fun st => some ({ transpose with elements := st.1 }, st.2)

end transpose_writes_defs

section adjusting_props
variable {α : Type}

/-- The variables that `adjusting_newtons_method` shares with `newtons_method`: the loop
state without the flag `adjusting` and the multiplier `m`. -/
def adjusting_state.newton (s : adjusting_state α) : newton_state α :=
  { x0 := s.x0, value := s.value, error := s.error, errors0 := s.errors0,
    errors1 := s.errors1, errors2 := s.errors2, iterations := s.iterations }

end adjusting_props

/-! ## `long double` arithmetic

The definitions above read `long double` as an exact field. The namespace `long_double`
holds a second embedding of `bisection_method`, `sample_values` and the two sampled
interpolations in which every arithmetic operation is rounded the way the x87 extended
format rounds it: to 64 significant bits, to the nearest value, ties to the even
significand. The values are rationals; the exponent range (overflow, underflow), the
infinities and `NAN` are not part of this embedding. Conversions between `size_t` and
`long double` are exact on the values that occur. -/

namespace long_double

/-- The integer nearest to `y`, the even one of the two when `y` lies halfway. -/
def round_half_even (y : ℚ) : Int :=
  if y - (⌊y⌋ : ℚ) < 1 / 2 then ⌊y⌋
  else if 1 / 2 < y - (⌊y⌋ : ℚ) then ⌊y⌋ + 1
  else if ⌊y⌋ % 2 = 0 then ⌊y⌋ else ⌊y⌋ + 1

/-- The `long double` nearest to the rational `x`: with `e` the binary exponent of `x`
(`2 ^ e ≤ |x| < 2 ^ (e + 1)`), `x` is rounded to a multiple of `2 ^ (e - 63)`. -/
def nearest (x : ℚ) : ℚ :=
  if x = 0 then 0
  else (round_half_even (x * 2 ^ (63 - Int.log 2 |x|)) : ℚ) / 2 ^ (63 - Int.log 2 |x|)

/-- The sum `a + b` of two `long double` values. -/
def add (a b : ℚ) : ℚ := nearest (a + b)

/-- The difference `a - b` of two `long double` values. -/
def sub (a b : ℚ) : ℚ := nearest (a - b)

/-- The product `a * b` of two `long double` values. -/
def mul (a b : ℚ) : ℚ := nearest (a * b)

/-- The quotient `a / b` of two `long double` values, for a divisor other than zero. -/
def div (a b : ℚ) : ℚ := nearest (a / b)

/-- The loop of `bisection_method` (project1.c, lines 59-81) in `long double` arithmetic;
fuel and state as for the exact `bisection_loop`. -/
def bisection_loop (f : ℚ → ℚ) (tolerance : ℚ) :
    Nat → bisection_state ℚ → Option (bisection_state ℚ)
  | 0, s => if s.error > tolerance then none else some s
  | fuel + 1, s =>
    if s.error > tolerance then
      let error := div s.error 2
      let iterations := s.iterations + 1
      if s.y0 = 0 then
        some { s with error := 0, value := s.x0, iterations := iterations }
      else if s.y1 = 0 then
        some { s with error := 0, value := s.x1, iterations := iterations }
      else
        let ym := f s.value
        if mul s.y0 ym < 0 then
          bisection_loop f tolerance fuel
            { x0 := s.x0, x1 := s.value, y0 := s.y0, y1 := ym,
              value := div (add s.x0 s.value) 2, error := error, iterations := iterations }
        else
          bisection_loop f tolerance fuel
            { x0 := s.value, x1 := s.x1, y0 := ym, y1 := s.y1,
              value := div (add s.value s.x1) 2, error := error, iterations := iterations }
    else some s

/-- The state in which `bisection_method` enters its loop (lines 44-48), in `long double`
arithmetic. -/
def bisection_init (f : ℚ → ℚ) (x0 x1 : ℚ) : bisection_state ℚ :=
  { x0 := x0, x1 := x1, y0 := f x0, y1 := f x1,
    value := div (add x0 x1) 2, error := div (sub x1 x0) 2, iterations := 0 }

/-- The final loop state of `bisection_method` in `long double` arithmetic, on an input
that passes both guards. -/
def bisection_run (fuel : Nat) (f : ℚ → ℚ) (x0 x1 tolerance : ℚ) :
    Option (bisection_state ℚ) :=
  bisection_loop f (div tolerance 2) fuel (bisection_init f x0 x1)

/-- `struct result bisection_method(function, x0, x1, tolerance)` in `long double`
arithmetic; `f` is the routine on `long double` values. The outer `Option` is `none` only
when the fuel is too small for the loop. -/
def bisection_method (fuel : Nat) (f : ℚ → ℚ) (x0 x1 tolerance : ℚ) : Option (result ℚ) :=
  if x0 ≥ x1 then some undefined_result
  else if mul (f x0) (f x1) > 0 then some undefined_result
  else (bisection_run fuel f x0 x1 tolerance).map bisection_result

/-- `sample_values(function, start, end, sampling_interval)` (utilities.c, lines 37-70) in
`long double` arithmetic; the two `Option`s are as for the exact `sample_values`. -/
def sample_values (f : ℚ → ℚ) (start stop sampling_interval : ℚ) :
    Option (Option (sampled_function ℚ)) :=
  if start ≥ stop then some none
  else if sampling_interval = 0 then none
  else
    let nl_samples : ℚ := add (⌊div (sub stop start) sampling_interval⌋ : ℚ) 1
    if nl_samples < 0 then none
    else
      let n_samples := ⌊nl_samples⌋.toNat
      some (some
        { start := start
          stop := add start (mul nl_samples sampling_interval)
          sampling_interval := sampling_interval
          n_samples := n_samples
          samples :=
            (List.range n_samples).map fun i : Nat =>
              f (add start (mul sampling_interval (i : ℚ))) })

/-- Lines 232-234 of `piecewise_linear_interpolation` in `long double` arithmetic. -/
def piecewise_linear_fill (sampled_function : Project1.sampled_function ℚ)
    (coefficients : List ℚ) : Option (List ℚ) :=
  for_up (fun i coefficients => do
    let s ← load sampled_function.samples i
    store coefficients i (div s sampled_function.sampling_interval))
    sampled_function.n_samples 0 coefficients

/-- `piecewise_linear_interpolation(function, x0, x1, order)` (project1.c, lines 201-239)
in `long double` arithmetic; the two `Option`s are as for the exact definition. -/
def piecewise_linear_interpolation (f : ℚ → ℚ) (x0 x1 : ℚ) (order : Nat) :
    Option (Option (interpolation ℚ)) :=
  if x0 ≥ x1 then some none
  else if order = 0 then none
  else
    let sampling_interval := div (sub x1 x0) (order : ℚ)
    (sample_values f x0 x1 sampling_interval).bind fun r =>
      match r with
      | none => some none
      | some sampled_function =>
        let piecewise_linear := allocate_interpolation f x0 x1 (sampled_function.n_samples - 1)
        (piecewise_linear_fill sampled_function piecewise_linear.coefficients).map
          fun coefficients =>
            some { piecewise_linear with
              sampling_interval := some sampled_function.sampling_interval
              coefficients := coefficients }

/-- Lines 272-274 of `raised_cosine_interpolation` in `long double` arithmetic. -/
def raised_cosine_fill (sampled_function : Project1.sampled_function ℚ)
    (coefficients : List ℚ) : Option (List ℚ) :=
  for_up (fun i coefficients => do
    let s ← load sampled_function.samples i
    store coefficients i (div s 2))
    sampled_function.n_samples 0 coefficients

/-- `raised_cosine_interpolation(function, x0, x1, order)` (project1.c, lines 241-279) in
`long double` arithmetic. -/
def raised_cosine_interpolation (f : ℚ → ℚ) (x0 x1 : ℚ) (order : Nat) :
    Option (Option (interpolation ℚ)) :=
  if x0 ≥ x1 then some none
  else if order = 0 then none
  else
    let sampling_interval := div (sub x1 x0) (order : ℚ)
    (sample_values f x0 x1 sampling_interval).bind fun r =>
      match r with
      | none => some none
      | some sampled_function =>
        let raised_cosine := allocate_interpolation f x0 x1 (sampled_function.n_samples - 1)
        (raised_cosine_fill sampled_function raised_cosine.coefficients).map
          fun coefficients =>
            some { raised_cosine with
              sampling_interval := some sampled_function.sampling_interval
              coefficients := coefficients }

/-- `piecewise_linear_value(x, interpolation)` (utilities.c, lines 239-250) in
`long double` arithmetic. The inner `Option` is `none` for `NAN`; the outer one is `none`
where the sampling interval is unassigned or zero, a conversion to `size_t` has a negative
argument, or a coefficient is read outside the buffer. -/
def piecewise_linear_value (x : ℚ) (interp : interpolation ℚ) : Option (Option ℚ) :=
  if x < interp.start ∨ x > interp.stop then some none
  else
    match interp.sampling_interval with
    | none => none
    | some sampling_interval =>
      if sampling_interval = 0 then none
      else
        let x_sample := sub x interp.start
        if ⌊div x_sample sampling_interval⌋ < 0 ∨ ⌈div x_sample sampling_interval⌉ < 0 then none
        else
          let x0 := ⌊div x_sample sampling_interval⌋.toNat
          let x1 := ⌈div x_sample sampling_interval⌉.toNat
          let a := sub (mul sampling_interval (add (x0 : ℚ) 1)) x_sample
          let b := sub (mul sampling_interval (x0 : ℚ)) x_sample
          (load interp.coefficients x0).bind fun c0 =>
            (load interp.coefficients x1).bind fun c1 =>
              some (some (sub (mul c0 a) (mul c1 b)))

/-- `raised_cosine_value(x, interpolation)` (utilities.c, lines 262-274) in `long double`
arithmetic; `M_PI` is the constant of that name as a `long double` and `cosl` the library
cosine on `long double` values. The two `Option`s are as for `piecewise_linear_value`. -/
def raised_cosine_value (M_PI : ℚ) (cosl : ℚ → ℚ) (x : ℚ) (interp : interpolation ℚ) :
    Option (Option ℚ) :=
  if x < interp.start ∨ x > interp.stop then some none
  else
    match interp.sampling_interval with
    | none => none
    | some sampling_interval =>
      if sampling_interval = 0 then none
      else
        let x_sample := sub x interp.start
        if ⌊div x_sample sampling_interval⌋ < 0 ∨ ⌈div x_sample sampling_interval⌉ < 0 then none
        else
          let x0 := ⌊div x_sample sampling_interval⌋.toNat
          let x1 := ⌈div x_sample sampling_interval⌉.toNat
          let a := sub (div x_sample sampling_interval) (x0 : ℚ)
          let b := sub (div x_sample sampling_interval) (add (x0 : ℚ) 1)
          (load interp.coefficients x0).bind fun c0 =>
            (load interp.coefficients x1).bind fun c1 =>
              some (some (add (mul c0 (add 1 (cosl (mul M_PI a))))
                (mul c1 (add 1 (cosl (mul M_PI b))))))

end long_double

/-! ## `least_squares_interpolation` over a Matrix Engine whose steps may fail

The definitions of matrix.c above take every `malloc` call to succeed, so that
`create_matrix`, `transpose_matrix` and `matrix_multiply` return `NULL` only on their own
guards. To follow `least_squares_interpolation` through every `NULL` that a step of the
engine can return, also by a failed allocation, the same code is given here with the four
allocating routines it calls as the fields of a `matrix_engine`. -/

/-- The four allocating routines of matrix.c that `least_squares_interpolation` calls. For
each, `NULL` is the inner `none` (for `create_matrix` the only `none`), and the outer `none`
is an access outside a buffer. -/
structure matrix_engine (α : Type) where
  create_matrix : Nat → Nat → Option (matrix α)
  transpose_matrix : matrix α → Option (Option (matrix α))
  matrix_multiply : matrix α → matrix α → Option (Option (matrix α))
  matrix_inverse : matrix α → Option (Option (matrix α))

section matrix_engine_defs
variable {α : Type} [LinearOrderedField α] [FloorRing α]

/-- The engine of matrix.c as embedded above, every allocation succeeding. -/
def matrix_engine.of_source : matrix_engine α :=
  { create_matrix := Project1.create_matrix
    transpose_matrix := Project1.transpose_matrix
    matrix_multiply := Project1.matrix_multiply
    matrix_inverse := Project1.matrix_inverse }

/-- The engine of matrix.c in which the allocation inside `transpose_matrix` fails, so that
`transpose_matrix` returns `NULL`. -/
def matrix_engine.failing_transpose : matrix_engine α :=
  { create_matrix := Project1.create_matrix
    transpose_matrix := fun _ => some none
    matrix_multiply := Project1.matrix_multiply
    matrix_inverse := Project1.matrix_inverse }

/-- Lines 294-310 of `least_squares_interpolation` over the engine `E`: as
`least_squares_design`. -/
def matrix_engine.least_squares_design (E : matrix_engine α)
    (sampled_function : sampled_function α) (order : Nat) : Option (Option (matrix α)) :=
  match E.create_matrix sampled_function.n_samples (order + 1) with
  | none => some none
  | some matrix_transpose =>
    (matrix_set_row matrix_transpose 1 1).bind fun matrix_transpose =>
      let xs := (List.range sampled_function.n_samples).map fun i : Nat =>
        sampled_function.start + (i : α) * sampled_function.sampling_interval
      (for_up (fun i m => matrix_set_row_vector_power m i xs (i - 1)) order 2
        matrix_transpose).map some

/-- Lines 311-335 of `least_squares_interpolation` over the engine `E`: as
`least_squares_solve`. -/
def matrix_engine.least_squares_solve (E : matrix_engine α)
    (matrix_transpose sample_vector_transpose : matrix α) : Option (Option (matrix α)) :=
  match E.transpose_matrix matrix_transpose with
  | none => none
  | some none => some none
  | some (some matrix) =>
    match E.matrix_multiply matrix_transpose matrix with
    | none => none
    | some none => some none
    | some (some matrix_transpose_by_matrix_product) =>
      match E.matrix_inverse matrix_transpose_by_matrix_product with
      | none => none
      | some none => some none
      | some (some matrix_transpose_by_matrix_product_inverse) =>
        match E.matrix_multiply matrix_transpose_by_matrix_product_inverse matrix_transpose with
        | none => none
        | some none => some none
        | some (some inverse_by_matrix_transpose) =>
          match E.matrix_multiply inverse_by_matrix_transpose sample_vector_transpose with
          | none => none
          | some none => some none
          | some (some by_sample_vector_transpose) =>
            if by_sample_vector_transpose.cols ≠ 1 then some none
            else some (some by_sample_vector_transpose)

/-- Lines 289-369 of `least_squares_interpolation` over the engine `E`, after the samples
have been taken: as `least_squares_fit`. -/
def matrix_engine.least_squares_fit (E : matrix_engine α) (f : α → α) (x0 x1 : α)
    (order : Nat) (sampled_function : sampled_function α) :
    Option (Option (interpolation α)) :=
  let sample_vector_transpose : matrix α :=
    { elements := sampled_function.samples, cols := 1, rows := sampled_function.n_samples }
  match E.least_squares_design sampled_function order with
  | none => none
  | some none => some none
  | some (some matrix_transpose) =>
    match E.least_squares_solve matrix_transpose sample_vector_transpose with
    | none => none
    | some none => some none
    | some (some solution) =>
      let least_squares := allocate_interpolation f x0 x1 order
      (for_up (fun i coefficients => do
        let v ← load solution.elements i
        store coefficients i v) solution.rows 0 least_squares.coefficients).map
        fun coefficients => some { least_squares with coefficients := coefficients }

/-- `least_squares_interpolation(function, x0, x1, order)` (project1.c, lines 281-369) over
the engine `E`. The inner `Option` is `none` for `NULL`, the outer one on an access outside
a buffer; the allocations of `sample_values`, of `xs` and of `allocate_interpolation` are
taken to succeed. -/
def matrix_engine.least_squares_interpolation (E : matrix_engine α) (f : α → α) (x0 x1 : α)
    (order : Nat) : Option (Option (interpolation α)) :=
  let sampling_interval := (x1 - x0) / LEAST_SQUARES_POINTS
  match sample_values f x0 x1 sampling_interval with
  | none => none
  | some none => some none
  | some (some sampled_function) => E.least_squares_fit f x0 x1 order sampled_function

end matrix_engine_defs

/-! # Theorems

## Bisection -/

section bisection_proofs
variable {α : Type} [LinearOrderedField α]

theorem sign_step {y0 ym y1 : α} (h0 : y0 ≠ 0) (h01 : y0 * y1 ≤ 0) (hm : ¬ y0 * ym < 0) :
    ym * y1 ≤ 0 := by
  by_contra hc
  push_neg at hc hm
  have hsq : 0 < y0 * y0 := mul_self_pos.mpr h0
  have h1 : 0 < (y0 * y0) * (ym * y1) := mul_pos hsq hc
  have h2 : (y0 * ym) * (y0 * y1) ≤ 0 := mul_nonpos_of_nonneg_of_nonpos hm h01
  have h3 : (y0 * y0) * (ym * y1) = (y0 * ym) * (y0 * y1) := by ring
  rw [h3] at h1
  exact absurd h1 (not_lt.mpr h2)

theorem bisection_loop_terminates (f : α → α) (tol : α) :
    ∀ (fuel n : Nat) (s : bisection_state α), n ≤ fuel → s.error ≤ tol * 2 ^ n →
      ∃ s', bisection_loop f tol fuel s = some s' := by
  intro fuel
  induction fuel with
  | zero =>
    intro n s hn he
    have hn0 : n = 0 := Nat.le_zero.mp hn
    subst hn0
    simp only [pow_zero, mul_one] at he
    exact ⟨s, by simp [bisection_loop, not_lt.mpr he]⟩
  | succ fuel ih =>
    intro n s hn he
    unfold bisection_loop
    by_cases hgt : s.error > tol
    · simp only [hgt, if_true]
      by_cases h0 : s.y0 = 0
      · simp [h0]
      · by_cases h1 : s.y1 = 0
        · simp [h0, h1]
        · simp only [h0, h1, if_false]
          cases n with
          | zero =>
            simp only [pow_zero, mul_one] at he
            exact absurd hgt (not_lt.mpr he)
          | succ n =>
            have he2 : s.error / 2 ≤ tol * 2 ^ n := by
              rw [pow_succ] at he
              rw [div_le_iff₀ (by norm_num : (0 : α) < 2)]
              linarith
            split
            · exact ih n _ (Nat.le_of_succ_le_succ hn) he2
            · exact ih n _ (Nat.le_of_succ_le_succ hn) he2
    · exact ⟨s, by simp [hgt]⟩

theorem bisection_loop_post (f : α → α) (tol : α) :
    ∀ (fuel : Nat) (s s' : bisection_state α), bisection_inv f s →
      bisection_loop f tol fuel s = some s' →
      s.iterations ≤ s'.iterations ∧
      ((bisection_inv f s' ∧ s'.error ≤ tol ∧
          s'.error * 2 ^ s'.iterations = s.error * 2 ^ s.iterations) ∨
        (bisection_exact f s' ∧ s.iterations < s'.iterations)) := by
  intro fuel
  induction fuel with
  | zero =>
    intro s s' hinv h
    unfold bisection_loop at h
    by_cases hgt : s.error > tol
    · simp [hgt] at h
    · simp only [hgt, if_false, Option.some.injEq] at h
      subst h
      exact ⟨le_refl _, Or.inl ⟨hinv, not_lt.mp hgt, rfl⟩⟩
  | succ fuel ih =>
    intro s s' hinv h
    obtain ⟨hy0, hy1, hlt, hv, he, hs⟩ := hinv
    unfold bisection_loop at h
    by_cases hgt : s.error > tol
    · simp only [hgt, if_true] at h
      by_cases h0 : s.y0 = 0
      · simp only [h0, if_true, Option.some.injEq] at h
        subst h
        refine ⟨Nat.le_succ _, Or.inr ⟨⟨rfl, Or.inl ⟨rfl, ?_⟩⟩, Nat.lt_succ_self _⟩⟩
        show f s.x0 = 0
        rw [← hy0]; exact h0
      · by_cases h1 : s.y1 = 0
        · simp only [h0, h1, if_false, if_true, Option.some.injEq] at h
          subst h
          refine ⟨Nat.le_succ _, Or.inr ⟨⟨rfl, Or.inr ⟨rfl, ?_⟩⟩, Nat.lt_succ_self _⟩⟩
          show f s.x1 = 0
          rw [← hy1]; exact h1
        · simp only [h0, h1, if_false] at h
          by_cases hm : s.y0 * f s.value < 0
          · simp only [hm, if_true] at h
            have hinv' : bisection_inv f
                { x0 := s.x0, x1 := s.value, y0 := s.y0, y1 := f s.value,
                  value := (s.x0 + s.value) / 2, error := s.error / 2,
                  iterations := s.iterations + 1 } := by
              refine ⟨hy0, rfl, ?_, rfl, ?_, le_of_lt hm⟩
              · show s.x0 < s.value
                rw [hv]; linarith
              · show s.error / 2 = (s.value - s.x0) / 2
                rw [he, hv]; ring
            obtain ⟨r2, r3⟩ := ih _ _ hinv' h
            refine ⟨Nat.le_of_succ_le r2, ?_⟩
            rcases r3 with ⟨ri, rt, re⟩ | ⟨rz, rl⟩
            · left
              refine ⟨ri, rt, ?_⟩
              rw [re]
              show s.error / 2 * 2 ^ (s.iterations + 1) = _
              rw [pow_succ]; ring
            · right
              exact ⟨rz, Nat.lt_of_succ_le (Nat.le_of_lt rl)⟩
          · simp only [hm, if_false] at h
            have hinv' : bisection_inv f
                { x0 := s.value, x1 := s.x1, y0 := f s.value, y1 := s.y1,
                  value := (s.value + s.x1) / 2, error := s.error / 2,
                  iterations := s.iterations + 1 } := by
              refine ⟨rfl, hy1, ?_, rfl, ?_, sign_step h0 hs hm⟩
              · show s.value < s.x1
                rw [hv]; linarith
              · show s.error / 2 = (s.x1 - s.value) / 2
                rw [he, hv]; ring
            obtain ⟨r2, r3⟩ := ih _ _ hinv' h
            refine ⟨Nat.le_of_succ_le r2, ?_⟩
            rcases r3 with ⟨ri, rt, re⟩ | ⟨rz, rl⟩
            · left
              refine ⟨ri, rt, ?_⟩
              rw [re]
              show s.error / 2 * 2 ^ (s.iterations + 1) = _
              rw [pow_succ]; ring
            · right
              exact ⟨rz, Nat.lt_of_succ_le (Nat.le_of_lt rl)⟩
    · simp only [hgt, if_false, Option.some.injEq] at h
      subst h
      exact ⟨le_refl _, Or.inl ⟨⟨hy0, hy1, hlt, hv, he, hs⟩, not_lt.mp hgt, rfl⟩⟩

theorem bisection_init_inv (f : α → α) (x0 x1 : α) (hlt : x0 < x1) (hs : f x0 * f x1 ≤ 0) :
    bisection_inv f (bisection_init f x0 x1) :=
  ⟨rfl, rfl, hlt, rfl, rfl, hs⟩

theorem bisection_run_post (f : α → α) (x0 x1 tol : α) (hlt : x0 < x1) (hs : f x0 * f x1 ≤ 0)
    (fuel : Nat) (s : bisection_state α) (h : bisection_run fuel f x0 x1 tol = some s) :
    (bisection_inv f s ∧ s.error ≤ tol / 2 ∧ s.error * 2 ^ s.iterations = (x1 - x0) / 2) ∨
      (bisection_exact f s ∧ 0 < s.iterations) := by
  have hp := (bisection_loop_post f (tol / 2) fuel _ s (bisection_init_inv f x0 x1 hlt hs) h).2
  rcases hp with ⟨hi, ht, he⟩ | ⟨hz, hl⟩
  · left
    refine ⟨hi, ht, ?_⟩
    rw [he]
    simp [bisection_init]
  · right
    exact ⟨hz, hl⟩

theorem bisection_run_terminates [Archimedean α] (f : α → α) (x0 x1 tol : α) (htol : 0 < tol) :
    ∃ N : Nat, ∀ fuel, N ≤ fuel → ∃ s, bisection_run fuel f x0 x1 tol = some s := by
  obtain ⟨n, hn⟩ := pow_unbounded_of_one_lt ((x1 - x0) / 2 / (tol / 2)) (by norm_num : (1 : α) < 2)
  refine ⟨n, fun fuel hfuel => ?_⟩
  have hpos : (0 : α) < tol / 2 := by linarith
  have hle : (bisection_init f x0 x1).error ≤ tol / 2 * 2 ^ n := by
    show (x1 - x0) / 2 ≤ tol / 2 * 2 ^ n
    have := (div_lt_iff₀ hpos).mp hn
    linarith
  exact bisection_loop_terminates f (tol / 2) fuel n _ hfuel hle

theorem bisection_method_valid (f : α → α) (x0 x1 tol : α) (hlt : x0 < x1) (hs : f x0 * f x1 ≤ 0)
    (fuel : Nat) :
    bisection_method fuel f x0 x1 tol =
      (bisection_run fuel f x0 x1 tol).map bisection_result := by
  unfold bisection_method
  rw [if_neg (not_le.mpr hlt), if_neg (not_lt.mpr hs)]

theorem bisection_bracket_sign (f : α → α) (s : bisection_state α)
    (h : bisection_inv f s ∨ bisection_exact f s) :
    f (s.value - s.error) * f (s.value + s.error) ≤ 0 ∧ 0 ≤ s.error := by
  rcases h with ⟨hy0, hy1, hlt, hv, he, hs⟩ | ⟨he, hz⟩
  · have h1 : s.value - s.error = s.x0 := by rw [hv, he]; ring
    have h2 : s.value + s.error = s.x1 := by rw [hv, he]; ring
    rw [h1, h2, ← hy0, ← hy1]
    refine ⟨hs, ?_⟩
    rw [he]; linarith
  · rw [he, sub_zero, add_zero]
    refine ⟨?_, le_refl _⟩
    rcases hz with ⟨hv, hf⟩ | ⟨hv, hf⟩ <;> rw [hv, hf] <;> simp

end bisection_proofs

/-- C1. For every real function `f`, every `x0 < x1` with `f x0 * f x1 < 0` and every
tolerance `> 0`, `bisection_method` returns (for every sufficient fuel) a result whose value
`v` and error `e` bracket a root: `f (v - e) * f (v + e) ≤ 0`, and if `f` is continuous there
is a true root within `e` of `v`. -/
theorem C1_bisection_brackets_root (f : ℝ → ℝ) (x0 x1 tolerance : ℝ) (hlt : x0 < x1)
    (hsign : f x0 * f x1 < 0) (htol : 0 < tolerance) :
    ∃ N : Nat, ∀ fuel, N ≤ fuel → ∃ r v e, bisection_method fuel f x0 x1 tolerance = some r ∧
      r.value = some v ∧ r.error = some e ∧ f (v - e) * f (v + e) ≤ 0 ∧
      (Continuous f → ∃ root, f root = 0 ∧ |v - root| ≤ e) := by
  obtain ⟨N, hN⟩ := bisection_run_terminates f x0 x1 tolerance htol
  refine ⟨N, fun fuel hfuel => ?_⟩
  obtain ⟨s, hrun⟩ := hN fuel hfuel
  have hpost := bisection_run_post f x0 x1 tolerance hlt (le_of_lt hsign) fuel s hrun
  have hbr : f (s.value - s.error) * f (s.value + s.error) ≤ 0 ∧ 0 ≤ s.error := by
    apply bisection_bracket_sign
    rcases hpost with ⟨hi, _, _⟩ | ⟨hz, _⟩
    · exact Or.inl hi
    · exact Or.inr hz
  refine ⟨bisection_result s, s.value, s.error, ?_, rfl, rfl, hbr.1, ?_⟩
  · rw [bisection_method_valid f x0 x1 tolerance hlt (le_of_lt hsign), hrun]; rfl
  · intro hcont
    have hab : s.value - s.error ≤ s.value + s.error := by linarith [hbr.2]
    have hroot : ∃ c ∈ Set.Icc (s.value - s.error) (s.value + s.error), f c = 0 := by
      rcases mul_nonpos_iff.mp hbr.1 with ⟨ha, hb⟩ | ⟨ha, hb⟩
      · exact intermediate_value_Icc' hab hcont.continuousOn ⟨hb, ha⟩
      · exact intermediate_value_Icc hab hcont.continuousOn ⟨ha, hb⟩
    obtain ⟨c, ⟨hc1, hc2⟩, hc⟩ := hroot
    refine ⟨c, hc, ?_⟩
    rw [abs_le]
    constructor <;> linarith

/-- Witness of C1 at `f x = x - 1/3` on the bracket `[0, 1]` with tolerance `1/4`. -/
theorem C1_bisection_brackets_root_witness :
    ∃ N : Nat, ∀ fuel, N ≤ fuel → ∃ r v e,
      bisection_method fuel (fun x : ℝ => x - 1 / 3) 0 1 (1 / 4) = some r ∧
      r.value = some v ∧ r.error = some e ∧
      (fun x : ℝ => x - 1 / 3) (v - e) * (fun x : ℝ => x - 1 / 3) (v + e) ≤ 0 ∧
      (Continuous (fun x : ℝ => x - 1 / 3) →
        ∃ root, (fun x : ℝ => x - 1 / 3) root = 0 ∧ |v - root| ≤ e) :=
  C1_bisection_brackets_root (fun x : ℝ => x - 1 / 3) 0 1 (1 / 4) (by norm_num) (by norm_num)
    (by norm_num)

section bisection_within
variable {α : Type} [LinearOrderedField α]

theorem bisection_loop_within (f : α → α) (tol : α) :
    ∀ (fuel : Nat) (s s' : bisection_state α), bisection_inv f s →
      bisection_loop f tol fuel s = some s' →
      s.x0 ≤ s'.x0 ∧ s'.x1 ≤ s.x1 ∧ s'.x0 < s'.x1 := by
  intro fuel
  induction fuel with
  | zero =>
    intro s s' hinv h
    unfold bisection_loop at h
    by_cases hgt : s.error > tol
    · simp [hgt] at h
    · simp only [hgt, if_false, Option.some.injEq] at h
      subst h
      exact ⟨le_refl _, le_refl _, hinv.2.2.1⟩
  | succ fuel ih =>
    intro s s' hinv h
    obtain ⟨hy0, hy1, hlt, hv, he, hs⟩ := hinv
    unfold bisection_loop at h
    by_cases hgt : s.error > tol
    · simp only [hgt, if_true] at h
      by_cases h0 : s.y0 = 0
      · simp only [h0, if_true, Option.some.injEq] at h
        subst h
        exact ⟨le_refl _, le_refl _, hlt⟩
      · by_cases h1 : s.y1 = 0
        · simp only [h0, h1, if_false, if_true, Option.some.injEq] at h
          subst h
          exact ⟨le_refl _, le_refl _, hlt⟩
        · simp only [h0, h1, if_false] at h
          have hx0v : s.x0 < s.value := by rw [hv]; linarith
          have hvx1 : s.value < s.x1 := by rw [hv]; linarith
          by_cases hm : s.y0 * f s.value < 0
          · simp only [hm, if_true] at h
            have hinv' : bisection_inv f
                { x0 := s.x0, x1 := s.value, y0 := s.y0, y1 := f s.value,
                  value := (s.x0 + s.value) / 2, error := s.error / 2,
                  iterations := s.iterations + 1 } := by
              refine ⟨hy0, rfl, hx0v, rfl, ?_, le_of_lt hm⟩
              show s.error / 2 = (s.value - s.x0) / 2
              rw [he, hv]; ring
            obtain ⟨r1, r2, r3⟩ := ih _ _ hinv' h
            exact ⟨r1, le_trans r2 (le_of_lt hvx1), r3⟩
          · simp only [hm, if_false] at h
            have hinv' : bisection_inv f
                { x0 := s.value, x1 := s.x1, y0 := f s.value, y1 := s.y1,
                  value := (s.value + s.x1) / 2, error := s.error / 2,
                  iterations := s.iterations + 1 } := by
              refine ⟨rfl, hy1, hvx1, rfl, ?_, sign_step h0 hs hm⟩
              show s.error / 2 = (s.x1 - s.value) / 2
              rw [he, hv]; ring
            obtain ⟨r1, r2, r3⟩ := ih _ _ hinv' h
            exact ⟨le_trans (le_of_lt hx0v) r1, r2, r3⟩
    · simp only [hgt, if_false, Option.some.injEq] at h
      subst h
      exact ⟨le_refl _, le_refl _, hlt⟩

end bisection_within

section loops
variable {σ : Type}

theorem for_up_inv (body : Nat → σ → Option σ) (P : Nat → σ → Prop) :
    ∀ (count first : Nat) (s : σ), P first s →
      (∀ i s, first ≤ i → i < first + count → P i s →
        ∃ s', body i s = some s' ∧ P (i + 1) s') →
      ∃ s', for_up body count first s = some s' ∧ P (first + count) s' := by
  intro count
  induction count with
  | zero =>
    intro first s h _
    exact ⟨s, rfl, by simpa using h⟩
  | succ n ih =>
    intro first s h hstep
    obtain ⟨s1, hb, h1⟩ := hstep first s (le_refl _) (by omega) h
    obtain ⟨s2, hl, h2⟩ :=
      ih (first + 1) s1 h1 (fun i s hi hlt hp => hstep i s (by omega) (by omega) hp)
    refine ⟨s2, ?_, ?_⟩
    · simp [for_up, hb, hl]
    · have hidx : first + (n + 1) = first + 1 + n := by omega
      rw [hidx]; exact h2

theorem for_up_while_inv (cond : σ → Bool) (body : Nat → σ → Option σ) (P : Nat → σ → Prop) :
    ∀ (count first : Nat) (s : σ), P first s →
      (∀ i s, first ≤ i → i < first + count → cond s = true → P i s →
        ∃ s', body i s = some s' ∧ P (i + 1) s') →
      (∀ i s, cond s = false → P i s → P (i + 1) s) →
      ∃ s', for_up_while cond body count first s = some s' ∧ P (first + count) s' := by
  intro count
  induction count with
  | zero =>
    intro first s h _ _
    exact ⟨s, rfl, by simpa using h⟩
  | succ n ih =>
    intro first s h hstep hstop
    have hidx : first + (n + 1) = first + 1 + n := by omega
    cases hc : cond s with
    | true =>
      obtain ⟨s1, hb, h1⟩ := hstep first s (le_refl _) (by omega) hc h
      obtain ⟨s2, hl, h2⟩ :=
        ih (first + 1) s1 h1 (fun i s hi hlt hcs hp => hstep i s (by omega) (by omega) hcs hp)
          hstop
      refine ⟨s2, ?_, ?_⟩
      · simp [for_up_while, hc, hb, hl]
      · rw [hidx]; exact h2
    | false =>
      refine ⟨s, by simp [for_up_while, hc], ?_⟩
      have hall : ∀ k, P (first + k) s := by
        intro k
        induction k with
        | zero => simpa using h
        | succ k ihk => exact hstop _ _ hc ihk
      exact hall (n + 1)

theorem for_down_while_stop (cond : σ → Bool) (body : Nat → σ → Option σ) (n : Nat) (s : σ)
    (h : cond s = false) : for_down_while cond body n s = some s := by
  cases n <;> simp [for_down_while, h]

theorem idx_lt {r c n m : Nat} (hr : r < n) (hc : c < m) : r * m + c < n * m := by
  have h1 : r * m + m ≤ n * m := by
    have h2 : (r + 1) * m ≤ n * m := Nat.mul_le_mul_right m hr
    rw [Nat.add_mul, Nat.one_mul] at h2
    exact h2
  omega

theorem idx_inj {r c r' c' m : Nat} (hc : c < m) (hc' : c' < m)
    (h : r * m + c = r' * m + c') : r = r' ∧ c = c' := by
  have hm : 0 < m := by omega
  have h1 : (r * m + c) / m = r := by
    rw [Nat.add_comm, Nat.add_mul_div_right _ _ hm, Nat.div_eq_of_lt hc, Nat.zero_add]
  have h2 : (r' * m + c') / m = r' := by
    rw [Nat.add_comm, Nat.add_mul_div_right _ _ hm, Nat.div_eq_of_lt hc', Nat.zero_add]
  have hr : r = r' := by rw [← h1, ← h2, h]
  subst hr
  exact ⟨rfl, by omega⟩

theorem idx_ne {r c r' c' m : Nat} (hc : c < m) (hc' : c' < m) (h : r ≠ r' ∨ c ≠ c') :
    r * m + c ≠ r' * m + c' := by
  intro he
  obtain ⟨h1, h2⟩ := idx_inj hc hc' he
  rcases h with h | h
  · exact h h1
  · exact h h2

theorem store_eq {α : Type} (l : List α) (i : Nat) (v : α) (h : i < l.length) :
    store l i v = some (l.set i v) := by
  simp [store, h]

theorem load_eq {α : Type} (l : List α) (i : Nat) (h : i < l.length) :
    load l i = some l[i] := by
  simp [load, h]

end loops

/-! ## `transpose_matrix` -/

section transpose

theorem create_matrix_pos {α : Type} [Field α] (cols rows : Nat) (hc : 0 < cols) (hr : 0 < rows) :
    (create_matrix cols rows : Option (matrix α)) =
      some { elements := List.replicate (rows * cols) 0, cols := cols, rows := rows } := by
  unfold create_matrix
  rw [if_neg]
  omega

theorem transpose_loops {α : Type} (m : matrix α) (hlen : m.elements.length = m.rows * m.cols)
    (els0 : List α) (h0 : els0.length = m.cols * m.rows) :
    ∃ els, for_up (fun i els =>
        for_up (fun j els => do
          let v ← load m.elements (j + i * m.cols)
          store els (i + j * m.rows) v) m.cols 0 els) m.rows 0 els0 = some els ∧
      els.length = m.cols * m.rows ∧
      ∀ i j, i < m.rows → j < m.cols → els[i + j * m.rows]? = m.elements[j + i * m.cols]? := by
  have hout := for_up_inv (fun i els =>
        for_up (fun j els => do
          let v ← load m.elements (j + i * m.cols)
          store els (i + j * m.rows) v) m.cols 0 els)
      (fun i els => els.length = m.cols * m.rows ∧
        ∀ i' j, i' < i → j < m.cols → els[i' + j * m.rows]? = m.elements[j + i' * m.cols]?)
      m.rows 0 els0 ⟨h0, fun i' j hi' _ => absurd hi' (Nat.not_lt_zero _)⟩ ?_
  · obtain ⟨els, hl, hlen', hsp⟩ := hout
    refine ⟨els, hl, hlen', fun i j hi hj => hsp i j (by omega) hj⟩
  · intro i els _ hi ⟨hlenI, hI⟩
    have hiR : i < m.rows := by omega
    have hin := for_up_inv (fun j els => do
          let v ← load m.elements (j + i * m.cols)
          store els (i + j * m.rows) v)
      (fun j els => els.length = m.cols * m.rows ∧
        (∀ i' j', i' < i → j' < m.cols →
          els[i' + j' * m.rows]? = m.elements[j' + i' * m.cols]?) ∧
        ∀ j', j' < j → els[i + j' * m.rows]? = m.elements[j' + i * m.cols]?)
      m.cols 0 els ⟨hlenI, hI, fun j' hj' => absurd hj' (Nat.not_lt_zero _)⟩ ?_
    · obtain ⟨els', hl, hlen', hprev, hcur⟩ := hin
      refine ⟨els', hl, hlen', ?_⟩
      intro i' j hi' hj
      rcases Nat.lt_succ_iff_lt_or_eq.mp hi' with h | h
      · exact hprev i' j h hj
      · subst h; exact hcur j (by omega)
    · intro j els _ hj ⟨hlenJ, hprev, hcur⟩
      have hjC : j < m.cols := by omega
      have hsrc : j + i * m.cols < m.elements.length := by
        rw [hlen, Nat.add_comm]; exact idx_lt hiR hjC
      have hdst : i + j * m.rows < els.length := by
        rw [hlenJ, Nat.add_comm]; exact idx_lt hjC hiR
      refine ⟨els.set (i + j * m.rows) m.elements[j + i * m.cols], ?_, ?_, ?_, ?_⟩
      · simp [load_eq _ _ hsrc, store_eq _ _ _ hdst]
      · simp [hlenJ]
      · intro i' j' hi' hj'
        rw [List.getElem?_set_ne]
        · exact hprev i' j' hi' hj'
        · rw [Nat.add_comm i, Nat.add_comm i']
          exact idx_ne hiR (by omega) (Or.inr (by omega))
      · intro j' hj'
        rcases Nat.lt_succ_iff_lt_or_eq.mp hj' with h | h
        · rw [List.getElem?_set_ne]
          · exact hcur j' h
          · rw [Nat.add_comm i, Nat.add_comm i]
            exact idx_ne hiR hiR (Or.inl (by omega))
        · subst h
          rw [List.getElem?_set_self hdst, List.getElem?_eq_getElem hsrc]

theorem transpose_matrix_spec {α : Type} [Field α] [DecidableEq α] (m : matrix α) (hv : m.valid) :
    ∃ t : matrix α, transpose_matrix m = some (some t) ∧ t.rows = m.cols ∧ t.cols = m.rows ∧
      t.elements.length = m.cols * m.rows ∧
      ∀ i j, i < m.rows → j < m.cols →
        t.elements[i + j * m.rows]? = m.elements[j + i * m.cols]? := by
  obtain ⟨hr, hc, hlen⟩ := hv
  obtain ⟨els, hl, hlen', hsp⟩ :=
    transpose_loops m hlen (List.replicate (m.cols * m.rows) 0) (by simp)
  refine ⟨{ elements := els, cols := m.rows, rows := m.cols }, ?_, rfl, rfl, hlen', hsp⟩
  unfold transpose_matrix
  rw [create_matrix_pos m.rows m.cols hr hc]
  simp only [hl, Option.map_some']

end transpose

/-- C9. For every matrix `M` with positive dimensions and any element values,
`transpose_matrix` applied twice returns `M` itself: same rows, same cols, same elements. -/
theorem C9_transpose_involution {α : Type} [Field α] [DecidableEq α] (M : matrix α)
    (hM : M.valid) :
    ∃ T : matrix α, transpose_matrix M = some (some T) ∧
      transpose_matrix T = some (some M) := by
  obtain ⟨T, hT, hTr, hTc, hTlen, hTe⟩ := transpose_matrix_spec M hM
  have hTv : T.valid := ⟨by rw [hTr]; exact hM.2.1, by rw [hTc]; exact hM.1, by rw [hTlen, hTr, hTc]⟩
  obtain ⟨U, hU, hUr, hUc, hUlen, hUe⟩ := transpose_matrix_spec T hTv
  refine ⟨T, hT, ?_⟩
  rw [hU]
  have hels : U.elements = M.elements := by
    apply List.ext_getElem?
    intro p
    by_cases hp : p < M.rows * M.cols
    · have hc : 0 < M.cols := hM.2.1
      have h1 : p % M.cols < M.cols := Nat.mod_lt _ hc
      have h2 : p / M.cols < M.rows := by
        rw [Nat.div_lt_iff_lt_mul hc]; exact hp
      have hp' : p = p % M.cols + p / M.cols * M.cols := by
        rw [Nat.mul_comm]; exact (Nat.mod_add_div p M.cols).symm
      have e1 := hUe (p % M.cols) (p / M.cols) (by rw [hTr]; exact h1) (by rw [hTc]; exact h2)
      have e2 := hTe (p / M.cols) (p % M.cols) h2 h1
      rw [hTr, hTc] at e1
      rw [e2] at e1
      rw [← hp'] at e1
      exact e1
    · rw [List.getElem?_eq_none (by rw [hUlen, hTr, hTc]; omega),
        List.getElem?_eq_none (by rw [hM.2.2]; omega)]
  cases M with
  | mk e c r =>
    cases U with
    | mk e' c' r' =>
      simp only at hels hUr hUc
      subst hels
      rw [hUr, hUc, hTr, hTc]

/-- Witness of C9 on the 2 x 3 rational matrix with elements 1..6. -/
theorem C9_transpose_involution_witness :
    ∃ T : matrix ℚ, transpose_matrix (⟨[1, 2, 3, 4, 5, 6], 3, 2⟩ : matrix ℚ) = some (some T) ∧
      transpose_matrix T = some (some ⟨[1, 2, 3, 4, 5, 6], 3, 2⟩) :=
  C9_transpose_involution ⟨[1, 2, 3, 4, 5, 6], 3, 2⟩ ⟨by decide, by decide, by decide⟩

/-! ## `matrix_multiply` -/

section multiply

theorem multiply_inner {α : Type} [Field α] (A B : matrix α) (hA : A.elements.length = A.rows * A.cols)
    (hB : B.elements.length = B.rows * B.cols) (hAB : A.cols = B.rows) (i j : Nat)
    (hi : i < A.rows) (hj : j < B.cols) (els : List α) (hp : j + i * B.cols < els.length)
    (h0 : els[j + i * B.cols]? = some 0) :
    ∃ els', for_up (fun k els => do
          let c ← load els (j + i * B.cols)
          let a ← load A.elements (i * A.cols + k)
          let b ← load B.elements (k * B.cols + j)
          store els (j + i * B.cols) (c + a * b)) A.cols 0 els = some els' ∧
      els'.length = els.length ∧
      els'[j + i * B.cols]? = some (∑ k in Finset.range A.cols, A.entry i k * B.entry k j) ∧
      ∀ p, p ≠ j + i * B.cols → els'[p]? = els[p]? := by
  have hloop := for_up_inv (fun k els => do
          let c ← load els (j + i * B.cols)
          let a ← load A.elements (i * A.cols + k)
          let b ← load B.elements (k * B.cols + j)
          store els (j + i * B.cols) (c + a * b))
      (fun k e => e.length = els.length ∧
        e[j + i * B.cols]? = some (∑ k' in Finset.range k, A.entry i k' * B.entry k' j) ∧
        ∀ p, p ≠ j + i * B.cols → e[p]? = els[p]?)
      A.cols 0 els ⟨rfl, by simpa using h0, fun _ _ => rfl⟩ ?_
  · obtain ⟨els', hl, h1, h2, h3⟩ := hloop
    exact ⟨els', hl, h1, by simpa using h2, h3⟩
  · intro k e _ hk ⟨hlen, hacc, hframe⟩
    have hkA : k < A.cols := by omega
    have ha : i * A.cols + k < A.elements.length := by rw [hA]; exact idx_lt hi hkA
    have hb : k * B.cols + j < B.elements.length := by
      rw [hB]; exact idx_lt (by omega) hj
    have hpe : j + i * B.cols < e.length := by omega
    have hc : load e (j + i * B.cols) =
        some (∑ k' in Finset.range k, A.entry i k' * B.entry k' j) := hacc
    have hae : A.entry i k = A.elements[i * A.cols + k] := by
      simp [matrix.entry, List.getElem?_eq_getElem ha]
    have hbe : B.entry k j = B.elements[k * B.cols + j] := by
      simp [matrix.entry, List.getElem?_eq_getElem hb]
    refine ⟨e.set (j + i * B.cols)
      ((∑ k' in Finset.range k, A.entry i k' * B.entry k' j) +
        A.elements[i * A.cols + k] * B.elements[k * B.cols + j]), ?_, ?_, ?_, ?_⟩
    · simp [hc, load_eq _ _ ha, load_eq _ _ hb, store_eq _ _ _ hpe]
    · simp [hlen]
    · rw [List.getElem?_set_self hpe, Finset.sum_range_succ, hae, hbe]
    · intro p hpne
      rw [List.getElem?_set_ne (Ne.symm hpne)]
      exact hframe p hpne

theorem multiply_loops {α : Type} [Field α] (A B : matrix α) (hA : A.elements.length = A.rows * A.cols)
    (hB : B.elements.length = B.rows * B.cols) (hAB : A.cols = B.rows) (els0 : List α)
    (h0 : els0.length = A.rows * B.cols) :
    ∃ els, for_up (fun i els =>
        for_up (fun j els => do
          let els ← store els (j + i * B.cols) 0
          for_up (fun k els => do
            let c ← load els (j + i * B.cols)
            let a ← load A.elements (i * A.cols + k)
            let b ← load B.elements (k * B.cols + j)
            store els (j + i * B.cols) (c + a * b)) A.cols 0 els) B.cols 0 els)
        A.rows 0 els0 = some els ∧
      els.length = A.rows * B.cols ∧
      ∀ i j, i < A.rows → j < B.cols →
        els[i * B.cols + j]? = some (∑ k in Finset.range A.cols, A.entry i k * B.entry k j) := by
  have hout := for_up_inv (fun i els =>
        for_up (fun j els => do
          let els ← store els (j + i * B.cols) 0
          for_up (fun k els => do
            let c ← load els (j + i * B.cols)
            let a ← load A.elements (i * A.cols + k)
            let b ← load B.elements (k * B.cols + j)
            store els (j + i * B.cols) (c + a * b)) A.cols 0 els) B.cols 0 els)
      (fun i els => els.length = A.rows * B.cols ∧
        ∀ i' j, i' < i → j < B.cols →
          els[i' * B.cols + j]? =
            some (∑ k in Finset.range A.cols, A.entry i' k * B.entry k j))
      A.rows 0 els0 ⟨h0, fun i' j hi' _ => absurd hi' (Nat.not_lt_zero _)⟩ ?_
  · obtain ⟨els, hl, hlen', hsp⟩ := hout
    exact ⟨els, hl, hlen', fun i j hi hj => hsp i j (by omega) hj⟩
  · intro i els _ hi ⟨hlenI, hI⟩
    have hiR : i < A.rows := by omega
    have hin := for_up_inv (fun j els => do
          let els ← store els (j + i * B.cols) 0
          for_up (fun k els => do
            let c ← load els (j + i * B.cols)
            let a ← load A.elements (i * A.cols + k)
            let b ← load B.elements (k * B.cols + j)
            store els (j + i * B.cols) (c + a * b)) A.cols 0 els)
      (fun j els => els.length = A.rows * B.cols ∧
        (∀ i' j', i' < i → j' < B.cols →
          els[i' * B.cols + j']? =
            some (∑ k in Finset.range A.cols, A.entry i' k * B.entry k j')) ∧
        ∀ j', j' < j →
          els[i * B.cols + j']? =
            some (∑ k in Finset.range A.cols, A.entry i k * B.entry k j'))
      B.cols 0 els ⟨hlenI, hI, fun j' hj' => absurd hj' (Nat.not_lt_zero _)⟩ ?_
    · obtain ⟨els', hl, hlen', hprev, hcur⟩ := hin
      refine ⟨els', hl, hlen', ?_⟩
      intro i' j hi' hj
      rcases Nat.lt_succ_iff_lt_or_eq.mp hi' with h | h
      · exact hprev i' j h hj
      · subst h; exact hcur j (by omega)
    · intro j els _ hj ⟨hlenJ, hprev, hcur⟩
      have hjC : j < B.cols := by omega
      have hdst : j + i * B.cols < els.length := by
        rw [hlenJ, Nat.add_comm]; exact idx_lt hiR hjC
      have hdst' : j + i * B.cols < (els.set (j + i * B.cols) 0).length := by
        simpa using hdst
      obtain ⟨els', hl, hlen', hval, hframe⟩ :=
        multiply_inner A B hA hB hAB i j hiR hjC (els.set (j + i * B.cols) 0) hdst'
          (List.getElem?_set_self hdst)
      refine ⟨els', ?_, ?_, ?_, ?_⟩
      · simp only [store_eq _ _ _ hdst, Option.bind_eq_bind, Option.some_bind]
        exact hl
      · rw [hlen']; simp [hlenJ]
      · intro i' j' hi' hj'
        have hne : i' * B.cols + j' ≠ j + i * B.cols := by
          rw [Nat.add_comm j]
          exact idx_ne hj' hjC (Or.inl (by omega))
        rw [hframe _ hne, List.getElem?_set_ne (Ne.symm hne)]
        exact hprev i' j' hi' hj'
      · intro j' hj'
        rcases Nat.lt_succ_iff_lt_or_eq.mp hj' with h | h
        · have hne : i * B.cols + j' ≠ j + i * B.cols := by
            rw [Nat.add_comm j]
            exact idx_ne (by omega) hjC (Or.inr (by omega))
          rw [hframe _ hne, List.getElem?_set_ne (Ne.symm hne)]
          exact hcur j' h
        · subst h
          rw [Nat.add_comm]; exact hval

theorem matrix_multiply_spec {α : Type} [Field α] [DecidableEq α] (A B : matrix α)
    (hAr : 0 < A.rows) (hBc : 0 < B.cols) (hA : A.elements.length = A.rows * A.cols)
    (hB : B.elements.length = B.rows * B.cols) (hAB : A.cols = B.rows) :
    ∃ C : matrix α, matrix_multiply A B = some (some C) ∧ C.rows = A.rows ∧
      C.cols = B.cols ∧ C.elements.length = A.rows * B.cols ∧
      ∀ i j, i < A.rows → j < B.cols →
        C.elements[i * B.cols + j]? =
          some (∑ k in Finset.range A.cols, A.entry i k * B.entry k j) := by
  obtain ⟨els, hl, hlen, hsp⟩ :=
    multiply_loops A B hA hB hAB (List.replicate (A.rows * B.cols) 0) (by simp)
  refine ⟨{ elements := els, cols := B.cols, rows := A.rows }, ?_, rfl, rfl, hlen, hsp⟩
  unfold matrix_multiply
  rw [if_neg (not_not.mpr hAB), create_matrix_pos B.cols A.rows hBc hAr]
  simp only [hl, Option.map_some']

end multiply

/-- C7. For all matrices `A` and `B` with positive dimensions (allocation succeeding),
`matrix_multiply A B` yields no result (`NULL`) if and only if `A.cols ≠ B.rows`. -/
theorem C7_multiply_fails_iff_mismatch {α : Type} [Field α] [DecidableEq α] (A B : matrix α)
    (hA : A.valid) (hB : B.valid) :
    matrix_multiply A B = some none ↔ A.cols ≠ B.rows := by
  constructor
  · intro h hAB
    obtain ⟨C, hC, _⟩ := matrix_multiply_spec A B hA.1 hB.2.1 hA.2.2 hB.2.2 hAB
    rw [hC] at h
    exact absurd h (by simp)
  · intro h
    unfold matrix_multiply
    rw [if_pos h]

/-- Witness of C7 on a 2 x 3 and a 2 x 2 rational matrix. -/
theorem C7_multiply_fails_iff_mismatch_witness :
    matrix_multiply (⟨[1, 2, 3, 4, 5, 6], 3, 2⟩ : matrix ℚ) ⟨[1, 2, 3, 4], 2, 2⟩ = some none ↔
      (⟨[1, 2, 3, 4, 5, 6], 3, 2⟩ : matrix ℚ).cols ≠ (⟨[1, 2, 3, 4], 2, 2⟩ : matrix ℚ).rows :=
  C7_multiply_fails_iff_mismatch ⟨[1, 2, 3, 4, 5, 6], 3, 2⟩ ⟨[1, 2, 3, 4], 2, 2⟩
    ⟨by decide, by decide, by decide⟩ ⟨by decide, by decide, by decide⟩

/-- C8. For all matrices `A` and `B` (positive dimensions, buffers of `rows * cols` cells)
with `A.cols = B.rows`, `matrix_multiply A B` returns a matrix `C` with `C.rows = A.rows`,
`C.cols = B.cols` and, for every row `i` and column `j`,
`C[i][j] = Σ_{k < A.cols} A[i][k] * B[k][j]` under row-major addressing. -/
theorem C8_multiply_is_matrix_product {α : Type} [Field α] [DecidableEq α] (A B : matrix α)
    (hA : A.valid) (hB : B.valid) (hAB : A.cols = B.rows) :
    ∃ C : matrix α, matrix_multiply A B = some (some C) ∧ C.rows = A.rows ∧
      C.cols = B.cols ∧ C.elements.length = C.rows * C.cols ∧
      ∀ i j, i < C.rows → j < C.cols →
        C.elements[i * C.cols + j]? =
          some (∑ k in Finset.range A.cols, A.entry i k * B.entry k j) := by
  obtain ⟨C, hC, hr, hc, hlen, hsp⟩ :=
    matrix_multiply_spec A B hA.1 hB.2.1 hA.2.2 hB.2.2 hAB
  refine ⟨C, hC, hr, hc, by rw [hlen, hr, hc], ?_⟩
  intro i j hi hj
  rw [hc]
  exact hsp i j (by rw [← hr]; exact hi) (by rw [← hc]; exact hj)

/-- Witness of C8 on a 2 x 3 and a 3 x 2 rational matrix. -/
theorem C8_multiply_is_matrix_product_witness :
    ∃ C : matrix ℚ,
      matrix_multiply (⟨[1, 2, 3, 4, 5, 6], 3, 2⟩ : matrix ℚ) ⟨[1, 2, 3, 4, 5, 6], 2, 3⟩ =
        some (some C) ∧
      C.rows = 2 ∧ C.cols = 2 ∧ C.elements.length = C.rows * C.cols ∧
      ∀ i j, i < C.rows → j < C.cols →
        C.elements[i * C.cols + j]? =
          some (∑ k in Finset.range 3,
            (⟨[1, 2, 3, 4, 5, 6], 3, 2⟩ : matrix ℚ).entry i k *
              (⟨[1, 2, 3, 4, 5, 6], 2, 3⟩ : matrix ℚ).entry k j) :=
  C8_multiply_is_matrix_product ⟨[1, 2, 3, 4, 5, 6], 3, 2⟩ ⟨[1, 2, 3, 4, 5, 6], 2, 3⟩
    ⟨by decide, by decide, by decide⟩ ⟨by decide, by decide, by decide⟩ (by decide)

/-! ## Row operations of the Gaussian reduction -/

section rowops

theorem cell_eq_getElem {α : Type} [Zero α] (n : Nat) (l : List α) (r c : Nat)
    (h : r * n + c < l.length) : l[r * n + c]? = some (cell n l r c) := by
  simp [cell, List.getElem?_eq_getElem h]

theorem row_replaced_zero {α : Type} (n : Nat) (l : List α) (r0 : Nat) (g : Nat → α) :
    row_replaced n l l r0 0 g :=
  ⟨rfl, fun r c _ _ => by simp⟩

theorem row_replaced_same {α : Type} [Zero α] (n : Nat) (l : List α) (r0 : Nat)
    (hlen : l.length = n * n) (g : Nat → α) (hg : ∀ c, c < n → g c = cell n l r0 c) :
    row_replaced n l l r0 n g := by
  refine ⟨rfl, fun r c hr hc => ?_⟩
  by_cases h : r = r0 ∧ c < n
  · rw [if_pos h, hg c hc, ← h.1]
    exact cell_eq_getElem n l r c (by rw [hlen]; exact idx_lt hr hc)
  · rw [if_neg h]

theorem row_replaced_step {α : Type} (n : Nat) (l l' : List α) (r0 k : Nat) (g : Nat → α)
    (hlen : l.length = n * n) (hr0 : r0 < n) (hk : k < n) (h : row_replaced n l l' r0 k g) :
    row_replaced n l (l'.set (r0 * n + k) (g k)) r0 (k + 1) g := by
  obtain ⟨hl, hc⟩ := h
  refine ⟨by simp [hl], fun r c hr hcn => ?_⟩
  by_cases he : r = r0 ∧ c = k
  · obtain ⟨h1, h2⟩ := he
    subst h1; subst h2
    rw [List.getElem?_set_self (by rw [hl, hlen]; exact idx_lt hr hcn),
      if_pos ⟨rfl, Nat.lt_succ_self _⟩]
  · have hne : r0 * n + k ≠ r * n + c := by
      apply idx_ne hk hcn
      by_cases h1 : r = r0
      · right
        intro h2
        exact he ⟨h1, h2.symm⟩
      · left
        exact fun h2 => h1 h2.symm
    rw [List.getElem?_set_ne hne, hc r c hr hcn]
    by_cases h1 : r = r0 ∧ c < k
    · rw [if_pos h1, if_pos ⟨h1.1, by omega⟩]
    · rw [if_neg h1, if_neg]
      intro ⟨h2, h3⟩
      rcases Nat.lt_succ_iff_lt_or_eq.mp h3 with h4 | h4
      · exact h1 ⟨h2, h4⟩
      · exact he ⟨h2, h4⟩

theorem row_replaced_pending {α : Type} [Zero α] (n : Nat) (l l' : List α) (r0 k : Nat)
    (g : Nat → α) (hlen : l.length = n * n) (h : row_replaced n l l' r0 k g) (r c : Nat)
    (hr : r < n) (hc : c < n) (hpend : r ≠ r0 ∨ k ≤ c) :
    l'[r * n + c]? = some (cell n l r c) := by
  rw [h.2 r c hr hc, if_neg]
  · exact cell_eq_getElem n l r c (by rw [hlen]; exact idx_lt hr hc)
  · intro ⟨h1, h2⟩
    rcases hpend with h3 | h3
    · exact h3 h1
    · omega

theorem row_replaced_cell {α : Type} [Zero α] (n : Nat) (l l' : List α) (r0 : Nat)
    (g : Nat → α) (h : row_replaced n l l' r0 n g) (r c : Nat)
    (hr : r < n) (hc : c < n) :
    cell n l' r c = if r = r0 then g c else cell n l r c := by
  unfold cell
  rw [h.2 r c hr hc]
  by_cases h1 : r = r0
  · rw [if_pos ⟨h1, hc⟩, if_pos h1]; rfl
  · rw [if_neg (fun h2 => h1 h2.1), if_neg h1]

theorem row_pair_loop {α : Type} (n : Nat) (l1 l2 : List α) (r0 : Nat) (g1 g2 : Nat → α)
    (body : Nat → List α × List α → Option (List α × List α))
    (hlen1 : l1.length = n * n) (hlen2 : l2.length = n * n) (hr0 : r0 < n)
    (hbody : ∀ k b, k < n → row_replaced n l1 b.1 r0 k g1 → row_replaced n l2 b.2 r0 k g2 →
      body k b = some (b.1.set (r0 * n + k) (g1 k), b.2.set (r0 * n + k) (g2 k))) :
    ∃ b, for_up body n 0 (l1, l2) = some b ∧ row_replaced n l1 b.1 r0 n g1 ∧
      row_replaced n l2 b.2 r0 n g2 := by
  have h := for_up_inv body
    (fun k b => row_replaced n l1 b.1 r0 k g1 ∧ row_replaced n l2 b.2 r0 k g2) n 0 (l1, l2)
    ⟨row_replaced_zero n l1 r0 g1, row_replaced_zero n l2 r0 g2⟩ ?_
  · obtain ⟨b, hb, h1, h2⟩ := h
    exact ⟨b, hb, by simpa using h1, by simpa using h2⟩
  · intro k b _ hk ⟨h1, h2⟩
    have hkn : k < n := by omega
    exact ⟨_, hbody k b hkn h1 h2, row_replaced_step n l1 b.1 r0 k g1 hlen1 hr0 hkn h1,
      row_replaced_step n l2 b.2 r0 k g2 hlen2 hr0 hkn h2⟩

theorem matrix_scale_row_finish_spec {α : Type} [Field α] [DecidableEq α] (n q : Nat)
    (me se : List α) (hml : me.length = n * n) (hsl : se.length = n * n) (hq : q < n)
    (scale_to element : α) (he : element ≠ 0) :
    ∃ me' se' : List α,
      matrix_scale_row_finish ⟨me, n, n⟩ ⟨se, n, n⟩ (q + 1) scale_to element =
        some (0, ⟨me', n, n⟩, ⟨se', n, n⟩) ∧
      row_replaced n me me' q n (fun c => cell n me q c * (scale_to / element)) ∧
      row_replaced n se se' q n (fun c => cell n se q c * (scale_to / element)) := by
  unfold matrix_scale_row_finish
  rw [if_neg he]
  by_cases h1 : scale_to / element = 1
  · simp only [h1, ne_eq, not_true_eq_false, if_false]
    refine ⟨me, se, rfl, ?_, ?_⟩
    · exact row_replaced_same n _ q hml _ (fun c _ => by simp)
    · exact row_replaced_same n _ q hsl _ (fun c _ => by simp)
  · simp only [ne_eq, h1, not_false_eq_true, if_true, Nat.add_sub_cancel]
    have hbody : ∀ k (b : List α × List α), k < n →
        row_replaced n me b.1 q k (fun c => cell n me q c * (scale_to / element)) →
        row_replaced n se b.2 q k (fun c => cell n se q c * (scale_to / element)) →
        (do
          let x ← load b.1 (q * n + k)
          let me' ← store b.1 (q * n + k) (x * (scale_to / element))
          let y ← load b.2 (q * n + k)
          let se' ← store b.2 (q * n + k) (y * (scale_to / element))
          some (me', se')) =
          some (b.1.set (q * n + k) (cell n me q k * (scale_to / element)),
            b.2.set (q * n + k) (cell n se q k * (scale_to / element))) := by
      intro k b hk hb1 hb2
      have e1 := row_replaced_pending n _ _ q k _ hml hb1 q k hq hk (Or.inr (le_refl _))
      have e2 := row_replaced_pending n _ _ q k _ hsl hb2 q k hq hk (Or.inr (le_refl _))
      have l1 : q * n + k < b.1.length := by rw [hb1.1, hml]; exact idx_lt hq hk
      have l2 : q * n + k < b.2.length := by rw [hb2.1, hsl]; exact idx_lt hq hk
      simp [load, e1, e2, store_eq _ _ _ l1, store_eq _ _ _ l2]
    obtain ⟨b, hb, hb1, hb2⟩ := row_pair_loop n me se q
      (fun c => cell n me q c * (scale_to / element))
      (fun c => cell n se q c * (scale_to / element)) _ hml hsl hq hbody
    refine ⟨b.1, b.2, ?_, hb1, hb2⟩
    simp only [hb, Option.map_some']

theorem idx_pred (a b : Nat) : a + (b + 1) - 1 = a + b := by omega

theorem matrix_reduce_row_spec {α : Type} [Field α] [DecidableEq α] (n d p : Nat)
    (me se : List α) (hml : me.length = n * n) (hsl : se.length = n * n) (hd : d < n)
    (hp : p < n) (hdp : d ≠ p) :
    ∃ (res : Nat) (me' se' : List α),
      matrix_reduce_row ⟨me, n, n⟩ ⟨se, n, n⟩ (d + 1) (p + 1) (p + 1) =
        some (res, ⟨me', n, n⟩, ⟨se', n, n⟩) ∧
      me'.length = n * n ∧ se'.length = n * n ∧
      (cell n me p p ≠ 0 → res = 0) ∧
      (res = 0 → cell n me p p ≠ 0 ∧
        row_replaced n me me' d n (fun c => cell n me d c - cell n me d p * cell n me p c) ∧
        row_replaced n se se' d n (fun c => cell n se d c - cell n me d p * cell n se p c)) := by
  have hpiv : load me (p * n + p) = some (cell n me p p) :=
    cell_eq_getElem n me p p (by rw [hml]; exact idx_lt hp hp)
  have hsc : load me (d * n + p) = some (cell n me d p) :=
    cell_eq_getElem n me d p (by rw [hml]; exact idx_lt hd hp)
  have hguard : ¬ (p + 1 = d + 1 ∨ d + 1 = 0 ∨ d + 1 > n ∨ p + 1 = 0 ∨ p + 1 > n ∨
      p + 1 = 0 ∨ p + 1 > n) := by omega
  unfold matrix_reduce_row
  simp only [hguard, if_false, Nat.add_sub_cancel, idx_pred, hpiv, hsc, Option.bind_eq_bind,
    Option.some_bind]
  by_cases h0 : cell n me p p = 0
  · rw [if_pos h0]
    exact ⟨1, me, se, rfl, hml, hsl, fun h => absurd h0 h, fun h => absurd h (by decide)⟩
  · rw [if_neg h0]
    by_cases h1 : cell n me d p = 0
    · simp only [h1, ne_eq, not_true_eq_false, if_false]
      refine ⟨0, me, se, rfl, hml, hsl, fun _ => rfl, fun _ => ⟨h0, ?_, ?_⟩⟩
      · exact row_replaced_same n _ d hml _ (fun c _ => by simp)
      · exact row_replaced_same n _ d hsl _ (fun c _ => by simp)
    · simp only [ne_eq, h1, not_false_eq_true, if_true]
      have hbody : ∀ k (b : List α × List α), k < n →
          row_replaced n me b.1 d k (fun c => cell n me d c - cell n me d p * cell n me p c) →
          row_replaced n se b.2 d k (fun c => cell n se d c - cell n me d p * cell n se p c) →
          (do
            let x ← load b.1 (d * n + k)
            let x' ← load b.1 (p * n + k)
            let me' ← store b.1 (d * n + k) (x - cell n me d p * x')
            let y ← load b.2 (d * n + k)
            let y' ← load b.2 (p * n + k)
            let se' ← store b.2 (d * n + k) (y - cell n me d p * y')
            some (me', se')) =
            some (b.1.set (d * n + k) (cell n me d k - cell n me d p * cell n me p k),
              b.2.set (d * n + k) (cell n se d k - cell n me d p * cell n se p k)) := by
        intro k b hk hb1 hb2
        have e1 := row_replaced_pending n _ _ d k _ hml hb1 d k hd hk (Or.inr (le_refl _))
        have e2 := row_replaced_pending n _ _ d k _ hsl hb2 d k hd hk (Or.inr (le_refl _))
        have e3 := row_replaced_pending n _ _ d k _ hml hb1 p k hp hk (Or.inl (Ne.symm hdp))
        have e4 := row_replaced_pending n _ _ d k _ hsl hb2 p k hp hk (Or.inl (Ne.symm hdp))
        have l1 : d * n + k < b.1.length := by rw [hb1.1, hml]; exact idx_lt hd hk
        have l2 : d * n + k < b.2.length := by rw [hb2.1, hsl]; exact idx_lt hd hk
        simp [load, e1, e2, e3, e4, store_eq _ _ _ l1, store_eq _ _ _ l2]
      obtain ⟨b, hb, hb1, hb2⟩ := row_pair_loop n me se d
        (fun c => cell n me d c - cell n me d p * cell n me p c)
        (fun c => cell n se d c - cell n me d p * cell n se p c) _ hml hsl hd hbody
      refine ⟨0, b.1, b.2, ?_, by rw [hb1.1]; exact hml, by rw [hb2.1]; exact hsl,
        fun _ => rfl, fun _ => ⟨h0, hb1, hb2⟩⟩
      exact congrArg (Option.map fun b : List α × List α =>
        ((0 : Nat), (⟨b.1, n, n⟩ : matrix α), (⟨b.2, n, n⟩ : matrix α))) hb

theorem repair_read_lt {n i q : Nat} (hi : i < n) (hq : q < n) (hiq : i ≠ q) :
    i * n + (q + 1) < n * n := by
  by_cases h : q + 1 < n
  · exact idx_lt hi h
  · have h1 : i + 1 < n := by omega
    have h2 : (i + 1) * n + 0 < n * n := idx_lt h1 (by omega)
    rw [Nat.add_mul, Nat.one_mul] at h2
    omega

theorem matrix_scale_row_repair_spec {α : Type} [Field α] [DecidableEq α] (n q : Nat)
    (me se : List α) (hml : me.length = n * n) (hsl : se.length = n * n) (hq : q < n)
    (hpiv : me[q * n + q]? = some 0) (e : α) :
    ∃ st : α × List α × List α,
      matrix_scale_row_repair (⟨me, n, n⟩ : matrix α) (q + 1) (q + 1) (e, me, se) = some st ∧
      st.2.1.length = n * n ∧ st.2.2.length = n * n ∧ st.2.1[q * n + q]? = some 0 := by
  unfold matrix_scale_row_repair
  simp only [Nat.add_sub_cancel, idx_pred]
  have h := for_up_inv (fun i (st : α × List α × List α) => do
      let element ← load st.2.1 (i * n + q)
      if element ≠ 0 then
        let b ← for_up (fun _ (b : List α × List α) => do
          let x ← load b.1 (q * n + i)
          let x' ← load b.1 (i * n + (q + 1))
          let me ← store b.1 (q * n + i) (x + x')
          let y ← load b.2 (q * n + i)
          let y' ← load b.2 (i * n + (q + 1))
          let se ← store b.2 (q * n + i) (y + y')
          some (me, se)) n 0 (st.2.1, st.2.2)
        some (element, b.1, b.2)
      else some (element, st.2.1, st.2.2))
    (fun _ st => st.2.1.length = n * n ∧ st.2.2.length = n * n ∧ st.2.1[q * n + q]? = some 0)
    n 0 (e, me, se) ⟨hml, hsl, hpiv⟩ ?_
  · obtain ⟨st, hst, h1, h2, h3⟩ := h
    exact ⟨st, hst, h1, h2, h3⟩
  · intro i st _ hi ⟨h1, h2, h3⟩
    have hin : i < n := by omega
    have hrd : i * n + q < st.2.1.length := by rw [h1]; exact idx_lt hin hq
    by_cases hel : st.2.1[i * n + q] = 0
    · refine ⟨(st.2.1[i * n + q], st.2.1, st.2.2), ?_, h1, h2, h3⟩
      simp [load_eq _ _ hrd, hel]
    · have hiq : i ≠ q := by
        intro hiq
        subst hiq
        rw [List.getElem?_eq_getElem hrd] at h3
        exact hel (Option.some.inj h3)
      have hinner := for_up_inv (fun _ (b : List α × List α) => do
          let x ← load b.1 (q * n + i)
          let x' ← load b.1 (i * n + (q + 1))
          let me ← store b.1 (q * n + i) (x + x')
          let y ← load b.2 (q * n + i)
          let y' ← load b.2 (i * n + (q + 1))
          let se ← store b.2 (q * n + i) (y + y')
          some (me, se))
        (fun _ b => b.1.length = n * n ∧ b.2.length = n * n ∧ b.1[q * n + q]? = some 0)
        n 0 (st.2.1, st.2.2) ⟨h1, h2, h3⟩ ?_
      · obtain ⟨b, hb, hb1, hb2, hb3⟩ := hinner
        refine ⟨(st.2.1[i * n + q], b.1, b.2), ?_, hb1, hb2, hb3⟩
        simp only [Option.bind_eq_bind] at hb
        simp only [load_eq _ _ hrd, hel, Option.bind_eq_bind, Option.some_bind, ne_eq,
          not_false_eq_true, if_true, hb]
      · intro _ b _ _ ⟨hb1, hb2, hb3⟩
        have a1 : q * n + i < b.1.length := by rw [hb1]; exact idx_lt hq hin
        have a2 : i * n + (q + 1) < b.1.length := by rw [hb1]; exact repair_read_lt hin hq hiq
        have a3 : q * n + i < b.2.length := by rw [hb2]; exact idx_lt hq hin
        have a4 : i * n + (q + 1) < b.2.length := by rw [hb2]; exact repair_read_lt hin hq hiq
        refine ⟨(b.1.set (q * n + i) (b.1[q * n + i] + b.1[i * n + (q + 1)]),
          b.2.set (q * n + i) (b.2[q * n + i] + b.2[i * n + (q + 1)])), ?_, ?_, ?_, ?_⟩
        · simp [load_eq _ _ a1, load_eq _ _ a2, load_eq _ _ a3, load_eq _ _ a4,
            store_eq _ _ _ a1, store_eq _ _ _ a3]
        · simp [hb1]
        · simp [hb2]
        · rw [List.getElem?_set_ne]
          · exact hb3
          · exact idx_ne hin hq (Or.inr hiq)

theorem matrix_scale_row_spec {α : Type} [Field α] [DecidableEq α] (n q : Nat)
    (me se : List α) (hml : me.length = n * n) (hsl : se.length = n * n) (hq : q < n)
    (scale_to : α) :
    ∃ (res : Nat) (me' se' : List α),
      matrix_scale_row ⟨me, n, n⟩ ⟨se, n, n⟩ (q + 1) (q + 1) scale_to =
        some (res, ⟨me', n, n⟩, ⟨se', n, n⟩) ∧
      me'.length = n * n ∧ se'.length = n * n ∧
      (cell n me q q ≠ 0 → res = 0) ∧
      (res = 0 → cell n me q q ≠ 0 ∧
        row_replaced n me me' q n (fun c => cell n me q c * (scale_to / cell n me q q)) ∧
        row_replaced n se se' q n (fun c => cell n se q c * (scale_to / cell n me q q))) := by
  have hpiv : load me (q * n + q) = some (cell n me q q) :=
    cell_eq_getElem n me q q (by rw [hml]; exact idx_lt hq hq)
  have hguard : ¬ (q + 1 = 0 ∨ q + 1 > n ∨ q + 1 = 0 ∨ q + 1 > n) := by omega
  unfold matrix_scale_row
  simp only [hguard, if_false, Nat.add_sub_cancel, idx_pred, hpiv, Option.bind_eq_bind,
    Option.some_bind]
  by_cases h0 : cell n me q q = 0
  · rw [if_pos h0]
    have hpiv0 : me[q * n + q]? = some 0 := by rw [← h0]; exact hpiv
    obtain ⟨st, hst, h1, h2, h3⟩ :=
      matrix_scale_row_repair_spec n q me se hml hsl hq hpiv0 (cell n me q q)
    rw [hst]
    simp only [Option.some_bind]
    by_cases h4 : st.1 = 0
    · rw [if_pos h4]
      exact ⟨1, st.2.1, st.2.2, rfl, h1, h2, fun h => absurd h0 h, fun h => absurd h (by decide)⟩
    · rw [if_neg h4]
      have hld : load st.2.1 (q * n + q) = some 0 := h3
      simp only [hld, Option.some_bind]
      refine ⟨1, st.2.1, st.2.2, ?_, h1, h2, fun h => absurd h0 h,
        fun h => absurd h (by decide)⟩
      simp [matrix_scale_row_finish]
  · rw [if_neg h0]
    obtain ⟨me', se', hfin, hr1, hr2⟩ :=
      matrix_scale_row_finish_spec n q me se hml hsl hq scale_to (cell n me q q) h0
    exact ⟨0, me', se', hfin, by rw [hr1.1]; exact hml, by rw [hr2.1]; exact hsl,
      fun _ => rfl, fun _ => ⟨h0, hr1, hr2⟩⟩

end rowops

/-! ## Determinants along the forward pass -/

section det

theorem det_lower_done {α : Type} [Field α] (n : Nat) (l : List α) (h : lower_done n l n) :
    (cells n l).det = 1 := by
  have htri : (cells n l).BlockTriangular id := by
    intro i j hij
    have hlt : (j : Nat) < i := hij
    have := h i j i.2 j.2 (le_of_lt hlt)
    simp only [cells, Matrix.of_apply]
    rw [this, if_neg (by omega)]
  rw [Matrix.det_of_upperTriangular htri]
  apply Finset.prod_eq_one
  intro i _
  have := h i i i.2 i.2 (le_refl _)
  simp only [cells, Matrix.of_apply]
  rw [this, if_pos rfl]

theorem lower_done_scaled {α : Type} [Field α] (n : Nat) (l l' : List α) (q : Nat)
    (hq : q < n) (hdone : lower_done n l q) (hpiv : cell n l q q ≠ 0)
    (h : row_replaced n l l' q n (fun c => cell n l q c * (1 / cell n l q q))) :
    lower_done n l' q ∧ cell n l' q q = 1 := by
  constructor
  · intro r c hr hc hcr
    rw [row_replaced_cell n l l' q _ h r c hr (by omega)]
    by_cases hrq : r = q
    · rw [if_pos hrq]
      have h0 := hdone q c hq hc (by omega)
      rw [if_neg (by omega)] at h0
      rw [h0, zero_mul, if_neg (by omega)]
    · rw [if_neg hrq]
      exact hdone r c hr hc hcr
  · rw [row_replaced_cell n l l' q _ h q q hq hq, if_pos rfl]
    field_simp

theorem lower_done_reduced {α : Type} [Field α] (n : Nat) (l l' : List α) (q d j : Nat)
    (hq : q < n) (hd : d < n) (hqd : q < d) (hdone : lower_done n l q)
    (hone : cell n l q q = 1) (hclr : ∀ r, q < r → r < j → r < n → cell n l r q = 0)
    (h : row_replaced n l l' d n (fun c => cell n l d c - cell n l d q * cell n l q c)) :
    lower_done n l' q ∧ cell n l' q q = 1 ∧
      ∀ r, q < r → (r < j ∨ r = d) → r < n → cell n l' r q = 0 := by
  refine ⟨?_, ?_, ?_⟩
  · intro r c hr hc hcr
    rw [row_replaced_cell n l l' d _ h r c hr (by omega)]
    by_cases hrd : r = d
    · rw [if_pos hrd]
      have h0 := hdone d c hd hc (by omega)
      rw [if_neg (by omega)] at h0
      have h1 := hdone q c hq hc (by omega)
      rw [if_neg (by omega)] at h1
      rw [h0, h1, mul_zero, sub_zero, if_neg (by omega)]
    · rw [if_neg hrd]
      exact hdone r c hr hc hcr
  · rw [row_replaced_cell n l l' d _ h q q hq hq, if_neg (by omega)]
    exact hone
  · intro r hqr hrj hr
    rw [row_replaced_cell n l l' d _ h r q hr hq]
    by_cases hrd : r = d
    · rw [if_pos hrd, hone, mul_one, sub_self]
    · rw [if_neg hrd]
      rcases hrj with h1 | h1
      · exact hclr r hqr h1 hr
      · exact absurd h1 hrd

theorem lower_done_succ {α : Type} [Field α] (n : Nat) (l : List α) (q : Nat)
    (hdone : lower_done n l q) (hone : cell n l q q = 1)
    (hclr : ∀ r, q < r → r < n → cell n l r q = 0) :
    lower_done n l (q + 1) := by
  intro r c hr hc hcr
  rcases Nat.lt_succ_iff_lt_or_eq.mp hc with h | h
  · exact hdone r c hr h hcr
  · subst h
    by_cases hrc : r = c
    · subst hrc
      rw [hone, if_pos rfl]
    · rw [if_neg hrc]
      exact hclr r (by omega) hr

end det
section lead_det

theorem lead_row_replaced {α : Type} [Zero α] (n m : Nat) (l l' : List α) (r0 : Nat)
    (g : Nat → α) (hm : m ≤ n) (h : row_replaced n l l' r0 n g) (hr0 : r0 < m) :
    lead n m l' = Matrix.updateRow (lead n m l) ⟨r0, hr0⟩ (fun j : Fin m => g j) := by
  ext i j
  simp only [lead, Matrix.of_apply, Matrix.updateRow_apply]
  rw [row_replaced_cell n l l' r0 g h i j (by omega) (by omega)]
  by_cases hi : (i : Nat) = r0
  · rw [if_pos hi, if_pos (Fin.ext hi)]
  · rw [if_neg hi, if_neg (fun h' => hi (congrArg Fin.val h'))]

theorem lead_row_replaced_outside {α : Type} [Zero α] (n m : Nat) (l l' : List α) (r0 : Nat)
    (g : Nat → α) (hm : m ≤ n) (h : row_replaced n l l' r0 n g) (hr0 : m ≤ r0) :
    lead n m l' = lead n m l := by
  ext i j
  simp only [lead, Matrix.of_apply]
  rw [row_replaced_cell n l l' r0 g h i j (by omega) (by omega), if_neg (by omega)]

theorem det_lead_scaled {α : Type} [Field α] (n m : Nat) (l l' : List α) (q : Nat) (k : α)
    (hm : m ≤ n) (h : row_replaced n l l' q n (fun c => cell n l q c * k)) (hk : k ≠ 0) :
    (lead n m l').det = 0 ↔ (lead n m l).det = 0 := by
  by_cases hq : q < m
  · rw [lead_row_replaced n m l l' q _ hm h hq]
    have hrow : (fun j : Fin m => cell n l q j * k) = k • (lead n m l) ⟨q, hq⟩ := by
      funext j
      simp [lead, mul_comm]
    rw [hrow, Matrix.det_updateRow_smul, Matrix.updateRow_eq_self]
    constructor
    · intro h0
      rcases mul_eq_zero.mp h0 with h1 | h1
      · exact absurd h1 hk
      · exact h1
    · intro h0
      rw [h0, mul_zero]
  · rw [lead_row_replaced_outside n m l l' q _ hm h (by omega)]

theorem det_lead_reduced {α : Type} [Field α] (n m : Nat) (l l' : List α) (d p : Nat) (k : α)
    (hm : m ≤ n) (h : row_replaced n l l' d n (fun c => cell n l d c - k * cell n l p c))
    (hpd : p < d) :
    (lead n m l').det = (lead n m l).det := by
  by_cases hd : d < m
  · have hp : p < m := by omega
    rw [lead_row_replaced n m l l' d _ hm h hd]
    have hrow : (fun j : Fin m => cell n l d j - k * cell n l p j) =
        (lead n m l) ⟨d, hd⟩ + (-k) • (lead n m l) ⟨p, hp⟩ := by
      funext j
      simp [lead, sub_eq_add_neg]
    rw [hrow]
    exact Matrix.det_updateRow_add_smul_self _
      (fun h' => absurd (congrArg Fin.val h') (by simp; omega)) _
  · rw [lead_row_replaced_outside n m l l' d _ hm h (by omega)]

theorem det_lead_pivot {α : Type} [Field α] (n q : Nat) (l : List α) (hq : q < n)
    (h : lower_done n l q) : (lead n (q + 1) l).det = cell n l q q := by
  have htri : (lead n (q + 1) l).BlockTriangular id := by
    intro i j hij
    have hlt : (j : Nat) < i := hij
    have := h i j (by omega) (by omega) (le_of_lt hlt)
    simp only [lead, Matrix.of_apply]
    rw [this, if_neg (by omega)]
  rw [Matrix.det_of_upperTriangular htri, Fin.prod_univ_castSucc]
  have hone : ∏ i : Fin q, lead n (q + 1) l (Fin.castSucc i) (Fin.castSucc i) = 1 := by
    apply Finset.prod_eq_one
    intro i _
    have := h i i (by omega) i.2 (le_refl _)
    simp only [lead, Matrix.of_apply, Fin.coe_castSucc]
    rw [this, if_pos rfl]
  rw [hone, one_mul]
  simp [lead]

theorem minors_inv_scaled {α : Type} [Field α] (n : Nat) (m0 l l' : List α) (q : Nat) (k : α)
    (hinv : minors_inv n m0 l) (h : row_replaced n l l' q n (fun c => cell n l q c * k))
    (hk : k ≠ 0) : minors_inv n m0 l' := by
  intro m hm
  rw [det_lead_scaled n m l l' q k hm h hk]
  exact hinv m hm

theorem minors_inv_reduced {α : Type} [Field α] (n : Nat) (m0 l l' : List α) (d p : Nat)
    (k : α) (hinv : minors_inv n m0 l)
    (h : row_replaced n l l' d n (fun c => cell n l d c - k * cell n l p c)) (hpd : p < d) :
    minors_inv n m0 l' := by
  intro m hm
  rw [det_lead_reduced n m l l' d p k hm h hpd]
  exact hinv m hm

theorem pass_inv_row {α : Type} [Field α] (n : Nat) (m0 te ie te' ie' : List α) (r0 : Nat)
    (a : α) (b : Nat → α) (hr0 : r0 < n) (hinv : pass_inv n m0 te ie)
    (ht : row_replaced n te te' r0 n
      (fun c => a * cell n te r0 c + ∑ p in Finset.range n, b p * cell n te p c))
    (hi : row_replaced n ie ie' r0 n
      (fun c => a * cell n ie r0 c + ∑ p in Finset.range n, b p * cell n ie p c)) :
    pass_inv n m0 te' ie' := by
  obtain ⟨h1, h2, h3⟩ := hinv
  refine ⟨by rw [ht.1]; exact h1, by rw [hi.1]; exact h2, ?_⟩
  ext i j
  have hprod : ∀ r : Fin n, (cells n ie * cells n m0) r j = cell n te r j := by
    intro r
    rw [h3]
    simp [cells]
  simp only [Matrix.mul_apply] at hprod
  simp only [Matrix.mul_apply, cells, Matrix.of_apply]
  simp only [cells, Matrix.of_apply] at hprod
  rw [row_replaced_cell n te te' r0 _ ht i j i.2 j.2]
  by_cases hir : (i : Nat) = r0
  · rw [if_pos hir]
    have hrow : ∀ x : Fin n, cell n ie' i x =
        a * cell n ie r0 x + ∑ p in Finset.range n, b p * cell n ie p x := by
      intro x
      rw [row_replaced_cell n ie ie' r0 _ hi i x i.2 x.2, if_pos hir]
    simp only [hrow, add_mul, Finset.sum_add_distrib, Finset.sum_mul]
    congr 1
    · rw [← hprod ⟨r0, hr0⟩, Finset.mul_sum]
      apply Finset.sum_congr rfl
      intro x _
      ring
    · rw [Finset.sum_comm]
      apply Finset.sum_congr rfl
      intro p hp
      have hpn : p < n := Finset.mem_range.mp hp
      rw [← hprod ⟨p, hpn⟩, Finset.mul_sum]
      apply Finset.sum_congr rfl
      intro x _
      ring
  · rw [if_neg hir, ← hprod i]
    apply Finset.sum_congr rfl
    intro x _
    rw [row_replaced_cell n ie ie' r0 _ hi i x i.2 x.2, if_neg hir]

theorem row_replaced_congr {α : Type} (n : Nat) (l l' : List α) (r0 : Nat) (g g' : Nat → α)
    (hg : ∀ c, c < n → g c = g' c) (h : row_replaced n l l' r0 n g) :
    row_replaced n l l' r0 n g' := by
  refine ⟨h.1, fun r c hr hc => ?_⟩
  rw [h.2 r c hr hc, hg c hc]

theorem pass_inv_scaled {α : Type} [Field α] (n : Nat) (m0 te ie te' ie' : List α) (q : Nat)
    (k : α) (hq : q < n) (hinv : pass_inv n m0 te ie)
    (ht : row_replaced n te te' q n (fun c => cell n te q c * k))
    (hi : row_replaced n ie ie' q n (fun c => cell n ie q c * k)) :
    pass_inv n m0 te' ie' := by
  apply pass_inv_row n m0 te ie te' ie' q k (fun _ => 0) hq hinv
  · exact row_replaced_congr n te te' q _ _ (fun c _ => by simp [mul_comm]) ht
  · exact row_replaced_congr n ie ie' q _ _ (fun c _ => by simp [mul_comm]) hi

theorem pass_inv_reduced {α : Type} [Field α] (n : Nat) (m0 te ie te' ie' : List α)
    (d p : Nat) (k : α) (hd : d < n) (hp : p < n) (hinv : pass_inv n m0 te ie)
    (ht : row_replaced n te te' d n (fun c => cell n te d c - k * cell n te p c))
    (hi : row_replaced n ie ie' d n (fun c => cell n ie d c - k * cell n ie p c)) :
    pass_inv n m0 te' ie' := by
  have hsum : ∀ (l : List α) (c : Nat),
      ∑ x in Finset.range n, (if x = p then -k else 0) * cell n l x c = -k * cell n l p c := by
    intro l c
    rw [Finset.sum_eq_single p]
    · rw [if_pos rfl]
    · intro x _ hx
      rw [if_neg hx, zero_mul]
    · intro h'
      exact absurd (Finset.mem_range.mpr hp) h'
  apply pass_inv_row n m0 te ie te' ie' d 1 (fun x => if x = p then -k else 0) hd hinv
  · apply row_replaced_congr n te te' d _ _ _ ht
    intro c _
    rw [hsum te c]
    ring
  · apply row_replaced_congr n ie ie' d _ _ _ hi
    intro c _
    rw [hsum ie c]
    ring

end lead_det

/-! ## The forward pass of `matrix_inverse` -/

section forward

theorem forward_inner {α : Type} [Field α] [DecidableEq α] (n q : Nat) (m0 : List α)
    (hq : q < n) (res : Nat) (te ie : List α) (hte : te.length = n * n)
    (hie : ie.length = n * n)
    (h : res = 0 → fwd_state n m0 te ie q ∧ cell n te q q = 1) :
    ∃ (res' : Nat) (te' ie' : List α),
      for_up_while (fun st : Nat × matrix α × matrix α => decide (st.1 = 0))
        (fun j st => matrix_reduce_row st.2.1 st.2.2 j (q + 1) (q + 1))
        (n - (q + 1)) (q + 1 + 1) (res, ⟨te, n, n⟩, ⟨ie, n, n⟩) =
          some (res', ⟨te', n, n⟩, ⟨ie', n, n⟩) ∧
      te'.length = n * n ∧ ie'.length = n * n ∧
      (res' = 0 → fwd_state n m0 te' ie' (q + 1)) ∧ (res = 0 → res' = 0) := by
  have hloop := for_up_while_inv
    (fun st : Nat × matrix α × matrix α => decide (st.1 = 0))
    (fun j st => matrix_reduce_row st.2.1 st.2.2 j (q + 1) (q + 1))
    (fun j st => ∃ te ie : List α, st.2.1 = ⟨te, n, n⟩ ∧ st.2.2 = ⟨ie, n, n⟩ ∧
      te.length = n * n ∧ ie.length = n * n ∧
      (st.1 = 0 → fwd_state n m0 te ie q ∧ cell n te q q = 1 ∧
        (∀ r, q < r → r + 1 < j → r < n → cell n te r q = 0)) ∧
      (res = 0 → st.1 = 0))
    (n - (q + 1)) (q + 1 + 1) (res, ⟨te, n, n⟩, ⟨ie, n, n⟩) ?_ ?_ ?_
  · obtain ⟨⟨res', m', s'⟩, hrun, te', ie', hm', hs', hl1, hl2, hfin, hkeep⟩ := hloop
    simp only at hm' hs' hfin hkeep
    subst hm'; subst hs'
    refine ⟨res', te', ie', hrun, hl1, hl2, ?_, hkeep⟩
    intro hres
    obtain ⟨⟨h1, h2, h3⟩, h4, h5⟩ := hfin hres
    refine ⟨h1, h2, lower_done_succ n te' q h3 h4 ?_⟩
    intro r hqr hr
    exact h5 r hqr (by omega) hr
  · refine ⟨te, ie, rfl, rfl, hte, hie, ?_, fun hz => hz⟩
    intro hres
    obtain ⟨h1, h2⟩ := h hres
    exact ⟨h1, h2, fun r hqr hrj _ => absurd hrj (by omega)⟩
  · intro j st hj1 hj2 hcond ⟨te1, ie1, hm, hs, hl1, hl2, hinv, hkeep⟩
    rcases st with ⟨r1, m1, s1⟩
    simp only at hm hs hinv hcond hkeep
    subst hm; subst hs
    have hr1 : r1 = 0 := by simpa using hcond
    obtain ⟨d, rfl⟩ : ∃ d, j = d + 1 := ⟨j - 1, by omega⟩
    have hd : d < n := by omega
    have hqd : q < d := by omega
    obtain ⟨⟨h1, h2, h3⟩, h4, h5⟩ := hinv hr1
    obtain ⟨res', te', ie', hrun, hl1', hl2', hok, hres'⟩ :=
      matrix_reduce_row_spec n d q te1 ie1 hl1 hl2 hd hq (by omega)
    have hz : res' = 0 := hok (by rw [h4]; exact one_ne_zero)
    obtain ⟨_, hrep, hrep2⟩ := hres' hz
    obtain ⟨g1, g2, g3⟩ := lower_done_reduced n te1 te' q d d hq hd hqd h3 h4
      (fun r hqr hrd hr => h5 r hqr (by omega) hr) hrep
    refine ⟨(res', ⟨te', n, n⟩, ⟨ie', n, n⟩), hrun, te', ie', rfl, rfl, hl1', hl2', ?_,
      fun _ => hz⟩
    intro _
    refine ⟨⟨pass_inv_reduced n m0 te1 ie1 te' ie' d q _ hd hq h1 hrep hrep2,
      minors_inv_reduced n m0 te1 te' d q _ h2 hrep hqd, g1⟩, g2, ?_⟩
    intro r hqr hrj hr
    exact g3 r hqr (by omega) hr
  · intro j st hcond ⟨te1, ie1, hm, hs, hl1, hl2, _, hkeep⟩
    have hne : st.1 ≠ 0 := by simpa using hcond
    exact ⟨te1, ie1, hm, hs, hl1, hl2, fun hz => absurd hz hne, hkeep⟩

theorem forward_pass {α : Type} [Field α] [DecidableEq α] (n : Nat) (te ie : List α)
    (hte : te.length = n * n) (hie : ie.length = n * n) (hid : cells n ie = 1) :
    ∃ (res : Nat) (te' ie' : List α),
      matrix_inverse_forward n (0, (⟨te, n, n⟩ : matrix α), ⟨ie, n, n⟩) =
        some (res, ⟨te', n, n⟩, ⟨ie', n, n⟩) ∧
      te'.length = n * n ∧ ie'.length = n * n ∧
      (res = 0 → fwd_state n te te' ie' n) ∧
      ((∀ m, 1 ≤ m → m ≤ n → (lead n m te).det ≠ 0) → res = 0) := by
  unfold matrix_inverse_forward
  have hloop := for_up_while_inv
    (fun st : Nat × matrix α × matrix α => decide (st.1 = 0))
    (fun i st => do
      let st ← matrix_scale_row st.2.1 st.2.2 i i 1
      for_up_while (fun st => decide (st.1 = 0))
        (fun j st => matrix_reduce_row st.2.1 st.2.2 j i i) (n - i) (i + 1) st)
    (fun i st => ∃ te1 ie1 : List α, st.2.1 = ⟨te1, n, n⟩ ∧ st.2.2 = ⟨ie1, n, n⟩ ∧
      te1.length = n * n ∧ ie1.length = n * n ∧
      (st.1 = 0 → fwd_state n te te1 ie1 (i - 1)) ∧
      ((∀ m, 1 ≤ m → m ≤ n → (lead n m te).det ≠ 0) → st.1 = 0))
    n 1 (0, ⟨te, n, n⟩, ⟨ie, n, n⟩) ?_ ?_ ?_
  · obtain ⟨⟨res', m', s'⟩, hrun, te', ie', hm', hs', hl1, hl2, hfin, hok⟩ := hloop
    simp only at hm' hs' hfin hok
    subst hm'; subst hs'
    refine ⟨res', te', ie', hrun, hl1, hl2, ?_, hok⟩
    intro hres
    have := hfin hres
    simpa using this
  · refine ⟨te, ie, rfl, rfl, hte, hie, fun _ => ⟨⟨hte, hie, ?_⟩, fun m _ => Iff.rfl, ?_⟩,
      fun _ => rfl⟩
    · rw [hid, one_mul]
    · intro r c _ hc _
      exact absurd hc (Nat.not_lt_zero _)
  · intro i st hi1 hi2 hcond ⟨te1, ie1, hm, hs, hl1, hl2, hinv, hok⟩
    rcases st with ⟨r1, m1, s1⟩
    simp only at hm hs hinv hcond hok
    subst hm; subst hs
    have hr1 : r1 = 0 := by simpa using hcond
    obtain ⟨q, rfl⟩ : ∃ q, i = q + 1 := ⟨i - 1, by omega⟩
    have hq : q < n := by omega
    obtain ⟨h1, h2, h3⟩ := hinv hr1
    simp only [Nat.add_sub_cancel] at h3
    obtain ⟨res2, te2, ie2, hrun2, hl1', hl2', hok2, hres2⟩ :=
      matrix_scale_row_spec n q te1 ie1 hl1 hl2 hq 1
    have hpre : res2 = 0 → fwd_state n te te2 ie2 q ∧ cell n te2 q q = 1 := by
      intro hz
      obtain ⟨hpiv, hrep, hrep2⟩ := hres2 hz
      obtain ⟨g1, g2⟩ := lower_done_scaled n te1 te2 q hq h3 hpiv hrep
      exact ⟨⟨pass_inv_scaled n te te1 ie1 te2 ie2 q _ hq h1 hrep hrep2,
        minors_inv_scaled n te te1 te2 q _ h2 hrep (one_div_ne_zero hpiv), g1⟩, g2⟩
    obtain ⟨res3, te3, ie3, hrun3, hl1'', hl2'', hres3, hkeep3⟩ :=
      forward_inner n q te hq res2 te2 ie2 hl1' hl2' hpre
    refine ⟨(res3, ⟨te3, n, n⟩, ⟨ie3, n, n⟩), ?_, te3, ie3, rfl, rfl, hl1'', hl2'', ?_, ?_⟩
    · simp only [hrun2, Option.bind_eq_bind, Option.some_bind]
      exact hrun3
    · intro hz
      simpa using hres3 hz
    · intro hminors
      apply hkeep3
      apply hok2
      rw [← det_lead_pivot n q te1 hq h3]
      intro h0
      exact hminors (q + 1) (by omega) (by omega) ((h2 (q + 1) (by omega)).mp h0)
  · intro j st hcond ⟨te1, ie1, hm, hs, hl1, hl2, _, hok⟩
    have hne : st.1 ≠ 0 := by simpa using hcond
    refine ⟨te1, ie1, hm, hs, hl1, hl2, fun hz => absurd hz hne, ?_⟩
    intro hminors
    exact hok hminors

end forward

/-! ## The backward pass of `matrix_inverse` -/

section backward

theorem for_down_while_inv {σ : Type} (cond : σ → Bool) (body : Nat → σ → Option σ)
    (P : Nat → σ → Prop) :
    ∀ (n : Nat) (s : σ), P n s →
      (∀ l s, 1 ≤ l → l ≤ n → cond s = true → P l s →
        ∃ s', body l s = some s' ∧ P (l - 1) s') →
      (∀ l s, cond s = false → P l s → P (l - 1) s) →
      ∃ s', for_down_while cond body n s = some s' ∧ P 0 s' := by
  intro n
  induction n with
  | zero =>
    intro s h _ _
    exact ⟨s, rfl, h⟩
  | succ n ih =>
    intro s h hstep hstop
    cases hc : cond s with
    | true =>
      obtain ⟨s1, hb, h1⟩ := hstep (n + 1) s (by omega) (le_refl _) hc h
      obtain ⟨s2, hl, h2⟩ :=
        ih s1 h1 (fun l s hl1 hl2 hcs hp => hstep l s hl1 (by omega) hcs hp) hstop
      exact ⟨s2, by simp [for_down_while, hc, hb, hl], h2⟩
    | false =>
      refine ⟨s, by simp [for_down_while, hc], ?_⟩
      have hall : ∀ k, P (n + 1 - k) s := by
        intro k
        induction k with
        | zero => exact h
        | succ k ihk =>
          have := hstop _ _ hc ihk
          have hidx : n + 1 - k - 1 = n + 1 - (k + 1) := by omega
          rw [hidx] at this
          exact this
      have := hall (n + 1)
      simpa using this

theorem backward_inner {α : Type} [Field α] [DecidableEq α] (n p : Nat) (m0 : List α)
    (hp : p < n) (te ie : List α) (hinv : pass_inv n m0 te ie) (hlow : lower_done n te n)
    (hup : upper_done n te (p + 1)) :
    ∃ te' ie' : List α,
      for_down_while (fun st : Nat × matrix α × matrix α => decide (st.1 = 0))
        (fun j st => matrix_reduce_row st.2.1 st.2.2 j (p + 1) (p + 1)) p
        (0, ⟨te, n, n⟩, ⟨ie, n, n⟩) = some (0, ⟨te', n, n⟩, ⟨ie', n, n⟩) ∧
      pass_inv n m0 te' ie' ∧ lower_done n te' n ∧ upper_done n te' p := by
  have hloop := for_down_while_inv
    (fun st : Nat × matrix α × matrix α => decide (st.1 = 0))
    (fun j st => matrix_reduce_row st.2.1 st.2.2 j (p + 1) (p + 1))
    (fun j st => ∃ te ie : List α, st = (0, ⟨te, n, n⟩, ⟨ie, n, n⟩) ∧
      pass_inv n m0 te ie ∧ lower_done n te n ∧ upper_done n te (p + 1) ∧
      ∀ r, j ≤ r → r < p → cell n te r p = 0)
    p (0, ⟨te, n, n⟩, ⟨ie, n, n⟩) ?_ ?_ ?_
  · obtain ⟨st, hrun, te', ie', hst, h1, h2, h3, h4⟩ := hloop
    subst hst
    refine ⟨te', ie', hrun, h1, h2, ?_⟩
    intro r c hc hpc hrc
    rcases Nat.eq_or_lt_of_le hpc with h | h
    · subst h
      exact h4 r (Nat.zero_le _) hrc
    · exact h3 r c hc (by omega) hrc
  · exact ⟨te, ie, rfl, hinv, hlow, hup, fun r h1 h2 => absurd h2 (by omega)⟩
  · intro j st hj1 hj2 _ ⟨te1, ie1, hst, h1, h2, h3, h4⟩
    subst hst
    obtain ⟨d, rfl⟩ : ∃ d, j = d + 1 := ⟨j - 1, by omega⟩
    have hd : d < n := by omega
    have hdp : d < p := by omega
    have hone : cell n te1 p p = 1 := by
      have := h2 p p hp hp (le_refl _)
      rw [if_pos rfl] at this
      exact this
    obtain ⟨res', te', ie', hrun, _, _, hok, hres'⟩ :=
      matrix_reduce_row_spec n d p te1 ie1 h1.1 h1.2.1 hd hp (by omega)
    have hz : res' = 0 := hok (by rw [hone]; exact one_ne_zero)
    subst hz
    obtain ⟨_, hrep, hrep2⟩ := hres' rfl
    refine ⟨(0, ⟨te', n, n⟩, ⟨ie', n, n⟩), hrun, te', ie', rfl,
      pass_inv_reduced n m0 te1 ie1 te' ie' d p _ hd hp h1 hrep hrep2, ?_, ?_, ?_⟩
    · intro r c hr hc hcr
      rw [row_replaced_cell n te1 te' d _ hrep r c hr hc]
      by_cases hrd : r = d
      · rw [if_pos hrd]
        have h0 := h2 p c hp hc (by omega)
        rw [if_neg (by omega)] at h0
        rw [h0, mul_zero, sub_zero, ← hrd]
        exact h2 r c hr hc hcr
      · rw [if_neg hrd]
        exact h2 r c hr hc hcr
    · intro r c hc hpc hrc
      by_cases hr : r < n
      · rw [row_replaced_cell n te1 te' d _ hrep r c hr hc]
        by_cases hrd : r = d
        · rw [if_pos hrd, h3 d c hc hpc (by omega), h3 p c hc hpc (by omega), mul_zero,
            sub_zero]
        · rw [if_neg hrd]
          exact h3 r c hc hpc hrc
      · omega
    · intro r hjr hrp
      simp only [Nat.add_sub_cancel] at hjr
      rw [row_replaced_cell n te1 te' d _ hrep r p (by omega) hp]
      by_cases hrd : r = d
      · rw [if_pos hrd, hone, mul_one, sub_self]
      · rw [if_neg hrd]
        exact h4 r (by omega) hrp
  · intro j st hcond ⟨te1, ie1, hst, _⟩
    subst hst
    simp at hcond

theorem backward_pass {α : Type} [Field α] [DecidableEq α] (n : Nat) (m0 te ie : List α)
    (hinv : pass_inv n m0 te ie) (hlow : lower_done n te n) :
    ∃ te' ie' : List α,
      matrix_inverse_backward n (0, (⟨te, n, n⟩ : matrix α), ⟨ie, n, n⟩) =
        some (0, ⟨te', n, n⟩, ⟨ie', n, n⟩) ∧
      pass_inv n m0 te' ie' ∧ cells n te' = 1 := by
  unfold matrix_inverse_backward
  have hloop := for_down_while_inv
    (fun st : Nat × matrix α × matrix α => decide (st.1 = 0))
    (fun i st =>
      for_down_while (fun st => decide (st.1 = 0))
        (fun j st => matrix_reduce_row st.2.1 st.2.2 j i i) (i - 1) st)
    (fun i st => ∃ te ie : List α, st = (0, ⟨te, n, n⟩, ⟨ie, n, n⟩) ∧
      pass_inv n m0 te ie ∧ lower_done n te n ∧ upper_done n te i)
    n (0, ⟨te, n, n⟩, ⟨ie, n, n⟩) ?_ ?_ ?_
  · obtain ⟨st, hrun, te', ie', hst, h1, h2, h3⟩ := hloop
    subst hst
    refine ⟨te', ie', hrun, h1, ?_⟩
    ext i j
    simp only [cells, Matrix.of_apply, Matrix.one_apply]
    by_cases hji : (j : Nat) ≤ i
    · rw [h2 i j i.2 j.2 hji]
      by_cases hij : (i : Nat) = j
      · rw [if_pos hij, if_pos (Fin.ext hij)]
      · rw [if_neg hij, if_neg (fun h' => hij (congrArg Fin.val h'))]
    · rw [h3 i j j.2 (Nat.zero_le _) (by omega), if_neg]
      intro h'
      exact hji (le_of_eq (congrArg Fin.val h').symm)
  · exact ⟨te, ie, rfl, hinv, hlow, fun r c hc hnc _ => absurd hc (by omega)⟩
  · intro i st hi1 hi2 _ ⟨te1, ie1, hst, h1, h2, h3⟩
    subst hst
    obtain ⟨p, rfl⟩ : ∃ p, i = p + 1 := ⟨i - 1, by omega⟩
    obtain ⟨te', ie', hrun, g1, g2, g3⟩ :=
      backward_inner n p m0 (by omega) te1 ie1 h1 h2 h3
    exact ⟨(0, ⟨te', n, n⟩, ⟨ie', n, n⟩), by simpa using hrun, te', ie', rfl, g1, g2,
      by simpa using g3⟩
  · intro j st hcond ⟨te1, ie1, hst, _⟩
    subst hst
    simp at hcond

end backward

/-! ## `matrix_inverse` -/

section inverse

theorem memcpy_full {α : Type} (dst src : List α) (n : Nat) (hd : dst.length = n)
    (hs : src.length = n) : memcpy dst src n = some src := by
  unfold memcpy
  rw [if_pos ⟨by omega, by omega⟩]
  have h1 : List.take n src = src := List.take_of_length_le (by omega)
  have h2 : List.drop n dst = [] := List.drop_of_length_le (by omega)
  rw [h1, h2, List.append_nil]

theorem matrix_fill_identity_spec {α : Type} [Field α] (n : Nat) (els0 : List α)
    (h0 : els0.length = n * n) :
    ∃ els, matrix_fill_identity n n els0 = some els ∧ els.length = n * n ∧
      ∀ i j, i < n → j < n → els[i * n + j]? = some (if i = j then 1 else 0) := by
  unfold matrix_fill_identity
  have hout := for_up_inv (fun i els =>
      for_up (fun j els => store els (j + i * n) (if i = j then (1 : α) else 0)) n 0 els)
    (fun i els => els.length = n * n ∧
      ∀ i' j, i' < i → j < n → els[i' * n + j]? = some (if i' = j then 1 else 0))
    n 0 els0 ⟨h0, fun i' j hi' _ => absurd hi' (Nat.not_lt_zero _)⟩ ?_
  · obtain ⟨els, hl, hlen, hsp⟩ := hout
    exact ⟨els, hl, hlen, fun i j hi hj => hsp i j (by omega) hj⟩
  · intro i els _ hi ⟨hlenI, hI⟩
    have hin : i < n := by omega
    have hinner := for_up_inv
      (fun j els => store els (j + i * n) (if i = j then (1 : α) else 0))
      (fun j els => els.length = n * n ∧
        (∀ i' j', i' < i → j' < n → els[i' * n + j']? = some (if i' = j' then 1 else 0)) ∧
        ∀ j', j' < j → els[i * n + j']? = some (if i = j' then 1 else 0))
      n 0 els ⟨hlenI, hI, fun j' hj' => absurd hj' (Nat.not_lt_zero _)⟩ ?_
    · obtain ⟨els', hl, hlen', hprev, hcur⟩ := hinner
      refine ⟨els', hl, hlen', ?_⟩
      intro i' j hi' hj
      rcases Nat.lt_succ_iff_lt_or_eq.mp hi' with h | h
      · exact hprev i' j h hj
      · subst h; exact hcur j (by omega)
    · intro j els _ hj ⟨hlenJ, hprev, hcur⟩
      have hjn : j < n := by omega
      have hdst : j + i * n < els.length := by
        rw [hlenJ, Nat.add_comm]; exact idx_lt hin hjn
      refine ⟨els.set (j + i * n) (if i = j then 1 else 0), store_eq _ _ _ hdst,
        by simp [hlenJ], ?_, ?_⟩
      · intro i' j' hi' hj'
        rw [List.getElem?_set_ne]
        · exact hprev i' j' hi' hj'
        · rw [Nat.add_comm j]
          exact idx_ne hjn hj' (Or.inl (by omega))
      · intro j' hj'
        rcases Nat.lt_succ_iff_lt_or_eq.mp hj' with h | h
        · rw [List.getElem?_set_ne]
          · exact hcur j' h
          · rw [Nat.add_comm j]
            exact idx_ne hjn (by omega) (Or.inr (by omega))
        · subst h
          rw [Nat.add_comm j', List.getElem?_set_self (by rw [Nat.add_comm]; exact hdst)]

theorem matrix_inverse_run {α : Type} [Field α] [DecidableEq α] (n : Nat) (m0 : List α)
    (hn : 0 < n) (hlen : m0.length = n * n) :
    (matrix_inverse (⟨m0, n, n⟩ : matrix α) = some none ∨
      ∃ R : List α, matrix_inverse (⟨m0, n, n⟩ : matrix α) = some (some ⟨R, n, n⟩) ∧
        R.length = n * n ∧ cells n R * cells n m0 = 1 ∧ (cells n m0).det ≠ 0) ∧
    ((∀ m, 1 ≤ m → m ≤ n → (lead n m m0).det ≠ 0) →
      matrix_inverse (⟨m0, n, n⟩ : matrix α) ≠ some none) := by
  obtain ⟨ie, hfill, hie, hid⟩ :=
    matrix_fill_identity_spec n (List.replicate (n * n) (0 : α)) (by simp)
  have hone : cells n ie = 1 := by
    ext i j
    simp only [cells, cell, Matrix.of_apply, Matrix.one_apply]
    rw [hid i j i.2 j.2]
    by_cases hij : (i : Nat) = j
    · rw [if_pos hij, if_pos (Fin.ext hij)]; rfl
    · rw [if_neg hij, if_neg (fun h' => hij (congrArg Fin.val h'))]; rfl
  obtain ⟨res, te', ie', hfwd, hl1, hl2, hres, hok⟩ := forward_pass n m0 ie hlen hie hone
  have hunf : matrix_inverse (⟨m0, n, n⟩ : matrix α) =
      (matrix_inverse_backward n (res, ⟨te', n, n⟩, ⟨ie', n, n⟩)).bind
        fun st => if st.1 ≠ 0 then some none else some (some st.2.2) := by
    unfold matrix_inverse
    simp only [ne_eq, not_true_eq_false, if_false, create_matrix_pos n n hn hn,
      memcpy_full (List.replicate (n * n) (0 : α)) m0 (n * n) (List.length_replicate _ _) hlen,
      hfill, hfwd, Option.bind_eq_bind, Option.some_bind]
  by_cases hz : res = 0
  · subst hz
    obtain ⟨h1, h2, h3⟩ := hres rfl
    obtain ⟨te2, ie2, hbwd, g1, g2⟩ := backward_pass n m0 te' ie' h1 h3
    have hfinal : matrix_inverse (⟨m0, n, n⟩ : matrix α) = some (some ⟨ie2, n, n⟩) := by
      rw [hunf, hbwd]
      simp
    have hprod : cells n ie2 * cells n m0 = 1 := by rw [g1.2.2, g2]
    refine ⟨Or.inr ⟨ie2, hfinal, g1.2.1, hprod, ?_⟩, fun _ => by rw [hfinal]; simp⟩
    intro hdet
    have h4 := det_lower_done n te' h3
    have h5 : (cells n te').det = 0 := (h2 n (le_refl _)).mpr hdet
    rw [h5] at h4
    exact zero_ne_one h4
  · have hfinal : matrix_inverse (⟨m0, n, n⟩ : matrix α) = some none := by
      rw [hunf]
      unfold matrix_inverse_backward
      rw [for_down_while_stop _ _ _ _ (by simpa using hz)]
      simp [hz]
    exact ⟨Or.inl hfinal, fun hminors => absurd (hok hminors) hz⟩

end inverse

/-- C5, counterexample. The rational matrix with rows `(0, 1)` and `(1, 0)` is invertible
(its determinant is not zero and `matrix_multiply` of it with itself is the identity), yet
`matrix_inverse` returns `NULL` on it. -/
theorem C5_inverse_fails_on_invertible :
    matrix_multiply (⟨[0, 1, 1, 0], 2, 2⟩ : matrix ℚ) ⟨[0, 1, 1, 0], 2, 2⟩ =
        some (some ⟨[1, 0, 0, 1], 2, 2⟩) ∧
      (⟨[0, 1, 1, 0], 2, 2⟩ : matrix ℚ).square.det ≠ 0 ∧
      matrix_inverse (⟨[0, 1, 1, 0], 2, 2⟩ : matrix ℚ) = some none := by
  refine ⟨?_, ?_, by decide⟩
  · simp [matrix_multiply, create_matrix, for_up, load, store]
  · simp [matrix.square, matrix.entry, Matrix.det_fin_two]

/-- C5, amended. For every square matrix `M` of positive size whose leading principal minors
are all nonzero (so that the elimination meets no zero pivot), `matrix_inverse M` returns a
matrix `R`, and `matrix_multiply R M` is the identity matrix of the same size. -/
theorem C5_inverse_times_matrix_is_identity {α : Type} [Field α] [DecidableEq α]
    (M : matrix α) (hsq : M.rows = M.cols) (hpos : 0 < M.rows)
    (hlen : M.elements.length = M.rows * M.cols)
    (hminors : ∀ k, 1 ≤ k → k ≤ M.rows → M.leading_minor k ≠ 0) :
    ∃ R C : matrix α, matrix_inverse M = some (some R) ∧
      matrix_multiply R M = some (some C) ∧ C.rows = M.rows ∧ C.cols = M.cols ∧
      C.elements.length = M.rows * M.cols ∧
      ∀ i j, i < M.rows → j < M.cols →
        C.elements[i * M.cols + j]? = some (if i = j then 1 else 0) := by
  rcases M with ⟨m0, c, n⟩
  simp only at hsq hpos hlen hminors
  subst hsq
  obtain ⟨hrun, hsucc⟩ := matrix_inverse_run n m0 hpos hlen
  have hne := hsucc hminors
  rcases hrun with h | ⟨R, hR, hRlen, hprod, _⟩
  · exact absurd h hne
  · obtain ⟨C, hC, hCr, hCc, hClen, hCe⟩ :=
      matrix_multiply_spec (⟨R, n, n⟩ : matrix α) ⟨m0, n, n⟩ hpos hpos hRlen hlen rfl
    refine ⟨⟨R, n, n⟩, C, hR, hC, hCr, hCc, hClen, ?_⟩
    intro i j hi hj
    rw [hCe i j hi hj]
    congr 1
    have hij := congrFun (congrFun hprod ⟨i, hi⟩) ⟨j, hj⟩
    simp only [Matrix.mul_apply, cells, Matrix.of_apply, Matrix.one_apply, Fin.mk.injEq] at hij
    rw [← hij, Finset.sum_range]
    rfl

/-- Witness of C5 (amended) on the rational matrix with rows `(1, 2)` and `(3, 4)`, whose
leading principal minors are `1` and `-2`. -/
theorem C5_inverse_times_matrix_is_identity_witness :
    ∃ R C : matrix ℚ, matrix_inverse (⟨[1, 2, 3, 4], 2, 2⟩ : matrix ℚ) = some (some R) ∧
      matrix_multiply R ⟨[1, 2, 3, 4], 2, 2⟩ = some (some C) ∧ C.rows = 2 ∧ C.cols = 2 ∧
      C.elements.length = 2 * 2 ∧
      ∀ i j, i < 2 → j < 2 → C.elements[i * 2 + j]? = some (if i = j then 1 else 0) :=
  C5_inverse_times_matrix_is_identity ⟨[1, 2, 3, 4], 2, 2⟩ rfl (by decide) (by decide)
    (by
      intro k hk1 hk2
      have hk : k = 1 ∨ k = 2 := by
        simp only at hk2
        omega
      rcases hk with rfl | rfl
      · simp [matrix.leading_minor, matrix.entry]
      · simp [matrix.leading_minor, matrix.entry, Matrix.det_fin_two]
        norm_num)

/-- C6. For every square matrix `M` that is singular (determinant zero, exact arithmetic),
`matrix_inverse M` yields no result: it returns `NULL`, never a matrix. -/
theorem C6_inverse_of_singular_is_null {α : Type} [Field α] [DecidableEq α] (M : matrix α)
    (hsq : M.rows = M.cols) (hlen : M.elements.length = M.rows * M.cols)
    (hsing : M.square.det = 0) :
    matrix_inverse M = some none := by
  rcases M with ⟨m0, c, n⟩
  simp only at hsq hlen
  subst hsq
  rcases Nat.eq_zero_or_pos n with hn | hn
  · subst hn
    simp [matrix_inverse, create_matrix]
  · rcases (matrix_inverse_run n m0 hn hlen).1 with h | ⟨R, _, _, _, hdet⟩
    · exact h
    · exact absurd hsing hdet

/-- Witness of C6 on the singular rational matrix with rows `(1, 2)` and `(2, 4)`. -/
theorem C6_inverse_of_singular_is_null_witness :
    matrix_inverse (⟨[1, 2, 2, 4], 2, 2⟩ : matrix ℚ) = some none :=
  C6_inverse_of_singular_is_null ⟨[1, 2, 2, 4], 2, 2⟩ rfl (by decide)
    (by simp [matrix.square, matrix.entry, Matrix.det_fin_two]; norm_num)

/-! ## Polynomial evaluation and `lagrange_interpolation` -/

section polynomial

theorem getElem?_getD {α : Type} [Zero α] (l : List α) (k : Nat) (h : k < l.length) :
    l[k]? = some (l.getD k 0) := by
  rw [List.getD_eq_getElem?_getD, List.getElem?_eq_getElem h]
  rfl

theorem load_getD {α : Type} [Zero α] (l : List α) (k : Nat) (h : k < l.length) :
    load l k = some (l.getD k 0) :=
  getElem?_getD l k h

theorem getD_of_getElem? {α : Type} [Zero α] (l : List α) (k : Nat) (v : α)
    (h : l[k]? = some v) : l.getD k 0 = v := by
  rw [List.getD_eq_getElem?_getD, h]
  rfl

theorem for_down_inv {σ : Type} (body : Nat → σ → Option σ) (P : Nat → σ → Prop) :
    ∀ (n : Nat) (s : σ), P n s →
      (∀ l s, 1 ≤ l → l ≤ n → P l s → ∃ s', body l s = some s' ∧ P (l - 1) s') →
      ∃ s', for_down body n s = some s' ∧ P 0 s' := by
  intro n
  induction n with
  | zero =>
    intro s h _
    exact ⟨s, rfl, h⟩
  | succ n ih =>
    intro s h hstep
    obtain ⟨s1, hb, h1⟩ := hstep (n + 1) s (by omega) (le_refl _) h
    obtain ⟨s2, hl, h2⟩ := ih s1 h1 (fun l s hl1 hl2 hp => hstep l s hl1 (by omega) hp)
    exact ⟨s2, by simp [for_down, hb, hl], h2⟩

theorem polynomial_value_spec {α : Type} [Field α] (x : α) (interp : interpolation α)
    (hlen : interp.coefficients.length = interp.order + 1) :
    polynomial_value x interp = some (peval interp.coefficients interp.order x) := by
  have hloop := for_up_inv (fun i (st : α × α) => do
      let c ← load interp.coefficients i
      some (st.1 + c * st.2, st.2 * x))
    (fun i st => st.1 = peval interp.coefficients (i - 1) x ∧ st.2 = x ^ i)
    interp.order 1 (interp.coefficients.getD 0 0, x) ⟨by simp [peval], by simp⟩ ?_
  · obtain ⟨st, hst, h1, _⟩ := hloop
    unfold polynomial_value
    simp only [Option.bind_eq_bind] at hst
    simp only [load_getD interp.coefficients 0 (by rw [hlen]; omega), hst, Option.bind_eq_bind,
      Option.some_bind]
    rw [h1]
    simp
  · intro i st hi1 hi2 ⟨h1, h2⟩
    refine ⟨(st.1 + interp.coefficients.getD i 0 * st.2, st.2 * x), ?_, ?_, ?_⟩
    · simp [load_getD interp.coefficients i (by rw [hlen]; omega)]
    · obtain ⟨k, rfl⟩ : ∃ k, i = k + 1 := ⟨i - 1, by omega⟩
      simp only [Nat.add_sub_cancel] at h1 ⊢
      rw [h1, h2]
      unfold peval
      rw [Finset.sum_range_succ _ (k + 1)]
    · rw [h2, pow_succ]

theorem poly_mul_linear {α : Type} [Field α] (c : Nat → α) (d : Nat) (xi x : α) :
    ∑ k in Finset.range (d + 1 + 1),
        ((if k ≤ d then c k * xi else 0) + (if 1 ≤ k then c (k - 1) else 0)) * x ^ k =
      (∑ k in Finset.range (d + 1), c k * x ^ k) * (x + xi) := by
  have h1 : ∑ k in Finset.range (d + 1 + 1), (if k ≤ d then c k * xi else 0) * x ^ k =
      ∑ k in Finset.range (d + 1), c k * xi * x ^ k := by
    rw [Finset.sum_range_succ, if_neg (by omega), zero_mul, add_zero]
    apply Finset.sum_congr rfl
    intro k hk
    rw [if_pos (by have := Finset.mem_range.mp hk; omega)]
  have h2 : ∑ k in Finset.range (d + 1 + 1), (if 1 ≤ k then c (k - 1) else 0) * x ^ k =
      ∑ k in Finset.range (d + 1), c k * x ^ (k + 1) := by
    rw [Finset.sum_range_succ']
    simp
  simp only [add_mul]
  rw [Finset.sum_add_distrib, h1, h2, Finset.sum_mul, ← Finset.sum_add_distrib]
  apply Finset.sum_congr rfl
  intro k _
  ring

end polynomial
section lagrange_multiply_proofs

theorem lagrange_multiply_pointwise {α : Type} [Field α] (t : List α) (d : Nat) (xi : α)
    (hd : d + 1 < t.length) :
    ∃ t', lagrange_multiply t d xi = some t' ∧ t'.length = t.length ∧
      ∀ k, k ≤ d + 1 → t'.getD k 0 =
        (if k ≤ d then t.getD k 0 * xi else 0) + (if 1 ≤ k then t.getD (k - 1) 0 else 0) := by
  have hset1 : (t.set (d + 1) (t.getD d 0)).length = t.length := List.length_set _ _ _
  have hloop := for_down_inv (fun l temp => do
      let a ← load temp l
      let temp ← store temp l (a * xi)
      let a ← load temp l
      let b ← load temp (l - 1)
      store temp l (a + b))
    (fun l tc => tc.length = t.length ∧
      ∀ k, tc[k]? = if l < k ∧ k ≤ d then some (t.getD k 0 * xi + t.getD (k - 1) 0)
        else (t.set (d + 1) (t.getD d 0))[k]?)
    d (t.set (d + 1) (t.getD d 0)) ⟨hset1, fun k => by
      rw [if_neg]; omega⟩ ?_
  · obtain ⟨tc, htc, hlen, hpt⟩ := hloop
    have h0 : tc[0]? = some (t.getD 0 0) := by
      rw [hpt 0, if_neg (by omega), List.getElem?_set_ne (by omega)]
      exact getElem?_getD t 0 (by omega)
    refine ⟨tc.set 0 (t.getD 0 0 * xi), ?_, by simp [hlen], ?_⟩
    · unfold lagrange_multiply
      simp only [Option.bind_eq_bind] at htc
      simp only [load_getD t d (by omega), store_eq t (d + 1) _ hd, Option.bind_eq_bind,
        Option.some_bind, htc]
      have h0' : load tc 0 = some (t.getD 0 0) := h0
      simp only [h0', Option.some_bind]
      exact store_eq tc 0 _ (by omega)
    · intro k hk
      apply getD_of_getElem?
      by_cases hk0 : k = 0
      · subst hk0
        rw [List.getElem?_set_self (by omega)]
        simp
      · rw [List.getElem?_set_ne (by omega), hpt k]
        by_cases hkd : k ≤ d
        · rw [if_pos ⟨by omega, hkd⟩, if_pos hkd, if_pos (by omega)]
        · have hk1 : k = d + 1 := by omega
          subst hk1
          rw [if_neg (by omega), List.getElem?_set_self hd, if_neg (by omega),
            if_pos (by omega)]
          simp
  · intro l tc hl1 hl2 ⟨hlen, hpt⟩
    have hl : l < tc.length := by omega
    have e1 : load tc l = some (t.getD l 0) := by
      show tc[l]? = _
      rw [hpt l, if_neg (by omega), List.getElem?_set_ne (by omega)]
      exact getElem?_getD t l (by omega)
    have e2 : tc[l - 1]? = some (t.getD (l - 1) 0) := by
      rw [hpt (l - 1), if_neg (by omega), List.getElem?_set_ne (by omega)]
      exact getElem?_getD t (l - 1) (by omega)
    have hl' : l < (tc.set l (t.getD l 0 * xi)).length := by simpa using hl
    have e3 : load (tc.set l (t.getD l 0 * xi)) l = some (t.getD l 0 * xi) := by
      show (tc.set l (t.getD l 0 * xi))[l]? = _
      exact List.getElem?_set_self hl
    have e4 : load (tc.set l (t.getD l 0 * xi)) (l - 1) = some (t.getD (l - 1) 0) := by
      show (tc.set l (t.getD l 0 * xi))[l - 1]? = _
      rw [List.getElem?_set_ne (by omega)]
      exact e2
    refine ⟨(tc.set l (t.getD l 0 * xi)).set l (t.getD l 0 * xi + t.getD (l - 1) 0), ?_, ?_, ?_⟩
    · simp only [e1, store_eq tc l _ hl, e3, e4, Option.bind_eq_bind, Option.some_bind]
      exact store_eq _ l _ hl'
    · simp [hlen]
    · intro k
      by_cases hkl : k = l
      · subst hkl
        rw [List.getElem?_set_self hl', if_pos ⟨by omega, hl2⟩]
      · rw [List.getElem?_set_ne (fun h => hkl h.symm), List.getElem?_set_ne (fun h => hkl h.symm),
          hpt k]
        by_cases h1 : l < k ∧ k ≤ d
        · rw [if_pos h1, if_pos ⟨by omega, h1.2⟩]
        · rw [if_neg h1, if_neg (by omega)]

theorem lagrange_multiply_spec {α : Type} [Field α] (t : List α) (d : Nat) (xi : α)
    (hd : d + 1 < t.length) :
    ∃ t', lagrange_multiply t d xi = some t' ∧ t'.length = t.length ∧
      ∀ x, peval t' (d + 1) x = peval t d x * (x + xi) := by
  obtain ⟨t', h1, h2, h3⟩ := lagrange_multiply_pointwise t d xi hd
  refine ⟨t', h1, h2, fun x => ?_⟩
  unfold peval
  rw [← poly_mul_linear (fun k => t.getD k 0) d xi x]
  apply Finset.sum_congr rfl
  intro k hk
  rw [h3 k (by have := Finset.mem_range.mp hk; omega)]

end lagrange_multiply_proofs
section lagrange_proofs

theorem lagrange_basis_spec {α : Type} [Field α] (x0 h : α) (n i : Nat) (y : α)
    (temp : List α) (hi : i ≤ n) (hlen : temp.length = n + 1) :
    ∃ b : α × List α, lagrange_basis x0 h n i y temp = some b ∧ b.2.length = n + 1 ∧
      b.1 = basis_denominator h n i (n + 1) ∧
      ∀ x, peval b.2 n x = y * basis_numerator x0 h i (n + 1) x := by
  have hst : store temp 0 y = some (temp.set 0 y) := store_eq temp 0 y (by omega)
  have hloop := for_up_inv (fun j (b : α × List α) =>
      if i ≠ j then do
        let coefficient_denominator := b.1 * ((i : α) - (j : α))
        let temp_poly_degree := j - (if j > i then 1 else 0)
        let xi := -(x0 + h * (j : α))
        let temp ← lagrange_multiply b.2 temp_poly_degree xi
        some (coefficient_denominator, temp)
      else some b)
    (fun j b => b.2.length = n + 1 ∧ b.1 = basis_denominator h n i j ∧
      ∀ x, peval b.2 (j - (if j > i then 1 else 0)) x = y * basis_numerator x0 h i j x)
    (n + 1) 0 (h ^ n, temp.set 0 y) ⟨by simp [hlen], by simp [basis_denominator], ?_⟩ ?_
  · obtain ⟨b, hb, h1, h2, h3⟩ := hloop
    refine ⟨b, ?_, h1, by simpa using h2, ?_⟩
    · unfold lagrange_basis
      simp only [hst, Option.bind_eq_bind, Option.some_bind]
      simp only [Option.bind_eq_bind] at hb
      exact hb
    · intro x
      have := h3 x
      simp only [Nat.zero_add] at this
      rw [if_pos (by omega)] at this
      simpa using this
  · intro x
    have hget : (temp.set 0 y).getD 0 0 = y :=
      getD_of_getElem? _ 0 y (List.getElem?_set_self (by omega))
    rw [Nat.zero_sub]
    simp only [peval, basis_numerator, Nat.zero_add, Finset.sum_range_one, pow_zero, mul_one,
      hget, Finset.prod_range_zero]
  · intro j b _ hj ⟨h1, h2, h3⟩
    by_cases hij : i = j
    · subst hij
      refine ⟨b, by simp, h1, ?_, ?_⟩
      · rw [h2]
        simp [basis_denominator, Finset.prod_range_succ]
      · intro x
        have := h3 x
        simp only [gt_iff_lt, lt_self_iff_false, if_false, Nat.sub_zero] at this
        rw [if_pos (by omega), Nat.add_sub_cancel, this]
        simp [basis_numerator, Finset.prod_range_succ]
    · have hd : (j - (if j > i then 1 else 0)) + 1 < b.2.length := by
        rw [h1]
        split <;> omega
      obtain ⟨t', ht', hlen', hval⟩ :=
        lagrange_multiply_spec b.2 (j - (if j > i then 1 else 0)) (-(x0 + h * (j : α))) hd
      refine ⟨(b.1 * ((i : α) - (j : α)), t'), ?_, by rw [hlen', h1], ?_, ?_⟩
      · simp only [ne_eq, hij, not_false_eq_true, if_true, ht', Option.bind_eq_bind,
          Option.some_bind]
      · rw [h2]
        simp only [basis_denominator, Finset.prod_range_succ]
        rw [if_neg (fun h' => hij h'.symm)]
        ring
      · intro x
        have hidx : (j + 1 - (if j + 1 > i then 1 else 0)) =
            (j - (if j > i then 1 else 0)) + 1 := by
          split <;> split <;> omega
        rw [hidx, hval x, h3 x]
        simp only [basis_numerator, Finset.prod_range_succ]
        rw [if_neg (fun h' => hij h'.symm)]
        ring

theorem lagrange_accumulate_spec {α : Type} [Field α] (n : Nat) (cs t : List α) (den : α)
    (hc : cs.length = n + 1) (ht : t.length = n + 1) :
    ∃ c', for_up (fun j c => do
          let a ← load c j
          let v ← load t j
          store c j (a + v / den)) (n + 1) 0 cs = some c' ∧
      c'.length = n + 1 ∧ ∀ x, peval c' n x = peval cs n x + peval t n x / den := by
  have hloop := for_up_inv (fun j c => do
        let a ← load c j
        let v ← load t j
        store c j (a + v / den))
    (fun j cj => cj.length = n + 1 ∧
      ∀ k, cj[k]? = if k < j then some (cs.getD k 0 + t.getD k 0 / den) else cs[k]?)
    (n + 1) 0 cs ⟨hc, fun k => by simp⟩ ?_
  · obtain ⟨c', hc', hlen, hpt⟩ := hloop
    refine ⟨c', hc', hlen, fun x => ?_⟩
    unfold peval
    rw [Finset.sum_div, ← Finset.sum_add_distrib]
    apply Finset.sum_congr rfl
    intro k hk
    have hk' := Finset.mem_range.mp hk
    have := hpt k
    rw [if_pos (by omega)] at this
    rw [getD_of_getElem? _ k _ this]
    ring
  · intro j cj _ hj ⟨hlen, hpt⟩
    have hjl : j < cj.length := by omega
    have e1 : load cj j = some (cs.getD j 0) := by
      show cj[j]? = _
      rw [hpt j, if_neg (by omega)]
      exact getElem?_getD cs j (by omega)
    refine ⟨cj.set j (cs.getD j 0 + t.getD j 0 / den), ?_, by simp [hlen], ?_⟩
    · simp only [e1, load_getD t j (by omega), Option.bind_eq_bind, Option.some_bind]
      exact store_eq cj j _ hjl
    · intro k
      by_cases hkj : k = j
      · subst hkj
        rw [List.getElem?_set_self hjl, if_pos (by omega)]
      · rw [List.getElem?_set_ne (fun h' => hkj h'.symm), hpt k]
        by_cases h1 : k < j
        · rw [if_pos h1, if_pos (by omega)]
        · rw [if_neg h1, if_neg (by omega)]

theorem lagrange_clear_spec {α : Type} [Field α] (n : Nat) (cs : List α)
    (hc : cs.length = n + 1) :
    ∃ c', for_up (fun i c => store c i (0 : α)) (n + 1) 0 cs = some c' ∧
      c'.length = n + 1 ∧ ∀ x, peval c' n x = 0 := by
  have hloop := for_up_inv (fun i c => store c i (0 : α))
    (fun j cj => cj.length = n + 1 ∧ ∀ k, k < j → cj[k]? = some 0)
    (n + 1) 0 cs ⟨hc, fun k hk => absurd hk (Nat.not_lt_zero _)⟩ ?_
  · obtain ⟨c', hc', hlen, hpt⟩ := hloop
    refine ⟨c', hc', hlen, fun x => ?_⟩
    unfold peval
    apply Finset.sum_eq_zero
    intro k hk
    have hk' := Finset.mem_range.mp hk
    rw [getD_of_getElem? _ k _ (hpt k (by omega)), zero_mul]
  · intro j cj _ hj ⟨hlen, hpt⟩
    have hjl : j < cj.length := by omega
    refine ⟨cj.set j 0, store_eq cj j _ hjl, by simp [hlen], ?_⟩
    intro k hk
    by_cases hkj : k = j
    · subst hkj
      exact List.getElem?_set_self hjl
    · rw [List.getElem?_set_ne (fun h' => hkj h'.symm)]
      exact hpt k (by omega)

theorem lagrange_coefficients_spec {α : Type} [Field α] (x0 h : α) (n : Nat)
    (samples c temp : List α) (hs : samples.length = n + 1) (hc : c.length = n + 1)
    (ht : temp.length = n + 1) :
    ∃ st : List α × List α, lagrange_coefficients x0 h n samples c temp = some st ∧
      st.1.length = n + 1 ∧
      ∀ x, peval st.1 n x =
        ∑ i in Finset.range (n + 1),
          samples.getD i 0 * basis_numerator x0 h i (n + 1) x /
            basis_denominator h n i (n + 1) := by
  obtain ⟨c0, hc0, hc0len, hc0val⟩ := lagrange_clear_spec n c hc
  have hloop := for_up_inv (fun i (st : List α × List α) => do
      let sample ← load samples i
      let b ← lagrange_basis x0 h n i sample st.2
      let coefficients ← for_up (fun j c => do
        let a ← load c j
        let t ← load b.2 j
        store c j (a + t / b.1)) (n + 1) 0 st.1
      some (coefficients, b.2))
    (fun i st => st.1.length = n + 1 ∧ st.2.length = n + 1 ∧
      ∀ x, peval st.1 n x =
        ∑ i' in Finset.range i,
          samples.getD i' 0 * basis_numerator x0 h i' (n + 1) x /
            basis_denominator h n i' (n + 1))
    (n + 1) 0 (c0, temp) ⟨hc0len, ht, fun x => by simp [hc0val x]⟩ ?_
  · obtain ⟨st, hst, h1, _, h3⟩ := hloop
    refine ⟨st, ?_, h1, by simpa using h3⟩
    unfold lagrange_coefficients
    simp only [hc0, Option.bind_eq_bind, Option.some_bind]
    simp only [Option.bind_eq_bind] at hst
    exact hst
  · intro i st _ hi ⟨h1, h2, h3⟩
    obtain ⟨b, hb, hb1, hb2, hb3⟩ :=
      lagrange_basis_spec x0 h n i (samples.getD i 0) st.2 (by omega) h2
    obtain ⟨c', hc', hc'len, hc'val⟩ := lagrange_accumulate_spec n st.1 b.2 b.1 h1 hb1
    refine ⟨(c', b.2), ?_, hc'len, hb1, ?_⟩
    · simp only [Option.bind_eq_bind] at hc'
      simp only [load_getD samples i (by omega), hb, hc', Option.bind_eq_bind,
        Option.some_bind]
    · intro x
      rw [hc'val x, h3 x, Finset.sum_range_succ, hb3 x, hb2]

end lagrange_proofs
section lagrange_top

theorem prod_ite_scale {α : Type} [Field α] (h : α) (a : Nat → α) (k : Nat) :
    ∀ m : Nat, (∏ j in Finset.range m, if j = k then 1 else h * a j) =
      h ^ (m - (if k < m then 1 else 0)) * ∏ j in Finset.range m, if j = k then 1 else a j := by
  intro m
  induction m with
  | zero => simp
  | succ m ih =>
    rw [Finset.prod_range_succ, Finset.prod_range_succ, ih]
    by_cases hmk : m = k
    · subst hmk
      simp
    · rw [if_neg hmk, if_neg hmk]
      by_cases hkm : k < m
      · rw [if_pos hkm, if_pos (by omega)]
        have hm : m + 1 - 1 = (m - 1) + 1 := by omega
        rw [hm, pow_succ]
        ring
      · rw [if_neg hkm, if_neg (by omega)]
        simp only [Nat.sub_zero]
        rw [pow_succ]
        ring

theorem basis_numerator_other {α : Type} [Field α] (x0 h : α) (n i k : Nat) (hk : k ≤ n)
    (hik : i ≠ k) : basis_numerator x0 h i (n + 1) (x0 + h * (k : α)) = 0 := by
  unfold basis_numerator
  apply Finset.prod_eq_zero (Finset.mem_range.mpr (Nat.lt_succ_of_le hk))
  rw [if_neg (fun h' => hik h'.symm), sub_self]

theorem basis_numerator_self {α : Type} [Field α] (x0 h : α) (n k : Nat) (hk : k ≤ n) :
    basis_numerator x0 h k (n + 1) (x0 + h * (k : α)) = basis_denominator h n k (n + 1) := by
  unfold basis_numerator basis_denominator
  have h1 : (∏ j in Finset.range (n + 1),
      if j = k then 1 else (x0 + h * (k : α) - (x0 + h * (j : α)))) =
      ∏ j in Finset.range (n + 1), if j = k then 1 else h * ((k : α) - (j : α)) := by
    apply Finset.prod_congr rfl
    intro j _
    split
    · rfl
    · ring
  rw [h1, prod_ite_scale h (fun j => (k : α) - (j : α)) k (n + 1), if_pos (by omega),
    Nat.add_sub_cancel]

theorem basis_denominator_ne_zero {α : Type} [Field α] [CharZero α] (h : α) (n k m : Nat)
    (hh : h ≠ 0) : basis_denominator h n k m ≠ 0 := by
  unfold basis_denominator
  apply mul_ne_zero (pow_ne_zero _ hh)
  rw [Finset.prod_ne_zero_iff]
  intro j _
  split
  · exact one_ne_zero
  · rename_i hjk
    rw [sub_ne_zero]
    exact fun h' => hjk (Nat.cast_injective h').symm

theorem lagrange_knot_sum {α : Type} [Field α] [CharZero α] (x0 h : α) (n k : Nat)
    (y : Nat → α) (hh : h ≠ 0) (hk : k ≤ n) :
    ∑ i in Finset.range (n + 1),
      y i * basis_numerator x0 h i (n + 1) (x0 + h * (k : α)) /
        basis_denominator h n i (n + 1) = y k := by
  rw [Finset.sum_eq_single k]
  · rw [basis_numerator_self x0 h n k hk, mul_div_assoc,
      div_self (basis_denominator_ne_zero h n k (n + 1) hh), mul_one]
  · intro i _ hik
    rw [basis_numerator_other x0 h n i k hk hik, mul_zero, zero_div]
  · intro hk'
    exact absurd (Finset.mem_range.mpr (Nat.lt_succ_of_le hk)) hk'

theorem sample_values_spec {α : Type} [LinearOrderedField α] [FloorRing α] (f : α → α)
    (x0 x1 : α) (order : Nat) (hlt : x0 < x1) (hord : 1 ≤ order) :
    ∃ sf : sampled_function α,
      sample_values f x0 x1 ((x1 - x0) / (order : α)) = some (some sf) ∧
      sf.n_samples = order + 1 ∧
      sf.samples =
        (List.range (order + 1)).map fun i : Nat => f (x0 + (x1 - x0) / (order : α) * (i : α)) := by
  have hpos : (0 : α) < x1 - x0 := by linarith
  have hordpos : (0 : α) < (order : α) := by exact_mod_cast hord
  have hh : (x1 - x0) / (order : α) ≠ 0 := ne_of_gt (div_pos hpos hordpos)
  have hq : (x1 - x0) / ((x1 - x0) / (order : α)) = ((order : Int) : α) := by
    rw [div_div_cancel₀ (ne_of_gt hpos)]
    simp
  have hfloor : ⌊(x1 - x0) / ((x1 - x0) / (order : α))⌋ = (order : Int) := by
    rw [hq, Int.floor_intCast]
  have hnl : ((order : Int) + 1).toNat = order + 1 := by omega
  unfold sample_values
  rw [if_neg (not_le.mpr hlt), if_neg hh]
  simp only [hfloor]
  rw [if_neg (by omega)]
  exact ⟨_, rfl, hnl, by simp only [hnl]⟩

end lagrange_top

/-- C10. For every function `f`, `x0 < x1` and `order ≥ 1`, with `h = (x1 - x0) / order`,
`lagrange_interpolation` returns an interpolation `L` whose polynomial passes through every
knot: `polynomial_value (x0 + k * h) L = f (x0 + k * h)` for every `k` in `0..order`. -/
theorem C10_lagrange_passes_through_knots {α : Type} [LinearOrderedField α] [FloorRing α]
    (f : α → α) (x0 x1 : α) (order : Nat) (hlt : x0 < x1) (hord : 1 ≤ order) :
    ∃ L : interpolation α, lagrange_interpolation f x0 x1 order = some (some L) ∧
      ∀ k : Nat, k ≤ order →
        polynomial_value (x0 + (k : α) * ((x1 - x0) / (order : α))) L =
          some (f (x0 + (k : α) * ((x1 - x0) / (order : α)))) := by
  obtain ⟨sf, hsf, hn, hsamples⟩ := sample_values_spec f x0 x1 order hlt hord
  have hpos : (0 : α) < x1 - x0 := by linarith
  have hordpos : (0 : α) < (order : α) := by exact_mod_cast hord
  have hh : (x1 - x0) / (order : α) ≠ 0 := ne_of_gt (div_pos hpos hordpos)
  have hslen : sf.samples.length = order + 1 := by rw [hsamples]; simp
  obtain ⟨st, hst, hstlen, hstval⟩ :=
    lagrange_coefficients_spec x0 ((x1 - x0) / (order : α)) order sf.samples
      (List.replicate (sf.n_samples - 1 + 1) 0) (List.replicate (order + 1) 0) hslen
      (by rw [hn]; simp) (by simp)
  refine ⟨{ allocate_interpolation f x0 x1 (sf.n_samples - 1) with coefficients := st.1 },
    ?_, ?_⟩
  · unfold lagrange_interpolation
    rw [if_neg (not_le.mpr hlt), if_neg (by omega)]
    simp only [hsf, Option.some_bind]
    unfold allocate_interpolation
    simp only [hst, Option.map_some']
  · intro k hk
    have hord' : (allocate_interpolation f x0 x1 (sf.n_samples - 1)).order = order := by
      simp [allocate_interpolation, hn]
    rw [polynomial_value_spec _ _ (by simp only [hord']; exact hstlen)]
    simp only [hord']
    rw [mul_comm (k : α), hstval, lagrange_knot_sum x0 _ order k (fun i => sf.samples.getD i 0) hh hk]
    congr 1
    rw [hsamples]
    apply getD_of_getElem?
    rw [List.getElem?_map, List.getElem?_range (by omega)]
    rfl

/-- Witness of C10 over the rationals: `f x = 1 / (1 + x^2)` on `[-1, 2]` with order 4. -/
theorem C10_lagrange_passes_through_knots_witness :
    ∃ L : interpolation ℚ,
      lagrange_interpolation (fun x : ℚ => 1 / (1 + x ^ 2)) (-1) 2 4 = some (some L) ∧
      ∀ k : Nat, k ≤ 4 →
        polynomial_value (-1 + (k : ℚ) * ((2 - -1) / ((4 : Nat) : ℚ))) L =
          some ((fun x : ℚ => 1 / (1 + x ^ 2)) (-1 + (k : ℚ) * ((2 - -1) / ((4 : Nat) : ℚ)))) :=
  C10_lagrange_passes_through_knots (fun x : ℚ => 1 / (1 + x ^ 2)) (-1) 2 4 (by norm_num)
    (by norm_num)

/-! ## `sample_values` -/

section sampling

theorem sample_values_valid {α : Type} [LinearOrderedField α] [FloorRing α] (f : α → α)
    (start stop interval : α) (hlt : start < stop) (hpos : 0 < interval) :
    sample_values f start stop interval =
      some (some
        { start := start
          stop := start + ((⌊(stop - start) / interval⌋ + 1 : Int) : α) * interval
          sampling_interval := interval
          n_samples := (⌊(stop - start) / interval⌋ + 1).toNat
          samples := (List.range (⌊(stop - start) / interval⌋ + 1).toNat).map
            fun i : Nat => f (start + interval * (i : α)) }) := by
  have hq : 0 ≤ ⌊(stop - start) / interval⌋ :=
    Int.floor_nonneg.mpr (le_of_lt (div_pos (by linarith) hpos))
  unfold sample_values
  rw [if_neg (not_le.mpr hlt), if_neg (ne_of_gt hpos)]
  simp only
  rw [if_neg (by omega)]

end sampling

/-- C19, amended. In exact arithmetic (`long double` read as an ordered field),
`sample_values f start end interval` yields no result when `start ≥ end`; for
`start < end` and `interval > 0` it returns `n = ⌊(end - start) / interval⌋ + 1` samples with
`samples[i] = f (start + i * interval)` for every `i < n`, records `start`, `interval` and
`n`, and every sample abscissa lies in `[start, end]`. -/
theorem C19_sample_values_grid {α : Type} [LinearOrderedField α] [FloorRing α] (f : α → α)
    (start stop interval : α) :
    (start ≥ stop → sample_values f start stop interval = some none) ∧
    (start < stop → 0 < interval →
      ∃ sf : sampled_function α, sample_values f start stop interval = some (some sf) ∧
        (sf.n_samples : Int) = ⌊(stop - start) / interval⌋ + 1 ∧
        sf.samples.length = sf.n_samples ∧ sf.start = start ∧
        sf.sampling_interval = interval ∧
        ∀ i : Nat, i < sf.n_samples →
          sf.samples[i]? = some (f (start + (i : α) * interval)) ∧
          start ≤ start + (i : α) * interval ∧ start + (i : α) * interval ≤ stop) := by
  constructor
  · intro h
    unfold sample_values
    rw [if_pos h]
  · intro hlt hpos
    have hq : 0 ≤ ⌊(stop - start) / interval⌋ :=
      Int.floor_nonneg.mpr (le_of_lt (div_pos (by linarith) hpos))
    refine ⟨_, sample_values_valid f start stop interval hlt hpos, ?_, ?_, rfl, rfl, ?_⟩
    · show (((⌊(stop - start) / interval⌋ + 1).toNat : Nat) : Int) = _
      omega
    · simp
    · intro i hi
      have hi' : i < (⌊(stop - start) / interval⌋ + 1).toNat := hi
      refine ⟨?_, ?_, ?_⟩
      · show ((List.range (⌊(stop - start) / interval⌋ + 1).toNat).map
            fun i : Nat => f (start + interval * (i : α)))[i]? = _
        rw [List.getElem?_map, List.getElem?_range hi', mul_comm]
        rfl
      · have : 0 ≤ (i : α) * interval := mul_nonneg (Nat.cast_nonneg i) (le_of_lt hpos)
        linarith
      · have h1 : (i : Int) ≤ ⌊(stop - start) / interval⌋ := by omega
        have h2 : ((i : Int) : α) ≤ (stop - start) / interval := Int.le_floor.mp h1
        have h3 : (i : α) ≤ (stop - start) / interval := by exact_mod_cast h2
        have h4 : (i : α) * interval ≤ stop - start := (le_div_iff₀ hpos).mp h3
        linarith

/-- Witness of the amended C19 over the rationals: the identity sampled on `[0, 1]` every `1/3`, and the
empty range `[1, 0]`. -/
theorem C19_sample_values_grid_witness :
    sample_values (fun x : ℚ => x) 1 0 (1 / 3) = some none ∧
    ∃ sf : sampled_function ℚ, sample_values (fun x : ℚ => x) 0 1 (1 / 3) = some (some sf) ∧
      (sf.n_samples : Int) = ⌊((1 : ℚ) - 0) / (1 / 3)⌋ + 1 ∧
      sf.samples.length = sf.n_samples ∧ sf.start = 0 ∧
      sf.sampling_interval = 1 / 3 ∧
      ∀ i : Nat, i < sf.n_samples →
        sf.samples[i]? = some ((fun x : ℚ => x) (0 + (i : ℚ) * (1 / 3))) ∧
        (0 : ℚ) ≤ 0 + (i : ℚ) * (1 / 3) ∧ 0 + (i : ℚ) * (1 / 3) ≤ 1 :=
  ⟨(C19_sample_values_grid (fun x : ℚ => x) 1 0 (1 / 3)).1 (by norm_num),
   (C19_sample_values_grid (fun x : ℚ => x) 0 1 (1 / 3)).2 (by norm_num) (by norm_num)⟩

/-- C20, amended. In exact arithmetic (`long double` read as an ordered field), for every
`start < end` and `interval > 0`, the `end` recorded by
`sample_values` equals `start + n * interval` (`n` the sample count) and exceeds the requested
end by more than zero and by at most one interval: `0 < recorded_end - end ≤ interval`. -/
theorem C20_recorded_end_bounds {α : Type} [LinearOrderedField α] [FloorRing α] (f : α → α)
    (start stop interval : α) (hlt : start < stop) (hpos : 0 < interval) :
    ∃ sf : sampled_function α, sample_values f start stop interval = some (some sf) ∧
      sf.stop = start + (sf.n_samples : α) * interval ∧
      0 < sf.stop - stop ∧ sf.stop - stop ≤ interval := by
  have hq : 0 ≤ ⌊(stop - start) / interval⌋ :=
    Int.floor_nonneg.mpr (le_of_lt (div_pos (by linarith) hpos))
  have hcast : (((⌊(stop - start) / interval⌋ + 1).toNat : Nat) : α) =
      ((⌊(stop - start) / interval⌋ + 1 : Int) : α) := by
    have : (((⌊(stop - start) / interval⌋ + 1).toNat : Nat) : Int) =
        ⌊(stop - start) / interval⌋ + 1 := by omega
    exact_mod_cast congrArg (fun z : Int => (z : α)) this
  have hfl : ((⌊(stop - start) / interval⌋ : Int) : α) ≤ (stop - start) / interval :=
    Int.floor_le _
  have hfl' : (stop - start) / interval < ((⌊(stop - start) / interval⌋ : Int) : α) + 1 :=
    Int.lt_floor_add_one _
  have h1 : ((⌊(stop - start) / interval⌋ : Int) : α) * interval ≤ stop - start :=
    (le_div_iff₀ hpos).mp hfl
  have h2 : stop - start < (((⌊(stop - start) / interval⌋ : Int) : α) + 1) * interval :=
    (div_lt_iff₀ hpos).mp hfl'
  refine ⟨_, sample_values_valid f start stop interval hlt hpos, ?_, ?_, ?_⟩
  · show start + ((⌊(stop - start) / interval⌋ + 1 : Int) : α) * interval =
      start + (((⌊(stop - start) / interval⌋ + 1).toNat : Nat) : α) * interval
    rw [hcast]
  · show 0 < start + ((⌊(stop - start) / interval⌋ + 1 : Int) : α) * interval - stop
    push_cast
    linarith
  · show start + ((⌊(stop - start) / interval⌋ + 1 : Int) : α) * interval - stop ≤ interval
    push_cast
    linarith

/-- Witness of C20 (amended) over the rationals: `[0, 1]` sampled every `1/3`. -/
theorem C20_recorded_end_bounds_witness :
    ∃ sf : sampled_function ℚ, sample_values (fun x : ℚ => x) 0 1 (1 / 3) = some (some sf) ∧
      sf.stop = 0 + (sf.n_samples : ℚ) * (1 / 3) ∧
      0 < sf.stop - 1 ∧ sf.stop - 1 ≤ 1 / 3 :=
  C20_recorded_end_bounds (fun x : ℚ => x) 0 1 (1 / 3) (by norm_num) (by norm_num)

section lagrange_exact

theorem lagrange_interpolation_spec {α : Type} [LinearOrderedField α] [FloorRing α]
    (f : α → α) (x0 x1 : α) (order : Nat) (hlt : x0 < x1) (hord : 1 ≤ order) :
    ∃ L : interpolation α, lagrange_interpolation f x0 x1 order = some (some L) ∧
      L.order = order ∧ L.coefficients.length = order + 1 ∧
      (∀ x, polynomial_value x L = some (peval L.coefficients order x)) ∧
      ∀ k : Nat, k ≤ order →
        peval L.coefficients order (x0 + (x1 - x0) / (order : α) * (k : α)) =
          f (x0 + (x1 - x0) / (order : α) * (k : α)) := by
  obtain ⟨sf, hsf, hn, hsamples⟩ := sample_values_spec f x0 x1 order hlt hord
  have hpos : (0 : α) < x1 - x0 := by linarith
  have hordpos : (0 : α) < (order : α) := by exact_mod_cast hord
  have hh : (x1 - x0) / (order : α) ≠ 0 := ne_of_gt (div_pos hpos hordpos)
  have hslen : sf.samples.length = order + 1 := by rw [hsamples]; simp
  obtain ⟨st, hst, hstlen, hstval⟩ :=
    lagrange_coefficients_spec x0 ((x1 - x0) / (order : α)) order sf.samples
      (List.replicate (sf.n_samples - 1 + 1) 0) (List.replicate (order + 1) 0) hslen
      (by rw [hn]; simp) (by simp)
  have hord' : (allocate_interpolation f x0 x1 (sf.n_samples - 1)).order = order := by
    simp [allocate_interpolation, hn]
  refine ⟨{ allocate_interpolation f x0 x1 (sf.n_samples - 1) with coefficients := st.1 },
    ?_, hord', hstlen, ?_, ?_⟩
  · unfold lagrange_interpolation
    rw [if_neg (not_le.mpr hlt), if_neg (by omega)]
    simp only [hsf, Option.some_bind]
    unfold allocate_interpolation
    simp only [hst, Option.map_some']
  · intro x
    rw [polynomial_value_spec _ _ (by simp only [hord']; exact hstlen)]
    simp only [hord']
  · intro k hk
    show peval st.1 order _ = _
    rw [hstval, lagrange_knot_sum x0 _ order k (fun i => sf.samples.getD i 0) hh hk]
    rw [hsamples]
    apply getD_of_getElem?
    rw [List.getElem?_map, List.getElem?_range (by omega)]
    rfl

theorem peval_eq_eval {α : Type} [Field α] (cs : List α) (n : Nat) (x : α) :
    peval cs n x =
      (∑ k in Finset.range (n + 1),
        Polynomial.C (cs.getD k 0) * Polynomial.X ^ k : Polynomial α).eval x := by
  unfold peval
  rw [Polynomial.eval_finset_sum]
  apply Finset.sum_congr rfl
  intro k _
  simp

theorem coeff_of_list {α : Type} [Field α] (cs : List α) (n j : Nat) :
    (∑ k in Finset.range (n + 1),
        Polynomial.C (cs.getD k 0) * Polynomial.X ^ k : Polynomial α).coeff j =
      if j < n + 1 then cs.getD j 0 else 0 := by
  rw [Polynomial.finset_sum_coeff]
  simp only [Polynomial.coeff_C_mul_X_pow]
  rw [Finset.sum_ite_eq (Finset.range (n + 1)) j (fun k => cs.getD k 0)]
  simp only [Finset.mem_range]

theorem knots_card {α : Type} [LinearOrderedField α] (x0 h : α) (n : Nat) (hh : h ≠ 0) :
    ((Finset.range (n + 1)).image fun k : Nat => x0 + h * (k : α)).card = n + 1 := by
  rw [Finset.card_image_of_injective, Finset.card_range]
  intro a b hab
  have h1 : h * (a : α) = h * (b : α) := add_left_cancel hab
  exact Nat.cast_injective (mul_left_cancel₀ hh h1)

end lagrange_exact

/-- C11. If `f` is a polynomial of degree `d ≤ order` (`order ≥ 1`, `x0 < x1`), the
coefficient vector produced by `lagrange_interpolation` is the vector of the monomial
coefficients of `f` (`coefficients[j]` is the coefficient of `x^j`, zero for `j > d`), and
`polynomial_value` agrees with `f` at every `x`. -/
theorem C11_lagrange_exact_on_polynomials {α : Type} [LinearOrderedField α] [FloorRing α]
    (p : Polynomial α) (x0 x1 : α) (order : Nat) (hlt : x0 < x1) (hord : 1 ≤ order)
    (hdeg : p.natDegree ≤ order) :
    ∃ L : interpolation α,
      lagrange_interpolation (fun x => p.eval x) x0 x1 order = some (some L) ∧
      L.coefficients.length = order + 1 ∧
      (∀ j, j ≤ order → L.coefficients[j]? = some (p.coeff j)) ∧
      (∀ j, p.natDegree < j → j ≤ order → L.coefficients[j]? = some 0) ∧
      ∀ x, polynomial_value x L = some (p.eval x) := by
  obtain ⟨L, hL, _, hlen, hval, hknots⟩ :=
    lagrange_interpolation_spec (fun x => p.eval x) x0 x1 order hlt hord
  have hpos : (0 : α) < x1 - x0 := by linarith
  have hordpos : (0 : α) < (order : α) := by exact_mod_cast hord
  have hh : (x1 - x0) / (order : α) ≠ 0 := ne_of_gt (div_pos hpos hordpos)
  have hcard := knots_card x0 ((x1 - x0) / (order : α)) order hh
  have hq : (∑ k in Finset.range (order + 1),
      Polynomial.C (L.coefficients.getD k 0) * Polynomial.X ^ k : Polynomial α) = p := by
    apply Polynomial.eq_of_degrees_lt_of_eval_finset_eq
      ((Finset.range (order + 1)).image fun k : Nat => x0 + (x1 - x0) / (order : α) * (k : α))
    · rw [hcard, Polynomial.degree_lt_iff_coeff_zero]
      intro m hm
      rw [coeff_of_list, if_neg (by omega)]
    · rw [hcard]
      apply lt_of_le_of_lt Polynomial.degree_le_natDegree
      exact_mod_cast Nat.lt_succ_of_le hdeg
    · intro x hx
      obtain ⟨k, hk, rfl⟩ := Finset.mem_image.mp hx
      rw [← peval_eq_eval]
      exact hknots k (by have := Finset.mem_range.mp hk; omega)
  have hcoeff : ∀ j, j ≤ order → L.coefficients[j]? = some (p.coeff j) := by
    intro j hj
    rw [getElem?_getD L.coefficients j (by omega), ← hq, coeff_of_list, if_pos (by omega)]
  refine ⟨L, hL, hlen, hcoeff, ?_, ?_⟩
  · intro j hj hjo
    rw [hcoeff j hjo, Polynomial.coeff_eq_zero_of_natDegree_lt hj]
  · intro x
    rw [hval x, peval_eq_eval, hq]

/-- Witness of C11 over the rationals: the polynomial `X^2 + 1` on `[0, 1]` with order 3. -/
theorem C11_lagrange_exact_on_polynomials_witness :
    ∃ L : interpolation ℚ,
      lagrange_interpolation (fun x => (Polynomial.X ^ 2 + 1 : Polynomial ℚ).eval x) 0 1 3 =
        some (some L) ∧
      L.coefficients.length = 3 + 1 ∧
      (∀ j, j ≤ 3 → L.coefficients[j]? = some ((Polynomial.X ^ 2 + 1 : Polynomial ℚ).coeff j)) ∧
      (∀ j, (Polynomial.X ^ 2 + 1 : Polynomial ℚ).natDegree < j → j ≤ 3 →
        L.coefficients[j]? = some 0) ∧
      ∀ x, polynomial_value x L = some ((Polynomial.X ^ 2 + 1 : Polynomial ℚ).eval x) :=
  C11_lagrange_exact_on_polynomials (Polynomial.X ^ 2 + 1) 0 1 3 (by norm_num) (by norm_num)
    (by
      have h : (Polynomial.X ^ 2 + 1 : Polynomial ℚ).natDegree ≤ 2 := by
        apply Polynomial.natDegree_add_le_of_degree_le
        · exact Polynomial.natDegree_X_pow_le 2
        · simp
      omega)

section newton_run
variable {α κ : Type} [LinearOrderedField α]

theorem newton_after_zero (f f' : α → α) (x0 : α) : newton_after f f' x0 0 = newtons_init x0 := by
  simp [newton_after, newtons_init, recorded_error, newton_seq]

theorem newton_after_succ (f f' : α → α) (x0 : α) (i : Nat) :
    newton_after f f' x0 (i + 1) =
      { x0 := newton_seq f f' x0 (i + 1), value := newton_seq f f' x0 (i + 1),
        error := rel_step f f' x0 i, errors0 := (newton_after f f' x0 i).errors1,
        errors1 := (newton_after f f' x0 i).errors2, errors2 := rel_step f f' x0 i,
        iterations := i + 1 } := by
  simp [newton_after, recorded_error]

theorem newtons_round_after (F D : function α κ) (tol x0 : α) (i : Nat)
    (hd : D.eval (newton_seq F.eval D.eval x0 i) ≠ 0)
    (hv : newton_seq F.eval D.eval x0 (i + 1) ≠ 0) :
    newtons_round F D tol (newton_after F.eval D.eval x0 i) =
      if rel_step F.eval D.eval x0 i < tol then
        some (true, { newton_after F.eval D.eval x0 i with
          value := newton_seq F.eval D.eval x0 (i + 1), error := rel_step F.eval D.eval x0 i })
      else
        some (false, { newton_after F.eval D.eval x0 (i + 1) with iterations := i }) := by
  have hd' : ¬ D.f (newton_seq F.eval D.eval x0 i) D.arg = 0 := hd
  have hv' : ¬ newton_seq F.eval D.eval x0 i -
      F.f (newton_seq F.eval D.eval x0 i) F.arg / D.f (newton_seq F.eval D.eval x0 i) D.arg = 0 := hv
  rw [newton_after_succ]
  unfold newtons_round
  simp only [newton_after, if_neg hd', if_neg hv']
  rfl

theorem newtons_loop_after (F D : function α κ) (tol x0 : α) :
    ∀ (i todo : Nat),
      (∀ j, j < i → D.eval (newton_seq F.eval D.eval x0 j) ≠ 0 ∧
        newton_seq F.eval D.eval x0 (j + 1) ≠ 0 ∧ ¬ rel_step F.eval D.eval x0 j < tol) →
      newtons_loop F D tol (todo + i) (newtons_init x0) =
        newtons_loop F D tol todo (newton_after F.eval D.eval x0 i) := by
  intro i
  induction i with
  | zero => intro todo _; rw [newton_after_zero]; rfl
  | succ i ih =>
    intro todo h
    have hi := h i (Nat.lt_succ_self i)
    have e : todo + (i + 1) = (todo + 1) + i := by omega
    rw [e, ih (todo + 1) (fun j hj => h j (Nat.lt_succ_of_lt hj))]
    show (match newtons_round F D tol (newton_after F.eval D.eval x0 i) with
      | none => none
      | some (true, s') => some s'
      | some (false, s') => newtons_loop F D tol todo { s' with iterations := s'.iterations + 1 }) = _
    rw [newtons_round_after F D tol x0 i hi.1 hi.2.1, if_neg hi.2.2]
    rfl

theorem newtons_run_break (F D : function α κ) (tol x0 : α) (max_iterations n : Nat)
    (hn : n < max_iterations)
    (hreg : ∀ j, j ≤ n → D.eval (newton_seq F.eval D.eval x0 j) ≠ 0 ∧
      newton_seq F.eval D.eval x0 (j + 1) ≠ 0)
    (hno : ∀ j, j < n → ¬ rel_step F.eval D.eval x0 j < tol)
    (hyes : rel_step F.eval D.eval x0 n < tol) :
    newtons_run F D x0 max_iterations tol =
      some { newton_after F.eval D.eval x0 n with
        value := newton_seq F.eval D.eval x0 (n + 1), error := rel_step F.eval D.eval x0 n } := by
  unfold newtons_run
  have e : max_iterations = (max_iterations - n - 1 + 1) + n := by omega
  rw [e, newtons_loop_after F D tol x0 n _
    (fun j hj => ⟨(hreg j (le_of_lt hj)).1, (hreg j (le_of_lt hj)).2, hno j hj⟩)]
  show (match newtons_round F D tol (newton_after F.eval D.eval x0 n) with
      | none => none
      | some (true, s') => some s'
      | some (false, s') => newtons_loop F D tol _ { s' with iterations := s'.iterations + 1 }) = _
  rw [newtons_round_after F D tol x0 n (hreg n (le_refl n)).1 (hreg n (le_refl n)).2, if_pos hyes]

theorem newtons_run_exhaust (F D : function α κ) (tol x0 : α) (max_iterations : Nat)
    (h : ∀ j, j < max_iterations → D.eval (newton_seq F.eval D.eval x0 j) ≠ 0 ∧
        newton_seq F.eval D.eval x0 (j + 1) ≠ 0 ∧ ¬ rel_step F.eval D.eval x0 j < tol) :
    newtons_run F D x0 max_iterations tol =
      some (newton_after F.eval D.eval x0 max_iterations) := by
  unfold newtons_run
  have e := newtons_loop_after F D tol x0 max_iterations 0 h
  rw [Nat.zero_add] at e
  rw [e]
  rfl

end newton_run

/-- C15. For `max_iterations ≥ 1`, `newtons_method` follows the Newton sequence
`x_{n+1} = x_n - f(x_n) / f'(x_n)` from `x_0`. If `n < max_iterations` is the first index
whose relative step `|(x_{n+1} - x_n) / x_{n+1}|` is below the tolerance, it returns
`iterations = n`, `value = x_{n+1}` and half that relative step as the error; if no step
below `max_iterations` meets the tolerance, it returns `iterations = max_iterations`,
`value = x_{max_iterations}` and half the relative step of the last step computed. (No step
up to the stopping index divides by zero.) -/
theorem C15_newton_iteration {α κ : Type} [LinearOrderedField α] [FloorRing α]
    (logl : α → α) (F D : function α κ) (x0 tolerance : α) (max_iterations : Nat)
    (hmax : 1 ≤ max_iterations) :
    (∀ n, n < max_iterations →
      (∀ j, j ≤ n → D.eval (newton_seq F.eval D.eval x0 j) ≠ 0 ∧
        newton_seq F.eval D.eval x0 (j + 1) ≠ 0) →
      (∀ j, j < n → ¬ rel_step F.eval D.eval x0 j < tolerance) →
      rel_step F.eval D.eval x0 n < tolerance →
      ∃ r, newtons_method logl F D x0 max_iterations tolerance = some r ∧
        r.iterations = n ∧ r.value = some (newton_seq F.eval D.eval x0 (n + 1)) ∧
        r.error = some (rel_step F.eval D.eval x0 n / 2)) ∧
    ((∀ j, j < max_iterations → D.eval (newton_seq F.eval D.eval x0 j) ≠ 0 ∧
        newton_seq F.eval D.eval x0 (j + 1) ≠ 0 ∧ ¬ rel_step F.eval D.eval x0 j < tolerance) →
      ∃ r, newtons_method logl F D x0 max_iterations tolerance = some r ∧
        r.iterations = max_iterations ∧
        r.value = some (newton_seq F.eval D.eval x0 max_iterations) ∧
        r.error = some (rel_step F.eval D.eval x0 (max_iterations - 1) / 2)) := by
  have hne : ¬ max_iterations = 0 := by omega
  constructor
  · intro n hn hreg hno hyes
    refine ⟨newtons_result logl { newton_after F.eval D.eval x0 n with
      value := newton_seq F.eval D.eval x0 (n + 1), error := rel_step F.eval D.eval x0 n },
      ?_, ?_⟩
    · unfold newtons_method
      rw [if_neg hne, newtons_run_break F D tolerance x0 max_iterations n hn hreg hno hyes]
      rfl
    · exact ⟨rfl, rfl, rfl⟩
  · intro h
    refine ⟨newtons_result logl (newton_after F.eval D.eval x0 max_iterations), ?_, ?_⟩
    · unfold newtons_method
      rw [if_neg hne, newtons_run_exhaust F D tolerance x0 max_iterations h]
      rfl
    · refine ⟨rfl, ?_, ?_⟩
      · show some (if max_iterations = 0 then 0 else _) = _
        rw [if_neg hne]
      · show some ((if max_iterations = 0 then 0 else _) / 2) = _
        rw [if_neg hne]

/-- Witness of C15 over the rationals: Newton's method for `x * x - 2` from `1` with
tolerance `1 / 100` stops at index `2` when at most five rounds are allowed, and uses both
rounds when at most two are allowed. -/
theorem C15_newton_iteration_witness :
    (∃ r, newtons_method (fun _ : ℚ => 0) (⟨fun x _ => x * x - 2, ()⟩ : function ℚ Unit)
        ⟨fun x _ => 2 * x, ()⟩ 1 5 (1 / 100) = some r ∧
      r.iterations = 2 ∧
      r.value = some (newton_seq (function.eval (⟨fun x _ => x * x - 2, ()⟩ : function ℚ Unit))
        (function.eval (⟨fun x _ => 2 * x, ()⟩ : function ℚ Unit)) 1 (2 + 1)) ∧
      r.error = some (rel_step (function.eval (⟨fun x _ => x * x - 2, ()⟩ : function ℚ Unit))
        (function.eval (⟨fun x _ => 2 * x, ()⟩ : function ℚ Unit)) 1 2 / 2)) ∧
    (∃ r, newtons_method (fun _ : ℚ => 0) (⟨fun x _ => x * x - 2, ()⟩ : function ℚ Unit)
        ⟨fun x _ => 2 * x, ()⟩ 1 2 (1 / 100) = some r ∧
      r.iterations = 2 ∧
      r.value = some (newton_seq (function.eval (⟨fun x _ => x * x - 2, ()⟩ : function ℚ Unit))
        (function.eval (⟨fun x _ => 2 * x, ()⟩ : function ℚ Unit)) 1 2) ∧
      r.error = some (rel_step (function.eval (⟨fun x _ => x * x - 2, ()⟩ : function ℚ Unit))
        (function.eval (⟨fun x _ => 2 * x, ()⟩ : function ℚ Unit)) 1 (2 - 1) / 2)) :=
  ⟨(C15_newton_iteration (fun _ : ℚ => 0) (⟨fun x _ => x * x - 2, ()⟩ : function ℚ Unit)
      ⟨fun x _ => 2 * x, ()⟩ 1 (1 / 100) 5 (by norm_num)).1 2 (by norm_num)
      (by
        intro j hj
        interval_cases j <;> norm_num [newton_seq, function.eval])
      (by
        intro j hj
        interval_cases j <;> norm_num [newton_seq, rel_step, function.eval, abs_of_nonneg])
      (by norm_num [newton_seq, rel_step, function.eval, abs_of_nonneg]),
   (C15_newton_iteration (fun _ : ℚ => 0) (⟨fun x _ => x * x - 2, ()⟩ : function ℚ Unit)
      ⟨fun x _ => 2 * x, ()⟩ 1 (1 / 100) 2 (by norm_num)).2
      (by
        intro j hj
        interval_cases j <;> norm_num [newton_seq, rel_step, function.eval, abs_of_nonneg])⟩

section newton_converse
variable {α κ : Type} [LinearOrderedField α]

theorem newtons_round_after_cases (F D : function α κ) (tol x0 : α) (i : Nat) :
    newtons_round F D tol (newton_after F.eval D.eval x0 i) =
      if D.eval (newton_seq F.eval D.eval x0 i) = 0 then none
      else if newton_seq F.eval D.eval x0 (i + 1) = 0 then none
      else if rel_step F.eval D.eval x0 i < tol then
        some (true, { newton_after F.eval D.eval x0 i with
          value := newton_seq F.eval D.eval x0 (i + 1), error := rel_step F.eval D.eval x0 i })
      else
        some (false, { newton_after F.eval D.eval x0 (i + 1) with iterations := i }) := by
  by_cases hd : D.eval (newton_seq F.eval D.eval x0 i) = 0
  · rw [if_pos hd]
    unfold newtons_round
    exact if_pos hd
  · rw [if_neg hd]
    by_cases hv : newton_seq F.eval D.eval x0 (i + 1) = 0
    · rw [if_pos hv]
      unfold newtons_round
      exact (if_neg hd).trans (if_pos hv)
    · rw [if_neg hv]
      exact newtons_round_after F D tol x0 i hd hv

theorem newtons_loop_some (F D : function α κ) (tol x0 : α) :
    ∀ (todo i : Nat) (s : newton_state α),
      newtons_loop F D tol todo (newton_after F.eval D.eval x0 i) = some s →
      s = newton_after F.eval D.eval x0 (i + todo) ∨
      ∃ n, i ≤ n ∧ n < i + todo ∧ rel_step F.eval D.eval x0 n < tol ∧
        s = { newton_after F.eval D.eval x0 n with
          value := newton_seq F.eval D.eval x0 (n + 1), error := rel_step F.eval D.eval x0 n } := by
  intro todo
  induction todo with
  | zero =>
    intro i s h
    left
    exact (Option.some.inj h).symm
  | succ todo ih =>
    intro i s h
    have h' : (match newtons_round F D tol (newton_after F.eval D.eval x0 i) with
      | none => none
      | some (true, s') => some s'
      | some (false, s') =>
        newtons_loop F D tol todo { s' with iterations := s'.iterations + 1 }) = some s := h
    rw [newtons_round_after_cases] at h'
    by_cases hd : D.eval (newton_seq F.eval D.eval x0 i) = 0
    · rw [if_pos hd] at h'; exact absurd h' (by simp)
    · rw [if_neg hd] at h'
      by_cases hv : newton_seq F.eval D.eval x0 (i + 1) = 0
      · rw [if_pos hv] at h'; exact absurd h' (by simp)
      · rw [if_neg hv] at h'
        by_cases ht : rel_step F.eval D.eval x0 i < tol
        · rw [if_pos ht] at h'
          right
          exact ⟨i, le_refl i, by omega, ht, (Option.some.inj h').symm⟩
        · rw [if_neg ht] at h'
          have h2 : newtons_loop F D tol todo (newton_after F.eval D.eval x0 (i + 1)) = some s := h'
          rcases ih (i + 1) s h2 with hs | ⟨n, h1, h3, h4, h5⟩
          · left
            rw [hs]
            congr 1
            omega
          · right
            exact ⟨n, by omega, by omega, h4, h5⟩

theorem newtons_run_some (F D : function α κ) (tol x0 : α) (max_iterations : Nat)
    (s : newton_state α) (h : newtons_run F D x0 max_iterations tol = some s) :
    s = newton_after F.eval D.eval x0 max_iterations ∨
    ∃ n, n < max_iterations ∧ rel_step F.eval D.eval x0 n < tol ∧
      s = { newton_after F.eval D.eval x0 n with
        value := newton_seq F.eval D.eval x0 (n + 1), error := rel_step F.eval D.eval x0 n } := by
  unfold newtons_run at h
  rw [← newton_after_zero F.eval D.eval x0] at h
  rcases newtons_loop_some F D tol x0 max_iterations 0 s h with hs | ⟨n, _, h3, h4, h5⟩
  · left
    rw [hs, Nat.zero_add]
  · right
    exact ⟨n, by omega, h4, h5⟩

theorem recorded_error_last (f f' : α → α) (x0 : α) (n : Nat) (hn : 3 ≤ n) :
    recorded_error f f' x0 n 0 = rel_step f f' x0 (n - 3) ∧
    recorded_error f f' x0 n 1 = rel_step f f' x0 (n - 2) ∧
    recorded_error f f' x0 n 2 = rel_step f f' x0 (n - 1) := by
  unfold recorded_error
  rw [if_pos (by omega), if_pos (by omega), if_pos (by omega)]
  refine ⟨?_, ?_, ?_⟩ <;> congr 1

end newton_converse

theorem shrinking_run :
    newtons_run shrinking_steps unit_slope 1 10 (1 / 16) =
      some { newton_after shrinking_steps.eval unit_slope.eval 1 3 with
        value := newton_seq shrinking_steps.eval unit_slope.eval 1 (3 + 1),
        error := rel_step shrinking_steps.eval unit_slope.eval 1 3 } := by
  apply newtons_run_break shrinking_steps unit_slope (1 / 16) 1 10 3 (by norm_num)
  · intro j hj
    interval_cases j <;>
      norm_num [newton_seq, function.eval, shrinking_steps, unit_slope]
  · intro j hj
    interval_cases j <;>
      norm_num [newton_seq, rel_step, function.eval, shrinking_steps, unit_slope, abs_of_nonneg]
  · norm_num [newton_seq, rel_step, function.eval, shrinking_steps, unit_slope, abs_of_nonneg]

theorem shrinking_rel_steps :
    rel_step shrinking_steps.eval unit_slope.eval 1 0 = 1 / 2 ∧
    rel_step shrinking_steps.eval unit_slope.eval 1 1 = 1 / 4 ∧
    rel_step shrinking_steps.eval unit_slope.eval 1 2 = 1 / 8 ∧
    rel_step shrinking_steps.eval unit_slope.eval 1 3 = 1 / 32 := by
  refine ⟨?_, ?_, ?_, ?_⟩ <;>
    norm_num [newton_seq, rel_step, function.eval, shrinking_steps, unit_slope, abs_of_nonneg]

theorem shrinking_method (logl : ℚ → ℚ) :
    newtons_method logl shrinking_steps unit_slope 1 10 (1 / 16) =
      some (newtons_result logl
        { newton_after shrinking_steps.eval unit_slope.eval 1 3 with
          value := newton_seq shrinking_steps.eval unit_slope.eval 1 (3 + 1),
          error := rel_step shrinking_steps.eval unit_slope.eval 1 3 }) := by
  unfold newtons_method
  rw [if_neg (by norm_num), shrinking_run]
  rfl

/-- C16, counterexample. With the routine `shrinking_steps`, derivative `1`, start `1`, at
most ten rounds and tolerance `1/16`, `newtons_method` stops at index `3`. The last three
relative errors it computed are `1/4`, `1/8`, `1/32` (the reported error is `1/64`, half of
the last one), whose order estimate is `2`; the reported `convergence_rate` is `1`, the
estimate of `1/2`, `1/4`, `1/8`. -/
theorem C16_rate_ignores_final_error :
    ∃ r, newtons_method log2_on_powers shrinking_steps unit_slope 1 10 (1 / 16) = some r ∧
      r.iterations = 3 ∧ r.error = some (1 / 64) ∧ r.convergence_rate = some 1 ∧
      rel_step shrinking_steps.eval unit_slope.eval 1 1 = 1 / 4 ∧
      rel_step shrinking_steps.eval unit_slope.eval 1 2 = 1 / 8 ∧
      rel_step shrinking_steps.eval unit_slope.eval 1 3 = 1 / 32 ∧
      to_unsigned_char (order_estimate log2_on_powers
        (rel_step shrinking_steps.eval unit_slope.eval 1 1)
        (rel_step shrinking_steps.eval unit_slope.eval 1 2)
        (rel_step shrinking_steps.eval unit_slope.eval 1 3)) = some 2 := by
  obtain ⟨h0, h1, h2, h3⟩ := shrinking_rel_steps
  have hfl1 : ⌊(1 : ℚ)⌋ = 1 := Int.floor_one
  have hfl2 : ⌊(2 : ℚ)⌋ = 2 := by exact_mod_cast Int.floor_intCast (2 : Int)
  have hr1 : ⌊(1 : ℚ) + 1 / 2⌋ = 1 := by
    rw [Int.floor_eq_iff]; norm_num
  have hr2 : ⌊(2 : ℚ) + 1 / 2⌋ = 2 := by
    rw [Int.floor_eq_iff]; norm_num
  refine ⟨_, shrinking_method log2_on_powers, ?_, ?_, ?_, h1, h2, h3, ?_⟩
  · rfl
  · show some (rel_step shrinking_steps.eval unit_slope.eval 1 3 / 2) = _
    rw [h3]; norm_num
  · show convergence_rate log2_on_powers 3 (recorded_error _ _ 1 3 0) (recorded_error _ _ 1 3 1)
      (recorded_error _ _ 1 3 2) = _
    simp only [recorded_error]
    norm_num [h0, h1, h2, convergence_rate, order_estimate, extended.div, extended.logl,
      extended.roundl, roundl, to_unsigned_char, log2_on_powers, hr1, hfl1]
  · rw [h1, h2, h3]
    norm_num [order_estimate, extended.div, extended.logl,
      extended.roundl, roundl, to_unsigned_char, log2_on_powers, hr2, hfl2]

/-- C16, amended. Whenever `newtons_method` returns a result, its `convergence_rate` is
undefined when `iterations < 3`, and otherwise it is the `unsigned char` value of
`round(log(e2/e1)/log(e1/e0))` where `e0`, `e1`, `e2` are the relative steps of the rounds
`iterations - 3`, `iterations - 2`, `iterations - 1`: the last three rounds that did not
meet the tolerance. The reported error is half of `e2` when all `max_iterations` rounds
were made; after an early stop it is half the relative step of round `iterations`, which is
not among `e0`, `e1`, `e2`. -/
theorem C16_rate_of_recorded_errors {α κ : Type} [LinearOrderedField α] [FloorRing α]
    (logl : α → α) (F D : function α κ) (x0 tolerance : α) (max_iterations : Nat)
    (r : result α) (hr : newtons_method logl F D x0 max_iterations tolerance = some r) :
    (r.iterations < 3 → r.convergence_rate = none) ∧
    (3 ≤ r.iterations → r.convergence_rate = to_unsigned_char (order_estimate logl
        (rel_step F.eval D.eval x0 (r.iterations - 3))
        (rel_step F.eval D.eval x0 (r.iterations - 2))
        (rel_step F.eval D.eval x0 (r.iterations - 1)))) ∧
    r.iterations ≤ max_iterations ∧
    (r.iterations = max_iterations →
      r.error = some (rel_step F.eval D.eval x0 (r.iterations - 1) / 2)) ∧
    (r.iterations < max_iterations →
      r.error = some (rel_step F.eval D.eval x0 r.iterations / 2)) := by
  unfold newtons_method at hr
  by_cases hmax : max_iterations = 0
  · rw [if_pos hmax] at hr; exact absurd hr (by simp)
  rw [if_neg hmax] at hr
  cases hrun : newtons_run F D x0 max_iterations tolerance with
  | none => rw [hrun] at hr; exact absurd hr (by simp)
  | some s =>
    rw [hrun] at hr
    have hrs : r = newtons_result logl s := (Option.some.inj hr).symm
    have hrate : (r.iterations < 3 → r.convergence_rate = none) ∧
        (3 ≤ r.iterations → r.convergence_rate =
          to_unsigned_char (order_estimate logl s.errors0 s.errors1 s.errors2)) := by
      rw [hrs]
      constructor
      · intro h
        have h' : s.iterations < 3 := h
        show convergence_rate logl s.iterations _ _ _ = none
        unfold convergence_rate
        rw [if_pos h']; rfl
      · intro h
        have h' : ¬ s.iterations < 3 := not_lt.mpr h
        show convergence_rate logl s.iterations _ _ _ = _
        unfold convergence_rate
        rw [if_neg h']
    rcases newtons_run_some F D tolerance x0 max_iterations s hrun with hs | ⟨n, hn, _, hs⟩
    · have hit : r.iterations = max_iterations := by rw [hrs, hs]; rfl
      refine ⟨hrate.1, ?_, le_of_eq hit, ?_, ?_⟩
      · intro h3
        rw [hrate.2 h3, hit, hs]
        obtain ⟨e0, e1, e2⟩ := recorded_error_last F.eval D.eval x0 max_iterations (hit ▸ h3)
        show to_unsigned_char (order_estimate logl (recorded_error _ _ _ _ 0)
          (recorded_error _ _ _ _ 1) (recorded_error _ _ _ _ 2)) = _
        rw [e0, e1, e2]
      · intro _
        rw [hit, hrs, hs]
        show some ((if max_iterations = 0 then 0 else _) / 2) = _
        rw [if_neg hmax]
      · intro h
        omega
    · have hit : r.iterations = n := by rw [hrs, hs]; rfl
      refine ⟨hrate.1, ?_, by omega, ?_, ?_⟩
      · intro h3
        rw [hrate.2 h3, hit, hs]
        obtain ⟨e0, e1, e2⟩ := recorded_error_last F.eval D.eval x0 n (hit ▸ h3)
        show to_unsigned_char (order_estimate logl (recorded_error _ _ _ _ 0)
          (recorded_error _ _ _ _ 1) (recorded_error _ _ _ _ 2)) = _
        rw [e0, e1, e2]
      · intro h
        omega
      · intro _
        rw [hit, hrs, hs]
        rfl

/-- Witness of the amended C16: the early-stopping run of `shrinking_steps`. -/
theorem C16_rate_of_recorded_errors_witness :
    ∃ r, newtons_method log2_on_powers shrinking_steps unit_slope 1 10 (1 / 16) = some r ∧
      (r.iterations < 3 → r.convergence_rate = none) ∧
      (3 ≤ r.iterations → r.convergence_rate = to_unsigned_char (order_estimate log2_on_powers
        (rel_step shrinking_steps.eval unit_slope.eval 1 (r.iterations - 3))
        (rel_step shrinking_steps.eval unit_slope.eval 1 (r.iterations - 2))
        (rel_step shrinking_steps.eval unit_slope.eval 1 (r.iterations - 1)))) ∧
      r.iterations ≤ 10 ∧
      (r.iterations = 10 →
        r.error = some (rel_step shrinking_steps.eval unit_slope.eval 1 (r.iterations - 1) / 2)) ∧
      (r.iterations < 10 →
        r.error = some (rel_step shrinking_steps.eval unit_slope.eval 1 r.iterations / 2)) := by
  exact ⟨_, shrinking_method log2_on_powers,
    C16_rate_of_recorded_errors log2_on_powers shrinking_steps unit_slope 1 (1 / 16) 10 _
      (shrinking_method log2_on_powers)⟩

section altered
variable {α κ : Type} [LinearOrderedField α]

theorem altered_newtons_round_context (F D SD : function α κ) (a b : κ) (tol : α)
    (s : newton_state α) :
    altered_newtons_round F D SD tol s =
      altered_newtons_round F { D with arg := a } { SD with arg := b } tol s := rfl

end altered

/-- C17, divergence. `altered_newtons_method` is called with the line `x - 2` (context
`2`), its derivative (the constant routine with context `1`) and its second derivative
(the constant routine with context `0`), from `x0 = 5` with one round allowed. The step of
the claim, with each routine evaluated in its own context, leads to `5 - (3 * 1) / (1 * 1 -
3 * 0) = 2`; the code evaluates all three routines in the context `2` of the function and
returns the value `8` with error `3/16`. -/
theorem C17_altered_newton_shares_context (logl : ℚ → ℚ) :
    altered_newtons_method logl shifted_line constant_one constant_zero 5 1 (1 / 100) =
      some { value := some 8, error := some (3 / 16), iterations := 1,
             convergence_rate := none } ∧
    (5 : ℚ) - (shifted_line.eval 5 * constant_one.eval 5) /
      (constant_one.eval 5 * constant_one.eval 5 - shifted_line.eval 5 * constant_zero.eval 5)
      = 2 := by
  constructor
  · norm_num [altered_newtons_method, altered_newtons_loop, altered_newtons_round, newtons_init,
      newtons_result, convergence_rate, to_unsigned_char, shifted_line, constant_one,
      constant_zero, abs_of_nonneg]
  · norm_num [function.eval, shifted_line, constant_one, constant_zero]

section adjusting
variable {α κ : Type} [LinearOrderedField α]

theorem extended_ge_not_lt (e : extended α) (x : α) (h : e.ge x = true) : e.lt x = false := by
  cases e with
  | finite a =>
    simp only [extended.ge, decide_eq_true_eq] at h
    simp only [extended.lt, decide_eq_false_iff_not, not_lt]
    exact h
  | pos_inf => rfl
  | neg_inf => simp [extended.ge] at h
  | nan => simp [extended.ge] at h

theorem adjusting_newtons_round_spec [FloorRing α] (logl : α → α) (F D : function α κ) (tol : α)
    (s s' : adjusting_state α) (b : Bool)
    (h : adjusting_newtons_round logl F D tol s = some (b, s')) :
    s'.value = s.x0 - s.m * F.eval s.x0 / D.eval s.x0 ∧
    s'.iterations = s.iterations ∧
    (s'.m = s.m ∨ s'.m = s.m + 1) ∧
    (s'.m ≠ s.m → b = false ∧ s.adjusting = true ∧ 2 < s.iterations ∧ s.iterations % 3 = 0 ∧
      (order_estimate logl s'.errors0 s'.errors1 s'.errors2).lt 2 = true ∧
      s'.m = s.m + 1 ∧ s'.adjusting = true) ∧
    (b = false → s.adjusting = true → 2 < s.iterations → s.iterations % 3 = 0 →
      (order_estimate logl s'.errors0 s'.errors1 s'.errors2).lt 2 = false →
      s'.adjusting = false ∧ s'.m = s.m) ∧
    (s.adjusting = false → s'.adjusting = false ∧ s'.m = s.m) := by
  unfold adjusting_newtons_round at h
  dsimp only at h
  simp only [function.eval]
  split_ifs at h
  all_goals cases h
  all_goals simp_all

theorem adjusting_newtons_loop_disabled [FloorRing α] (logl : α → α) (F D : function α κ) (tol : α) :
    ∀ (todo : Nat) (s s' : adjusting_state α),
      adjusting_newtons_loop logl F D tol todo s = some s' → s.adjusting = false →
      s'.adjusting = false ∧ s'.m = s.m := by
  intro todo
  induction todo with
  | zero =>
    intro s s' h hs
    have e : s = s' := Option.some.inj h
    rw [← e]
    exact ⟨hs, rfl⟩
  | succ todo ih =>
    intro s s' h hs
    have h' : (match adjusting_newtons_round logl F D tol s with
      | none => none
      | some (true, t) => some t
      | some (false, t) =>
        adjusting_newtons_loop logl F D tol todo { t with iterations := t.iterations + 1 }) =
        some s' := h
    cases hround : adjusting_newtons_round logl F D tol s with
    | none => rw [hround] at h'; exact absurd h' (by simp)
    | some p =>
      obtain ⟨b, t⟩ := p
      have hspec := (adjusting_newtons_round_spec logl F D tol s t b hround).2.2.2.2.2 hs
      rw [hround] at h'
      cases b with
      | true =>
        have e : t = s' := Option.some.inj h'
        rw [← e]
        exact hspec
      | false =>
        have h2 := ih _ s' h' hspec.1
        exact ⟨h2.1, h2.2.trans hspec.2⟩

end adjusting

/-- C18. In `adjusting_newtons_method` the loop starts with `m = 1` and adjustment
enabled, and every round computes `x0 - m * f(x0) / f'(x0)`. A round leaves `m` unchanged
or adds `1` to it; it adds `1` only when it does not stop the loop, adjustment is enabled,
the loop index `n` satisfies `n > 2` and `n % 3 = 0`, and the order estimate of the three
recorded errors is below `2`. At such a check with an estimate that is `≥ 2` (or, more
generally, not below `2`) adjustment is disabled and `m` is kept; and from a state with
adjustment disabled every later state of the run has adjustment disabled and the same
`m`. -/
theorem C18_adjusting_multiplier {α κ : Type} [LinearOrderedField α] [FloorRing α]
    (logl : α → α) (F D : function α κ) (tolerance x0 : α) :
    (adjusting_init x0).m = 1 ∧ (adjusting_init x0).adjusting = true ∧
    (∀ (s s' : adjusting_state α) (b : Bool),
      adjusting_newtons_round logl F D tolerance s = some (b, s') →
      s'.value = s.x0 - s.m * F.eval s.x0 / D.eval s.x0 ∧
      (s'.m = s.m ∨ s'.m = s.m + 1) ∧
      (s'.m ≠ s.m → b = false ∧ s.adjusting = true ∧ 2 < s.iterations ∧
        s.iterations % 3 = 0 ∧
        (order_estimate logl s'.errors0 s'.errors1 s'.errors2).lt 2 = true ∧
        s'.m = s.m + 1 ∧ s'.adjusting = true) ∧
      (b = false → s.adjusting = true → 2 < s.iterations → s.iterations % 3 = 0 →
        ((order_estimate logl s'.errors0 s'.errors1 s'.errors2).ge 2 = true ∨
          (order_estimate logl s'.errors0 s'.errors1 s'.errors2).lt 2 = false) →
        s'.adjusting = false ∧ s'.m = s.m) ∧
      (s.adjusting = false → s'.adjusting = false ∧ s'.m = s.m)) ∧
    (∀ (todo : Nat) (s s' : adjusting_state α),
      adjusting_newtons_loop logl F D tolerance todo s = some s' → s.adjusting = false →
      s'.adjusting = false ∧ s'.m = s.m) := by
  refine ⟨rfl, rfl, ?_, adjusting_newtons_loop_disabled logl F D tolerance⟩
  intro s s' b h
  obtain ⟨h1, _, h3, h4, h5, h6⟩ := adjusting_newtons_round_spec logl F D tolerance s s' b h
  refine ⟨h1, h3, h4, ?_, h6⟩
  intro hb ha hi hm hest
  apply h5 hb ha hi hm
  rcases hest with hge | hlt
  · exact extended_ge_not_lt _ _ hge
  · exact hlt

/-- Witness of C18 over the rationals: a round at loop index `3` with adjustment enabled
and recorded errors `1/2`, `1/4`, `1/2` (estimate `-1`) raises `m` from `1` to `2`. -/
theorem C18_adjusting_multiplier_witness :
    adjusting_newtons_round log2_on_powers shrinking_steps unit_slope (1 / 16)
        adjusting_sample =
      some (false, { x0 := 2 / 3, value := 2 / 3, error := 1 / 2, errors0 := 1 / 2,
                     errors1 := 1 / 4, errors2 := 1 / 2, iterations := 3, adjusting := true,
                     m := 2 }) ∧
    ((2 : ℚ) ≠ adjusting_sample.m → false = false ∧ adjusting_sample.adjusting = true ∧
      2 < adjusting_sample.iterations ∧ adjusting_sample.iterations % 3 = 0 ∧
      (order_estimate log2_on_powers (1 / 2) (1 / 4) (1 / 2)).lt 2 = true ∧
      (2 : ℚ) = adjusting_sample.m + 1 ∧ true = true) := by
  have hc : ⌈(-1 : ℚ) - 1 / 2⌉ = -1 := by
    rw [Int.ceil_eq_iff]; norm_num
  have hc2 : ⌈-(3 / 2 : ℚ)⌉ = -1 := by
    rw [Int.ceil_eq_iff]; norm_num
  have h : adjusting_newtons_round log2_on_powers shrinking_steps unit_slope (1 / 16)
        adjusting_sample =
      some (false, { x0 := 2 / 3, value := 2 / 3, error := 1 / 2, errors0 := 1 / 2,
                     errors1 := 1 / 4, errors2 := 1 / 2, iterations := 3, adjusting := true,
                     m := 2 }) := by
    norm_num [adjusting_newtons_round, adjusting_sample, shrinking_steps, unit_slope,
      order_estimate, extended.div, extended.logl, extended.roundl, extended.lt, roundl,
      log2_on_powers, abs_of_nonneg, hc, hc2]
  exact ⟨h, ((C18_adjusting_multiplier log2_on_powers shrinking_steps unit_slope (1 / 16)
    1).2.2.1 _ _ _ h).2.2.1⟩

section bisection_bracket
variable {α : Type} [LinearOrderedField α]

end bisection_bracket

section square_root
variable {α : Type} [LinearOrderedField α]

theorem sqrt_step_eq (x k : α) (hx : 0 < x) :
    x - (x * x - k) / (2 * x) = (x * x + k) / (2 * x) := by
  field_simp
  ring

theorem sqrt_step_pos (x k : α) (hx : 0 < x) (hk : 0 < k) :
    0 < x - (x * x - k) / (2 * x) := by
  rw [sqrt_step_eq x k hx]
  apply div_pos
  · nlinarith [mul_pos hx hx]
  · linarith

theorem sqrt_seq_succ (k seed : α) (n : Nat) :
    newton_seq (sqrt_function k).eval (sqrt_derivative k).eval seed (n + 1) =
      newton_seq (sqrt_function k).eval (sqrt_derivative k).eval seed n -
        (newton_seq (sqrt_function k).eval (sqrt_derivative k).eval seed n *
          newton_seq (sqrt_function k).eval (sqrt_derivative k).eval seed n - k) /
        (2 * newton_seq (sqrt_function k).eval (sqrt_derivative k).eval seed n) := rfl

theorem sqrt_seq_pos (k seed : α) (hk : 0 < k) (hseed : 0 < seed) :
    ∀ n, 0 < newton_seq (sqrt_function k).eval (sqrt_derivative k).eval seed n := by
  intro n
  induction n with
  | zero => exact hseed
  | succ n ih => rw [sqrt_seq_succ]; exact sqrt_step_pos _ k ih hk

end square_root

section square_root_run
variable {α : Type} [LinearOrderedField α]

end square_root_run

section square_root_calculator_proofs
variable {α : Type} [LinearOrderedField α] [FloorRing α]

theorem square_root_calculator_general (fuel : Nat) (logl : α → α) (k : α) (hk0 : 0 < k)
    (hk1 : k ≠ 1) (b : result α)
    (hb : bisection_method fuel (fun x => x * x - k) 0 k (k / 16) = some b) :
    square_root_calculator fuel logl k =
      if b.error ≠ some 0 then
        match b.value with
        | some seed =>
          (newtons_method logl (sqrt_function k) (sqrt_derivative k) seed 256
            SQUARE_ROOT_TOLERANCE).map fun newtons_result =>
              { newtons_result with iterations := newtons_result.iterations + b.iterations }
        | none =>
          some { value := none, error := none, iterations := 256 + b.iterations,
                 convergence_rate := none }
      else some b := by
  have hb' : bisection_method fuel
      (fun x => (sqrt_function k).f x (sqrt_function k).arg) 0 k (k / 16) = some b := hb
  unfold square_root_calculator
  rw [if_neg (not_lt.mpr (le_of_lt hk0)), if_neg (ne_of_gt hk0), if_neg hk1]
  show (match bisection_method fuel
      (fun x => (sqrt_function k).f x (sqrt_function k).arg) 0 k (k / 16) with
    | none => none
    | some result => _) = _
  rw [hb']
  rfl

end square_root_calculator_proofs

section square_root_refinement
variable {α : Type} [LinearOrderedField α]

theorem sqrt_newton_run_first (k seed tol : α) (hk : 0 < k) (hseed : 0 < seed)
    (max_iterations : Nat) (hmax : 0 < max_iterations) :
    ∃ n, n < max_iterations ∧
      (∀ j, j < n → ¬ rel_step (sqrt_function k).eval (sqrt_derivative k).eval seed j < tol) ∧
      (rel_step (sqrt_function k).eval (sqrt_derivative k).eval seed n < tol ∨
        n + 1 = max_iterations) ∧
      ∃ st, newtons_run (sqrt_function k) (sqrt_derivative k) seed max_iterations tol = some st ∧
        st.iterations = (if rel_step (sqrt_function k).eval (sqrt_derivative k).eval seed n < tol
          then n else n + 1) ∧
        st.value = newton_seq (sqrt_function k).eval (sqrt_derivative k).eval seed (n + 1) ∧
        st.error = rel_step (sqrt_function k).eval (sqrt_derivative k).eval seed n := by
  have hpos := sqrt_seq_pos k seed hk hseed
  have hreg : ∀ j, (sqrt_derivative k).eval
      (newton_seq (sqrt_function k).eval (sqrt_derivative k).eval seed j) ≠ 0 ∧
      newton_seq (sqrt_function k).eval (sqrt_derivative k).eval seed (j + 1) ≠ 0 := by
    intro j
    refine ⟨?_, ne_of_gt (hpos (j + 1))⟩
    show 2 * newton_seq (sqrt_function k).eval (sqrt_derivative k).eval seed j ≠ 0
    exact ne_of_gt (by linarith [hpos j])
  by_cases hex : ∃ n, n < max_iterations ∧
      rel_step (sqrt_function k).eval (sqrt_derivative k).eval seed n < tol
  · classical
    have hn := Nat.find_spec hex
    have hmin : ∀ j, j < Nat.find hex →
        ¬ rel_step (sqrt_function k).eval (sqrt_derivative k).eval seed j < tol := by
      intro j hj hlt
      exact Nat.find_min hex hj ⟨lt_trans hj hn.1, hlt⟩
    refine ⟨Nat.find hex, hn.1, hmin, Or.inl hn.2, _,
      newtons_run_break (sqrt_function k) (sqrt_derivative k) tol seed max_iterations
        (Nat.find hex) hn.1 (fun j _ => hreg j) hmin hn.2, ?_, rfl, rfl⟩
    rw [if_pos hn.2]
    rfl
  · have hno : ∀ j, j < max_iterations →
        ¬ rel_step (sqrt_function k).eval (sqrt_derivative k).eval seed j < tol :=
      fun j hj hlt => hex ⟨j, hj, hlt⟩
    obtain ⟨m, hm⟩ : ∃ m, max_iterations = m + 1 := ⟨max_iterations - 1, by omega⟩
    subst hm
    refine ⟨m, Nat.lt_succ_self m, fun j hj => hno j (by omega), Or.inr rfl, _,
      newtons_run_exhaust (sqrt_function k) (sqrt_derivative k) tol seed (m + 1)
        (fun j hj => ⟨(hreg j).1, (hreg j).2, hno j hj⟩), ?_, ?_, ?_⟩
    · rw [if_neg (hno m (Nat.lt_succ_self m))]
      rfl
    · simp [newton_after]
    · simp [newton_after]

theorem sqrt_seed_pos (k : α) (hk : 1 < k) (fuel : Nat) (b : result α) (seed : α)
    (hb : bisection_method fuel (fun x => x * x - k) 0 k (k / 16) = some b)
    (he : b.error ≠ some 0) (hseed : b.value = some seed) : 0 < seed := by
  have hk0 : 0 < k := by linarith
  have hvalid : (fun x : α => x * x - k) 0 * (fun x : α => x * x - k) k ≤ 0 := by
    show (0 * 0 - k) * (k * k - k) ≤ 0
    have h1 : 0 ≤ k * k - k := by nlinarith
    have h2 : 0 * 0 - k ≤ 0 := by linarith
    exact mul_nonpos_of_nonpos_of_nonneg h2 h1
  rw [bisection_method_valid _ 0 k (k / 16) hk0 hvalid] at hb
  cases hrun : bisection_run fuel (fun x : α => x * x - k) 0 k (k / 16) with
  | none => rw [hrun] at hb; exact absurd hb (by simp)
  | some st =>
    rw [hrun] at hb
    have hbst : bisection_result st = b := Option.some.inj hb
    have hval : st.value = seed := by
      rw [← hbst] at hseed
      exact Option.some.inj hseed
    have herr : st.error ≠ 0 := by
      intro h0
      apply he
      rw [← hbst]
      show some st.error = some 0
      rw [h0]
    obtain ⟨w1, _, w3⟩ := bisection_loop_within (fun x : α => x * x - k) (k / 16 / 2) fuel
      (bisection_init (fun x : α => x * x - k) 0 k) st
      (bisection_init_inv _ 0 k hk0 hvalid) hrun
    have w1' : 0 ≤ st.x0 := w1
    rcases bisection_run_post (fun x : α => x * x - k) 0 k (k / 16) hk0 hvalid fuel st hrun with
      ⟨hi, _, _⟩ | ⟨⟨hz, _⟩, _⟩
    · rw [← hval, hi.2.2.2.1]
      linarith
    · exact absurd hz herr

theorem bisection_below_one (k : α) (hk0 : 0 < k) (hk1 : k < 1) (fuel : Nat) :
    bisection_method fuel (fun x => x * x - k) 0 k (k / 16) = some undefined_result := by
  unfold bisection_method
  rw [if_neg (not_le.mpr hk0), if_pos]
  show (0 * 0 - k) * (k * k - k) > 0
  have h1 : k * k - k < 0 := by nlinarith
  have h2 : 0 * 0 - k < 0 := by linarith
  exact mul_pos_of_neg_of_neg h2 h1

theorem sqrt_sample_seed :
    bisection_method 4 (fun x : ℚ => x * x - 2) 0 2 (2 / 16) =
      some { value := some (23 / 16), error := some (1 / 16), iterations := 4,
             convergence_rate := some 1 } := by
  norm_num [bisection_method, bisection_run, bisection_loop, bisection_init,
    bisection_result]

end square_root_refinement

/-- C14. `square_root_calculator(k)` returns the undefined value for `k < 0`, the value `0`
for `k = 0` and the value `1` for `k = 1`, each with error `0` and `0` iterations, for every
fuel of the bisection and every library logarithm (neither routine is evaluated). For every
other `k` the seeding `bisection_method` over `[0, k]` with tolerance `k / 16` returns for
every sufficient fuel, and with its result `b`: if `b.error` is `0` the result is `b`; if
the seed is undefined the result is undefined after 256 rounds; otherwise the seed is
positive and, with `x_0 = seed`, `x_{j+1} = x_j - (x_j^2 - k) / (2 x_j)` and `n` the first
index below 256 whose relative step `|(x_{n+1} - x_n) / x_{n+1}|` is below `1e-7` (`n = 255`
if there is none), the value is `x_{n+1}`, the error is half that relative step, and the
iterations are those of the Newton loop added to those of the bisection. -/
theorem C14_square_root_cases {α : Type} [LinearOrderedField α] [FloorRing α] [Archimedean α]
    (logl : α → α) (k : α) :
    (k < 0 → ∀ fuel, square_root_calculator fuel logl k =
      some { value := none, error := some 0, iterations := 0, convergence_rate := some 0 }) ∧
    (k = 0 → ∀ fuel, square_root_calculator fuel logl k =
      some { value := some 0, error := some 0, iterations := 0, convergence_rate := some 0 }) ∧
    (k = 1 → ∀ fuel, square_root_calculator fuel logl k =
      some { value := some 1, error := some 0, iterations := 0, convergence_rate := some 0 }) ∧
    (0 < k → k ≠ 1 →
      (∃ N : Nat, ∀ fuel, N ≤ fuel →
        ∃ b, bisection_method fuel (fun x => x * x - k) 0 k (k / 16) = some b) ∧
      ∀ fuel b, bisection_method fuel (fun x => x * x - k) 0 k (k / 16) = some b →
        (b.error = some 0 → square_root_calculator fuel logl k = some b) ∧
        (b.error ≠ some 0 → b.value = none →
          square_root_calculator fuel logl k =
            some { value := none, error := none, iterations := 256 + b.iterations,
                   convergence_rate := none }) ∧
        (b.error ≠ some 0 → ∀ seed, b.value = some seed →
          0 < seed ∧
          ∃ (n : Nat) (r : result α), n < 256 ∧
            (∀ j, j < n →
              ¬ rel_step (fun x => x * x - k) (fun x => 2 * x) seed j < 1 / 10 ^ 7) ∧
            (rel_step (fun x => x * x - k) (fun x => 2 * x) seed n < 1 / 10 ^ 7 ∨ n = 255) ∧
            square_root_calculator fuel logl k = some r ∧
            r.value = some (newton_seq (fun x => x * x - k) (fun x => 2 * x) seed (n + 1)) ∧
            r.error = some (rel_step (fun x => x * x - k) (fun x => 2 * x) seed n / 2) ∧
            r.iterations =
              (if rel_step (fun x => x * x - k) (fun x => 2 * x) seed n < 1 / 10 ^ 7
                then n else n + 1) + b.iterations)) := by
  refine ⟨?_, ?_, ?_, ?_⟩
  · intro h fuel
    unfold square_root_calculator
    rw [if_pos h]
  · intro h fuel
    unfold square_root_calculator
    rw [if_neg (by rw [h]; exact lt_irrefl 0), if_pos h]
  · intro h fuel
    unfold square_root_calculator
    rw [if_neg (by rw [h]; norm_num), if_neg (by rw [h]; norm_num), if_pos h]
  · intro hk0 hk1
    constructor
    · by_cases hlt : 1 < k
      · have hvalid : (fun x : α => x * x - k) 0 * (fun x : α => x * x - k) k ≤ 0 := by
          show (0 * 0 - k) * (k * k - k) ≤ 0
          have h1 : 0 ≤ k * k - k := by nlinarith
          have h2 : 0 * 0 - k ≤ 0 := by linarith
          exact mul_nonpos_of_nonpos_of_nonneg h2 h1
        obtain ⟨N, hN⟩ := bisection_run_terminates (fun x : α => x * x - k) 0 k (k / 16)
          (by linarith)
        refine ⟨N, fun fuel hfuel => ?_⟩
        obtain ⟨st, hrun⟩ := hN fuel hfuel
        refine ⟨bisection_result st, ?_⟩
        rw [bisection_method_valid _ 0 k (k / 16) hk0 hvalid, hrun]
        rfl
      · have hk : k < 1 := lt_of_le_of_ne (not_lt.mp hlt) hk1
        exact ⟨0, fun fuel _ => ⟨undefined_result, bisection_below_one k hk0 hk fuel⟩⟩
    · intro fuel b hb
      have hgen := square_root_calculator_general fuel logl k hk0 hk1 b hb
      refine ⟨?_, ?_, ?_⟩
      · intro he
        rw [hgen, if_neg (by rw [he]; simp)]
      · intro he hnone
        rw [hgen, if_pos he, hnone]
      · intro he seed hseed
        have hgt : 1 < k := by
          by_contra hle
          have hk : k < 1 := lt_of_le_of_ne (not_lt.mp hle) hk1
          rw [bisection_below_one k hk0 hk fuel] at hb
          rw [← Option.some.inj hb] at hseed
          exact absurd hseed (by simp [undefined_result])
        have hpos := sqrt_seed_pos k hgt fuel b seed hb he hseed
        obtain ⟨n, hn, hfirst, hstop, st, hrun, hit, hval, herr⟩ :=
          sqrt_newton_run_first k seed SQUARE_ROOT_TOLERANCE hk0 hpos 256 (by norm_num)
        refine ⟨hpos, n, { newtons_result logl st with
          iterations := (newtons_result logl st).iterations + b.iterations }, hn, hfirst, ?_,
          ?_, ?_, ?_, ?_⟩
        · rcases hstop with h | h
          · exact Or.inl h
          · exact Or.inr (by omega)
        · rw [hgen, if_pos he, hseed]
          show Option.map _ (newtons_method logl (sqrt_function k) (sqrt_derivative k) seed 256
            SQUARE_ROOT_TOLERANCE) = _
          unfold newtons_method
          rw [if_neg (by norm_num), hrun]
          rfl
        · show some st.value = _
          rw [hval]
          rfl
        · show some (st.error / 2) = _
          rw [herr]
          rfl
        · show st.iterations + b.iterations = _
          rw [hit]
          rfl

/-- Witness of C14 over the rationals: `k = -1`, `k = 0`, `k = 1`, and `k = 2`, where the
bisection over `[0, 2]` with tolerance `1/8` returns the seed `23/16` with error `1/16`
after four iterations, and the Newton refinement of that seed is returned. -/
theorem C14_square_root_cases_witness :
    (∀ fuel, square_root_calculator fuel (fun _ : ℚ => 0) (-1) =
      some { value := none, error := some 0, iterations := 0, convergence_rate := some 0 }) ∧
    (∀ fuel, square_root_calculator fuel (fun _ : ℚ => 0) 0 =
      some { value := some 0, error := some 0, iterations := 0, convergence_rate := some 0 }) ∧
    (∀ fuel, square_root_calculator fuel (fun _ : ℚ => 0) 1 =
      some { value := some 1, error := some 0, iterations := 0, convergence_rate := some 0 }) ∧
    bisection_method 4 (fun x : ℚ => x * x - 2) 0 2 (2 / 16) =
      some { value := some (23 / 16), error := some (1 / 16), iterations := 4,
             convergence_rate := some 1 } ∧
    ((0 : ℚ) < 23 / 16 ∧
      ∃ (n : Nat) (r : result ℚ), n < 256 ∧
        (∀ j, j < n →
          ¬ rel_step (fun x : ℚ => x * x - 2) (fun x => 2 * x) (23 / 16) j < 1 / 10 ^ 7) ∧
        (rel_step (fun x : ℚ => x * x - 2) (fun x => 2 * x) (23 / 16) n < 1 / 10 ^ 7 ∨
          n = 255) ∧
        square_root_calculator 4 (fun _ : ℚ => 0) 2 = some r ∧
        r.value = some (newton_seq (fun x : ℚ => x * x - 2) (fun x => 2 * x) (23 / 16) (n + 1)) ∧
        r.error = some (rel_step (fun x : ℚ => x * x - 2) (fun x => 2 * x) (23 / 16) n / 2) ∧
        r.iterations =
          (if rel_step (fun x : ℚ => x * x - 2) (fun x => 2 * x) (23 / 16) n < 1 / 10 ^ 7
            then n else n + 1) + 4) :=
  ⟨(C14_square_root_cases (fun _ : ℚ => 0) (-1)).1 (by norm_num),
   (C14_square_root_cases (fun _ : ℚ => 0) 0).2.1 rfl,
   (C14_square_root_cases (fun _ : ℚ => 0) 1).2.2.1 rfl,
   sqrt_sample_seed,
   (((C14_square_root_cases (fun _ : ℚ => 0) 2).2.2.2 (by norm_num) (by norm_num)).2 4
      { value := some (23 / 16), error := some (1 / 16), iterations := 4,
        convergence_rate := some 1 } sqrt_sample_seed).2.2 (by simp) (23 / 16) rfl⟩

section least_squares_loops
variable {α : Type}

theorem set_cells_loop (g : Nat → α) (body : Nat → List α → Option (List α)) (off n : Nat)
    (els0 : List α) (hlen : off + n ≤ els0.length)
    (hbody : ∀ i els, i < n → els.length = els0.length →
      body i els = store els (off + i) (g i)) :
    ∃ els, for_up body n 0 els0 = some els ∧ els.length = els0.length ∧
      ∀ k, els[k]? = if off ≤ k ∧ k < off + n then some (g (k - off)) else els0[k]? := by
  have h := for_up_inv body
    (fun i els => els.length = els0.length ∧
      ∀ k, els[k]? = if off ≤ k ∧ k < off + i then some (g (k - off)) else els0[k]?)
    n 0 els0 ⟨rfl, fun k => by rw [if_neg (by omega)]⟩
    (by
      intro i els _ hi ⟨hl, hsp⟩
      have hi' : i < n := by omega
      refine ⟨els.set (off + i) (g i), ?_, ?_, ?_⟩
      · rw [hbody i els hi' hl, store_eq _ _ _ (by omega)]
      · rw [List.length_set, hl]
      · intro k
        rw [List.getElem?_set]
        by_cases hk : off + i = k
        · rw [if_pos hk, if_pos (by omega), if_pos (by omega)]
          congr 2
          omega
        · rw [if_neg hk, hsp k]
          by_cases h1 : off ≤ k ∧ k < off + i
          · rw [if_pos h1, if_pos (by omega)]
          · rw [if_neg h1, if_neg (by omega)])
  obtain ⟨els, h1, h2, h3⟩ := h
  refine ⟨els, h1, h2, ?_⟩
  intro k
  rw [h3 k, Nat.zero_add]

theorem matrix_set_row_spec (m : matrix α) (row : Nat) (value : α) (hrow : 1 ≤ row)
    (hrow' : row ≤ m.rows) (hlen : m.elements.length = m.rows * m.cols) :
    ∃ els, matrix_set_row m row value = some { m with elements := els } ∧
      els.length = m.elements.length ∧
      ∀ k, els[k]? = if (row - 1) * m.cols ≤ k ∧ k < (row - 1) * m.cols + m.cols
        then some value else m.elements[k]? := by
  have hfit : (row - 1) * m.cols + m.cols ≤ m.elements.length := by
    rw [hlen]
    have : (row - 1 + 1) * m.cols ≤ m.rows * m.cols := Nat.mul_le_mul_right _ (by omega)
    rw [Nat.add_mul, Nat.one_mul] at this
    exact this
  obtain ⟨els, h1, h2, h3⟩ := set_cells_loop (fun _ => value)
    (fun i els => store els ((row - 1) * m.cols + i) value) ((row - 1) * m.cols) m.cols
    m.elements hfit (fun _ _ _ _ => rfl)
  refine ⟨els, ?_, h2, h3⟩
  unfold matrix_set_row
  rw [if_neg (by omega), h1]
  rfl

theorem matrix_set_row_vector_power_spec [Monoid α] [Zero α] (m : matrix α) (row : Nat)
    (vector : List α) (power : Nat) (hrow : 1 ≤ row) (hrow' : row ≤ m.rows)
    (hlen : m.elements.length = m.rows * m.cols) (hvec : m.cols ≤ vector.length) :
    ∃ els, matrix_set_row_vector_power m row vector power = some { m with elements := els } ∧
      els.length = m.elements.length ∧
      ∀ k, els[k]? = if (row - 1) * m.cols ≤ k ∧ k < (row - 1) * m.cols + m.cols
        then some (vector.getD (k - (row - 1) * m.cols) 0 ^ power) else m.elements[k]? := by
  have hfit : (row - 1) * m.cols + m.cols ≤ m.elements.length := by
    rw [hlen]
    have : (row - 1 + 1) * m.cols ≤ m.rows * m.cols := Nat.mul_le_mul_right _ (by omega)
    rw [Nat.add_mul, Nat.one_mul] at this
    exact this
  obtain ⟨els, h1, h2, h3⟩ := set_cells_loop (fun i => vector.getD i 0 ^ power)
    (fun i els => do
      let v ← load vector i
      store els ((row - 1) * m.cols + i) (v ^ power)) ((row - 1) * m.cols) m.cols
    m.elements hfit
    (by
      intro i els hi _
      show (load vector i).bind _ = _
      rw [load_getD vector i (by omega)]
      rfl)
  refine ⟨els, ?_, h2, h3⟩
  unfold matrix_set_row_vector_power
  rw [if_neg (by omega), h1]
  rfl

end least_squares_loops

section least_squares_design_proofs
variable {α : Type} [LinearOrderedField α]

theorem least_squares_design_spec (sf : sampled_function α) (order : Nat)
    (hn : 0 < sf.n_samples) :
    ∃ els : List α,
      least_squares_design sf order = some (some ⟨els, sf.n_samples, order + 1⟩) ∧
      els.length = (order + 1) * sf.n_samples ∧
      ∀ p r, p ≤ order → r < sf.n_samples →
        els[p * sf.n_samples + r]? =
          some ((sf.start + (r : α) * sf.sampling_interval) ^ p) := by
  have hxs : ∀ r, r < sf.n_samples →
      ((List.range sf.n_samples).map fun i : Nat =>
        sf.start + (i : α) * sf.sampling_interval).getD r 0 =
        sf.start + (r : α) * sf.sampling_interval := by
    intro r hr
    apply getD_of_getElem?
    rw [List.getElem?_map, List.getElem?_range hr]
    rfl
  obtain ⟨els1, hset, hlen1, hsp1⟩ := matrix_set_row_spec
    (⟨List.replicate ((order + 1) * sf.n_samples) 0, sf.n_samples, order + 1⟩ : matrix α) 1 1
    (le_refl 1) (by show 1 ≤ order + 1; omega) (by simp)
  have hloop := for_up_inv
    (fun i (m : matrix α) => matrix_set_row_vector_power m i
      ((List.range sf.n_samples).map fun i : Nat =>
        sf.start + (i : α) * sf.sampling_interval) (i - 1))
    (fun i (m : matrix α) => m.cols = sf.n_samples ∧ m.rows = order + 1 ∧
      m.elements.length = (order + 1) * sf.n_samples ∧
      ∀ p r, p + 1 < i → r < sf.n_samples →
        m.elements[p * sf.n_samples + r]? =
          some ((sf.start + (r : α) * sf.sampling_interval) ^ p))
    order 2 (⟨els1, sf.n_samples, order + 1⟩ : matrix α)
    ⟨rfl, rfl, by rw [hlen1]; simp, by
      intro p r hp hr
      have hp0 : p = 0 := by omega
      subst hp0
      show els1[0 * sf.n_samples + r]? = _
      rw [hsp1, if_pos ⟨by show (1 - 1) * sf.n_samples ≤ _; omega,
        by show _ < (1 - 1) * sf.n_samples + sf.n_samples; omega⟩, pow_zero]⟩
    (by
      intro i m hi2 hi ⟨hc, hr, hl, hsp⟩
      obtain ⟨els, h1, h2, h3⟩ := matrix_set_row_vector_power_spec m i
        ((List.range sf.n_samples).map fun i : Nat =>
          sf.start + (i : α) * sf.sampling_interval) (i - 1)
        (by omega) (by rw [hr]; omega) (by rw [hl, hr, hc]) (by rw [hc]; simp)
      refine ⟨{ m with elements := els }, h1, hc, hr, by rw [h2, hl], ?_⟩
      intro p r hp hrn
      show els[p * sf.n_samples + r]? = _
      rw [h3, hc]
      by_cases hpi : p = i - 1
      · have hlo : (i - 1) * sf.n_samples ≤ p * sf.n_samples + r := by
          rw [hpi]; omega
        have hhi : p * sf.n_samples + r < (i - 1) * sf.n_samples + sf.n_samples := by
          rw [hpi]; omega
        rw [if_pos ⟨hlo, hhi⟩]
        have hk : p * sf.n_samples + r - (i - 1) * sf.n_samples = r := by
          rw [hpi]; omega
        rw [hk, hxs r hrn, hpi]
      · have hlt : p * sf.n_samples + r < (i - 1) * sf.n_samples := by
          have hp' : p + 1 ≤ i - 1 := by omega
          have := Nat.mul_le_mul_right sf.n_samples hp'
          rw [Nat.add_mul, Nat.one_mul] at this
          omega
        rw [if_neg (by omega)]
        exact hsp p r (by omega) hrn)
  obtain ⟨m, hm, hc, hr, hl, hsp⟩ := hloop
  refine ⟨m.elements, ?_, hl, ?_⟩
  · unfold least_squares_design
    rw [create_matrix_pos sf.n_samples (order + 1) hn (by omega)]
    show (matrix_set_row _ 1 1).bind _ = _
    rw [hset]
    show Option.map some (for_up _ order 2 _) = _
    rw [hm]
    have hmeq : m = ⟨m.elements, sf.n_samples, order + 1⟩ := by
      cases m
      simp only at hc hr
      subst hc hr
      rfl
    rw [← hmeq]
    rfl
  · intro p r hp hrn
    exact hsp p r (by omega) hrn

end least_squares_design_proofs

theorem matrix_eta {α : Type} (M : matrix α) (r c : Nat) (hr : M.rows = r) (hc : M.cols = c) :
    M = ⟨M.elements, c, r⟩ := by
  cases M
  simp only at hr hc
  subst hr hc
  rfl

section least_squares_solve_proofs
variable {α : Type} [LinearOrderedField α]

theorem least_squares_solve_spec (n m : Nat) (hn : 0 < n) (hm : 0 < m) (xt ys : List α)
    (hxt : xt.length = m * n) (hys : ys.length = n) :
    ∃ P : List α, P.length = m * m ∧
      (∀ i j, i < m → j < m →
        P[i * m + j]? = some (∑ k in Finset.range n, cell n xt i k * cell n xt j k)) ∧
      ((matrix_inverse (⟨P, m, m⟩ : matrix α) = some none ∧
          least_squares_solve (⟨xt, n, m⟩ : matrix α) ⟨ys, 1, n⟩ = some none) ∨
        ∃ (R : List α) (sol : matrix α), cells m R * cells m P = 1 ∧
          least_squares_solve (⟨xt, n, m⟩ : matrix α) ⟨ys, 1, n⟩ = some (some sol) ∧
          sol.rows = m ∧ sol.elements.length = m ∧
          ∀ i, i < m → sol.elements[i]? =
            some (∑ r in Finset.range n,
              (∑ k in Finset.range m, cell m R i k * cell n xt k r) * ys.getD r 0)) := by
  obtain ⟨t, ht, htr, htc, htl, htsp⟩ :=
    transpose_matrix_spec (⟨xt, n, m⟩ : matrix α) ⟨hm, hn, hxt⟩
  have htr' : t.rows = n := htr
  have htc' : t.cols = m := htc
  have htl' : t.elements.length = n * m := htl
  have htentry : ∀ k j, k < n → j < m → t.entry k j = cell n xt j k := by
    intro k j hk hj
    have h := htsp j k hj hk
    have h' : t.elements[j + k * m]? = xt[k + j * n]? := h
    unfold matrix.entry cell
    rw [htc', Nat.add_comm, h', Nat.add_comm]
  obtain ⟨C1, hC1, hC1r, hC1c, hC1l, hC1sp⟩ := matrix_multiply_spec (⟨xt, n, m⟩ : matrix α) t
    hm (by rw [htc']; exact hm) hxt (by rw [htl', htr', htc']) (by rw [htr'])
  have hC1r' : C1.rows = m := hC1r
  have hC1c' : C1.cols = m := by rw [hC1c, htc']
  have hC1l' : C1.elements.length = m * m := by rw [hC1l, htc']
  have hP : ∀ i j, i < m → j < m →
      C1.elements[i * m + j]? = some (∑ k in Finset.range n, cell n xt i k * cell n xt j k) := by
    intro i j hi hj
    have h := hC1sp i j hi (by rw [htc']; exact hj)
    rw [htc'] at h
    rw [h]
    congr 1
    apply Finset.sum_congr rfl
    intro k hk
    rw [htentry k j (Finset.mem_range.mp hk) hj]
    rfl
  refine ⟨C1.elements, hC1l', hP, ?_⟩
  have hC1eq : C1 = ⟨C1.elements, m, m⟩ := matrix_eta C1 m m hC1r' hC1c'
  have hsolve : least_squares_solve (⟨xt, n, m⟩ : matrix α) ⟨ys, 1, n⟩ =
      match matrix_inverse (⟨C1.elements, m, m⟩ : matrix α) with
      | none => none
      | some none => some none
      | some (some pinv) =>
        match matrix_multiply pinv (⟨xt, n, m⟩ : matrix α) with
        | none => none
        | some none => some none
        | some (some q) =>
          match matrix_multiply q (⟨ys, 1, n⟩ : matrix α) with
          | none => none
          | some none => some none
          | some (some sol) => if sol.cols ≠ 1 then some none else some (some sol) := by
    unfold least_squares_solve
    rw [ht]
    simp only
    rw [hC1]
    simp only
    rw [← hC1eq]
  rcases (matrix_inverse_run m C1.elements hm hC1l').1 with hnone | ⟨R, hinv, hRl, hRP, _⟩
  · left
    exact ⟨hnone, by rw [hsolve, hnone]⟩
  · right
    obtain ⟨C3, hC3, hC3r, hC3c, hC3l, hC3sp⟩ :=
      matrix_multiply_spec (⟨R, m, m⟩ : matrix α) (⟨xt, n, m⟩ : matrix α) hm hn hRl hxt rfl
    have hC3r' : C3.rows = m := hC3r
    have hC3c' : C3.cols = n := hC3c
    have hC3l' : C3.elements.length = m * n := hC3l
    obtain ⟨C4, hC4, hC4r, hC4c, hC4l, hC4sp⟩ :=
      matrix_multiply_spec C3 (⟨ys, 1, n⟩ : matrix α) (by rw [hC3r']; exact hm) Nat.one_pos
        (by rw [hC3l', hC3r', hC3c']) (by show ys.length = n * 1; rw [hys, Nat.mul_one])
        (by rw [hC3c'])
    have hC4r' : C4.rows = m := by rw [hC4r, hC3r']
    have hC4c' : C4.cols = 1 := hC4c
    have hC4l' : C4.elements.length = m := by
      rw [hC4l, hC3r']
      show m * 1 = m
      exact Nat.mul_one m
    refine ⟨R, C4, hRP, ?_, hC4r', hC4l', ?_⟩
    · rw [hsolve, hinv]
      simp only
      rw [hC3]
      simp only
      rw [hC4]
      simp only
      rw [if_neg (by rw [hC4c']; simp)]
    · intro i hi
      have h := hC4sp i 0 (by rw [hC3r']; exact hi) Nat.one_pos
      have h' : C4.elements[i * 1 + 0]? =
          some (∑ k in Finset.range C3.cols, C3.entry i k * (⟨ys, 1, n⟩ : matrix α).entry k 0) := h
      rw [Nat.mul_one, Nat.add_zero, hC3c'] at h'
      rw [h']
      congr 1
      apply Finset.sum_congr rfl
      intro r hr
      have hr' : r < n := Finset.mem_range.mp hr
      have e1 : C3.entry i r = ∑ k in Finset.range m, cell m R i k * cell n xt k r := by
        have h3 := hC3sp i r hi hr'
        have h3' : C3.elements[i * n + r]? =
            some (∑ k in Finset.range m, (⟨R, m, m⟩ : matrix α).entry i k *
              (⟨xt, n, m⟩ : matrix α).entry k r) := h3
        unfold matrix.entry
        rw [hC3c', h3']
        rfl
      have e2 : (⟨ys, 1, n⟩ : matrix α).entry r 0 = ys.getD r 0 := by
        unfold matrix.entry
        show (ys[r * 1 + 0]?).getD 0 = _
        rw [Nat.mul_one, Nat.add_zero, List.getD_eq_getElem?_getD]
      rw [e1, e2]

end least_squares_solve_proofs

section normal_equations
variable {α : Type} [Field α]

theorem normal_equations (n m : Nat) (X : Nat → Nat → α) (y c : Nat → α) (P R : List α)
    (hP : ∀ i j, i < m → j < m → cell m P i j = ∑ k in Finset.range n, X i k * X j k)
    (hRP : cells m R * cells m P = 1)
    (hc : ∀ i, i < m → c i =
      ∑ r in Finset.range n, (∑ k in Finset.range m, cell m R i k * X k r) * y r) :
    ∀ p, p < m →
      ∑ q in Finset.range m, (∑ r in Finset.range n, X p r * X q r) * c q =
        ∑ r in Finset.range n, X p r * y r := by
  intro p hp
  have hPR : cells m P * cells m R = 1 := Matrix.mul_eq_one_comm.mp hRP
  have hcv : (fun i : Fin m => c i) =
      Matrix.mulVec (cells m R * Matrix.of fun (i : Fin m) (r : Fin n) => X i r)
        (fun r : Fin n => y r) := by
    funext i
    rw [hc i i.2, Finset.sum_range]
    simp only [Matrix.mulVec, Matrix.dotProduct, Matrix.mul_apply, Matrix.of_apply, cells]
    apply Finset.sum_congr rfl
    intro r _
    rw [Finset.sum_range]
  have hlhs : ∑ q in Finset.range m, (∑ r in Finset.range n, X p r * X q r) * c q =
      Matrix.mulVec (cells m P) (fun i : Fin m => c i) ⟨p, hp⟩ := by
    rw [Finset.sum_range]
    simp only [Matrix.mulVec, Matrix.dotProduct, cells, Matrix.of_apply]
    apply Finset.sum_congr rfl
    intro q _
    rw [hP p q hp q.2]
  have hrhs : ∑ r in Finset.range n, X p r * y r =
      Matrix.mulVec (Matrix.of fun (i : Fin m) (r : Fin n) => X i r)
        (fun r : Fin n => y r) ⟨p, hp⟩ := by
    rw [Finset.sum_range]
    simp only [Matrix.mulVec, Matrix.dotProduct, Matrix.of_apply]
  rw [hlhs, hrhs, hcv, Matrix.mulVec_mulVec, ← Matrix.mul_assoc, hPR, Matrix.one_mul]

end normal_equations

section least_squares_fit_proofs
variable {α : Type} [LinearOrderedField α]

theorem least_squares_fit_spec (f : α → α) (x0 x1 : α) (order : Nat) (sf : sampled_function α)
    (hn : 0 < sf.n_samples) (hlen : sf.samples.length = sf.n_samples) :
    ∃ P : List α, P.length = (order + 1) * (order + 1) ∧
      (∀ i j, i < order + 1 → j < order + 1 → P[i * (order + 1) + j]? =
        some (∑ r in Finset.range sf.n_samples,
          (sf.start + (r : α) * sf.sampling_interval) ^ i *
            (sf.start + (r : α) * sf.sampling_interval) ^ j)) ∧
      ((matrix_inverse (⟨P, order + 1, order + 1⟩ : matrix α) = some none ∧
          least_squares_fit f x0 x1 order sf = some none) ∨
        ∃ L : interpolation α, least_squares_fit f x0 x1 order sf = some (some L) ∧
          L.coefficients.length = order + 1 ∧
          ∀ p, p ≤ order →
            ∑ q in Finset.range (order + 1),
              (∑ r in Finset.range sf.n_samples,
                (sf.start + (r : α) * sf.sampling_interval) ^ p *
                  (sf.start + (r : α) * sf.sampling_interval) ^ q) *
                L.coefficients.getD q 0 =
            ∑ r in Finset.range sf.n_samples,
              (sf.start + (r : α) * sf.sampling_interval) ^ p * sf.samples.getD r 0) := by
  obtain ⟨xt, hdesign, hxtl, hxt⟩ := least_squares_design_spec sf order hn
  obtain ⟨P, hPl, hP, hsolve⟩ := least_squares_solve_spec sf.n_samples (order + 1) hn
    (Nat.succ_pos order) xt sf.samples hxtl hlen
  have hcell : ∀ p r, p < order + 1 → r < sf.n_samples →
      cell sf.n_samples xt p r = (sf.start + (r : α) * sf.sampling_interval) ^ p := by
    intro p r hp hr
    unfold cell
    rw [hxt p r (by omega) hr]
    rfl
  have hPx : ∀ i j, i < order + 1 → j < order + 1 → P[i * (order + 1) + j]? =
      some (∑ r in Finset.range sf.n_samples,
        (sf.start + (r : α) * sf.sampling_interval) ^ i *
          (sf.start + (r : α) * sf.sampling_interval) ^ j) := by
    intro i j hi hj
    rw [hP i j hi hj]
    congr 1
    apply Finset.sum_congr rfl
    intro k hk
    rw [hcell i k hi (Finset.mem_range.mp hk), hcell j k hj (Finset.mem_range.mp hk)]
  refine ⟨P, hPl, hPx, ?_⟩
  rcases hsolve with ⟨hinvnone, hnone⟩ | ⟨R, sol, hRP, hsol, hsolr, hsoll, hsolsp⟩
  · left
    refine ⟨hinvnone, ?_⟩
    unfold least_squares_fit
    simp only
    rw [hdesign]
    simp only
    rw [hnone]
  · right
    obtain ⟨cs, hcopy, hcl, hcsp⟩ := set_cells_loop (fun i => sol.elements.getD i 0)
      (fun i coefficients => do
        let v ← load sol.elements i
        store coefficients i v) 0 (order + 1) (List.replicate (order + 1) (0 : α))
      (by simp)
      (by
        intro i els hi _
        show (load sol.elements i).bind _ = _
        rw [load_getD sol.elements i (by omega), Nat.zero_add]
        rfl)
    have hcl' : cs.length = order + 1 := by rw [hcl]; simp
    refine ⟨{ allocate_interpolation f x0 x1 order with coefficients := cs }, ?_, hcl', ?_⟩
    · unfold least_squares_fit
      simp only
      rw [hdesign]
      simp only
      rw [hsol]
      simp only
      rw [hsolr]
      show Option.map _ (for_up _ (order + 1) 0 (List.replicate (order + 1) 0)) = _
      rw [hcopy]
      rfl
    · intro p hp
      have hcs : ∀ i, i < order + 1 → cs.getD i 0 =
          ∑ r in Finset.range sf.n_samples,
            (∑ k in Finset.range (order + 1), cell (order + 1) R i k *
              (fun (a b : Nat) => (sf.start + (b : α) * sf.sampling_interval) ^ a) k r) *
              sf.samples.getD r 0 := by
        intro i hi
        have h1 : cs[i]? = some (sol.elements.getD i 0) := by
          rw [hcsp i, if_pos ⟨Nat.zero_le i, by omega⟩]
          rfl
        rw [getD_of_getElem? cs i _ h1, getD_of_getElem? sol.elements i _ (hsolsp i hi)]
        apply Finset.sum_congr rfl
        intro r hr
        congr 1
        apply Finset.sum_congr rfl
        intro k hk
        rw [hcell k r (Finset.mem_range.mp hk) (Finset.mem_range.mp hr)]
      have hP' : ∀ i j, i < order + 1 → j < order + 1 → cell (order + 1) P i j =
          ∑ k in Finset.range sf.n_samples,
            (fun (a b : Nat) => (sf.start + (b : α) * sf.sampling_interval) ^ a) i k *
            (fun (a b : Nat) => (sf.start + (b : α) * sf.sampling_interval) ^ a) j k := by
        intro i j hi hj
        unfold cell
        rw [hP i j hi hj]
        show (∑ k in Finset.range sf.n_samples, _) = _
        apply Finset.sum_congr rfl
        intro k hk
        rw [hcell i k hi (Finset.mem_range.mp hk), hcell j k hj (Finset.mem_range.mp hk)]
      exact normal_equations sf.n_samples (order + 1)
        (fun (a b : Nat) => (sf.start + (b : α) * sf.sampling_interval) ^ a)
        (fun r => sf.samples.getD r 0) (fun i => cs.getD i 0) P R hP' hRP hcs p (by omega)

end least_squares_fit_proofs

section least_squares_main
variable {α : Type} [LinearOrderedField α] [FloorRing α]

theorem least_squares_samples (f : α → α) (x0 x1 : α) (hlt : x0 < x1) :
    ∃ sf : sampled_function α,
      sample_values f x0 x1 ((x1 - x0) / LEAST_SQUARES_POINTS) = some (some sf) ∧
      sf.n_samples = 524289 ∧ sf.start = x0 ∧ sf.sampling_interval = (x1 - x0) / 524288 ∧
      sf.samples.length = sf.n_samples ∧
      ∀ r, r < sf.n_samples → sf.samples.getD r 0 = f (least_squares_point x0 x1 r) := by
  have hpos : (0 : α) < x1 - x0 := by linarith
  have hh : (0 : α) < (x1 - x0) / LEAST_SQUARES_POINTS := by
    unfold LEAST_SQUARES_POINTS
    exact div_pos hpos (by norm_num)
  have hq : (x1 - x0) / ((x1 - x0) / LEAST_SQUARES_POINTS) = ((524288 : Int) : α) := by
    unfold LEAST_SQUARES_POINTS
    have hne : x1 - x0 ≠ 0 := ne_of_gt hpos
    have : (x1 - x0) / ((x1 - x0) / 524288) = 524288 := by
      field_simp
    rw [this]
    norm_num
  have hfloor : ⌊(x1 - x0) / ((x1 - x0) / LEAST_SQUARES_POINTS)⌋ = 524288 := by
    rw [hq, Int.floor_intCast]
  have hnat : (⌊(x1 - x0) / ((x1 - x0) / LEAST_SQUARES_POINTS)⌋ + 1).toNat = 524289 := by
    rw [hfloor]
    rfl
  refine ⟨_, sample_values_valid f x0 x1 _ hlt hh, hnat, rfl, rfl, ?_, ?_⟩
  · show ((List.range _).map _).length = _
    rw [List.length_map, List.length_range]
  · intro r hr
    have hr' : r < (⌊(x1 - x0) / ((x1 - x0) / LEAST_SQUARES_POINTS)⌋ + 1).toNat := hr
    apply getD_of_getElem?
    show ((List.range _).map _)[r]? = _
    rw [List.getElem?_map, List.getElem?_range hr']
    show some (f (x0 + (x1 - x0) / LEAST_SQUARES_POINTS * (r : α))) = _
    unfold least_squares_point LEAST_SQUARES_POINTS
    rw [mul_comm]

theorem least_squares_run (f : α → α) (x0 x1 : α) (order : Nat) (hlt : x0 < x1) :
    ∃ P : List α, P.length = (order + 1) * (order + 1) ∧
      (∀ i j, i < order + 1 → j < order + 1 →
        P[i * (order + 1) + j]? = some (normal_matrix_entry x0 x1 i j)) ∧
      ((matrix_inverse (⟨P, order + 1, order + 1⟩ : matrix α) = some none ∧
          least_squares_interpolation f x0 x1 order = some none) ∨
        ∃ L : interpolation α, least_squares_interpolation f x0 x1 order = some (some L) ∧
          L.coefficients.length = order + 1 ∧
          ∀ p, p ≤ order →
            ∑ q in Finset.range (order + 1),
              normal_matrix_entry x0 x1 p q * L.coefficients.getD q 0 =
            normal_rhs_entry f x0 x1 p) := by
  obtain ⟨sf, hsf, hn, hstart, hint, hlen, hsamp⟩ := least_squares_samples f x0 x1 hlt
  have hlsi : least_squares_interpolation f x0 x1 order = least_squares_fit f x0 x1 order sf := by
    unfold least_squares_interpolation
    simp only
    rw [hsf]
  obtain ⟨P, hPl, hP, hcase⟩ := least_squares_fit_spec f x0 x1 order sf (by omega) hlen
  have hpt : ∀ r : Nat, sf.start + (r : α) * sf.sampling_interval =
      least_squares_point x0 x1 r := by
    intro r
    rw [hstart, hint]
    rfl
  refine ⟨P, hPl, ?_, ?_⟩
  · intro i j hi hj
    rw [hP i j hi hj, hn]
    unfold normal_matrix_entry
    rw [Finset.sum_congr rfl (fun r _ => by rw [hpt])]
  · rcases hcase with ⟨h1, h2⟩ | ⟨L, hL, hLl, hLeq⟩
    · left
      exact ⟨h1, by rw [hlsi, h2]⟩
    · right
      refine ⟨L, by rw [hlsi, hL], hLl, ?_⟩
      intro p hp
      have h := hLeq p hp
      rw [hn] at h
      unfold normal_matrix_entry normal_rhs_entry
      have e1 : ∀ q, (∑ r in Finset.range 524289,
          (sf.start + (r : α) * sf.sampling_interval) ^ p *
            (sf.start + (r : α) * sf.sampling_interval) ^ q) =
          ∑ r in Finset.range 524289,
            least_squares_point x0 x1 r ^ p * least_squares_point x0 x1 r ^ q := by
        intro q
        apply Finset.sum_congr rfl
        intro r _
        rw [hpt]
      have e2 : (∑ r in Finset.range 524289,
          (sf.start + (r : α) * sf.sampling_interval) ^ p * sf.samples.getD r 0) =
          ∑ r in Finset.range 524289,
            least_squares_point x0 x1 r ^ p * f (least_squares_point x0 x1 r) := by
        apply Finset.sum_congr rfl
        intro r hr
        rw [hpt, hsamp r (by rw [hn]; exact Finset.mem_range.mp hr)]
      rw [e2] at h
      rw [← h]
      apply Finset.sum_congr rfl
      intro q _
      rw [e1 q]

theorem least_squares_null_of_not_lt (f : α → α) (x0 x1 : α) (order : Nat) (h : ¬ x0 < x1) :
    least_squares_interpolation f x0 x1 order = some none := by
  unfold least_squares_interpolation sample_values
  simp only
  rw [if_pos (not_lt.mp h)]

theorem least_squares_order_zero (f : α → α) (x0 x1 : α) (hlt : x0 < x1) :
    ∃ L : interpolation α, least_squares_interpolation f x0 x1 0 = some (some L) := by
  obtain ⟨P, hPl, hP, hcase⟩ := least_squares_run f x0 x1 0 hlt
  rcases hcase with ⟨hnone, _⟩ | ⟨L, hL, _⟩
  · exfalso
    refine (matrix_inverse_run (0 + 1) P (Nat.succ_pos 0) hPl).2 ?_ hnone
    intro m hm1 hm2
    have hm : m = 1 := by omega
    subst hm
    rw [Matrix.det_fin_one]
    show cell (0 + 1) P 0 0 ≠ 0
    unfold cell
    have h00 := hP 0 0 (by omega) (by omega)
    rw [h00, Option.getD_some]
    unfold normal_matrix_entry
    simp only [pow_zero, mul_one, Finset.sum_const, Finset.card_range, nsmul_eq_mul]
    norm_num
  · exact ⟨L, hL⟩

end least_squares_main

/-- C12. Whenever `least_squares_interpolation` returns a result, its `order + 1`
coefficients `c` solve the normal equations of the monomial fit: with the sample points
`x_r = x0 + r * h`, `h = (x1 - x0) / 524288`, `r = 0..524288`, for every `p ≤ order` the sum
over `q ≤ order` of `(X^T X)[p][q] * c[q]`, where `(X^T X)[p][q]` is the sum of
`x_r ^ p * x_r ^ q`, equals `(X^T y)[p]`, the sum of `x_r ^ p * f(x_r)`. -/
theorem C12_least_squares_normal_equations {α : Type} [LinearOrderedField α] [FloorRing α]
    (f : α → α) (x0 x1 : α) (order : Nat) (L : interpolation α)
    (h : least_squares_interpolation f x0 x1 order = some (some L)) :
    L.coefficients.length = order + 1 ∧
    ∀ p, p ≤ order →
      ∑ q in Finset.range (order + 1),
        normal_matrix_entry x0 x1 p q * L.coefficients.getD q 0 =
      normal_rhs_entry f x0 x1 p := by
  by_cases hlt : x0 < x1
  · obtain ⟨P, _, _, hcase⟩ := least_squares_run f x0 x1 order hlt
    rcases hcase with ⟨_, hnone⟩ | ⟨L', hL', hlen, heq⟩
    · rw [hnone] at h
      exact absurd h (by simp)
    · rw [hL'] at h
      have e : L' = L := Option.some.inj (Option.some.inj h)
      rw [← e]
      exact ⟨hlen, heq⟩
  · rw [least_squares_null_of_not_lt f x0 x1 order hlt] at h
    exact absurd h (by simp)

/-- Witness of C12 over the rationals: the fit of order `0` to `x * x` on `[0, 1]` returns
a result, and its coefficient solves the normal equation. -/
theorem C12_least_squares_normal_equations_witness :
    ∃ L : interpolation ℚ,
      least_squares_interpolation (fun x : ℚ => x * x) 0 1 0 = some (some L) ∧
      L.coefficients.length = 0 + 1 ∧
      ∀ p, p ≤ 0 →
        ∑ q in Finset.range (0 + 1),
          normal_matrix_entry (0 : ℚ) 1 p q * L.coefficients.getD q 0 =
        normal_rhs_entry (fun x : ℚ => x * x) 0 1 p := by
  obtain ⟨L, hL⟩ := least_squares_order_zero (fun x : ℚ => x * x) 0 1 (by norm_num)
  exact ⟨L, hL, C12_least_squares_normal_equations (fun x : ℚ => x * x) 0 1 0 L hL⟩

/-- C25. Each of `lagrange_interpolation`, `piecewise_linear_interpolation`,
`raised_cosine_interpolation` and `least_squares_interpolation` returns `NULL` on every
input with `x0 ≥ x1`, for any function and any order. -/
theorem C25_constructors_reject_empty_interval {α : Type} [LinearOrderedField α] [FloorRing α]
    (f : α → α) (x0 x1 : α) (order : Nat) (h : x0 ≥ x1) :
    lagrange_interpolation f x0 x1 order = some none ∧
    piecewise_linear_interpolation f x0 x1 order = some none ∧
    raised_cosine_interpolation f x0 x1 order = some none ∧
    least_squares_interpolation f x0 x1 order = some none := by
  refine ⟨?_, ?_, ?_, least_squares_null_of_not_lt f x0 x1 order (not_lt.mpr h)⟩
  · unfold lagrange_interpolation
    rw [if_pos h]
  · unfold piecewise_linear_interpolation
    rw [if_pos h]
  · unfold raised_cosine_interpolation
    rw [if_pos h]

/-- Witness of C25 over the rationals: the interval from `1` to `0` and the order `3`. -/
theorem C25_constructors_reject_empty_interval_witness :
    lagrange_interpolation (fun x : ℚ => x * x) 1 0 3 = some none ∧
    piecewise_linear_interpolation (fun x : ℚ => x * x) 1 0 3 = some none ∧
    raised_cosine_interpolation (fun x : ℚ => x * x) 1 0 3 = some none ∧
    least_squares_interpolation (fun x : ℚ => x * x) 1 0 3 = some none :=
  C25_constructors_reject_empty_interval (fun x : ℚ => x * x) 1 0 3 (by norm_num)

/-- C29, counterexample. For `f(x) = x` on the bracket `[0, 1]`, where `f(0) = 0`, and the
tolerance `2`, `bisection_method` does not enter its loop: it returns the midpoint `1/2`
with error `1/2` and zero iterations, not the endpoint `0` with error `0`. -/
theorem C29_no_short_circuit_for_wide_tolerance :
    (fun x : ℚ => x) 0 = 0 ∧
    ∀ fuel, bisection_method fuel (fun x : ℚ => x) 0 1 2 =
      some { value := some (1 / 2), error := some (1 / 2), iterations := 0,
             convergence_rate := some 1 } := by
  refine ⟨rfl, fun fuel => ?_⟩
  cases fuel <;>
    norm_num [bisection_method, bisection_run, bisection_loop, bisection_init,
      bisection_result]

/-- C29, amended. For a valid bracket (`x0 < x1`, `f x0 * f x1 ≤ 0`): when the tolerance is
below the width `x1 - x0` the loop is entered, and (with fuel for one round) its first
round returns `value = x0`, `error = 0` if `f x0 = 0`, and otherwise `value = x1`,
`error = 0` if `f x1 = 0`, with one iteration counted. When the tolerance is at least the
width the loop is not entered and the midpoint is returned with error `(x1 - x0) / 2`,
whatever the values at the endpoints. -/
theorem C29_short_circuit_within_tolerance {α : Type} [LinearOrderedField α]
    (f : α → α) (x0 x1 tolerance : α) (hlt : x0 < x1) (hs : f x0 * f x1 ≤ 0) :
    (tolerance < x1 - x0 → ∀ fuel, 1 ≤ fuel →
      (f x0 = 0 → bisection_method fuel f x0 x1 tolerance =
        some { value := some x0, error := some 0, iterations := 1,
               convergence_rate := some 1 }) ∧
      (f x0 ≠ 0 → f x1 = 0 → bisection_method fuel f x0 x1 tolerance =
        some { value := some x1, error := some 0, iterations := 1,
               convergence_rate := some 1 })) ∧
    (x1 - x0 ≤ tolerance → ∀ fuel, bisection_method fuel f x0 x1 tolerance =
      some { value := some ((x0 + x1) / 2), error := some ((x1 - x0) / 2), iterations := 0,
             convergence_rate := some 1 }) := by
  constructor
  · intro htol fuel hfuel
    obtain ⟨n, rfl⟩ : ∃ n, fuel = n + 1 := ⟨fuel - 1, by omega⟩
    have hgt : (bisection_init f x0 x1).error > tolerance / 2 := by
      show (x1 - x0) / 2 > tolerance / 2
      linarith
    constructor
    · intro h0
      rw [bisection_method_valid f x0 x1 tolerance hlt hs]
      unfold bisection_run bisection_loop
      rw [if_pos hgt, if_pos (show (bisection_init f x0 x1).y0 = 0 from h0)]
      rfl
    · intro h0 h1
      rw [bisection_method_valid f x0 x1 tolerance hlt hs]
      unfold bisection_run bisection_loop
      rw [if_pos hgt, if_neg (show ¬ (bisection_init f x0 x1).y0 = 0 from h0),
        if_pos (show (bisection_init f x0 x1).y1 = 0 from h1)]
      rfl
  · intro htol fuel
    have hle : ¬ (bisection_init f x0 x1).error > tolerance / 2 := by
      show ¬ (x1 - x0) / 2 > tolerance / 2
      rw [not_lt]
      linarith
    rw [bisection_method_valid f x0 x1 tolerance hlt hs]
    unfold bisection_run
    cases fuel with
    | zero =>
      unfold bisection_loop
      rw [if_neg hle]
      rfl
    | succ n =>
      unfold bisection_loop
      rw [if_neg hle]
      rfl

/-- Witness of the amended C29 over the rationals: `f(x) = x` on `[0, 1]`, with the
tolerance `1/4` (short circuit to `0`) and the tolerance `2` (midpoint). -/
theorem C29_short_circuit_within_tolerance_witness :
    (∀ fuel, 1 ≤ fuel → bisection_method fuel (fun x : ℚ => x) 0 1 (1 / 4) =
      some { value := some 0, error := some 0, iterations := 1,
             convergence_rate := some 1 }) ∧
    (∀ fuel, bisection_method fuel (fun x : ℚ => x) 0 1 2 =
      some { value := some ((0 + 1) / 2), error := some ((1 - 0) / 2), iterations := 0,
             convergence_rate := some 1 }) :=
  ⟨fun fuel hfuel =>
    (((C29_short_circuit_within_tolerance (fun x : ℚ => x) 0 1 (1 / 4) (by norm_num)
      (by norm_num)).1 (by norm_num)) fuel hfuel).1 rfl,
   (C29_short_circuit_within_tolerance (fun x : ℚ => x) 0 1 2 (by norm_num)
      (by norm_num)).2 (by norm_num)⟩

/-- C30, divergence. `matrix_scale_row` is called on the pivot `(1, 1)` of the working
matrix with rows `(0, 2)` and `(3, 4)` and the identity as the secondary matrix. The pivot
is zero and the second row has the nonzero entry `3` in the pivot column, so accumulating
that row would give the pivot row `(3, 6)` and the secondary row `(1, 1)`. The code instead
adds the element right of the pivot column of the second row twice to the second element
of the pivot row, in both matrices; the pivot stays zero and the call fails with `1`. -/
theorem C30_pivot_repair_leaves_zero_pivot :
    matrix_scale_row (⟨[0, 2, 3, 4], 2, 2⟩ : matrix ℚ) ⟨[1, 0, 0, 1], 2, 2⟩ 1 1 1 =
      some (1, ⟨[0, 10, 3, 4], 2, 2⟩, ⟨[1, 2, 0, 1], 2, 2⟩) := by
  simp [matrix_scale_row, matrix_scale_row_repair, matrix_scale_row_finish, for_up, load,
    store]
  norm_num

section sample_derivative_proofs
variable {α : Type} [LinearOrderedField α]

theorem sample_derivative_spec (indeterminate : extended α) (sf : sampled_function α)
    (hn : 2 ≤ sf.n_samples) (hlen : sf.samples.length = sf.n_samples) :
    ∃ samples : List (extended α),
      sample_derivative indeterminate sf =
        some (some { start := .finite sf.start,
                     stop := .finite (sf.stop - sf.sampling_interval),
                     sampling_interval := indeterminate, n_samples := sf.n_samples - 1,
                     samples := samples }) ∧
      samples.length = sf.n_samples - 1 ∧
      ∀ i, i < sf.n_samples - 1 →
        samples[i]? = some (extended.div
          (.finite (sf.samples.getD (i + 1) 0 - sf.samples.getD i 0)) indeterminate) := by
  obtain ⟨samples, hloop, hl, hsp⟩ := set_cells_loop
    (fun i => extended.div
      (.finite (sf.samples.getD (i + 1) 0 - sf.samples.getD i 0)) indeterminate)
    (fun i samples => do
      let a ← load sf.samples (i + 1)
      let b ← load sf.samples i
      store samples i (extended.div (.finite (a - b)) indeterminate)) 0 (sf.n_samples - 1)
    (List.replicate (sf.n_samples - 1) (extended.finite (0 : α))) (by simp)
    (by
      intro i els hi _
      show (load sf.samples (i + 1)).bind _ = _
      rw [load_getD sf.samples (i + 1) (by omega)]
      show (load sf.samples i).bind _ = _
      rw [load_getD sf.samples i (by omega), Nat.zero_add]
      rfl)
  refine ⟨samples, ?_, by rw [hl]; simp, ?_⟩
  · unfold sample_derivative
    rw [if_neg (by omega)]
    simp only
    rw [hloop]
    rfl
  · intro i hi
    rw [hsp i, if_pos ⟨Nat.zero_le i, by omega⟩]
    rfl

theorem sample_derivative_null_iff (indeterminate : extended α) (sf : sampled_function α) :
    sample_derivative indeterminate sf = some none ↔ sf.n_samples < 2 := by
  constructor
  · intro h
    by_contra hn
    unfold sample_derivative at h
    rw [if_neg hn] at h
    simp only at h
    cases hloop : for_up (fun i samples => do
        let a ← load sf.samples (i + 1)
        let b ← load sf.samples i
        store samples i (extended.div (.finite (a - b)) indeterminate)) (sf.n_samples - 1) 0
        (List.replicate (sf.n_samples - 1) (extended.finite (0 : α))) with
    | none => rw [hloop] at h; exact absurd h (by simp)
    | some s => rw [hloop] at h; exact absurd h (by simp)
  · intro h
    unfold sample_derivative
    rw [if_pos h]

end sample_derivative_proofs

/-- C21. `sample_derivative` returns `NULL` if and only if the input has fewer than 2
samples; on an input with `n ≥ 2` samples it returns a series with exactly `n - 1` samples,
whatever the unassigned interval field of the fresh block holds (zero, an infinity and
`NAN` included); sample `i` is the quotient of `samples[i + 1] - samples[i]` by that
content. -/
theorem C21_sample_derivative_count {α : Type} [LinearOrderedField α]
    (indeterminate : extended α) (sf : sampled_function α) :
    (sample_derivative indeterminate sf = some none ↔ sf.n_samples < 2) ∧
    (2 ≤ sf.n_samples → sf.samples.length = sf.n_samples →
      ∃ sd : sampled_function (extended α),
        sample_derivative indeterminate sf = some (some sd) ∧
        sd.n_samples = sf.n_samples - 1 ∧ sd.samples.length = sf.n_samples - 1 ∧
        ∀ i, i < sf.n_samples - 1 →
          sd.samples[i]? = some (extended.div
            (.finite (sf.samples.getD (i + 1) 0 - sf.samples.getD i 0)) indeterminate)) := by
  refine ⟨sample_derivative_null_iff indeterminate sf, ?_⟩
  intro hn hlen
  obtain ⟨samples, h, hl, hsp⟩ := sample_derivative_spec indeterminate sf hn hlen
  exact ⟨_, h, rfl, hl, hsp⟩

/-- Witness of C21 over the rationals, with the unassigned field holding zero as in a
zero-filled block: a set of three samples gives two (infinite) quotients, and a set of one
sample gives `NULL`. -/
theorem C21_sample_derivative_count_witness :
    (∃ sd : sampled_function (extended ℚ),
      sample_derivative (.finite (0 : ℚ)) ⟨0, 3, 1, 3, [0, 1, 4]⟩ = some (some sd) ∧
        sd.n_samples = 3 - 1 ∧ sd.samples.length = 3 - 1 ∧
        ∀ i, i < 3 - 1 →
          sd.samples[i]? = some (extended.div
            (.finite (([0, 1, 4] : List ℚ).getD (i + 1) 0 - ([0, 1, 4] : List ℚ).getD i 0))
            (.finite (0 : ℚ)))) ∧
    sample_derivative (.finite (0 : ℚ)) ⟨0, 1, 1, 1, [0]⟩ = some none :=
  ⟨(C21_sample_derivative_count (.finite (0 : ℚ)) ⟨0, 3, 1, 3, [0, 1, 4]⟩).2 (by decide) rfl,
   (C21_sample_derivative_count (.finite (0 : ℚ)) ⟨0, 1, 1, 1, [0]⟩).1.mpr (by decide)⟩

/-- C22, divergence. The input has the samples `0, 1` taken with the sampling interval
`1/2`, so the forward difference quotient is `(1 - 0) / (1/2) = 2`. `sample_derivative`
divides by the interval field of its own fresh block, read before it is assigned; when that
field holds `1` the returned sample is `1` and the recorded interval is `1`, not `1/2`. -/
theorem C22_sample_derivative_ignores_interval :
    sample_derivative (.finite (1 : ℚ)) ⟨0, 1, 1 / 2, 2, [0, 1]⟩ =
      some (some ⟨.finite 0, .finite (1 - 1 / 2), .finite 1, 1, [.finite 1]⟩) ∧
    ((1 : ℚ) - 0) / (1 / 2) = 2 := by
  constructor
  · simp [sample_derivative, for_up, load, store, extended.div]
  · norm_num

section fill_proofs
variable {α : Type} [LinearOrderedField α]

theorem piecewise_linear_fill_spec (sf : sampled_function α) (c0 : List α)
    (hs : sf.samples.length = sf.n_samples) (hc : c0.length = sf.n_samples) :
    ∃ cs, piecewise_linear_fill sf c0 = some cs ∧ cs.length = sf.n_samples ∧
      ∀ i, i < sf.n_samples → cs[i]? = some (sf.samples.getD i 0 / sf.sampling_interval) := by
  obtain ⟨cs, h1, h2, h3⟩ := set_cells_loop
    (fun i => sf.samples.getD i 0 / sf.sampling_interval)
    (fun i coefficients => do
      let s ← load sf.samples i
      store coefficients i (s / sf.sampling_interval)) 0 sf.n_samples c0 (by omega)
    (by
      intro i els hi _
      show (load sf.samples i).bind _ = _
      rw [load_getD sf.samples i (by omega), Nat.zero_add]
      rfl)
  refine ⟨cs, h1, by rw [h2, hc], ?_⟩
  intro i hi
  rw [h3 i, if_pos ⟨Nat.zero_le i, by omega⟩]
  rfl

theorem raised_cosine_fill_spec (sf : sampled_function α) (c0 : List α)
    (hs : sf.samples.length = sf.n_samples) (hc : c0.length = sf.n_samples) :
    ∃ cs, raised_cosine_fill sf c0 = some cs ∧ cs.length = sf.n_samples ∧
      ∀ i, i < sf.n_samples → cs[i]? = some (sf.samples.getD i 0 / 2) := by
  obtain ⟨cs, h1, h2, h3⟩ := set_cells_loop
    (fun i => sf.samples.getD i 0 / 2)
    (fun i coefficients => do
      let s ← load sf.samples i
      store coefficients i (s / 2)) 0 sf.n_samples c0 (by omega)
    (by
      intro i els hi _
      show (load sf.samples i).bind _ = _
      rw [load_getD sf.samples i (by omega), Nat.zero_add]
      rfl)
  refine ⟨cs, h1, by rw [h2, hc], ?_⟩
  intro i hi
  rw [h3 i, if_pos ⟨Nat.zero_le i, by omega⟩]
  rfl

end fill_proofs

section sampled_interpolation_proofs
variable {α : Type} [LinearOrderedField α] [FloorRing α]

theorem sample_values_order (f : α → α) (x0 x1 : α) (order : Nat) (hlt : x0 < x1)
    (hord : 1 ≤ order) :
    ∃ sf : sampled_function α,
      sample_values f x0 x1 ((x1 - x0) / (order : α)) = some (some sf) ∧
      sf.n_samples = order + 1 ∧ sf.samples.length = order + 1 ∧
      sf.sampling_interval = (x1 - x0) / (order : α) ∧ sf.start = x0 ∧
      ∀ i, i < order + 1 →
        sf.samples.getD i 0 = f (x0 + (x1 - x0) / (order : α) * (i : α)) := by
  obtain ⟨sf, hsf, hn, hs⟩ := sample_values_spec f x0 x1 order hlt hord
  have hpos : (0 : α) < (x1 - x0) / (order : α) :=
    div_pos (by linarith) (by exact_mod_cast hord)
  have hv := sample_values_valid f x0 x1 ((x1 - x0) / (order : α)) hlt hpos
  rw [hsf] at hv
  have he := Option.some.inj (Option.some.inj hv)
  refine ⟨sf, hsf, hn, by rw [hs]; simp, by rw [he], by rw [he], ?_⟩
  intro i hi
  apply getD_of_getElem?
  rw [hs, List.getElem?_map, List.getElem?_range hi]
  rfl

theorem piecewise_linear_interpolation_spec (f : α → α) (x0 x1 : α) (order : Nat)
    (hlt : x0 < x1) (hord : 1 ≤ order) :
    ∃ P : interpolation α, piecewise_linear_interpolation f x0 x1 order = some (some P) ∧
      P.start = x0 ∧ P.stop = x1 ∧ P.order = order ∧
      P.sampling_interval = some ((x1 - x0) / (order : α)) ∧
      P.coefficients.length = order + 1 ∧
      ∀ i, i < order + 1 → P.coefficients[i]? =
        some (f (x0 + (x1 - x0) / (order : α) * (i : α)) / ((x1 - x0) / (order : α))) := by
  obtain ⟨sf, hsf, hn, hl, hint, _, hsamp⟩ := sample_values_order f x0 x1 order hlt hord
  obtain ⟨cs, hfill, hcl, hc⟩ := piecewise_linear_fill_spec sf
    (allocate_interpolation f x0 x1 (sf.n_samples - 1)).coefficients (by rw [hl, hn])
    (by show (List.replicate _ _).length = _; rw [List.length_replicate]; omega)
  refine ⟨{ allocate_interpolation f x0 x1 (sf.n_samples - 1) with
      sampling_interval := some sf.sampling_interval, coefficients := cs }, ?_, rfl, rfl, ?_, ?_,
    by rw [hcl, hn], ?_⟩
  · unfold piecewise_linear_interpolation
    rw [if_neg (not_le.mpr hlt), if_neg (by omega)]
    simp only [hsf, Option.some_bind, hfill, Option.map_some']
  · show sf.n_samples - 1 = order
    omega
  · show some sf.sampling_interval = _
    rw [hint]
  · intro i hi
    show cs[i]? = _
    rw [hc i (by omega), hsamp i hi, hint]

theorem raised_cosine_interpolation_spec (f : α → α) (x0 x1 : α) (order : Nat)
    (hlt : x0 < x1) (hord : 1 ≤ order) :
    ∃ P : interpolation α, raised_cosine_interpolation f x0 x1 order = some (some P) ∧
      P.start = x0 ∧ P.stop = x1 ∧ P.order = order ∧
      P.sampling_interval = some ((x1 - x0) / (order : α)) ∧
      P.coefficients.length = order + 1 ∧
      ∀ i, i < order + 1 → P.coefficients[i]? =
        some (f (x0 + (x1 - x0) / (order : α) * (i : α)) / 2) := by
  obtain ⟨sf, hsf, hn, hl, hint, _, hsamp⟩ := sample_values_order f x0 x1 order hlt hord
  obtain ⟨cs, hfill, hcl, hc⟩ := raised_cosine_fill_spec sf
    (allocate_interpolation f x0 x1 (sf.n_samples - 1)).coefficients (by rw [hl, hn])
    (by show (List.replicate _ _).length = _; rw [List.length_replicate]; omega)
  refine ⟨{ allocate_interpolation f x0 x1 (sf.n_samples - 1) with
      sampling_interval := some sf.sampling_interval, coefficients := cs }, ?_, rfl, rfl, ?_, ?_,
    by rw [hcl, hn], ?_⟩
  · unfold raised_cosine_interpolation
    rw [if_neg (not_le.mpr hlt), if_neg (by omega)]
    simp only [hsf, Option.some_bind, hfill, Option.map_some']
  · show sf.n_samples - 1 = order
    omega
  · show some sf.sampling_interval = _
    rw [hint]
  · intro i hi
    show cs[i]? = _
    rw [hc i (by omega), hsamp i hi]

theorem grid_index (x0 x1 x : α) (order : Nat) (hlt : x0 < x1) (hord : 1 ≤ order)
    (hx0 : x0 ≤ x) (hx1 : x ≤ x1) :
    0 ≤ ⌊(x - x0) / ((x1 - x0) / (order : α))⌋ ∧
    0 ≤ ⌈(x - x0) / ((x1 - x0) / (order : α))⌉ ∧
    ⌊(x - x0) / ((x1 - x0) / (order : α))⌋.toNat ≤ order ∧
    ⌈(x - x0) / ((x1 - x0) / (order : α))⌉.toNat ≤ order ∧
    ((⌊(x - x0) / ((x1 - x0) / (order : α))⌋.toNat : α) =
      (⌊(x - x0) / ((x1 - x0) / (order : α))⌋ : α)) ∧
    ((⌈(x - x0) / ((x1 - x0) / (order : α))⌉.toNat : α) =
      (⌈(x - x0) / ((x1 - x0) / (order : α))⌉ : α)) := by
  have hordpos : (0 : α) < (order : α) := by exact_mod_cast hord
  have hh : (0 : α) < (x1 - x0) / (order : α) := div_pos (by linarith) hordpos
  have hq0 : (0 : α) ≤ (x - x0) / ((x1 - x0) / (order : α)) :=
    div_nonneg (by linarith) (le_of_lt hh)
  have hq1 : (x - x0) / ((x1 - x0) / (order : α)) ≤ (order : α) := by
    rw [div_le_iff₀ hh, mul_div_cancel₀ _ (ne_of_gt hordpos)]
    linarith
  have hf0 : 0 ≤ ⌊(x - x0) / ((x1 - x0) / (order : α))⌋ := Int.floor_nonneg.mpr hq0
  have hc0 : 0 ≤ ⌈(x - x0) / ((x1 - x0) / (order : α))⌉ := Int.ceil_nonneg hq0
  have hf1 : ⌊(x - x0) / ((x1 - x0) / (order : α))⌋ ≤ (order : Int) := by
    have h1 : ((⌊(x - x0) / ((x1 - x0) / (order : α))⌋ : Int) : α) ≤ (order : α) :=
      le_trans (Int.floor_le _) hq1
    exact_mod_cast h1
  have hc1 : ⌈(x - x0) / ((x1 - x0) / (order : α))⌉ ≤ (order : Int) := by
    rw [Int.ceil_le]
    exact_mod_cast hq1
  refine ⟨hf0, hc0, by omega, by omega, ?_, ?_⟩
  · have h := Int.toNat_of_nonneg hf0
    have h' : (((⌊(x - x0) / ((x1 - x0) / (order : α))⌋.toNat : Nat) : Int) : α) =
        ((⌊(x - x0) / ((x1 - x0) / (order : α))⌋ : Int) : α) := by rw [h]
    rw [← h', Int.cast_natCast]
  · have h := Int.toNat_of_nonneg hc0
    have h' : (((⌈(x - x0) / ((x1 - x0) / (order : α))⌉.toNat : Nat) : Int) : α) =
        ((⌈(x - x0) / ((x1 - x0) / (order : α))⌉ : Int) : α) := by rw [h]
    rw [← h', Int.cast_natCast]

theorem ceil_of_not_int (q : α) (h : q ≠ (⌊q⌋ : α)) : ⌈q⌉ = ⌊q⌋ + 1 := by
  apply le_antisymm (Int.ceil_le_floor_add_one q)
  have h1 : (⌊q⌋ : α) < q := lt_of_le_of_ne (Int.floor_le q) (Ne.symm h)
  have h2 : ⌊q⌋ < ⌈q⌉ := Int.lt_ceil.mpr h1
  omega

theorem ceil_of_int (q : α) (h : q = (⌊q⌋ : α)) : ⌈q⌉ = ⌊q⌋ := by
  conv_lhs => rw [h]
  exact Int.ceil_intCast _

end sampled_interpolation_proofs

section sampled_value_proofs
variable {α : Type} [LinearOrderedField α] [FloorRing α]

theorem piecewise_linear_value_outside (P : interpolation α) (x : α)
    (h : x < P.start ∨ x > P.stop) : piecewise_linear_value x P = some none := by
  unfold piecewise_linear_value
  rw [if_pos h]

theorem raised_cosine_value_outside (M_PI : α) (cosl : α → α) (P : interpolation α) (x : α)
    (h : x < P.start ∨ x > P.stop) : raised_cosine_value M_PI cosl x P = some none := by
  unfold raised_cosine_value
  rw [if_pos h]

theorem piecewise_linear_value_inside (P : interpolation α) (g : Nat → α) (x0 x1 x : α)
    (order : Nat) (hlt : x0 < x1) (hord : 1 ≤ order) (hstart : P.start = x0)
    (hstop : P.stop = x1) (hint : P.sampling_interval = some ((x1 - x0) / (order : α)))
    (hlen : P.coefficients.length = order + 1)
    (hc : ∀ i, i < order + 1 → P.coefficients[i]? = some (g i))
    (hx0 : x0 ≤ x) (hx1 : x ≤ x1) :
    piecewise_linear_value x P =
      some (some
        (g ⌊(x - x0) / ((x1 - x0) / (order : α))⌋.toNat *
            ((x1 - x0) / (order : α) *
              ((⌊(x - x0) / ((x1 - x0) / (order : α))⌋.toNat : α) + 1) - (x - x0)) -
          g ⌈(x - x0) / ((x1 - x0) / (order : α))⌉.toNat *
            ((x1 - x0) / (order : α) *
              (⌊(x - x0) / ((x1 - x0) / (order : α))⌋.toNat : α) - (x - x0)))) := by
  obtain ⟨hf0, hc0, hf1, hc1, _, _⟩ := grid_index x0 x1 x order hlt hord hx0 hx1
  have hh : (x1 - x0) / (order : α) ≠ 0 :=
    ne_of_gt (div_pos (by linarith) (by exact_mod_cast hord))
  unfold piecewise_linear_value
  rw [hstart, hstop, if_neg (by rw [not_or, not_lt, not_lt]; exact ⟨hx0, hx1⟩), hint]
  simp only
  rw [if_neg hh, if_neg (by rw [not_or, not_lt, not_lt]; exact ⟨hf0, hc0⟩)]
  have l0 : load P.coefficients ⌊(x - x0) / ((x1 - x0) / (order : α))⌋.toNat =
      some (g ⌊(x - x0) / ((x1 - x0) / (order : α))⌋.toNat) := hc _ (by omega)
  have l1 : load P.coefficients ⌈(x - x0) / ((x1 - x0) / (order : α))⌉.toNat =
      some (g ⌈(x - x0) / ((x1 - x0) / (order : α))⌉.toNat) := hc _ (by omega)
  rw [l0, l1]
  rfl

theorem raised_cosine_value_inside (M_PI : α) (cosl : α → α) (P : interpolation α)
    (g : Nat → α) (x0 x1 x : α)
    (order : Nat) (hlt : x0 < x1) (hord : 1 ≤ order) (hstart : P.start = x0)
    (hstop : P.stop = x1) (hint : P.sampling_interval = some ((x1 - x0) / (order : α)))
    (hlen : P.coefficients.length = order + 1)
    (hc : ∀ i, i < order + 1 → P.coefficients[i]? = some (g i))
    (hx0 : x0 ≤ x) (hx1 : x ≤ x1) :
    raised_cosine_value M_PI cosl x P =
      some (some
        (g ⌊(x - x0) / ((x1 - x0) / (order : α))⌋.toNat *
            (1 + cosl (M_PI * ((x - x0) / ((x1 - x0) / (order : α)) -
              (⌊(x - x0) / ((x1 - x0) / (order : α))⌋.toNat : α)))) +
          g ⌈(x - x0) / ((x1 - x0) / (order : α))⌉.toNat *
            (1 + cosl (M_PI * ((x - x0) / ((x1 - x0) / (order : α)) -
              ((⌊(x - x0) / ((x1 - x0) / (order : α))⌋.toNat : α) + 1)))))) := by
  obtain ⟨hf0, hc0, hf1, hc1, _, _⟩ := grid_index x0 x1 x order hlt hord hx0 hx1
  have hh : (x1 - x0) / (order : α) ≠ 0 :=
    ne_of_gt (div_pos (by linarith) (by exact_mod_cast hord))
  unfold raised_cosine_value
  rw [hstart, hstop, if_neg (by rw [not_or, not_lt, not_lt]; exact ⟨hx0, hx1⟩), hint]
  simp only
  rw [if_neg hh, if_neg (by rw [not_or, not_lt, not_lt]; exact ⟨hf0, hc0⟩)]
  have l0 : load P.coefficients ⌊(x - x0) / ((x1 - x0) / (order : α))⌋.toNat =
      some (g ⌊(x - x0) / ((x1 - x0) / (order : α))⌋.toNat) := hc _ (by omega)
  have l1 : load P.coefficients ⌈(x - x0) / ((x1 - x0) / (order : α))⌉.toNat =
      some (g ⌈(x - x0) / ((x1 - x0) / (order : α))⌉.toNat) := hc _ (by omega)
  rw [l0, l1]
  rfl

end sampled_value_proofs

/-- C23, amended. In exact arithmetic (`long double` read as an ordered field), for
`x0 < x1` and `order ≥ 1`, `piecewise_linear_interpolation` returns an
interpolation `P` such that, with `h = (x1 - x0) / order`: `piecewise_linear_value x P` is
`NAN` for `x < x0` or `x > x1`; and for `x0 ≤ x ≤ x1`, with `t = (x - x0) / h` and
`i = floor t`, it is the blend `f(x0 + i h) (i + 1 - t) + f(x0 + (i + 1) h) (t - i)`, which
is `f(x0 + i h)` when `t` is an integer. -/
theorem C23_piecewise_linear_blend {α : Type} [LinearOrderedField α] [FloorRing α]
    (f : α → α) (x0 x1 : α) (order : Nat) (hlt : x0 < x1) (hord : 1 ≤ order) :
    ∃ P : interpolation α, piecewise_linear_interpolation f x0 x1 order = some (some P) ∧
      (∀ x, x < x0 ∨ x > x1 → piecewise_linear_value x P = some none) ∧
      ∀ x, x0 ≤ x → x ≤ x1 →
        piecewise_linear_value x P =
          some (some
            (f (x0 + (⌊(x - x0) / ((x1 - x0) / (order : α))⌋ : α) * ((x1 - x0) / (order : α))) *
                ((⌊(x - x0) / ((x1 - x0) / (order : α))⌋ : α) + 1 -
                  (x - x0) / ((x1 - x0) / (order : α))) +
              f (x0 + ((⌊(x - x0) / ((x1 - x0) / (order : α))⌋ : α) + 1) *
                  ((x1 - x0) / (order : α))) *
                ((x - x0) / ((x1 - x0) / (order : α)) -
                  (⌊(x - x0) / ((x1 - x0) / (order : α))⌋ : α)))) ∧
        ((x - x0) / ((x1 - x0) / (order : α)) = (⌊(x - x0) / ((x1 - x0) / (order : α))⌋ : α) →
          piecewise_linear_value x P =
            some (some (f (x0 + (⌊(x - x0) / ((x1 - x0) / (order : α))⌋ : α) *
              ((x1 - x0) / (order : α)))))) := by
  obtain ⟨P, hP, hstart, hstop, _, hint, hlen, hc⟩ :=
    piecewise_linear_interpolation_spec f x0 x1 order hlt hord
  have hh : (x1 - x0) / (order : α) ≠ 0 :=
    ne_of_gt (div_pos (by linarith) (by exact_mod_cast hord))
  refine ⟨P, hP, ?_, ?_⟩
  · intro x hx
    exact piecewise_linear_value_outside P x (by rw [hstart, hstop]; exact hx)
  · intro x hx0 hx1
    have hval := piecewise_linear_value_inside P
      (fun i => f (x0 + (x1 - x0) / (order : α) * (i : α)) / ((x1 - x0) / (order : α)))
      x0 x1 x order hlt hord hstart hstop hint hlen hc hx0 hx1
    obtain ⟨hf0, hc0, _, _, hfc, hcc⟩ := grid_index x0 x1 x order hlt hord hx0 hx1
    have hxs : x - x0 = (x - x0) / ((x1 - x0) / (order : α)) * ((x1 - x0) / (order : α)) := by
      rw [div_mul_cancel₀ _ hh]
    generalize hq : (x - x0) / ((x1 - x0) / (order : α)) = q at hval hf0 hc0 hfc hcc hxs ⊢
    generalize hhd : (x1 - x0) / (order : α) = hd at hval hh hxs ⊢
    have hblend : ∀ (hi : q = (⌊q⌋ : α) ∨ q ≠ (⌊q⌋ : α)),
        f (x0 + hd * (⌊q⌋.toNat : α)) / hd * (hd * ((⌊q⌋.toNat : α) + 1) - (x - x0)) -
          f (x0 + hd * (⌈q⌉.toNat : α)) / hd * (hd * (⌊q⌋.toNat : α) - (x - x0)) =
        f (x0 + (⌊q⌋ : α) * hd) * ((⌊q⌋ : α) + 1 - q) +
          f (x0 + ((⌊q⌋ : α) + 1) * hd) * (q - (⌊q⌋ : α)) := by
      intro hi
      rw [hfc]
      rcases hi with hi | hi
      · have hce : ((⌈q⌉.toNat : α)) = (⌊q⌋ : α) := by rw [hcc, ceil_of_int q hi]
        rw [hce, hxs, mul_comm hd (⌊q⌋ : α)]
        generalize (⌊q⌋ : α) = I at hi ⊢
        subst hi
        generalize f (x0 + q * hd) = A
        generalize f (x0 + (q + 1) * hd) = B
        have e : ∀ a u : α, a / hd * (hd * u) = a * u := fun a u => by field_simp; ring
        rw [show hd * (q + 1) - q * hd = hd * (q + 1 - q) by ring,
          show q * hd - q * hd = hd * (q - q) by ring, e, e]
        ring
      · have hce : ((⌈q⌉.toNat : α)) = (⌊q⌋ : α) + 1 := by
          rw [hcc, ceil_of_not_int q hi]
          push_cast
          ring
        rw [hce, hxs, mul_comm hd (⌊q⌋ : α), mul_comm hd ((⌊q⌋ : α) + 1)]
        generalize (⌊q⌋ : α) = I
        generalize f (x0 + I * hd) = A
        generalize f (x0 + (I + 1) * hd) = B
        have e : ∀ a u : α, a / hd * (hd * u) = a * u := fun a u => by field_simp; ring
        rw [show (I + 1) * hd - q * hd = hd * (I + 1 - q) by ring,
          show I * hd - q * hd = hd * (I - q) by ring, e, e]
        ring
    constructor
    · rw [hval]
      exact congrArg (fun v => some (some v)) (hblend (em _))
    · intro hi
      rw [hval]
      apply congrArg (fun v => some (some v))
      rw [hblend (Or.inl hi)]
      have e1 : q - (⌊q⌋ : α) = 0 := by rw [← hi]; ring
      have e2 : (⌊q⌋ : α) + 1 - q = 1 := by rw [← hi]; ring
      rw [e1, e2, mul_zero, add_zero, mul_one]

/-- Witness of the amended C23 over the rationals: `f(x) = x * x` on `[0, 1]` with four intervals. -/
theorem C23_piecewise_linear_blend_witness :
    ∃ P : interpolation ℚ,
      piecewise_linear_interpolation (fun x : ℚ => x * x) 0 1 4 = some (some P) ∧
      (∀ x, x < 0 ∨ x > 1 → piecewise_linear_value x P = some none) ∧
      ∀ x : ℚ, 0 ≤ x → x ≤ 1 →
        piecewise_linear_value x P =
          some (some
            ((fun x : ℚ => x * x)
                (0 + (⌊(x - 0) / ((1 - 0) / ((4 : Nat) : ℚ))⌋ : ℚ) * ((1 - 0) / ((4 : Nat) : ℚ))) *
                ((⌊(x - 0) / ((1 - 0) / ((4 : Nat) : ℚ))⌋ : ℚ) + 1 -
                  (x - 0) / ((1 - 0) / ((4 : Nat) : ℚ))) +
              (fun x : ℚ => x * x)
                (0 + ((⌊(x - 0) / ((1 - 0) / ((4 : Nat) : ℚ))⌋ : ℚ) + 1) *
                  ((1 - 0) / ((4 : Nat) : ℚ))) *
                ((x - 0) / ((1 - 0) / ((4 : Nat) : ℚ)) -
                  (⌊(x - 0) / ((1 - 0) / ((4 : Nat) : ℚ))⌋ : ℚ)))) ∧
        ((x - 0) / ((1 - 0) / ((4 : Nat) : ℚ)) = (⌊(x - 0) / ((1 - 0) / ((4 : Nat) : ℚ))⌋ : ℚ) →
          piecewise_linear_value x P =
            some (some ((fun x : ℚ => x * x)
              (0 + (⌊(x - 0) / ((1 - 0) / ((4 : Nat) : ℚ))⌋ : ℚ) *
                ((1 - 0) / ((4 : Nat) : ℚ)))))) :=
  C23_piecewise_linear_blend (fun x : ℚ => x * x) 0 1 4 (by norm_num) (by norm_num)

/-- C24, amended. In exact arithmetic over the reals, with `M_PI` read as `π` and `cosl` as
the cosine: for `x0 < x1`
and `order ≥ 1`, `raised_cosine_interpolation` returns an interpolation `P` such that, with
`h = (x1 - x0) / order`: `raised_cosine_value x P` is `NAN` outside `[x0, x1]`; inside,
with `t = (x - x0) / h`, `i = floor t` and `a = t - i`, it is
`f(x0 + i h) (1 + cos(π a)) / 2 + f(x0 + ceil(t) h) (1 - cos(π a)) / 2`, the two weights
sum to `1`, and at a knot (`t` an integer) it is `f(x0 + i h)`. -/
theorem C24_raised_cosine_blend (f : ℝ → ℝ) (x0 x1 : ℝ) (order : Nat) (hlt : x0 < x1)
    (hord : 1 ≤ order) :
    ∃ P : interpolation ℝ, raised_cosine_interpolation f x0 x1 order = some (some P) ∧
      (∀ x, x < x0 ∨ x > x1 → raised_cosine_value Real.pi Real.cos x P = some none) ∧
      ∀ x, x0 ≤ x → x ≤ x1 →
        raised_cosine_value Real.pi Real.cos x P =
          some (some
            (f (x0 + (⌊(x - x0) / ((x1 - x0) / (order : ℝ))⌋ : ℝ) * ((x1 - x0) / (order : ℝ))) *
                ((1 + Real.cos (Real.pi * ((x - x0) / ((x1 - x0) / (order : ℝ)) -
                  (⌊(x - x0) / ((x1 - x0) / (order : ℝ))⌋ : ℝ)))) / 2) +
              f (x0 + (⌈(x - x0) / ((x1 - x0) / (order : ℝ))⌉ : ℝ) *
                  ((x1 - x0) / (order : ℝ))) *
                ((1 - Real.cos (Real.pi * ((x - x0) / ((x1 - x0) / (order : ℝ)) -
                  (⌊(x - x0) / ((x1 - x0) / (order : ℝ))⌋ : ℝ)))) / 2))) ∧
        ((1 + Real.cos (Real.pi * ((x - x0) / ((x1 - x0) / (order : ℝ)) -
            (⌊(x - x0) / ((x1 - x0) / (order : ℝ))⌋ : ℝ)))) / 2 +
          (1 - Real.cos (Real.pi * ((x - x0) / ((x1 - x0) / (order : ℝ)) -
            (⌊(x - x0) / ((x1 - x0) / (order : ℝ))⌋ : ℝ)))) / 2 = 1) ∧
        ((x - x0) / ((x1 - x0) / (order : ℝ)) = (⌊(x - x0) / ((x1 - x0) / (order : ℝ))⌋ : ℝ) →
          raised_cosine_value Real.pi Real.cos x P =
            some (some (f (x0 + (⌊(x - x0) / ((x1 - x0) / (order : ℝ))⌋ : ℝ) *
              ((x1 - x0) / (order : ℝ)))))) := by
  obtain ⟨P, hP, hstart, hstop, _, hint, hlen, hc⟩ :=
    raised_cosine_interpolation_spec f x0 x1 order hlt hord
  refine ⟨P, hP, ?_, ?_⟩
  · intro x hx
    exact raised_cosine_value_outside Real.pi Real.cos P x (by rw [hstart, hstop]; exact hx)
  · intro x hx0 hx1
    have hval := raised_cosine_value_inside Real.pi Real.cos P
      (fun i => f (x0 + (x1 - x0) / (order : ℝ) * (i : ℝ)) / 2)
      x0 x1 x order hlt hord hstart hstop hint hlen hc hx0 hx1
    obtain ⟨_, _, _, _, hfc, hcc⟩ := grid_index x0 x1 x order hlt hord hx0 hx1
    generalize hq : (x - x0) / ((x1 - x0) / (order : ℝ)) = q at hval hfc hcc ⊢
    generalize hhd : (x1 - x0) / (order : ℝ) = hd at hval ⊢
    have hshift : Real.cos (Real.pi * (q - ((⌊q⌋ : ℝ) + 1))) =
        -Real.cos (Real.pi * (q - (⌊q⌋ : ℝ))) := by
      rw [show Real.pi * (q - ((⌊q⌋ : ℝ) + 1)) = Real.pi * (q - (⌊q⌋ : ℝ)) - Real.pi by ring,
        Real.cos_sub_pi]
    have hblend :
        f (x0 + hd * (⌊q⌋.toNat : ℝ)) / 2 *
            (1 + Real.cos (Real.pi * (q - (⌊q⌋.toNat : ℝ)))) +
          f (x0 + hd * (⌈q⌉.toNat : ℝ)) / 2 *
            (1 + Real.cos (Real.pi * (q - ((⌊q⌋.toNat : ℝ) + 1)))) =
        f (x0 + (⌊q⌋ : ℝ) * hd) * ((1 + Real.cos (Real.pi * (q - (⌊q⌋ : ℝ)))) / 2) +
          f (x0 + (⌈q⌉ : ℝ) * hd) * ((1 - Real.cos (Real.pi * (q - (⌊q⌋ : ℝ)))) / 2) := by
      rw [hfc, hcc, hshift, mul_comm hd (⌊q⌋ : ℝ), mul_comm hd (⌈q⌉ : ℝ)]
      ring
    refine ⟨?_, by ring, ?_⟩
    · rw [hval]
      exact congrArg (fun v => some (some v)) hblend
    · intro hi
      rw [hval]
      apply congrArg (fun v => some (some v))
      rw [hblend, ceil_of_int q hi]
      have e1 : q - (⌊q⌋ : ℝ) = 0 := by rw [← hi]; ring
      rw [e1, mul_zero, Real.cos_zero]
      ring

/-- Witness of the amended C24: `f(x) = x * x` on `[0, 1]` with four intervals. -/
theorem C24_raised_cosine_blend_witness :
    ∃ P : interpolation ℝ,
      raised_cosine_interpolation (fun x : ℝ => x * x) 0 1 4 = some (some P) ∧
      (∀ x, x < 0 ∨ x > 1 → raised_cosine_value Real.pi Real.cos x P = some none) ∧
      ∀ x : ℝ, 0 ≤ x → x ≤ 1 →
        raised_cosine_value Real.pi Real.cos x P =
          some (some
            ((fun x : ℝ => x * x)
                (0 + (⌊(x - 0) / ((1 - 0) / ((4 : Nat) : ℝ))⌋ : ℝ) * ((1 - 0) / ((4 : Nat) : ℝ))) *
                ((1 + Real.cos (Real.pi * ((x - 0) / ((1 - 0) / ((4 : Nat) : ℝ)) -
                  (⌊(x - 0) / ((1 - 0) / ((4 : Nat) : ℝ))⌋ : ℝ)))) / 2) +
              (fun x : ℝ => x * x)
                (0 + (⌈(x - 0) / ((1 - 0) / ((4 : Nat) : ℝ))⌉ : ℝ) *
                  ((1 - 0) / ((4 : Nat) : ℝ))) *
                ((1 - Real.cos (Real.pi * ((x - 0) / ((1 - 0) / ((4 : Nat) : ℝ)) -
                  (⌊(x - 0) / ((1 - 0) / ((4 : Nat) : ℝ))⌋ : ℝ)))) / 2))) ∧
        ((1 + Real.cos (Real.pi * ((x - 0) / ((1 - 0) / ((4 : Nat) : ℝ)) -
            (⌊(x - 0) / ((1 - 0) / ((4 : Nat) : ℝ))⌋ : ℝ)))) / 2 +
          (1 - Real.cos (Real.pi * ((x - 0) / ((1 - 0) / ((4 : Nat) : ℝ)) -
            (⌊(x - 0) / ((1 - 0) / ((4 : Nat) : ℝ))⌋ : ℝ)))) / 2 = 1) ∧
        ((x - 0) / ((1 - 0) / ((4 : Nat) : ℝ)) = (⌊(x - 0) / ((1 - 0) / ((4 : Nat) : ℝ))⌋ : ℝ) →
          raised_cosine_value Real.pi Real.cos x P =
            some (some ((fun x : ℝ => x * x)
              (0 + (⌊(x - 0) / ((1 - 0) / ((4 : Nat) : ℝ))⌋ : ℝ) *
                ((1 - 0) / ((4 : Nat) : ℝ)))))) :=
  C24_raised_cosine_blend (fun x : ℝ => x * x) 0 1 4 (by norm_num) (by norm_num)

theorem squared_sums_nonneg {α : Type} [LinearOrderedField α] (f1 f2 : α → α) (start stop : α) (points : Nat) :
    0 ≤ squared_difference_sum f1 f2 start stop points ∧
    0 ≤ squared_sum f1 start stop points := by
  constructor
  · exact Finset.sum_nonneg fun i _ => sq_nonneg _
  · exact Finset.sum_nonneg fun i _ => sq_nonneg _

section function_error_proofs
variable {α : Type} [LinearOrderedField α] [FloorRing α]

theorem function_error_spec (sqrtl : α → α) (f1 f2 : α → α) (start stop : α) (points : Nat)
    (hlt : start < stop) (hp : 1 ≤ points) :
    function_error sqrtl f1 f2 start stop points =
      some (extended.sqrtl sqrtl
        (extended.div (.finite (squared_difference_sum f1 f2 start stop points))
          (.finite (squared_sum f1 start stop points)))) := by
  obtain ⟨sf1, hsf1, hn1, hl1, _, _, hs1⟩ := sample_values_order f1 start stop points hlt hp
  obtain ⟨sf2, hsf2, hn2, hl2, _, _, hs2⟩ := sample_values_order f2 start stop points hlt hp
  have hloop := for_up_inv (fun i (st : α × α) => do
      let s1 ← load sf1.samples i
      let s2 ← load sf2.samples i
      some (st.1 + (s1 - s2) ^ 2, st.2 + s1 ^ 2))
    (fun i st =>
      st.1 = ∑ k in Finset.range i,
        (f1 (grid_point start stop points k) - f2 (grid_point start stop points k)) ^ 2 ∧
      st.2 = ∑ k in Finset.range i, f1 (grid_point start stop points k) ^ 2)
    (points + 1) 0 ((0 : α), (0 : α)) ⟨by simp, by simp⟩
    (by
      intro i st _ hi ⟨h1, h2⟩
      have hi' : i < points + 1 := by omega
      refine ⟨(st.1 + (sf1.samples.getD i 0 - sf2.samples.getD i 0) ^ 2,
        st.2 + sf1.samples.getD i 0 ^ 2), ?_, ?_, ?_⟩
      · show (load sf1.samples i).bind _ = _
        rw [load_getD sf1.samples i (by omega)]
        show (load sf2.samples i).bind _ = _
        rw [load_getD sf2.samples i (by omega)]
        rfl
      · rw [Finset.sum_range_succ, ← h1, hs1 i hi', hs2 i hi']
        rfl
      · rw [Finset.sum_range_succ, ← h2, hs1 i hi']
        rfl)
  obtain ⟨st, hst, hd, hf⟩ := hloop
  rw [Nat.zero_add] at hd hf
  unfold function_error
  rw [if_neg (not_le.mpr hlt), if_neg (by omega)]
  simp only
  rw [hsf1]
  simp only
  rw [hsf2]
  simp only
  rw [hn1, hn2, if_neg (lt_irrefl _), hst]
  show some (extended.sqrtl sqrtl (extended.div (.finite st.1) (.finite st.2))) = _
  rw [hd, hf]
  rfl

theorem function_error_empty (sqrtl : α → α) (f1 f2 : α → α) (start stop : α) (points : Nat)
    (h : stop ≤ start) : function_error sqrtl f1 f2 start stop points = some .nan := by
  unfold function_error
  rw [if_pos h]

end function_error_proofs

/-- C27, amended. In exact arithmetic over the reals, with `sqrtl` the square root:
`function_error` is `NAN` when `end ≤ start`. For `start < end` and `points ≥ 1`, with `D` the sum of
`(f1(x_i) - f2(x_i))^2` and `F` the sum of `f1(x_i)^2` over the grid
`x_i = start + i (end - start) / points`, `i = 0..points`, it returns the square root of
`D / F` computed as a `long double`: when `F ≠ 0` this is the non-negative number
`sqrt(D / F)`, which is `0` when `f1` and `f2` agree on the grid; when `F = 0` (`f1` is zero
at every grid point) it is `NAN` or `+∞`. -/
theorem C27_function_error_value (f1 f2 : ℝ → ℝ) (start stop : ℝ) (points : Nat) :
    (stop ≤ start → function_error Real.sqrt f1 f2 start stop points = some .nan) ∧
    (start < stop → 1 ≤ points →
      function_error Real.sqrt f1 f2 start stop points =
        some (extended.sqrtl Real.sqrt
          (extended.div (.finite (squared_difference_sum f1 f2 start stop points))
            (.finite (squared_sum f1 start stop points)))) ∧
      (squared_sum f1 start stop points ≠ 0 →
        function_error Real.sqrt f1 f2 start stop points =
          some (.finite (Real.sqrt (squared_difference_sum f1 f2 start stop points /
            squared_sum f1 start stop points))) ∧
        0 ≤ Real.sqrt (squared_difference_sum f1 f2 start stop points /
            squared_sum f1 start stop points) ∧
        ((∀ i, i ≤ points →
            f1 (grid_point start stop points i) = f2 (grid_point start stop points i)) →
          function_error Real.sqrt f1 f2 start stop points = some (.finite 0))) ∧
      (squared_sum f1 start stop points = 0 →
        function_error Real.sqrt f1 f2 start stop points = some .nan ∨
        function_error Real.sqrt f1 f2 start stop points = some .pos_inf)) := by
  refine ⟨function_error_empty Real.sqrt f1 f2 start stop points, ?_⟩
  intro hlt hp
  have hspec := function_error_spec Real.sqrt f1 f2 start stop points hlt hp
  obtain ⟨hD, hF⟩ := squared_sums_nonneg f1 f2 start stop points
  refine ⟨hspec, ?_, ?_⟩
  · intro hne
    have hval : function_error Real.sqrt f1 f2 start stop points =
        some (.finite (Real.sqrt (squared_difference_sum f1 f2 start stop points /
          squared_sum f1 start stop points))) := by
      rw [hspec]
      unfold extended.div
      simp only
      rw [if_neg hne]
      unfold extended.sqrtl
      simp only
      rw [if_pos (div_nonneg hD hF)]
    refine ⟨hval, Real.sqrt_nonneg _, ?_⟩
    intro hagree
    have hD0 : squared_difference_sum f1 f2 start stop points = 0 := by
      unfold squared_difference_sum
      apply Finset.sum_eq_zero
      intro i hi
      rw [hagree i (by have := Finset.mem_range.mp hi; omega), sub_self]
      ring
    rw [hval, hD0, zero_div, Real.sqrt_zero]
  · intro h0
    rw [hspec, h0]
    unfold extended.div
    simp only [if_true]
    by_cases hpos : squared_difference_sum f1 f2 start stop points > 0
    · right
      rw [if_pos hpos]
      rfl
    · left
      rw [if_neg hpos, if_neg (not_lt.mpr hD)]
      rfl

/-- Witness of the amended C27: the functions `x` and `x * x` on `[0, 1]` with four
intervals. -/
theorem C27_function_error_value_witness :
    function_error Real.sqrt (fun x : ℝ => x) (fun x : ℝ => x * x) 0 1 4 =
      some (extended.sqrtl Real.sqrt
        (extended.div
          (.finite (squared_difference_sum (fun x : ℝ => x) (fun x : ℝ => x * x) 0 1 4))
          (.finite (squared_sum (fun x : ℝ => x) 0 1 4)))) :=
  ((C27_function_error_value (fun x : ℝ => x) (fun x : ℝ => x * x) 0 1 4).2 (by norm_num)
    (by norm_num)).1

section least_squares_failure
variable {α : Type} [LinearOrderedField α] [FloorRing α]

theorem least_squares_of_samples (f : α → α) (x0 x1 : α) (order : Nat)
    (sf : sampled_function α)
    (hsf : sample_values f x0 x1 ((x1 - x0) / LEAST_SQUARES_POINTS) = some (some sf)) :
    least_squares_interpolation f x0 x1 order = least_squares_fit f x0 x1 order sf := by
  unfold least_squares_interpolation
  simp only
  rw [hsf]

end least_squares_failure

section least_squares_stages
variable {α : Type} [LinearOrderedField α]

theorem least_squares_fit_of_solve (f : α → α) (x0 x1 : α) (order : Nat)
    (sf : sampled_function α) (Xt : matrix α)
    (hd : least_squares_design sf order = some (some Xt)) :
    least_squares_fit f x0 x1 order sf =
      match least_squares_solve Xt ⟨sf.samples, 1, sf.n_samples⟩ with
      | none => none
      | some none => some none
      | some (some solution) =>
        (least_squares_copy solution (allocate_interpolation f x0 x1 order).coefficients).map
          fun coefficients =>
            some { allocate_interpolation f x0 x1 order with coefficients := coefficients } := by
  unfold least_squares_fit
  simp only
  rw [hd]
  rfl

end least_squares_stages

section engine_stages
variable {α : Type}

theorem engine_solve_transpose_null (E : matrix_engine α) (Xt y : matrix α)
    (h : E.transpose_matrix Xt = some none) : E.least_squares_solve Xt y = some none := by
  unfold matrix_engine.least_squares_solve
  rw [h]

theorem engine_solve_product_null (E : matrix_engine α) (Xt y X : matrix α)
    (h1 : E.transpose_matrix Xt = some (some X)) (h : E.matrix_multiply Xt X = some none) :
    E.least_squares_solve Xt y = some none := by
  unfold matrix_engine.least_squares_solve
  rw [h1]
  simp only
  rw [h]

theorem engine_solve_inverse_null (E : matrix_engine α) (Xt y X N : matrix α)
    (h1 : E.transpose_matrix Xt = some (some X))
    (h2 : E.matrix_multiply Xt X = some (some N))
    (h : E.matrix_inverse N = some none) : E.least_squares_solve Xt y = some none := by
  unfold matrix_engine.least_squares_solve
  rw [h1]
  simp only
  rw [h2]
  simp only
  rw [h]

theorem engine_solve_second_null (E : matrix_engine α) (Xt y X N R : matrix α)
    (h1 : E.transpose_matrix Xt = some (some X))
    (h2 : E.matrix_multiply Xt X = some (some N))
    (h3 : E.matrix_inverse N = some (some R)) (h : E.matrix_multiply R Xt = some none) :
    E.least_squares_solve Xt y = some none := by
  unfold matrix_engine.least_squares_solve
  rw [h1]
  simp only
  rw [h2]
  simp only
  rw [h3]
  simp only
  rw [h]

theorem engine_solve_third (E : matrix_engine α) (Xt y X N R Q : matrix α)
    (h1 : E.transpose_matrix Xt = some (some X))
    (h2 : E.matrix_multiply Xt X = some (some N))
    (h3 : E.matrix_inverse N = some (some R))
    (h4 : E.matrix_multiply R Xt = some (some Q)) :
    E.least_squares_solve Xt y =
      match E.matrix_multiply Q y with
      | none => none
      | some none => some none
      | some (some S) => if S.cols ≠ 1 then some none else some (some S) := by
  unfold matrix_engine.least_squares_solve
  rw [h1]
  simp only
  rw [h2]
  simp only
  rw [h3]
  simp only
  rw [h4]

theorem engine_solve_steps (E : matrix_engine α) (Xt y S : matrix α)
    (h : E.least_squares_solve Xt y = some (some S)) :
    ∃ X N R Q : matrix α, E.transpose_matrix Xt = some (some X) ∧
      E.matrix_multiply Xt X = some (some N) ∧ E.matrix_inverse N = some (some R) ∧
      E.matrix_multiply R Xt = some (some Q) ∧ E.matrix_multiply Q y = some (some S) ∧
      S.cols = 1 := by
  cases h1 : E.transpose_matrix Xt with
  | none => unfold matrix_engine.least_squares_solve at h; rw [h1] at h; exact absurd h (by simp)
  | some o1 =>
  cases o1 with
  | none => rw [engine_solve_transpose_null E Xt y h1] at h; exact absurd h (by simp)
  | some X =>
  cases h2 : E.matrix_multiply Xt X with
  | none =>
    unfold matrix_engine.least_squares_solve at h
    rw [h1] at h
    simp only at h
    rw [h2] at h
    exact absurd h (by simp)
  | some o2 =>
  cases o2 with
  | none => rw [engine_solve_product_null E Xt y X h1 h2] at h; exact absurd h (by simp)
  | some N =>
  cases h3 : E.matrix_inverse N with
  | none =>
    unfold matrix_engine.least_squares_solve at h
    rw [h1] at h
    simp only at h
    rw [h2] at h
    simp only at h
    rw [h3] at h
    exact absurd h (by simp)
  | some o3 =>
  cases o3 with
  | none => rw [engine_solve_inverse_null E Xt y X N h1 h2 h3] at h; exact absurd h (by simp)
  | some R =>
  cases h4 : E.matrix_multiply R Xt with
  | none =>
    unfold matrix_engine.least_squares_solve at h
    rw [h1] at h
    simp only at h
    rw [h2] at h
    simp only at h
    rw [h3] at h
    simp only at h
    rw [h4] at h
    exact absurd h (by simp)
  | some o4 =>
  cases o4 with
  | none =>
    rw [engine_solve_second_null E Xt y X N R h1 h2 h3 h4] at h
    exact absurd h (by simp)
  | some Q =>
  rw [engine_solve_third E Xt y X N R Q h1 h2 h3 h4] at h
  cases h5 : E.matrix_multiply Q y with
  | none => rw [h5] at h; exact absurd h (by simp)
  | some o5 =>
  cases o5 with
  | none => rw [h5] at h; exact absurd h (by simp)
  | some S1 =>
  rw [h5] at h
  simp only at h
  by_cases hc : S1.cols ≠ 1
  · rw [if_pos hc] at h
    exact absurd h (by simp)
  · rw [if_neg hc] at h
    have e : S1 = S := Option.some.inj (Option.some.inj h)
    rw [← e]
    exact ⟨X, N, R, Q, rfl, h2, h3, h4, h5, not_not.mp hc⟩

end engine_stages

section engine_fit
variable {α : Type} [LinearOrderedField α]

theorem engine_fit_of_solve (E : matrix_engine α) (f : α → α) (x0 x1 : α) (order : Nat)
    (sf : sampled_function α) (Xt : matrix α)
    (hd : E.least_squares_design sf order = some (some Xt)) :
    E.least_squares_fit f x0 x1 order sf =
      match E.least_squares_solve Xt ⟨sf.samples, 1, sf.n_samples⟩ with
      | none => none
      | some none => some none
      | some (some solution) =>
        (least_squares_copy solution (allocate_interpolation f x0 x1 order).coefficients).map
          fun coefficients =>
            some { allocate_interpolation f x0 x1 order with coefficients := coefficients } := by
  unfold matrix_engine.least_squares_fit
  simp only
  rw [hd]
  rfl

theorem engine_design_created (E : matrix_engine α) (sf : sampled_function α) (order : Nat)
    (Xt : matrix α) (hd : E.least_squares_design sf order = some (some Xt)) :
    ∃ M : matrix α, E.create_matrix sf.n_samples (order + 1) = some M := by
  cases hc : E.create_matrix sf.n_samples (order + 1) with
  | none =>
    unfold matrix_engine.least_squares_design at hd
    rw [hc] at hd
    exact absurd hd (by simp)
  | some M => exact ⟨M, rfl⟩

end engine_fit

section engine_samples
variable {α : Type} [LinearOrderedField α] [FloorRing α]

theorem engine_of_samples (E : matrix_engine α) (f : α → α) (x0 x1 : α) (order : Nat)
    (sf : sampled_function α)
    (hsf : sample_values f x0 x1 ((x1 - x0) / LEAST_SQUARES_POINTS) = some (some sf)) :
    E.least_squares_interpolation f x0 x1 order = E.least_squares_fit f x0 x1 order sf := by
  unfold matrix_engine.least_squares_interpolation
  simp only
  rw [hsf]

end engine_samples

/-- C28. Whatever the routines of the matrix engine return (a matrix, or `NULL` by a failed
allocation, a mismatch of dimensions or a singular matrix), after the samples are taken
`least_squares_interpolation` returns `NULL` whenever a step of the engine returns `NULL`:
the creation of the design matrix, its transpose, the product `X^T X`, the inverse of that
product, the product of the inverse with `X^T`, or the product with the sample vector (also
when that product does not have exactly one column). An interpolation is returned only
when every one of these steps returned a matrix, and its coefficients are then the result
of the copy loop on the solution, the last product. With the routines of matrix.c as the
engine this is `least_squares_interpolation` itself. -/
theorem C28_least_squares_failure_propagates {α : Type} [LinearOrderedField α] [FloorRing α]
    (E : matrix_engine α) (f : α → α) (x0 x1 : α) (order : Nat) (sf : sampled_function α)
    (hsf : sample_values f x0 x1 ((x1 - x0) / LEAST_SQUARES_POINTS) = some (some sf)) :
    (E.create_matrix sf.n_samples (order + 1) = none →
      E.least_squares_interpolation f x0 x1 order = some none) ∧
    (∀ Xt : matrix α, E.least_squares_design sf order = some (some Xt) →
      (E.transpose_matrix Xt = some none →
        E.least_squares_interpolation f x0 x1 order = some none) ∧
      (∀ X : matrix α, E.transpose_matrix Xt = some (some X) →
        (E.matrix_multiply Xt X = some none →
          E.least_squares_interpolation f x0 x1 order = some none) ∧
        (∀ N : matrix α, E.matrix_multiply Xt X = some (some N) →
          (E.matrix_inverse N = some none →
            E.least_squares_interpolation f x0 x1 order = some none) ∧
          (∀ R : matrix α, E.matrix_inverse N = some (some R) →
            (E.matrix_multiply R Xt = some none →
              E.least_squares_interpolation f x0 x1 order = some none) ∧
            (∀ Q : matrix α, E.matrix_multiply R Xt = some (some Q) →
              (E.matrix_multiply Q ⟨sf.samples, 1, sf.n_samples⟩ = some none →
                E.least_squares_interpolation f x0 x1 order = some none) ∧
              (∀ S : matrix α,
                E.matrix_multiply Q ⟨sf.samples, 1, sf.n_samples⟩ = some (some S) →
                S.cols ≠ 1 →
                E.least_squares_interpolation f x0 x1 order = some none)))))) ∧
    (∀ L : interpolation α, E.least_squares_interpolation f x0 x1 order = some (some L) →
      ∃ M Xt X N R Q S : matrix α,
        E.create_matrix sf.n_samples (order + 1) = some M ∧
        E.least_squares_design sf order = some (some Xt) ∧
        E.transpose_matrix Xt = some (some X) ∧
        E.matrix_multiply Xt X = some (some N) ∧
        E.matrix_inverse N = some (some R) ∧
        E.matrix_multiply R Xt = some (some Q) ∧
        E.matrix_multiply Q ⟨sf.samples, 1, sf.n_samples⟩ = some (some S) ∧
        S.cols = 1 ∧
        E.least_squares_solve Xt ⟨sf.samples, 1, sf.n_samples⟩ = some (some S) ∧
        least_squares_copy S (allocate_interpolation f x0 x1 order).coefficients =
          some L.coefficients) ∧
    ((matrix_engine.of_source : matrix_engine α).least_squares_interpolation f x0 x1 order =
        least_squares_interpolation f x0 x1 order ∧
      (matrix_engine.of_source : matrix_engine α).least_squares_design sf order =
        least_squares_design sf order ∧
      ∀ Xt y : matrix α, (matrix_engine.of_source : matrix_engine α).least_squares_solve Xt y =
        least_squares_solve Xt y) := by
  have hl := engine_of_samples E f x0 x1 order sf hsf
  have hfail : ∀ Xt : matrix α, E.least_squares_design sf order = some (some Xt) →
      E.least_squares_solve Xt ⟨sf.samples, 1, sf.n_samples⟩ = some none →
      E.least_squares_interpolation f x0 x1 order = some none := by
    intro Xt hd hs
    rw [hl, engine_fit_of_solve E f x0 x1 order sf Xt hd, hs]
  refine ⟨?_, ?_, ?_, rfl, rfl, fun _ _ => rfl⟩
  · intro hc
    rw [hl]
    unfold matrix_engine.least_squares_fit matrix_engine.least_squares_design
    simp only
    rw [hc]
  · intro Xt hd
    refine ⟨fun h => hfail Xt hd (engine_solve_transpose_null E Xt _ h), ?_⟩
    intro X h1
    refine ⟨fun h => hfail Xt hd (engine_solve_product_null E Xt _ X h1 h), ?_⟩
    intro N h2
    refine ⟨fun h => hfail Xt hd (engine_solve_inverse_null E Xt _ X N h1 h2 h), ?_⟩
    intro R h3
    refine ⟨fun h => hfail Xt hd (engine_solve_second_null E Xt _ X N R h1 h2 h3 h), ?_⟩
    intro Q h4
    have h5 := engine_solve_third E Xt ⟨sf.samples, 1, sf.n_samples⟩ X N R Q h1 h2 h3 h4
    constructor
    · intro h
      apply hfail Xt hd
      rw [h5, h]
    · intro S h hS
      apply hfail Xt hd
      rw [h5, h]
      simp only
      rw [if_pos hS]
  · intro L hL
    rw [hl] at hL
    cases hd : E.least_squares_design sf order with
    | none =>
      unfold matrix_engine.least_squares_fit at hL
      simp only at hL
      rw [hd] at hL
      exact absurd hL (by simp)
    | some d =>
      cases d with
      | none =>
        unfold matrix_engine.least_squares_fit at hL
        simp only at hL
        rw [hd] at hL
        exact absurd hL (by simp)
      | some Xt =>
        rw [engine_fit_of_solve E f x0 x1 order sf Xt hd] at hL
        cases hs : E.least_squares_solve Xt ⟨sf.samples, 1, sf.n_samples⟩ with
        | none => rw [hs] at hL; exact absurd hL (by simp)
        | some s =>
          cases s with
          | none => rw [hs] at hL; exact absurd hL (by simp)
          | some S =>
            rw [hs] at hL
            simp only at hL
            cases hcopy : least_squares_copy S
                (allocate_interpolation f x0 x1 order).coefficients with
            | none => rw [hcopy] at hL; exact absurd hL (by simp)
            | some cs =>
              rw [hcopy] at hL
              have e := Option.some.inj (Option.some.inj hL)
              obtain ⟨M, hM⟩ := engine_design_created E sf order Xt hd
              obtain ⟨X, N, R, Q, h1, h2, h3, h4, h5, hc⟩ := engine_solve_steps E Xt _ S hs
              refine ⟨M, Xt, X, N, R, Q, S, hM, rfl, h1, h2, h3, h4, h5, hc, hs, ?_⟩
              rw [hcopy, ← e]

section least_squares_singular
variable {α : Type} [LinearOrderedField α]

theorem det_gram_eq_zero {n m : Nat} (hnm : n < m) (A : Matrix (Fin m) (Fin n) α) :
    (A * A.transpose).det = 0 := by
  by_contra hdet
  have hunit : IsUnit (A * A.transpose) :=
    (Matrix.isUnit_iff_isUnit_det _).mpr (isUnit_iff_ne_zero.mpr hdet)
  have hrank := Matrix.rank_of_isUnit (A * A.transpose) hunit
  have h1 := Matrix.rank_mul_le_left A A.transpose
  have h2 := Matrix.rank_le_width A
  rw [Fintype.card_fin] at hrank
  omega

theorem least_squares_normal_matrix (n m : Nat) (hn : 0 < n) (hm : 0 < m) (xt : List α)
    (hxt : xt.length = m * n) :
    ∃ (X : matrix α) (P : List α), transpose_matrix (⟨xt, n, m⟩ : matrix α) = some (some X) ∧
      matrix_multiply (⟨xt, n, m⟩ : matrix α) X = some (some ⟨P, m, m⟩) ∧
      P.length = m * m ∧
      ∀ i j, i < m → j < m →
        P[i * m + j]? = some (∑ k in Finset.range n, cell n xt i k * cell n xt j k) := by
  obtain ⟨t, ht, htr, htc, htl, htsp⟩ :=
    transpose_matrix_spec (⟨xt, n, m⟩ : matrix α) ⟨hm, hn, hxt⟩
  have htr' : t.rows = n := htr
  have htc' : t.cols = m := htc
  have htl' : t.elements.length = n * m := htl
  have htentry : ∀ k j, k < n → j < m → t.entry k j = cell n xt j k := by
    intro k j hk hj
    have h := htsp j k hj hk
    have h' : t.elements[j + k * m]? = xt[k + j * n]? := h
    unfold matrix.entry cell
    rw [htc', Nat.add_comm, h', Nat.add_comm]
  obtain ⟨C1, hC1, hC1r, hC1c, hC1l, hC1sp⟩ := matrix_multiply_spec (⟨xt, n, m⟩ : matrix α) t
    hm (by rw [htc']; exact hm) hxt (by rw [htl', htr', htc']) (by rw [htr'])
  have hC1r' : C1.rows = m := hC1r
  have hC1c' : C1.cols = m := by rw [hC1c, htc']
  have hC1l' : C1.elements.length = m * m := by rw [hC1l, htc']
  have hC1eq : C1 = ⟨C1.elements, m, m⟩ := matrix_eta C1 m m hC1r' hC1c'
  refine ⟨t, C1.elements, ht, by rw [← hC1eq]; exact hC1, hC1l', ?_⟩
  intro i j hi hj
  have h := hC1sp i j hi (by rw [htc']; exact hj)
  rw [htc'] at h
  rw [h]
  congr 1
  apply Finset.sum_congr rfl
  intro k hk
  rw [htentry k j (Finset.mem_range.mp hk) hj]
  rfl

theorem least_squares_overdetermined [FloorRing α] (sf : sampled_function α) (order : Nat)
    (hn : 0 < sf.n_samples) (hbig : sf.n_samples < order + 1) :
    ∃ Xt X N : matrix α, least_squares_design sf order = some (some Xt) ∧
      transpose_matrix Xt = some (some X) ∧ matrix_multiply Xt X = some (some N) ∧
      matrix_inverse N = some none := by
  obtain ⟨xt, hdesign, hxtl, _⟩ := least_squares_design_spec sf order hn
  obtain ⟨X, P, hX, hP, hPl, hPsp⟩ :=
    least_squares_normal_matrix sf.n_samples (order + 1) hn (Nat.succ_pos order) xt hxtl
  refine ⟨_, X, _, hdesign, hX, hP, ?_⟩
  rcases (matrix_inverse_run (order + 1) P (Nat.succ_pos order) hPl).1 with h | ⟨R, _, _, _, hdet⟩
  · exact h
  · exfalso
    apply hdet
    have hgram : cells (order + 1) P =
        (Matrix.of fun (i : Fin (order + 1)) (r : Fin sf.n_samples) =>
          cell sf.n_samples xt i r) *
        (Matrix.of fun (i : Fin (order + 1)) (r : Fin sf.n_samples) =>
          cell sf.n_samples xt i r).transpose := by
      ext i j
      simp only [cells, Matrix.of_apply, Matrix.mul_apply, Matrix.transpose_apply]
      unfold cell
      rw [hPsp i j i.2 j.2, Finset.sum_range]
      rfl
    rw [hgram]
    exact det_gram_eq_zero hbig _

end least_squares_singular

/-- Witness of C28 over the rationals. With the engine of matrix.c whose `transpose_matrix`
fails to allocate, the design matrix of order `1` on `[0, 1]` is built and
`least_squares_interpolation` returns `NULL`; with the engine of matrix.c itself and the
order `524289` the design matrix has more rows of powers than sample points, the product
`X^T X` is singular, its inverse is `NULL`, and `least_squares_interpolation` returns
`NULL`. -/
theorem C28_least_squares_failure_propagates_witness :
    (∃ Xt : matrix ℚ, (∃ sf : sampled_function ℚ,
        sample_values (fun x : ℚ => x) 0 1 ((1 - 0) / LEAST_SQUARES_POINTS) = some (some sf) ∧
        (matrix_engine.failing_transpose : matrix_engine ℚ).least_squares_design sf 1 =
          some (some Xt)) ∧
      (matrix_engine.failing_transpose : matrix_engine ℚ).transpose_matrix Xt = some none) ∧
    (matrix_engine.failing_transpose : matrix_engine ℚ).least_squares_interpolation
      (fun x : ℚ => x) 0 1 1 = some none ∧
    least_squares_interpolation (fun x : ℚ => x) 0 1 524289 = some none := by
  obtain ⟨sf, hsf, hn, _⟩ := least_squares_samples (fun x : ℚ => x) 0 1 (by norm_num)
  obtain ⟨els, hdes, _, _⟩ := least_squares_design_spec sf 1 (by omega)
  obtain ⟨Xt, X, N, hd, h1, h2, h3⟩ :=
    least_squares_overdetermined sf 524289 (by omega) (by omega)
  have hsource := C28_least_squares_failure_propagates
    (matrix_engine.of_source : matrix_engine ℚ) (fun x : ℚ => x) 0 1 524289 sf hsf
  refine ⟨⟨_, ⟨sf, hsf, hdes⟩, rfl⟩, ?_, ?_⟩
  · exact ((C28_least_squares_failure_propagates
      (matrix_engine.failing_transpose : matrix_engine ℚ) (fun x : ℚ => x) 0 1 1 sf hsf).2.1
      _ hdes).1 rfl
  · rw [← hsource.2.2.2.1]
    exact (((hsource.2.1 Xt hd).2 X h1).2 N h2).1 h3

section written_lists

theorem list_eq_of_getElem? {α : Type} (l1 l2 : List α) (n : Nat) (h1 : l1.length = n)
    (h2 : l2.length = n) (h : ∀ i, i < n → l1[i]? = l2[i]?) : l1 = l2 := by
  apply List.ext_getElem?
  intro i
  by_cases hi : i < n
  · exact h i hi
  · rw [List.getElem?_eq_none (by omega), List.getElem?_eq_none (by omega)]

theorem peval_injective {α : Type} [Field α] [Infinite α] (cs ds : List α) (n : Nat)
    (hc : cs.length = n + 1) (hd : ds.length = n + 1)
    (h : ∀ x, peval cs n x = peval ds n x) : cs = ds := by
  have hpoly : (∑ k in Finset.range (n + 1),
      Polynomial.C (cs.getD k 0) * Polynomial.X ^ k : Polynomial α) =
      ∑ k in Finset.range (n + 1), Polynomial.C (ds.getD k 0) * Polynomial.X ^ k := by
    apply Polynomial.funext
    intro x
    rw [← peval_eq_eval, ← peval_eq_eval]
    exact h x
  apply list_eq_of_getElem? cs ds (n + 1) hc hd
  intro i hi
  rw [getElem?_getD cs i (by omega), getElem?_getD ds i (by omega)]
  have hcoeff := congrArg (fun p : Polynomial α => p.coeff i) hpoly
  simp only [coeff_of_list, if_pos hi] at hcoeff
  rw [hcoeff]

end written_lists

theorem least_squares_copy_spec {α : Type} [LinearOrderedField α] (S : matrix α) (m : Nat) (c0 : List α) (hr : S.rows = m)
    (hl : S.elements.length = m) (hc : c0.length = m) :
    ∃ cs, least_squares_copy S c0 = some cs ∧ cs.length = m ∧
      ∀ i, i < m → cs[i]? = some (S.elements.getD i 0) := by
  obtain ⟨cs, h1, h2, h3⟩ := set_cells_loop (fun i => S.elements.getD i 0)
    (fun i coefficients => do
      let v ← load S.elements i
      store coefficients i v) 0 m c0 (by omega)
    (by
      intro i els hi _
      show (load S.elements i).bind _ = _
      rw [load_getD S.elements i (by omega), Nat.zero_add]
      rfl)
  refine ⟨cs, ?_, by rw [h2, hc], ?_⟩
  · unfold least_squares_copy
    rw [hr]
    exact h1
  · intro i hi
    rw [h3 i, if_pos ⟨Nat.zero_le i, by omega⟩]
    rfl

theorem least_squares_fit_result {α : Type} [LinearOrderedField α] (f : α → α) (x0 x1 : α) (order : Nat)
    (sf : sampled_function α) (L : interpolation α)
    (hL : least_squares_fit f x0 x1 order sf = some (some L)) :
    ∃ (Xt S : matrix α) (cs : List α), least_squares_design sf order = some (some Xt) ∧
      least_squares_solve Xt ⟨sf.samples, 1, sf.n_samples⟩ = some (some S) ∧
      least_squares_copy S (allocate_interpolation f x0 x1 order).coefficients = some cs ∧
      L = { allocate_interpolation f x0 x1 order with coefficients := cs } := by
  cases hd : least_squares_design sf order with
  | none =>
    unfold least_squares_fit at hL
    simp only at hL
    rw [hd] at hL
    exact absurd hL (by simp)
  | some d =>
    cases d with
    | none =>
      unfold least_squares_fit at hL
      simp only at hL
      rw [hd] at hL
      exact absurd hL (by simp)
    | some Xt =>
      rw [least_squares_fit_of_solve f x0 x1 order sf Xt hd] at hL
      cases hs : least_squares_solve Xt ⟨sf.samples, 1, sf.n_samples⟩ with
      | none => rw [hs] at hL; exact absurd hL (by simp)
      | some s =>
        cases s with
        | none => rw [hs] at hL; exact absurd hL (by simp)
        | some S =>
          rw [hs] at hL
          simp only at hL
          cases hcopy : least_squares_copy S
              (allocate_interpolation f x0 x1 order).coefficients with
          | none => rw [hcopy] at hL; exact absurd hL (by simp)
          | some cs =>
            rw [hcopy] at hL
            have e := Option.some.inj (Option.some.inj hL)
            exact ⟨Xt, S, cs, rfl, hs, hcopy, e.symm⟩

section written_coefficients
variable {α : Type} [LinearOrderedField α] [FloorRing α]

theorem lagrange_interpolation_of_samples (f : α → α) (x0 x1 : α) (order : Nat)
    (hlt : x0 < x1) (hord : 1 ≤ order) (sf : sampled_function α)
    (hsf : sample_values f x0 x1 ((x1 - x0) / (order : α)) = some (some sf))
    (hn : sf.n_samples = order + 1) (hl : sf.samples.length = order + 1) :
    ∃ L : interpolation α, lagrange_interpolation f x0 x1 order = some (some L) ∧
      L.order = order ∧ L.coefficients.length = order + 1 ∧
      ∀ c0 t0 : List α, c0.length = order + 1 → t0.length = order + 1 →
        ∃ t, lagrange_coefficients x0 ((x1 - x0) / (order : α)) order sf.samples c0 t0 =
          some (L.coefficients, t) := by
  obtain ⟨st, hst, hstlen, hstval⟩ :=
    lagrange_coefficients_spec x0 ((x1 - x0) / (order : α)) order sf.samples
      (List.replicate (sf.n_samples - 1 + 1) 0) (List.replicate (order + 1) 0) hl
      (by rw [hn]; simp) (by simp)
  have hord' : (allocate_interpolation f x0 x1 (sf.n_samples - 1)).order = order := by
    simp [allocate_interpolation, hn]
  refine ⟨{ allocate_interpolation f x0 x1 (sf.n_samples - 1) with coefficients := st.1 },
    ?_, hord', hstlen, ?_⟩
  · unfold lagrange_interpolation
    rw [if_neg (not_le.mpr hlt), if_neg (by omega)]
    simp only [hsf, Option.some_bind]
    unfold allocate_interpolation
    simp only [hst, Option.map_some']
  · intro c0 t0 hc0 ht0
    obtain ⟨st', hst', hstlen', hstval'⟩ :=
      lagrange_coefficients_spec x0 ((x1 - x0) / (order : α)) order sf.samples c0 t0 hl hc0 ht0
    have heq : st'.1 = st.1 :=
      peval_injective st'.1 st.1 order hstlen' hstlen
        (fun x => by rw [hstval' x, hstval x])
    refine ⟨st'.2, ?_⟩
    rw [hst']
    show some st' = some (st.1, st'.2)
    rw [← heq]

theorem piecewise_linear_of_samples (f : α → α) (x0 x1 : α) (order : Nat)
    (hlt : x0 < x1) (hord : 1 ≤ order) (sf : sampled_function α)
    (hsf : sample_values f x0 x1 ((x1 - x0) / (order : α)) = some (some sf))
    (hn : sf.n_samples = order + 1) (hl : sf.samples.length = order + 1) :
    ∃ P : interpolation α, piecewise_linear_interpolation f x0 x1 order = some (some P) ∧
      P.order = order ∧ P.coefficients.length = order + 1 ∧
      ∀ c0 : List α, c0.length = order + 1 →
        piecewise_linear_fill sf c0 = some P.coefficients := by
  obtain ⟨cs, hfill, hcl, hc⟩ := piecewise_linear_fill_spec sf
    (allocate_interpolation f x0 x1 (sf.n_samples - 1)).coefficients (by rw [hl, hn])
    (by show (List.replicate _ _).length = _; rw [List.length_replicate]; omega)
  refine ⟨{ allocate_interpolation f x0 x1 (sf.n_samples - 1) with
      sampling_interval := some sf.sampling_interval, coefficients := cs }, ?_, ?_,
    by rw [hcl, hn], ?_⟩
  · unfold piecewise_linear_interpolation
    rw [if_neg (not_le.mpr hlt), if_neg (by omega)]
    simp only [hsf, Option.some_bind, hfill, Option.map_some']
  · show sf.n_samples - 1 = order
    omega
  · intro c0 hc0
    obtain ⟨cs', hfill', hcl', hc'⟩ := piecewise_linear_fill_spec sf c0 (by rw [hl, hn])
      (by rw [hc0, hn])
    rw [hfill']
    show some cs' = some cs
    rw [list_eq_of_getElem? cs' cs sf.n_samples hcl' hcl
      (fun i hi => by rw [hc' i hi, hc i hi])]

theorem raised_cosine_of_samples (f : α → α) (x0 x1 : α) (order : Nat)
    (hlt : x0 < x1) (hord : 1 ≤ order) (sf : sampled_function α)
    (hsf : sample_values f x0 x1 ((x1 - x0) / (order : α)) = some (some sf))
    (hn : sf.n_samples = order + 1) (hl : sf.samples.length = order + 1) :
    ∃ P : interpolation α, raised_cosine_interpolation f x0 x1 order = some (some P) ∧
      P.order = order ∧ P.coefficients.length = order + 1 ∧
      ∀ c0 : List α, c0.length = order + 1 →
        raised_cosine_fill sf c0 = some P.coefficients := by
  obtain ⟨cs, hfill, hcl, hc⟩ := raised_cosine_fill_spec sf
    (allocate_interpolation f x0 x1 (sf.n_samples - 1)).coefficients (by rw [hl, hn])
    (by show (List.replicate _ _).length = _; rw [List.length_replicate]; omega)
  refine ⟨{ allocate_interpolation f x0 x1 (sf.n_samples - 1) with
      sampling_interval := some sf.sampling_interval, coefficients := cs }, ?_, ?_,
    by rw [hcl, hn], ?_⟩
  · unfold raised_cosine_interpolation
    rw [if_neg (not_le.mpr hlt), if_neg (by omega)]
    simp only [hsf, Option.some_bind, hfill, Option.map_some']
  · show sf.n_samples - 1 = order
    omega
  · intro c0 hc0
    obtain ⟨cs', hfill', hcl', hc'⟩ := raised_cosine_fill_spec sf c0 (by rw [hl, hn])
      (by rw [hc0, hn])
    rw [hfill']
    show some cs' = some cs
    rw [list_eq_of_getElem? cs' cs sf.n_samples hcl' hcl
      (fun i hi => by rw [hc' i hi, hc i hi])]

end written_coefficients

theorem least_squares_written {α : Type} [LinearOrderedField α] (f : α → α) (x0 x1 : α) (order : Nat)
    (sf : sampled_function α) (hn : 0 < sf.n_samples)
    (hlen : sf.samples.length = sf.n_samples) (L : interpolation α)
    (hL : least_squares_fit f x0 x1 order sf = some (some L)) :
    L.order = order ∧ L.coefficients.length = order + 1 ∧
    ∃ Xt S : matrix α, least_squares_design sf order = some (some Xt) ∧
      least_squares_solve Xt ⟨sf.samples, 1, sf.n_samples⟩ = some (some S) ∧
      ∀ c0 : List α, c0.length = order + 1 → least_squares_copy S c0 = some L.coefficients := by
  obtain ⟨Xt, S, cs, hd, hs, hcopy, hLeq⟩ := least_squares_fit_result f x0 x1 order sf L hL
  obtain ⟨xt, hdesign, hxtl, _⟩ := least_squares_design_spec sf order hn
  rw [hdesign] at hd
  have hXt : (⟨xt, sf.n_samples, order + 1⟩ : matrix α) = Xt :=
    Option.some.inj (Option.some.inj hd)
  obtain ⟨_, _, _, hcase⟩ := least_squares_solve_spec sf.n_samples (order + 1) hn
    (Nat.succ_pos order) xt sf.samples hxtl hlen
  rw [hXt] at hcase
  rcases hcase with ⟨_, hnone⟩ | ⟨_, sol, _, hsol, hsolr, hsoll, _⟩
  · rw [hnone] at hs
    exact absurd hs (by simp)
  · rw [hsol] at hs
    have hS : sol = S := Option.some.inj (Option.some.inj hs)
    rw [hS] at hsolr hsoll hsol
    obtain ⟨cs0, hcopy0, hcl0, hcs0⟩ := least_squares_copy_spec S (order + 1)
      (allocate_interpolation f x0 x1 order).coefficients hsolr hsoll
      (by show (List.replicate _ _).length = _; rw [List.length_replicate])
    rw [hcopy0] at hcopy
    have hcs : cs0 = cs := Option.some.inj hcopy
    rw [hLeq]
    refine ⟨rfl, by show cs.length = _; rw [← hcs, hcl0], Xt, S, by rw [← hXt, hdesign],
      hsol, ?_⟩
    intro c0 hc0
    obtain ⟨cs', hcopy', hcl', hcs'⟩ := least_squares_copy_spec S (order + 1) c0 hsolr hsoll hc0
    rw [hcopy']
    show some cs' = some cs
    rw [← hcs, list_eq_of_getElem? cs' cs0 (order + 1) hcl' hcl0
      (fun i hi => by rw [hcs' i hi, hcs0 i hi])]

/-- C26. For `x0 < x1` and `order ≥ 1`: the sampling that `lagrange_interpolation`,
`piecewise_linear_interpolation` and `raised_cosine_interpolation` share takes
`order + 1` samples, and each of the three returns an interpolation whose stored order is
the sample count minus one, which is the requested order, with `order + 1` coefficients.
Every interpolation that `least_squares_interpolation` returns has the requested order and
`order + 1` coefficients, although it takes 524289 samples. In all four cases every
coefficient is written by the constructor: the loops that fill the coefficients give the
same result from every initial content of the `order + 1` cells. -/
theorem C26_coefficients_written {α : Type} [LinearOrderedField α] [FloorRing α]
    (f : α → α) (x0 x1 : α) (order : Nat) (hlt : x0 < x1) (hord : 1 ≤ order) :
    (∃ sf : sampled_function α,
      sample_values f x0 x1 ((x1 - x0) / (order : α)) = some (some sf) ∧
      sf.n_samples = order + 1 ∧
      (∃ L : interpolation α, lagrange_interpolation f x0 x1 order = some (some L) ∧
        L.order = sf.n_samples - 1 ∧ L.order = order ∧
        L.coefficients.length = L.order + 1 ∧
        ∀ c0 t0 : List α, c0.length = order + 1 → t0.length = order + 1 →
          ∃ t, lagrange_coefficients x0 ((x1 - x0) / (order : α)) order sf.samples c0 t0 =
            some (L.coefficients, t)) ∧
      (∃ P : interpolation α, piecewise_linear_interpolation f x0 x1 order = some (some P) ∧
        P.order = sf.n_samples - 1 ∧ P.order = order ∧
        P.coefficients.length = P.order + 1 ∧
        ∀ c0 : List α, c0.length = order + 1 →
          piecewise_linear_fill sf c0 = some P.coefficients) ∧
      (∃ P : interpolation α, raised_cosine_interpolation f x0 x1 order = some (some P) ∧
        P.order = sf.n_samples - 1 ∧ P.order = order ∧
        P.coefficients.length = P.order + 1 ∧
        ∀ c0 : List α, c0.length = order + 1 →
          raised_cosine_fill sf c0 = some P.coefficients)) ∧
    (∃ sl : sampled_function α,
      sample_values f x0 x1 ((x1 - x0) / LEAST_SQUARES_POINTS) = some (some sl) ∧
      sl.n_samples = 524289 ∧
      ∀ L : interpolation α, least_squares_interpolation f x0 x1 order = some (some L) →
        L.order = order ∧ L.coefficients.length = L.order + 1 ∧
        ∃ Xt S : matrix α, least_squares_design sl order = some (some Xt) ∧
          least_squares_solve Xt ⟨sl.samples, 1, sl.n_samples⟩ = some (some S) ∧
          ∀ c0 : List α, c0.length = order + 1 →
            least_squares_copy S c0 = some L.coefficients) := by
  constructor
  · obtain ⟨sf, hsf, hn, hl, _, _, _⟩ := sample_values_order f x0 x1 order hlt hord
    obtain ⟨L, hL, hLo, hLl, hLw⟩ :=
      lagrange_interpolation_of_samples f x0 x1 order hlt hord sf hsf hn hl
    obtain ⟨P, hP, hPo, hPl, hPw⟩ :=
      piecewise_linear_of_samples f x0 x1 order hlt hord sf hsf hn hl
    obtain ⟨Q, hQ, hQo, hQl, hQw⟩ :=
      raised_cosine_of_samples f x0 x1 order hlt hord sf hsf hn hl
    exact ⟨sf, hsf, hn,
      ⟨L, hL, by rw [hLo, hn]; rfl, hLo, by rw [hLl, hLo], hLw⟩,
      ⟨P, hP, by rw [hPo, hn]; rfl, hPo, by rw [hPl, hPo], hPw⟩,
      ⟨Q, hQ, by rw [hQo, hn]; rfl, hQo, by rw [hQl, hQo], hQw⟩⟩
  · obtain ⟨sl, hsl, hn, _, _, hlen, _⟩ := least_squares_samples f x0 x1 hlt
    refine ⟨sl, hsl, hn, ?_⟩
    intro L hL
    rw [least_squares_of_samples f x0 x1 order sl hsl] at hL
    obtain ⟨ho, hl, hw⟩ := least_squares_written f x0 x1 order sl (by omega) hlen L hL
    exact ⟨ho, by rw [hl, ho], hw⟩

/-- Witness of C26 over the rationals: `f(x) = x * x` on `[0, 1]` with the order `2`. -/
theorem C26_coefficients_written_witness :
    (∃ sf : sampled_function ℚ,
      sample_values (fun x : ℚ => x * x) 0 1 ((1 - 0) / ((2 : Nat) : ℚ)) = some (some sf) ∧
      sf.n_samples = 2 + 1 ∧
      (∃ L : interpolation ℚ,
        lagrange_interpolation (fun x : ℚ => x * x) 0 1 2 = some (some L) ∧
        L.order = sf.n_samples - 1 ∧ L.order = 2 ∧
        L.coefficients.length = L.order + 1 ∧
        ∀ c0 t0 : List ℚ, c0.length = 2 + 1 → t0.length = 2 + 1 →
          ∃ t, lagrange_coefficients 0 ((1 - 0) / ((2 : Nat) : ℚ)) 2 sf.samples c0 t0 =
            some (L.coefficients, t)) ∧
      (∃ P : interpolation ℚ,
        piecewise_linear_interpolation (fun x : ℚ => x * x) 0 1 2 = some (some P) ∧
        P.order = sf.n_samples - 1 ∧ P.order = 2 ∧
        P.coefficients.length = P.order + 1 ∧
        ∀ c0 : List ℚ, c0.length = 2 + 1 →
          piecewise_linear_fill sf c0 = some P.coefficients) ∧
      (∃ P : interpolation ℚ,
        raised_cosine_interpolation (fun x : ℚ => x * x) 0 1 2 = some (some P) ∧
        P.order = sf.n_samples - 1 ∧ P.order = 2 ∧
        P.coefficients.length = P.order + 1 ∧
        ∀ c0 : List ℚ, c0.length = 2 + 1 →
          raised_cosine_fill sf c0 = some P.coefficients)) ∧
    (∃ sl : sampled_function ℚ,
      sample_values (fun x : ℚ => x * x) 0 1 ((1 - 0) / LEAST_SQUARES_POINTS) =
        some (some sl) ∧
      sl.n_samples = 524289 ∧
      ∀ L : interpolation ℚ,
        least_squares_interpolation (fun x : ℚ => x * x) 0 1 2 = some (some L) →
        L.order = 2 ∧ L.coefficients.length = L.order + 1 ∧
        ∃ Xt S : matrix ℚ, least_squares_design sl 2 = some (some Xt) ∧
          least_squares_solve Xt ⟨sl.samples, 1, sl.n_samples⟩ = some (some S) ∧
          ∀ c0 : List ℚ, c0.length = 2 + 1 →
            least_squares_copy S c0 = some L.coefficients) :=
  C26_coefficients_written (fun x : ℚ => x * x) 0 1 2 (by norm_num) (by norm_num)

/-! ## The whole run of `matrix_inverse` -/

section inverse_full

theorem det_lead_lower_done {α : Type} [Field α] (n m : Nat) (l : List α) (hm : m ≤ n)
    (h : lower_done n l n) : (lead n m l).det = 1 := by
  have htri : (lead n m l).BlockTriangular id := by
    intro i j hij
    have hlt : (j : Nat) < i := hij
    have := h i j (by omega) (by omega) (le_of_lt hlt)
    simp only [lead, Matrix.of_apply]
    rw [this, if_neg (by omega)]
  rw [Matrix.det_of_upperTriangular htri]
  apply Finset.prod_eq_one
  intro i _
  have := h i i (by omega) (by omega) (le_refl _)
  simp only [lead, Matrix.of_apply]
  rw [this, if_pos rfl]

theorem matrix_inverse_full {α : Type} [Field α] [DecidableEq α] (n : Nat) (m0 : List α)
    (hn : 0 < n) (hlen : m0.length = n * n) :
    ∃ (ie : List α) (res : Nat) (te1 ie1 : List α),
      matrix_fill_identity n n (List.replicate (n * n) (0 : α)) = some ie ∧
      matrix_inverse_forward n (0, (⟨m0, n, n⟩ : matrix α), ⟨ie, n, n⟩) =
        some (res, ⟨te1, n, n⟩, ⟨ie1, n, n⟩) ∧
      ((res = 0 ∧ (∀ m, 1 ≤ m → m ≤ n → (lead n m m0).det ≠ 0) ∧ lower_done n te1 n ∧
          ∃ te2 ie2 : List α,
            matrix_inverse_backward n (0, (⟨te1, n, n⟩ : matrix α), ⟨ie1, n, n⟩) =
              some (0, ⟨te2, n, n⟩, ⟨ie2, n, n⟩) ∧
            cells n te2 = 1 ∧ ie2.length = n * n ∧ cells n ie2 * cells n m0 = 1 ∧
            matrix_inverse (⟨m0, n, n⟩ : matrix α) = some (some ⟨ie2, n, n⟩)) ∨
        (res ≠ 0 ∧ ¬ (∀ m, 1 ≤ m → m ≤ n → (lead n m m0).det ≠ 0) ∧
          matrix_inverse (⟨m0, n, n⟩ : matrix α) = some none)) := by
  obtain ⟨ie, hfill, hie, hid⟩ :=
    matrix_fill_identity_spec n (List.replicate (n * n) (0 : α)) (by simp)
  have hone : cells n ie = 1 := by
    ext i j
    simp only [cells, cell, Matrix.of_apply, Matrix.one_apply]
    rw [hid i j i.2 j.2]
    by_cases hij : (i : Nat) = j
    · rw [if_pos hij, if_pos (Fin.ext hij)]; rfl
    · rw [if_neg hij, if_neg (fun h' => hij (congrArg Fin.val h'))]; rfl
  obtain ⟨res, te', ie', hfwd, hl1, hl2, hres, hok⟩ := forward_pass n m0 ie hlen hie hone
  have hunf : matrix_inverse (⟨m0, n, n⟩ : matrix α) =
      (matrix_inverse_backward n (res, ⟨te', n, n⟩, ⟨ie', n, n⟩)).bind
        fun st => if st.1 ≠ 0 then some none else some (some st.2.2) := by
    unfold matrix_inverse
    simp only [ne_eq, not_true_eq_false, if_false, create_matrix_pos n n hn hn,
      memcpy_full (List.replicate (n * n) (0 : α)) m0 (n * n) (List.length_replicate _ _) hlen,
      hfill, hfwd, Option.bind_eq_bind, Option.some_bind]
  refine ⟨ie, res, te', ie', hfill, hfwd, ?_⟩
  by_cases hz : res = 0
  · subst hz
    obtain ⟨h1, h2, h3⟩ := hres rfl
    obtain ⟨te2, ie2, hbwd, g1, g2⟩ := backward_pass n m0 te' ie' h1 h3
    have hfinal : matrix_inverse (⟨m0, n, n⟩ : matrix α) = some (some ⟨ie2, n, n⟩) := by
      rw [hunf, hbwd]
      simp
    have hprod : cells n ie2 * cells n m0 = 1 := by rw [g1.2.2, g2]
    refine Or.inl ⟨rfl, ?_, h3, te2, ie2, hbwd, g2, g1.2.1, hprod, hfinal⟩
    intro m _ hm hdet
    have h4 := det_lead_lower_done n m te' hm h3
    rw [(h2 m hm).mpr hdet] at h4
    exact zero_ne_one h4
  · have hfinal : matrix_inverse (⟨m0, n, n⟩ : matrix α) = some none := by
      rw [hunf]
      unfold matrix_inverse_backward
      rw [for_down_while_stop _ _ _ _ (by simpa using hz)]
      simp [hz]
    exact Or.inr ⟨hz, fun hminors => hz (hok hminors), hfinal⟩

theorem matrix_scale_row_zero_pivot {α : Type} [Field α] [DecidableEq α] (n q : Nat)
    (me se : List α) (hml : me.length = n * n) (hsl : se.length = n * n) (hq : q < n)
    (scale_to : α) (h0 : cell n me q q = 0) :
    ∃ me1 se1 : List α,
      matrix_scale_row ⟨me, n, n⟩ ⟨se, n, n⟩ (q + 1) (q + 1) scale_to =
        some (1, ⟨me1, n, n⟩, ⟨se1, n, n⟩) ∧
      me1.length = n * n ∧ se1.length = n * n ∧ cell n me1 q q = 0 := by
  have hpiv : load me (q * n + q) = some (cell n me q q) :=
    cell_eq_getElem n me q q (by rw [hml]; exact idx_lt hq hq)
  have hguard : ¬ (q + 1 = 0 ∨ q + 1 > n ∨ q + 1 = 0 ∨ q + 1 > n) := by omega
  unfold matrix_scale_row
  simp only [hguard, if_false, Nat.add_sub_cancel, idx_pred, hpiv, Option.bind_eq_bind,
    Option.some_bind]
  rw [if_pos h0]
  have hpiv0 : me[q * n + q]? = some 0 := by rw [← h0]; exact hpiv
  obtain ⟨st, hst, h1, h2, h3⟩ :=
    matrix_scale_row_repair_spec n q me se hml hsl hq hpiv0 (cell n me q q)
  rw [hst]
  simp only [Option.some_bind]
  have hcell : cell n st.2.1 q q = 0 := by
    unfold cell
    rw [h3]
    rfl
  by_cases h4 : st.1 = 0
  · rw [if_pos h4]
    exact ⟨st.2.1, st.2.2, rfl, h1, h2, hcell⟩
  · rw [if_neg h4]
    have hld : load st.2.1 (q * n + q) = some 0 := h3
    simp only [hld, Option.some_bind]
    refine ⟨st.2.1, st.2.2, ?_, h1, h2, hcell⟩
    simp [matrix_scale_row_finish]

end inverse_full

section inverse_claims

set_option maxHeartbeats 4000000 in
theorem matrix_inverse_sample : matrix_inverse (⟨[1, 2, 3, 4], 2, 2⟩ : matrix ℚ) =
    some (some ⟨[-2, 1, 3 / 2, -(1 / 2)], 2, 2⟩) := by
  simp [matrix_inverse, create_matrix, memcpy, matrix_fill_identity, matrix_inverse_forward,
    matrix_inverse_backward, matrix_scale_row, matrix_scale_row_finish, matrix_reduce_row,
    for_up, for_up_while, for_down_while, load, store]
  norm_num [for_up]

theorem matrix_inverse_not_square {α : Type} [Field α] [DecidableEq α] (M : matrix α)
    (h : M.rows ≠ M.cols) : matrix_inverse M = some none := by
  unfold matrix_inverse
  rw [if_pos h]

theorem matrix_inverse_empty {α : Type} [Field α] [DecidableEq α] (m0 : List α) :
    matrix_inverse (⟨m0, 0, 0⟩ : matrix α) = some none := by
  simp [matrix_inverse, create_matrix]

end inverse_claims

/-- C31. Soundness of `matrix_inverse`: whenever `matrix_inverse M` returns a matrix `R`
(for a matrix `M` whose buffer has `rows * cols` cells), `M` is square, `R` has the
dimensions of `M`, and `R` is the two-sided inverse of `M` in exact arithmetic:
`R * M = 1` and `M * R = 1`. -/
theorem C31_inverse_is_two_sided {α : Type} [Field α] [DecidableEq α] (M R : matrix α)
    (hlen : M.elements.length = M.rows * M.cols)
    (h : matrix_inverse M = some (some R)) :
    M.rows = M.cols ∧ R.rows = M.rows ∧ R.cols = M.cols ∧
      R.elements.length = M.rows * M.cols ∧
      cells M.rows R.elements * M.square = 1 ∧ M.square * cells M.rows R.elements = 1 := by
  rcases M with ⟨m0, c, n⟩
  simp only at hlen ⊢
  by_cases hsq : n = c
  · subst hsq
    rcases Nat.eq_zero_or_pos n with hn | hn
    · subst hn
      rw [matrix_inverse_empty] at h
      exact absurd h (by simp)
    · obtain ⟨_, _, _, _, _, _, hcase⟩ := matrix_inverse_full n m0 hn hlen
      rcases hcase with ⟨_, _, _, _, ie2, _, _, hl, hprod, hfinal⟩ | ⟨_, _, hnull⟩
      · rw [hfinal] at h
        have hR : R = ⟨ie2, n, n⟩ := (Option.some.inj (Option.some.inj h)).symm
        subst hR
        have hprod2 : cells n ie2 * (⟨m0, n, n⟩ : matrix α).square = 1 := hprod
        exact ⟨rfl, rfl, rfl, hl, hprod2, (Matrix.mul_eq_one_comm).mp hprod2⟩
      · rw [hnull] at h
        exact absurd h (by simp)
  · rw [matrix_inverse_not_square _ hsq] at h
    exact absurd h (by simp)

/-- Witness of C31 on the rational matrix with rows `(1, 2)` and `(3, 4)`, whose inverse
has the rows `(-2, 1)` and `(3/2, -1/2)`. -/
theorem C31_inverse_is_two_sided_witness :
    (⟨[1, 2, 3, 4], 2, 2⟩ : matrix ℚ).rows = (⟨[1, 2, 3, 4], 2, 2⟩ : matrix ℚ).cols ∧
      (⟨[-2, 1, 3 / 2, -(1 / 2)], 2, 2⟩ : matrix ℚ).rows = 2 ∧
      (⟨[-2, 1, 3 / 2, -(1 / 2)], 2, 2⟩ : matrix ℚ).cols = 2 ∧
      ([-2, 1, 3 / 2, -(1 / 2)] : List ℚ).length = 2 * 2 ∧
      cells 2 ([-2, 1, 3 / 2, -(1 / 2)] : List ℚ) *
          (⟨[1, 2, 3, 4], 2, 2⟩ : matrix ℚ).square = 1 ∧
      (⟨[1, 2, 3, 4], 2, 2⟩ : matrix ℚ).square *
          cells 2 ([-2, 1, 3 / 2, -(1 / 2)] : List ℚ) = 1 :=
  C31_inverse_is_two_sided ⟨[1, 2, 3, 4], 2, 2⟩ ⟨[-2, 1, 3 / 2, -(1 / 2)], 2, 2⟩ (by decide)
    matrix_inverse_sample

/-- C32. For every square matrix `M` of positive size `n` (buffer of `n * n` cells):
`matrix_inverse M` returns a matrix if and only if every leading principal minor of `M` of
size `1, ..., n` is nonzero. Moreover, when the forward pass, run on the copy of `M` and the
identity, ends with `result = 0`, every diagonal element of the working matrix is `1`, and
the backward pass runs to its end with `result = 0`. -/
theorem C32_inverse_succeeds_iff_minors {α : Type} [Field α] [DecidableEq α] (M : matrix α)
    (hsq : M.rows = M.cols) (hpos : 0 < M.rows)
    (hlen : M.elements.length = M.rows * M.cols) :
    ((∃ R, matrix_inverse M = some (some R)) ↔
        ∀ k, 1 ≤ k → k ≤ M.rows → M.leading_minor k ≠ 0) ∧
      ∃ identity : List α,
        matrix_fill_identity M.rows M.cols (List.replicate (M.rows * M.cols) (0 : α)) =
          some identity ∧
        ∀ temp inverse : matrix α,
          matrix_inverse_forward M.rows (0, M, ⟨identity, M.cols, M.rows⟩) =
              some (0, temp, inverse) →
            (∀ i, i < M.rows → temp.entry i i = 1) ∧
            ∃ temp1 inverse1 : matrix α,
              matrix_inverse_backward M.rows (0, temp, inverse) =
                some (0, temp1, inverse1) := by
  rcases M with ⟨m0, c, n⟩
  simp only at hsq hpos hlen ⊢
  subst hsq
  obtain ⟨ie, res, te1, ie1, hfill, hfwd, hcase⟩ := matrix_inverse_full n m0 hpos hlen
  refine ⟨?_, ie, hfill, ?_⟩
  · rcases hcase with ⟨_, hminors, _, _, ie2, _, _, _, _, hfinal⟩ | ⟨_, hnot, hnull⟩
    · exact ⟨fun _ => hminors, fun _ => ⟨_, hfinal⟩⟩
    · constructor
      · rintro ⟨R, hR⟩
        rw [hnull] at hR
        exact absurd hR (by simp)
      · intro hminors
        exact absurd hminors hnot
  · intro temp inverse hrun
    rw [hfwd] at hrun
    have hst := Option.some.inj hrun
    rcases hcase with ⟨_, _, hlow, te2, ie2, hbwd, _⟩ | ⟨hne, _⟩
    · have htemp : temp = ⟨te1, n, n⟩ := (congrArg (fun st => st.2.1) hst).symm
      have hinv : inverse = ⟨ie1, n, n⟩ := (congrArg (fun st => st.2.2) hst).symm
      subst htemp; subst hinv
      refine ⟨?_, ⟨te2, n, n⟩, ⟨ie2, n, n⟩, hbwd⟩
      intro i hi
      have := hlow i i hi hi (le_refl _)
      rw [if_pos rfl] at this
      exact this
    · exact absurd (congrArg (fun st => st.1) hst) hne

/-- Witness of C32 on the rational matrix with rows `(1, 2)` and `(3, 4)`. -/
theorem C32_inverse_succeeds_iff_minors_witness :
    ((∃ R, matrix_inverse (⟨[1, 2, 3, 4], 2, 2⟩ : matrix ℚ) = some (some R)) ↔
        ∀ k, 1 ≤ k → k ≤ 2 → (⟨[1, 2, 3, 4], 2, 2⟩ : matrix ℚ).leading_minor k ≠ 0) ∧
      ∃ identity : List ℚ,
        matrix_fill_identity 2 2 (List.replicate (2 * 2) (0 : ℚ)) = some identity ∧
        ∀ temp inverse : matrix ℚ,
          matrix_inverse_forward 2 (0, ⟨[1, 2, 3, 4], 2, 2⟩, ⟨identity, 2, 2⟩) =
              some (0, temp, inverse) →
            (∀ i, i < 2 → temp.entry i i = 1) ∧
            ∃ temp1 inverse1 : matrix ℚ,
              matrix_inverse_backward 2 (0, temp, inverse) = some (0, temp1, inverse1) :=
  C32_inverse_succeeds_iff_minors ⟨[1, 2, 3, 4], 2, 2⟩ rfl (by decide) (by decide)

/-- C33. Let `M` be a square working matrix with a secondary matrix of the same size, and
let the diagonal element `(q, q)` of `M` be zero. Then `matrix_scale_row`, called as
`matrix_inverse` calls it (`row = col = q + 1`), returns `1`, whatever the other elements
and `scale_to` are, and leaves that diagonal element zero. Consequently `matrix_inverse M`
is `NULL` when the first diagonal element of `M` is zero. -/
theorem C33_zero_pivot_fails {α : Type} [Field α] [DecidableEq α] (M : matrix α)
    (secondary : List α) (q : Nat) (scale_to : α) (hsq : M.rows = M.cols)
    (hlen : M.elements.length = M.rows * M.cols)
    (hsec : secondary.length = M.rows * M.cols) (hq : q < M.rows)
    (hpivot : M.entry q q = 0) :
    (∃ m1 s1 : matrix α,
        matrix_scale_row M ⟨secondary, M.cols, M.rows⟩ (q + 1) (q + 1) scale_to =
          some (1, m1, s1) ∧ m1.entry q q = 0) ∧
      (q = 0 → matrix_inverse M = some none) := by
  rcases M with ⟨m0, c, n⟩
  simp only at hsq hlen hsec hq hpivot ⊢
  subst hsq
  constructor
  · obtain ⟨me1, se1, hrun, _, _, hz⟩ :=
      matrix_scale_row_zero_pivot n q m0 secondary hlen hsec hq scale_to hpivot
    exact ⟨⟨me1, n, n⟩, ⟨se1, n, n⟩, hrun, hz⟩
  · intro hq0
    subst hq0
    obtain ⟨_, _, _, _, _, _, hcase⟩ := matrix_inverse_full n m0 hq hlen
    rcases hcase with ⟨_, hminors, _⟩ | ⟨_, _, hnull⟩
    · exfalso
      apply hminors 1 (le_refl _) hq
      have : lead n 1 m0 = Matrix.of fun _ _ : Fin 1 => cell n m0 0 0 := by
        ext i j
        have hi : (i : Nat) = 0 := by omega
        have hj : (j : Nat) = 0 := by omega
        simp only [lead, Matrix.of_apply, hi, hj]
      rw [this, Matrix.det_unique]
      exact hpivot
    · exact hnull

/-- Witness of C33 on the rational matrix with rows `(0, 1)` and `(1, 0)`, which is
invertible (its determinant is not zero): the first call of `matrix_scale_row` fails and
`matrix_inverse` returns `NULL`. -/
theorem C33_zero_pivot_fails_witness :
    (⟨[0, 1, 1, 0], 2, 2⟩ : matrix ℚ).square.det ≠ 0 ∧
      (∃ m1 s1 : matrix ℚ,
        matrix_scale_row (⟨[0, 1, 1, 0], 2, 2⟩ : matrix ℚ) ⟨[1, 0, 0, 1], 2, 2⟩ (0 + 1) (0 + 1)
          1 = some (1, m1, s1) ∧ m1.entry 0 0 = 0) ∧
      matrix_inverse (⟨[0, 1, 1, 0], 2, 2⟩ : matrix ℚ) = some none :=
  ⟨by simp [matrix.square, matrix.entry, Matrix.det_fin_two],
    (C33_zero_pivot_fails ⟨[0, 1, 1, 0], 2, 2⟩ [1, 0, 0, 1] 0 1 rfl (by decide) (by decide)
      (by decide) (by simp [matrix.entry])).1,
    (C33_zero_pivot_fails ⟨[0, 1, 1, 0], 2, 2⟩ [1, 0, 0, 1] 0 1 rfl (by decide) (by decide)
      (by decide) (by simp [matrix.entry])).2 rfl⟩

/-- C39. A read or write outside a buffer makes the embedded computation `none`. For a
square matrix `M` of any size `n` with a buffer of `n * n` cells, `matrix_inverse M` is not
`none`: every index it reads or writes, in `matrix_scale_row` and `matrix_reduce_row`
included, is below `n * n`. The same holds of single calls as `matrix_inverse` makes them,
on arbitrary `n`-by-`n` buffers: `matrix_scale_row` on a diagonal element, whose repair loop
reads index `i * cols + col` only in rows `i` other than the pivot row, and
`matrix_reduce_row` on two different rows; both leave buffers of `n * n` cells. -/
theorem C39_inverse_accesses_in_bounds {α : Type} [Field α] [DecidableEq α] (n : Nat)
    (m0 me se : List α) (q d p : Nat) (scale_to : α) (hm0 : m0.length = n * n)
    (hml : me.length = n * n) (hsl : se.length = n * n) :
    (∃ r, matrix_inverse (⟨m0, n, n⟩ : matrix α) = some r) ∧
      (q < n → ∃ (res : Nat) (me1 se1 : List α),
        matrix_scale_row ⟨me, n, n⟩ ⟨se, n, n⟩ (q + 1) (q + 1) scale_to =
          some (res, ⟨me1, n, n⟩, ⟨se1, n, n⟩) ∧ me1.length = n * n ∧ se1.length = n * n) ∧
      (d < n → p < n → d ≠ p → ∃ (res : Nat) (me1 se1 : List α),
        matrix_reduce_row ⟨me, n, n⟩ ⟨se, n, n⟩ (d + 1) (p + 1) (p + 1) =
          some (res, ⟨me1, n, n⟩, ⟨se1, n, n⟩) ∧ me1.length = n * n ∧ se1.length = n * n) := by
  refine ⟨?_, ?_, ?_⟩
  · rcases Nat.eq_zero_or_pos n with hn | hn
    · subst hn
      exact ⟨_, matrix_inverse_empty m0⟩
    · rcases (matrix_inverse_run n m0 hn hm0).1 with h | ⟨R, h, _⟩
      · exact ⟨_, h⟩
      · exact ⟨_, h⟩
  · intro hq
    obtain ⟨res, me1, se1, hrun, h1, h2, _⟩ :=
      matrix_scale_row_spec n q me se hml hsl hq scale_to
    exact ⟨res, me1, se1, hrun, h1, h2⟩
  · intro hd hp hdp
    obtain ⟨res, me1, se1, hrun, h1, h2, _⟩ :=
      matrix_reduce_row_spec n d p me se hml hsl hd hp hdp
    exact ⟨res, me1, se1, hrun, h1, h2⟩

/-- Witness of C39 on `2`-by-`2` rational buffers: the last diagonal element of the working
buffer is zero, so the repair loop of `matrix_scale_row` runs with `col = cols`. -/
theorem C39_inverse_accesses_in_bounds_witness :
    (∃ r, matrix_inverse (⟨[1, 2, 3, 4], 2, 2⟩ : matrix ℚ) = some r) ∧
      (∃ (res : Nat) (me1 se1 : List ℚ),
        matrix_scale_row ⟨[1, 2, 3, 0], 2, 2⟩ ⟨[1, 0, 0, 1], 2, 2⟩ (1 + 1) (1 + 1) 1 =
          some (res, ⟨me1, 2, 2⟩, ⟨se1, 2, 2⟩) ∧ me1.length = 2 * 2 ∧ se1.length = 2 * 2) ∧
      (∃ (res : Nat) (me1 se1 : List ℚ),
        matrix_reduce_row ⟨[1, 2, 3, 0], 2, 2⟩ ⟨[1, 0, 0, 1], 2, 2⟩ (1 + 1) (0 + 1) (0 + 1) =
          some (res, ⟨me1, 2, 2⟩, ⟨se1, 2, 2⟩) ∧ me1.length = 2 * 2 ∧ se1.length = 2 * 2) :=
  ⟨(C39_inverse_accesses_in_bounds 2 [1, 2, 3, 4] [1, 2, 3, 0] [1, 0, 0, 1] 1 1 0 1
      (by decide) (by decide) (by decide)).1,
    (C39_inverse_accesses_in_bounds 2 [1, 2, 3, 4] [1, 2, 3, 0] [1, 0, 0, 1] 1 1 0 1
      (by decide) (by decide) (by decide)).2.1 (by decide),
    (C39_inverse_accesses_in_bounds 2 [1, 2, 3, 4] [1, 2, 3, 0] [1, 0, 0, 1] 1 1 0 1
      (by decide) (by decide) (by decide)).2.2 (by decide) (by decide) (by decide)⟩

/-! ## The writes of `transpose_matrix` -/

section transpose_writes

theorem for_up_fst {σ τ : Type} (body : Nat → σ → Option σ)
    (body2 : Nat → σ × τ → Option (σ × τ))
    (h : ∀ i s t, (body2 i (s, t)).map Prod.fst = body i s) :
    ∀ (count first : Nat) (s : σ) (t : τ),
      (for_up body2 count first (s, t)).map Prod.fst = for_up body count first s := by
  intro count
  induction count with
  | zero => intro first s t; rfl
  | succ n ih =>
    intro first s t
    have hb := h first s t
    simp only [for_up]
    cases h2 : body2 first (s, t) with
    | none =>
      rw [h2] at hb
      rw [← hb]
      rfl
    | some st =>
      rw [h2] at hb
      rw [← hb]
      exact ih (first + 1) st.1 st.2

/-- The indices written by `transpose_matrix` on a matrix with `r` rows and `c` columns, in
the order of the loops. -/
theorem transpose_log_count (r c p : Nat) (hr : 0 < r) (hp : p < r * c) :
    ((List.range r).flatMap fun i => (List.range c).map fun j => i + j * r).count p = 1 := by
  apply List.count_eq_one_of_mem
  · rw [List.nodup_flatMap]
    constructor
    · intro i _
      apply List.Nodup.map _ (List.nodup_range _)
      intro j j2 hj
      have h1 : j * r = j2 * r := by simpa using hj
      exact Nat.eq_of_mul_eq_mul_right hr h1
    · apply List.Nodup.pairwise_of_forall_ne (List.nodup_range _)
      intro i hi i2 hi2 hne
      rw [List.mem_range] at hi hi2
      intro x hx hx2
      rw [List.mem_map] at hx hx2
      obtain ⟨j, _, rfl⟩ := hx
      obtain ⟨j2, _, he⟩ := hx2
      have h1 : j2 * r + i2 = j * r + i := by omega
      exact idx_ne hi2 hi (Or.inr (Ne.symm hne)) h1
  · rw [List.mem_flatMap]
    have hmod : p % r < r := Nat.mod_lt _ hr
    have hdiv : p / r < c := by
      rw [Nat.div_lt_iff_lt_mul hr, Nat.mul_comm]; exact hp
    refine ⟨p % r, List.mem_range.mpr hmod, ?_⟩
    rw [List.mem_map]
    refine ⟨p / r, List.mem_range.mpr hdiv, ?_⟩
    rw [Nat.mul_comm]
    exact Nat.mod_add_div p r

theorem transpose_writes_log {α : Type} (m : matrix α)
    (hlen : m.elements.length = m.rows * m.cols)
    (els0 : List α) (h0 : els0.length = m.cols * m.rows) :
    ∃ st : List α × List Nat,
      for_up (fun i (st : List α × List Nat) =>
        for_up (fun j (st : List α × List Nat) => do
          let v ← load m.elements (j + i * m.cols)
          let els ← store st.1 (i + j * m.rows) v
          some (els, st.2 ++ [i + j * m.rows])) m.cols 0 st) m.rows 0 (els0, []) = some st ∧
      st.2 = (List.range m.rows).flatMap fun i => (List.range m.cols).map fun j => i + j * m.rows := by
  have hout := for_up_inv (fun i (st : List α × List Nat) =>
        for_up (fun j (st : List α × List Nat) => do
          let v ← load m.elements (j + i * m.cols)
          let els ← store st.1 (i + j * m.rows) v
          some (els, st.2 ++ [i + j * m.rows])) m.cols 0 st)
      (fun i st => st.1.length = m.cols * m.rows ∧
        st.2 = (List.range i).flatMap fun i => (List.range m.cols).map fun j => i + j * m.rows)
      m.rows 0 (els0, []) ⟨h0, rfl⟩ ?_
  · obtain ⟨st, hl, _, hlog⟩ := hout
    exact ⟨st, hl, by simpa using hlog⟩
  · intro i st _ hi ⟨hlenI, hI⟩
    have hiR : i < m.rows := by omega
    have hin := for_up_inv (fun j (st : List α × List Nat) => do
          let v ← load m.elements (j + i * m.cols)
          let els ← store st.1 (i + j * m.rows) v
          some (els, st.2 ++ [i + j * m.rows]))
      (fun j st2 => st2.1.length = m.cols * m.rows ∧
        st2.2 = st.2 ++ (List.range j).map fun j => i + j * m.rows)
      m.cols 0 st ⟨hlenI, by simp⟩ ?_
    · obtain ⟨st2, hl, hlen2, hlog⟩ := hin
      refine ⟨st2, hl, hlen2, ?_⟩
      rw [Nat.zero_add] at hlog
      rw [hlog, hI, List.range_succ, List.flatMap_append]
      simp
    · intro j st2 _ hj ⟨hlenJ, hlog⟩
      have hjC : j < m.cols := by omega
      have hsrc : j + i * m.cols < m.elements.length := by
        rw [hlen, Nat.add_comm]; exact idx_lt hiR hjC
      have hdst : i + j * m.rows < st2.1.length := by
        rw [hlenJ, Nat.add_comm]; exact idx_lt hjC hiR
      refine ⟨(st2.1.set (i + j * m.rows) m.elements[j + i * m.cols],
        st2.2 ++ [i + j * m.rows]), ?_, ?_, ?_⟩
      · simp [load_eq _ _ hsrc, store_eq _ _ _ hdst]
      · simp [hlenJ]
      · show st2.2 ++ [i + j * m.rows] = _
        rw [hlog, List.range_succ, List.map_append, List.append_assoc]
        rfl

theorem transpose_matrix_writes_fst {α : Type} [Field α] [DecidableEq α] (m : matrix α) :
    (transpose_matrix_writes m).map (Option.map Prod.fst) = transpose_matrix m := by
  unfold transpose_matrix_writes transpose_matrix
  cases hcm : (create_matrix m.rows m.cols : Option (matrix α)) with
  | none => rfl
  | some transpose =>
    simp only
    have h := for_up_fst
      (fun i els =>
        for_up (fun j els => do
          let v ← load m.elements (j + i * m.cols)
          store els (i + j * m.rows) v) m.cols 0 els)
      (fun i (st : List α × List Nat) =>
        for_up (fun j (st : List α × List Nat) => do
          let v ← load m.elements (j + i * m.cols)
          let els ← store st.1 (i + j * m.rows) v
          some (els, st.2 ++ [i + j * m.rows])) m.cols 0 st)
      (fun i s t => for_up_fst
        (fun j els => do
          let v ← load m.elements (j + i * m.cols)
          store els (i + j * m.rows) v)
        (fun j (st : List α × List Nat) => do
          let v ← load m.elements (j + i * m.cols)
          let els ← store st.1 (i + j * m.rows) v
          some (els, st.2 ++ [i + j * m.rows]))
        (fun j s t => by
          cases h1 : load m.elements (j + i * m.cols) with
          | none => simp [h1]
          | some v =>
            cases h2 : store s (i + j * m.rows) v with
            | none => simp [h1, h2]
            | some e => simp [h1, h2]) m.cols 0 s t)
      m.rows 0 transpose.elements ([] : List Nat)
    rw [← h]
    cases for_up (fun i (st : List α × List Nat) =>
        for_up (fun j (st : List α × List Nat) => do
          let v ← load m.elements (j + i * m.cols)
          let els ← store st.1 (i + j * m.rows) v
          some (els, st.2 ++ [i + j * m.rows])) m.cols 0 st) m.rows 0
        (transpose.elements, ([] : List Nat)) with
    | none => rfl
    | some st => rfl

end transpose_writes

/-- C37. For every matrix `M` with `r > 0` rows and `c > 0` columns (buffer of `r * c`
cells), `transpose_matrix M` is a matrix `T` with `T.rows = c`, `T.cols = r`, a buffer of
`c * r` cells, and `T[j][i] = M[i][j]` for every `i < r` and `j < c` in row-major
addressing. The run with the log of written indices returns the same `T`, and every index
of the buffer of `T` occurs exactly once in the log. -/
theorem C37_transpose_cells {α : Type} [Field α] [DecidableEq α] (M : matrix α)
    (hM : M.valid) :
    ∃ (T : matrix α) (log : List Nat),
      transpose_matrix M = some (some T) ∧ T.rows = M.cols ∧ T.cols = M.rows ∧
      T.elements.length = T.rows * T.cols ∧
      (∀ i j, i < M.rows → j < M.cols →
        T.elements[j * T.cols + i]? = M.elements[i * M.cols + j]? ∧
        T.entry j i = M.entry i j) ∧
      transpose_matrix_writes M = some (some (T, log)) ∧
      ∀ p, p < T.elements.length → log.count p = 1 := by
  obtain ⟨T, hT, hTr, hTc, hTlen, hTe⟩ := transpose_matrix_spec M hM
  obtain ⟨hr, hc, hlen⟩ := hM
  obtain ⟨st, hrun, hlog⟩ :=
    transpose_writes_log M hlen (List.replicate (M.cols * M.rows) 0) (by simp)
  have hw : transpose_matrix_writes M =
      some (some ({ elements := st.1, cols := M.rows, rows := M.cols }, st.2)) := by
    unfold transpose_matrix_writes
    rw [create_matrix_pos M.rows M.cols hr hc]
    simp only [hrun, Option.map_some']
  have hfst := transpose_matrix_writes_fst M
  rw [hw, hT] at hfst
  have hTeq : T = { elements := st.1, cols := M.rows, rows := M.cols } :=
    (Option.some.inj (Option.some.inj hfst)).symm
  refine ⟨T, st.2, hT, hTr, hTc, by rw [hTlen, hTr, hTc], ?_, by rw [hw, hTeq], ?_⟩
  · intro i j hi hj
    have h := hTe i j hi hj
    have h2 : T.elements[j * T.cols + i]? = M.elements[i * M.cols + j]? := by
      rw [hTc, Nat.add_comm, h, Nat.add_comm]
    refine ⟨h2, ?_⟩
    unfold matrix.entry
    rw [h2]
  · intro p hp
    rw [hTlen, Nat.mul_comm] at hp
    rw [hlog]
    exact transpose_log_count M.rows M.cols p hr hp

/-- Witness of C37 on the 2 x 3 rational matrix with elements 1..6. -/
theorem C37_transpose_cells_witness :
    ∃ (T : matrix ℚ) (log : List Nat),
      transpose_matrix (⟨[1, 2, 3, 4, 5, 6], 3, 2⟩ : matrix ℚ) = some (some T) ∧
      T.rows = 3 ∧ T.cols = 2 ∧ T.elements.length = T.rows * T.cols ∧
      (∀ i j, i < 2 → j < 3 →
        T.elements[j * T.cols + i]? = ([1, 2, 3, 4, 5, 6] : List ℚ)[i * 3 + j]? ∧
        T.entry j i = (⟨[1, 2, 3, 4, 5, 6], 3, 2⟩ : matrix ℚ).entry i j) ∧
      transpose_matrix_writes (⟨[1, 2, 3, 4, 5, 6], 3, 2⟩ : matrix ℚ) = some (some (T, log)) ∧
      ∀ p, p < T.elements.length → log.count p = 1 :=
  C37_transpose_cells ⟨[1, 2, 3, 4, 5, 6], 3, 2⟩ ⟨by decide, by decide, by decide⟩

section adjusting_short
variable {α κ : Type} [LinearOrderedField α] [FloorRing α]

theorem adjusting_newtons_round_unit (logl : α → α) (F D : function α κ) (tol : α)
    (s : adjusting_state α) (hm : s.m = 1) :
    (adjusting_newtons_round logl F D tol s).map (fun p => (p.1, p.2.newton)) =
        newtons_round F D tol s.newton ∧
      ∀ b t, adjusting_newtons_round logl F D tol s = some (b, t) → s.iterations ≤ 2 →
        t.m = 1 := by
  unfold adjusting_newtons_round newtons_round
  simp only [hm, one_mul, adjusting_state.newton]
  constructor
  · split_ifs <;> rfl
  · intro b t h hit
    have hno : ¬ (s.adjusting = true ∧ s.iterations > 2 ∧ s.iterations % 3 = 0) := by
      rintro ⟨_, h2, _⟩
      omega
    rw [if_neg hno] at h
    split_ifs at h
    all_goals cases h
    all_goals rfl

theorem adjusting_newtons_loop_short (logl : α → α) (F D : function α κ) (tol : α) :
    ∀ (todo : Nat) (s : adjusting_state α), s.iterations + todo ≤ 4 → (s.m = 1 ∨ todo = 0) →
      (adjusting_newtons_loop logl F D tol todo s).map adjusting_state.newton =
        newtons_loop F D tol todo s.newton := by
  intro todo
  induction todo with
  | zero => intro s _ _; rfl
  | succ todo ih =>
    intro s hit hm
    have hm1 : s.m = 1 := by
      rcases hm with h | h
      · exact h
      · exact absurd h (Nat.succ_ne_zero _)
    obtain ⟨hround, hkeep⟩ := adjusting_newtons_round_unit logl F D tol s hm1
    show (match adjusting_newtons_round logl F D tol s with
      | none => none
      | some (true, t) => some t
      | some (false, t) =>
        adjusting_newtons_loop logl F D tol todo
          { t with iterations := t.iterations + 1 }).map adjusting_state.newton =
      (match newtons_round F D tol s.newton with
      | none => none
      | some (true, t) => some t
      | some (false, t) =>
        newtons_loop F D tol todo { t with iterations := t.iterations + 1 })
    rw [← hround]
    cases hr : adjusting_newtons_round logl F D tol s with
    | none => rfl
    | some p =>
      obtain ⟨b, t⟩ := p
      have hti : t.iterations = s.iterations :=
        (adjusting_newtons_round_spec logl F D tol s t b hr).2.1
      cases b with
      | true => rfl
      | false =>
        exact ih { t with iterations := t.iterations + 1 }
          (by show t.iterations + 1 + todo ≤ 4; omega)
          (by
            by_cases h2 : s.iterations ≤ 2
            · exact Or.inl (hkeep false t hr h2)
            · exact Or.inr (by omega))

end adjusting_short

/-- C35. For every `f`, `f'`, `x0`, tolerance, library logarithm and every
`max_iterations ≤ 4`, `adjusting_newtons_method` returns exactly what `newtons_method`
returns on the same arguments (the same `value`, `error`, `iterations` and
`convergence_rate`, and no result in the same cases). -/
theorem C35_adjusting_equals_newton_up_to_four {α κ : Type} [LinearOrderedField α]
    [FloorRing α] (logl : α → α) (function : Project1.function α κ)
    (derivative : Project1.function α κ) (x0 tolerance : α) (max_iterations : Nat)
    (h : max_iterations ≤ 4) :
    adjusting_newtons_method logl function derivative x0 max_iterations tolerance =
      newtons_method logl function derivative x0 max_iterations tolerance := by
  unfold adjusting_newtons_method newtons_method newtons_run
  by_cases h0 : max_iterations = 0
  · rw [if_pos h0, if_pos h0]
  · rw [if_neg h0, if_neg h0]
    have hl := adjusting_newtons_loop_short logl function derivative tolerance max_iterations
      (adjusting_init x0) (by show 0 + max_iterations ≤ 4; omega) (Or.inl rfl)
    have hinit : (adjusting_init x0).newton = newtons_init x0 := rfl
    rw [hinit] at hl
    rw [← hl, Option.map_map]
    rfl

/-- Witness of C35 with four rounds on `shrinking_steps`, whose relative steps `1/2`, `1/4`,
`1/8`, `1/32` all exceed the tolerance `1/64`, so that the round at loop index `3` reaches
the adjustment check. -/
theorem C35_adjusting_equals_newton_up_to_four_witness :
    adjusting_newtons_method log2_on_powers shrinking_steps unit_slope 1 4 (1 / 64) =
      newtons_method log2_on_powers shrinking_steps unit_slope 1 4 (1 / 64) :=
  C35_adjusting_equals_newton_up_to_four log2_on_powers shrinking_steps unit_slope 1 (1 / 64) 4
    (by decide)

/-- C36. Piecewise-linear interpolation reproduces affine functions: for `f(x) = a * x + b`,
every `x0 < x1` and `order ≥ 1`, `piecewise_linear_interpolation` returns an interpolation
`P` with `piecewise_linear_value x P = a * x + b` for every `x` in `[x0, x1]`. -/
theorem C36_piecewise_linear_exact_on_affine {α : Type} [LinearOrderedField α] [FloorRing α]
    (a b x0 x1 : α) (order : Nat) (hlt : x0 < x1) (hord : 1 ≤ order) :
    ∃ P : interpolation α,
      piecewise_linear_interpolation (fun x => a * x + b) x0 x1 order = some (some P) ∧
      ∀ x, x0 ≤ x → x ≤ x1 → piecewise_linear_value x P = some (some (a * x + b)) := by
  obtain ⟨P, hP, hstart, hstop, _, hint, hlen, hc⟩ :=
    piecewise_linear_interpolation_spec (fun x => a * x + b) x0 x1 order hlt hord
  have hh : (x1 - x0) / (order : α) ≠ 0 :=
    ne_of_gt (div_pos (by linarith) (by exact_mod_cast hord))
  refine ⟨P, hP, ?_⟩
  intro x hx0 hx1
  rw [piecewise_linear_value_inside P
    (fun i => (fun x => a * x + b) (x0 + (x1 - x0) / (order : α) * (i : α)) /
      ((x1 - x0) / (order : α)))
    x0 x1 x order hlt hord hstart hstop hint hlen hc hx0 hx1]
  obtain ⟨_, _, _, _, hfc, hcc⟩ := grid_index x0 x1 x order hlt hord hx0 hx1
  have hxs : x - x0 = (x - x0) / ((x1 - x0) / (order : α)) * ((x1 - x0) / (order : α)) := by
    rw [div_mul_cancel₀ _ hh]
  congr 2
  simp only []
  rw [hfc, hcc]
  generalize hq : (x - x0) / ((x1 - x0) / (order : α)) = q at hxs ⊢
  generalize hhd : (x1 - x0) / (order : α) = hd at hh hxs ⊢
  have hx : x = x0 + q * hd := by linarith
  rw [hxs, hx]
  by_cases hi : q = (⌊q⌋ : α)
  · rw [ceil_of_int q hi]
    rw [← hi]
    field_simp
    ring
  · rw [ceil_of_not_int q hi]
    push_cast
    field_simp
    ring

/-- Witness of C36 for `f(x) = 3 x + 1` on `[0, 2]` with four intervals. -/
theorem C36_piecewise_linear_exact_on_affine_witness :
    ∃ P : interpolation ℚ,
      piecewise_linear_interpolation (fun x : ℚ => 3 * x + 1) 0 2 4 = some (some P) ∧
      ∀ x, 0 ≤ x → x ≤ 2 → piecewise_linear_value x P = some (some (3 * x + 1)) :=
  C36_piecewise_linear_exact_on_affine 3 1 0 2 4 (by norm_num) (by norm_num)

section coefficient_indices
variable {α : Type} [LinearOrderedField α] [FloorRing α]

theorem grid_index_int (x0 x1 x : α) (order : Nat) (hlt : x0 < x1) (hord : 1 ≤ order)
    (hx0 : x0 ≤ x) (hx1 : x ≤ x1) :
    0 ≤ ⌊(x - x0) / ((x1 - x0) / (order : α))⌋ ∧
    ⌊(x - x0) / ((x1 - x0) / (order : α))⌋ ≤ (order : Int) ∧
    0 ≤ ⌈(x - x0) / ((x1 - x0) / (order : α))⌉ ∧
    ⌈(x - x0) / ((x1 - x0) / (order : α))⌉ ≤ (order : Int) ∧
    ⌊(x - x0) / ((x1 - x0) / (order : α))⌋.toNat < order + 1 ∧
    ⌈(x - x0) / ((x1 - x0) / (order : α))⌉.toNat < order + 1 := by
  obtain ⟨hf0, hc0, hf1, hc1, _, _⟩ := grid_index x0 x1 x order hlt hord hx0 hx1
  have e1 := Int.toNat_of_nonneg hf0
  have e2 := Int.toNat_of_nonneg hc0
  refine ⟨hf0, ?_, hc0, ?_, by omega, by omega⟩
  · rw [← e1]; exact_mod_cast hf1
  · rw [← e2]; exact_mod_cast hc1

end coefficient_indices

/-- C38. For `x0 < x1` and `order ≥ 1`, `piecewise_linear_interpolation` and
`raised_cosine_interpolation` return an interpolation `P` with a sampling interval `h` and
`order + 1` coefficients such that for every `x` with `start ≤ x ≤ end` both indices
`floor((x - start) / h)` and `ceil((x - start) / h)` lie in `0..order`, hence inside the
coefficient buffer, and `piecewise_linear_value` (`raised_cosine_value`) reads no
coefficient outside the buffer: it returns a number. -/
theorem C38_coefficient_indices_in_range {α : Type} [LinearOrderedField α] [FloorRing α]
    (M_PI : α) (cosl : α → α) (f : α → α) (x0 x1 : α) (order : Nat) (hlt : x0 < x1)
    (hord : 1 ≤ order) :
    (∃ (P : interpolation α) (h : α),
      piecewise_linear_interpolation f x0 x1 order = some (some P) ∧
      P.sampling_interval = some h ∧ P.coefficients.length = order + 1 ∧
      ∀ x, P.start ≤ x → x ≤ P.stop →
        0 ≤ ⌊(x - P.start) / h⌋ ∧ ⌊(x - P.start) / h⌋ ≤ (order : Int) ∧
        0 ≤ ⌈(x - P.start) / h⌉ ∧ ⌈(x - P.start) / h⌉ ≤ (order : Int) ∧
        ⌊(x - P.start) / h⌋.toNat < P.coefficients.length ∧
        ⌈(x - P.start) / h⌉.toNat < P.coefficients.length ∧
        ∃ v, piecewise_linear_value x P = some (some v)) ∧
    (∃ (P : interpolation α) (h : α),
      raised_cosine_interpolation f x0 x1 order = some (some P) ∧
      P.sampling_interval = some h ∧ P.coefficients.length = order + 1 ∧
      ∀ x, P.start ≤ x → x ≤ P.stop →
        0 ≤ ⌊(x - P.start) / h⌋ ∧ ⌊(x - P.start) / h⌋ ≤ (order : Int) ∧
        0 ≤ ⌈(x - P.start) / h⌉ ∧ ⌈(x - P.start) / h⌉ ≤ (order : Int) ∧
        ⌊(x - P.start) / h⌋.toNat < P.coefficients.length ∧
        ⌈(x - P.start) / h⌉.toNat < P.coefficients.length ∧
        ∃ v, raised_cosine_value M_PI cosl x P = some (some v)) := by
  constructor
  · obtain ⟨P, hP, hstart, hstop, _, hint, hlen, hc⟩ :=
      piecewise_linear_interpolation_spec f x0 x1 order hlt hord
    refine ⟨P, (x1 - x0) / (order : α), hP, hint, hlen, ?_⟩
    intro x hx0 hx1
    rw [hstart] at hx0 ⊢
    rw [hstop] at hx1
    obtain ⟨h1, h2, h3, h4, h5, h6⟩ := grid_index_int x0 x1 x order hlt hord hx0 hx1
    rw [hlen]
    exact ⟨h1, h2, h3, h4, h5, h6, _,
      piecewise_linear_value_inside P _ x0 x1 x order hlt hord hstart hstop hint hlen hc
        hx0 hx1⟩
  · obtain ⟨P, hP, hstart, hstop, _, hint, hlen, hc⟩ :=
      raised_cosine_interpolation_spec f x0 x1 order hlt hord
    refine ⟨P, (x1 - x0) / (order : α), hP, hint, hlen, ?_⟩
    intro x hx0 hx1
    rw [hstart] at hx0 ⊢
    rw [hstop] at hx1
    obtain ⟨h1, h2, h3, h4, h5, h6⟩ := grid_index_int x0 x1 x order hlt hord hx0 hx1
    rw [hlen]
    exact ⟨h1, h2, h3, h4, h5, h6, _,
      raised_cosine_value_inside M_PI cosl P _ x0 x1 x order hlt hord hstart hstop hint hlen
        hc hx0 hx1⟩

/-- Witness of C38 over the rationals: `f(x) = x * x` on `[0, 1]` with four intervals, with
stand-ins for `M_PI` and `cosl`. -/
theorem C38_coefficient_indices_in_range_witness :
    (∃ (P : interpolation ℚ) (h : ℚ),
      piecewise_linear_interpolation (fun x : ℚ => x * x) 0 1 4 = some (some P) ∧
      P.sampling_interval = some h ∧ P.coefficients.length = 4 + 1 ∧
      ∀ x, P.start ≤ x → x ≤ P.stop →
        0 ≤ ⌊(x - P.start) / h⌋ ∧ ⌊(x - P.start) / h⌋ ≤ ((4 : Nat) : Int) ∧
        0 ≤ ⌈(x - P.start) / h⌉ ∧ ⌈(x - P.start) / h⌉ ≤ ((4 : Nat) : Int) ∧
        ⌊(x - P.start) / h⌋.toNat < P.coefficients.length ∧
        ⌈(x - P.start) / h⌉.toNat < P.coefficients.length ∧
        ∃ v, piecewise_linear_value x P = some (some v)) ∧
    (∃ (P : interpolation ℚ) (h : ℚ),
      raised_cosine_interpolation (fun x : ℚ => x * x) 0 1 4 = some (some P) ∧
      P.sampling_interval = some h ∧ P.coefficients.length = 4 + 1 ∧
      ∀ x, P.start ≤ x → x ≤ P.stop →
        0 ≤ ⌊(x - P.start) / h⌋ ∧ ⌊(x - P.start) / h⌋ ≤ ((4 : Nat) : Int) ∧
        0 ≤ ⌈(x - P.start) / h⌉ ∧ ⌈(x - P.start) / h⌉ ≤ ((4 : Nat) : Int) ∧
        ⌊(x - P.start) / h⌋.toNat < P.coefficients.length ∧
        ⌈(x - P.start) / h⌉.toNat < P.coefficients.length ∧
        ∃ v, raised_cosine_value 3 (fun t : ℚ => 1 - t * t / 2) x P = some (some v)) :=
  C38_coefficient_indices_in_range 3 (fun t : ℚ => 1 - t * t / 2) (fun x : ℚ => x * x) 0 1 4
    (by norm_num) (by norm_num)

/-! ## `long double` arithmetic -/

namespace long_double

theorem round_half_even_eq (y : ℚ) (m : Int) (h : |y - (m : ℚ)| < 1 / 2) :
    round_half_even y = m := by
  rw [abs_lt] at h
  obtain ⟨h1, h2⟩ := h
  unfold round_half_even
  by_cases hy : (m : ℚ) ≤ y
  · have hf : ⌊y⌋ = m := by
      rw [Int.floor_eq_iff]
      constructor
      · exact hy
      · linarith
    rw [hf, if_pos (by linarith)]
  · push_neg at hy
    have hf : ⌊y⌋ = m - 1 := by
      rw [Int.floor_eq_iff]
      push_cast
      constructor <;> linarith
    rw [hf]
    push_cast
    rw [if_neg (by linarith), if_pos (by linarith)]
    ring

theorem log_of_scaled (x : ℚ) (n : Int) (hlo : 2 ^ 63 ≤ |x| * 2 ^ n)
    (hhi : |x| * 2 ^ n < 2 ^ 64) : Int.log 2 |x| = 63 - n := by
  have h2n : (0 : ℚ) < 2 ^ n := zpow_pos (by norm_num) n
  have hx : 0 < |x| := by
    rcases (abs_nonneg x).lt_or_eq with h | h
    · exact h
    · rw [← h, zero_mul] at hlo
      exact absurd hlo (by norm_num)
  have e1 : ((2 : ℕ) : ℚ) ^ (63 - n) ≤ |x| := by
    have : ((2 : ℕ) : ℚ) ^ (63 - n) = 2 ^ (63 : ℤ) / 2 ^ n := by
      push_cast
      rw [zpow_sub₀ (by norm_num)]
    rw [this, div_le_iff₀ h2n]
    have e : (2 : ℚ) ^ (63 : ℤ) = 2 ^ 63 := by norm_num
    rw [e]
    exact hlo
  have e2 : |x| < ((2 : ℕ) : ℚ) ^ (63 - n + 1) := by
    have : ((2 : ℕ) : ℚ) ^ (63 - n + 1) = 2 ^ (64 : ℤ) / 2 ^ n := by
      push_cast
      rw [← zpow_sub₀ (by norm_num)]
      congr 1
      ring
    rw [this, lt_div_iff₀ h2n]
    have e : (2 : ℚ) ^ (64 : ℤ) = 2 ^ 64 := by norm_num
    rw [e]
    exact hhi
  have l1 := (Int.zpow_le_iff_le_log (by norm_num : 1 < 2) hx).mp e1
  have l2 := (Int.lt_zpow_iff_log_lt (by norm_num : 1 < 2) hx).mp e2
  omega

theorem nearest_of_scaled (x : ℚ) (k : Nat) (m : Int) (hlo : 2 ^ 63 ≤ |x| * 2 ^ k)
    (hhi : |x| * 2 ^ k < 2 ^ 64) (hm : |x * 2 ^ k - (m : ℚ)| < 1 / 2) :
    nearest x = (m : ℚ) / 2 ^ k := by
  have hx : x ≠ 0 := by
    intro h
    rw [h, abs_zero, zero_mul] at hlo
    exact absurd hlo (by norm_num)
  unfold nearest
  rw [if_neg hx, log_of_scaled x (k : ℤ) (by rw [zpow_natCast]; exact hlo)
    (by rw [zpow_natCast]; exact hhi)]
  have : (63 : ℤ) - (63 - (k : ℤ)) = (k : ℤ) := by ring
  rw [this, zpow_natCast, round_half_even_eq _ m hm]

theorem nearest_of_exact (x : ℚ) (k : Nat) (m : Int) (hlo : 2 ^ 63 ≤ |x| * 2 ^ k)
    (hhi : |x| * 2 ^ k < 2 ^ 64) (hm : x * 2 ^ k = (m : ℚ)) : nearest x = x := by
  rw [nearest_of_scaled x k m hlo hhi (by rw [hm, sub_self, abs_zero]; norm_num), ← hm]
  field_simp

end long_double

section long_double_bisection

end long_double_bisection

section long_double_sampling

theorem long_double_interval_7_19 :
    long_double.div 7 19 = 13592337738522827507 / 2 ^ 65 := by
  unfold long_double.div
  rw [long_double.nearest_of_scaled (7 / 19) 65 13592337738522827507
    (by norm_num [abs_of_pos]) (by norm_num [abs_of_pos]) (by norm_num [abs_lt])]
  norm_num

theorem long_double_count_7_19 :
    long_double.div (long_double.sub 7 0) (13592337738522827507 / 2 ^ 65) = 19 := by
  have h7 : long_double.sub 7 0 = 7 := by
    unfold long_double.sub
    rw [long_double.nearest_of_exact (7 - 0) 61 (7 * 2 ^ 61) (by norm_num [abs_of_pos])
      (by norm_num [abs_of_pos]) (by norm_num)]
    norm_num
  rw [h7]
  unfold long_double.div
  rw [long_double.nearest_of_scaled _ 59 (19 * 2 ^ 59)
    (by norm_num [abs_of_pos]) (by norm_num [abs_of_pos]) (by norm_num [abs_lt])]
  norm_num

theorem long_double_twenty : long_double.add 19 1 = 20 := by
  unfold long_double.add
  rw [long_double.nearest_of_scaled _ 59 (20 * 2 ^ 59)
    (by norm_num [abs_of_pos]) (by norm_num [abs_of_pos]) (by norm_num [abs_lt])]
  norm_num

theorem long_double_abscissa_7_19 :
    long_double.add 0 (long_double.mul (13592337738522827507 / 2 ^ 65) 19) =
      7 + 1 / 2 ^ 61 := by
  have hm : long_double.mul (13592337738522827507 / 2 ^ 65) 19 = 7 + 1 / 2 ^ 61 := by
    unfold long_double.mul
    rw [long_double.nearest_of_scaled _ 61 16140901064495857665
      (by norm_num [abs_of_pos]) (by norm_num [abs_of_pos]) (by norm_num [abs_lt])]
    norm_num
  rw [hm]
  unfold long_double.add
  rw [long_double.nearest_of_exact (0 + (7 + 1 / 2 ^ 61)) 61 16140901064495857665
    (by norm_num [abs_of_pos]) (by norm_num [abs_of_pos]) (by norm_num)]
  norm_num

end long_double_sampling

/-- C19, counterexample. In `long double` arithmetic, sampling `[0, 7]` with the interval
`7.0L / 19`: the interval is rounded up, the quotient `(7 - 0) / interval` lies below `19`
and is rounded to `19`, so `20` samples are taken where `floor((end - start) / interval) + 1`
is `19`, and the last abscissa `0 + interval * 19` is rounded to `7 + 2^-61`, which lies
beyond `end`. -/
theorem C19_long_double_sample_beyond_end :
    ∃ sf : sampled_function ℚ,
      long_double.sample_values (fun x => x) 0 7 (long_double.div 7 19) = some (some sf) ∧
      sf.n_samples = 20 ∧ ⌊((7 : ℚ) - 0) / long_double.div 7 19⌋ + 1 = 19 ∧
      sf.samples[19]? = some (long_double.add 0 (long_double.mul (long_double.div 7 19) 19)) ∧
      long_double.add 0 (long_double.mul (long_double.div 7 19) 19) = 7 + 1 / 2 ^ 61 ∧
      (7 : ℚ) < 7 + 1 / 2 ^ 61 := by
  rw [long_double_interval_7_19]
  have hrun : long_double.sample_values (fun x => x) 0 7 (13592337738522827507 / 2 ^ 65) =
      some (some
        { start := 0
          stop := long_double.add 0 (long_double.mul 20 (13592337738522827507 / 2 ^ 65))
          sampling_interval := 13592337738522827507 / 2 ^ 65
          n_samples := 20
          samples := (List.range 20).map fun i : Nat =>
            long_double.add 0 (long_double.mul (13592337738522827507 / 2 ^ 65) (i : ℚ)) }) := by
    unfold long_double.sample_values
    rw [if_neg (by norm_num), if_neg (by norm_num)]
    simp only [long_double_count_7_19]
    norm_num [long_double_twenty]
    exact ⟨rfl, rfl⟩
  refine ⟨_, hrun, rfl, ?_, ?_, long_double_abscissa_7_19, by norm_num⟩
  · have hfloor : ⌊((7 : ℚ) - 0) / (13592337738522827507 / 2 ^ 65)⌋ = 18 := by
      rw [Int.floor_eq_iff]
      norm_num
    rw [hfloor]
    rfl
  · simp

section long_double_interpolation

theorem long_double_one : long_double.sub 1 0 = 1 := by
  unfold long_double.sub
  rw [long_double.nearest_of_exact (1 - 0) 63 (2 ^ 63) (by norm_num [abs_of_pos])
    (by norm_num [abs_of_pos]) (by norm_num)]
  norm_num

theorem long_double_interval_1_15 :
    long_double.div (long_double.sub 1 0) ((15 : Nat) : ℚ) = 9838263505978427529 / 2 ^ 67 := by
  rw [long_double_one]
  unfold long_double.div
  rw [long_double.nearest_of_scaled _ 67 9838263505978427529
    (by norm_num [abs_of_pos]) (by norm_num [abs_of_pos]) (by norm_num [abs_lt])]
  norm_num

theorem long_double_position_1_15 :
    long_double.div (long_double.sub 1 0) (9838263505978427529 / 2 ^ 67) =
      15 - 1 / 2 ^ 60 := by
  rw [long_double_one]
  unfold long_double.div
  rw [long_double.nearest_of_scaled _ 60 17293822569102704639
    (by norm_num [abs_of_pos]) (by norm_num [abs_of_pos]) (by norm_num [abs_lt])]
  norm_num

theorem long_double_floor_1_15 : ⌊(15 : ℚ) - 1 / 2 ^ 60⌋ = 14 := by
  rw [Int.floor_eq_iff]
  norm_num

theorem long_double_ceil_1_15 : ⌈(15 : ℚ) - 1 / 2 ^ 60⌉ = 15 := by
  rw [Int.ceil_eq_iff]
  norm_num

theorem long_double_fifteen : long_double.add ((14 : Int) : ℚ) 1 = 15 := by
  unfold long_double.add
  rw [long_double.nearest_of_scaled _ 60 (15 * 2 ^ 60)
    (by norm_num [abs_of_pos]) (by norm_num [abs_of_pos]) (by norm_num [abs_lt])]
  norm_num

theorem long_double_samples_1_15 (f : ℚ → ℚ) :
    long_double.sample_values f 0 1 (9838263505978427529 / 2 ^ 67) =
      some (some
        { start := 0
          stop := long_double.add 0 (long_double.mul 15 (9838263505978427529 / 2 ^ 67))
          sampling_interval := 9838263505978427529 / 2 ^ 67
          n_samples := 15
          samples := (List.range 15).map fun i : Nat =>
            f (long_double.add 0 (long_double.mul (9838263505978427529 / 2 ^ 67) (i : ℚ))) }) := by
  unfold long_double.sample_values
  rw [if_neg (by norm_num), if_neg (by norm_num)]
  simp only [long_double_position_1_15, long_double_floor_1_15, long_double_fifteen]
  norm_num
  exact ⟨rfl, rfl⟩

theorem long_double_piecewise_linear_fill_length (sf : sampled_function ℚ) (c0 : List ℚ)
    (hs : sf.samples.length = sf.n_samples) (hc : c0.length = sf.n_samples) :
    ∃ cs, long_double.piecewise_linear_fill sf c0 = some cs ∧ cs.length = sf.n_samples := by
  obtain ⟨cs, h1, h2, _⟩ := set_cells_loop
    (fun i => long_double.div (sf.samples.getD i 0) sf.sampling_interval)
    (fun i coefficients => do
      let s ← load sf.samples i
      store coefficients i (long_double.div s sf.sampling_interval)) 0 sf.n_samples c0
    (by omega)
    (by
      intro i els hi _
      show (load sf.samples i).bind _ = _
      rw [load_getD sf.samples i (by omega), Nat.zero_add]
      rfl)
  exact ⟨cs, h1, by rw [h2, hc]⟩

theorem long_double_raised_cosine_fill_length (sf : sampled_function ℚ) (c0 : List ℚ)
    (hs : sf.samples.length = sf.n_samples) (hc : c0.length = sf.n_samples) :
    ∃ cs, long_double.raised_cosine_fill sf c0 = some cs ∧ cs.length = sf.n_samples := by
  obtain ⟨cs, h1, h2, _⟩ := set_cells_loop
    (fun i => long_double.div (sf.samples.getD i 0) 2)
    (fun i coefficients => do
      let s ← load sf.samples i
      store coefficients i (long_double.div s 2)) 0 sf.n_samples c0
    (by omega)
    (by
      intro i els hi _
      show (load sf.samples i).bind _ = _
      rw [load_getD sf.samples i (by omega), Nat.zero_add]
      rfl)
  exact ⟨cs, h1, by rw [h2, hc]⟩

end long_double_interpolation

/-- C23, counterexample. In `long double` arithmetic, for `order = 15` on `[0, 1]`: the
interval `1 / 15` is rounded up, the quotient `(1 - 0) / interval` is rounded to
`15 - 2^-60`, so `sample_values` takes `15` samples and the interpolation gets `15`
coefficients (cells `0..14`). At `x = 1`, which lies in `[start, end]`, the position
`(x - start) / interval` is again `15 - 2^-60`, with floor `14` and ceiling `15`, and
`piecewise_linear_value` reads the coefficient of index `15`, outside the buffer. -/
theorem C23_long_double_reads_outside_coefficients :
    ∃ (P : interpolation ℚ) (h : ℚ),
      long_double.piecewise_linear_interpolation (fun x => x) 0 1 15 = some (some P) ∧
      P.start = 0 ∧ P.stop = 1 ∧ P.sampling_interval = some h ∧
      P.coefficients.length = 15 ∧
      ⌊long_double.div (long_double.sub 1 P.start) h⌋ = 14 ∧
      ⌈long_double.div (long_double.sub 1 P.start) h⌉ = 15 ∧
      long_double.piecewise_linear_value 1 P = none := by
  obtain ⟨cs, hfill, hlen⟩ := long_double_piecewise_linear_fill_length
    { start := 0
      stop := long_double.add 0 (long_double.mul 15 (9838263505978427529 / 2 ^ 67))
      sampling_interval := 9838263505978427529 / 2 ^ 67
      n_samples := 15
      samples := (List.range 15).map fun i : Nat =>
        (fun x : ℚ => x)
          (long_double.add 0 (long_double.mul (9838263505978427529 / 2 ^ 67) (i : ℚ))) }
    (allocate_interpolation (fun x : ℚ => x) 0 1 (15 - 1)).coefficients (by simp)
    (by simp [allocate_interpolation])
  have hP : long_double.piecewise_linear_interpolation (fun x => x) 0 1 15 =
      some (some { allocate_interpolation (fun x : ℚ => x) 0 1 (15 - 1) with
        sampling_interval := some (9838263505978427529 / 2 ^ 67)
        coefficients := cs }) := by
    unfold long_double.piecewise_linear_interpolation
    rw [if_neg (by norm_num), if_neg (by norm_num)]
    simp only [long_double_interval_1_15, long_double_samples_1_15, Option.some_bind, hfill,
      Option.map_some']
  have hcs : cs.length = 15 := hlen
  refine ⟨_, 9838263505978427529 / 2 ^ 67, hP, rfl, rfl, rfl, hcs, ?_, ?_, ?_⟩
  · show ⌊long_double.div (long_double.sub 1 0) (9838263505978427529 / 2 ^ 67)⌋ = 14
    rw [long_double_position_1_15, long_double_floor_1_15]
  · show ⌈long_double.div (long_double.sub 1 0) (9838263505978427529 / 2 ^ 67)⌉ = 15
    rw [long_double_position_1_15, long_double_ceil_1_15]
  · unfold long_double.piecewise_linear_value
    simp only [allocate_interpolation]
    rw [if_neg (by norm_num)]
    rw [if_neg (by norm_num)]
    simp only [long_double_position_1_15, long_double_floor_1_15, long_double_ceil_1_15]
    rw [if_neg (by norm_num)]
    have h14 : ∃ v, load cs (Int.toNat 14) = some v :=
      ⟨_, load_eq cs 14 (by rw [hcs]; norm_num)⟩
    obtain ⟨v, hv⟩ := h14
    have h15 : load cs (Int.toNat 15) = none := by
      unfold load
      rw [List.getElem?_eq_none]
      rw [hcs]
      exact le_refl _
    rw [hv, h15]
    rfl

/-- C24, counterexample. In `long double` arithmetic, for `order = 15` on `[0, 1]`: the
interval `1 / 15` is rounded up, the quotient `(1 - 0) / interval` is rounded to
`15 - 2^-60`, so `sample_values` takes `15` samples and the interpolation gets `15`
coefficients (cells `0..14`). At `x = 1`, which lies in `[start, end]`, the position
`(x - start) / interval` is again `15 - 2^-60`, with floor `14` and ceiling `15`, and
`raised_cosine_value` reads the coefficient of index `15`, outside the buffer, whatever
the values of `M_PI` and `cosl` are. -/
theorem C24_long_double_reads_outside_coefficients :
    ∃ (P : interpolation ℚ) (h : ℚ),
      long_double.raised_cosine_interpolation (fun x => x) 0 1 15 = some (some P) ∧
      P.start = 0 ∧ P.stop = 1 ∧ P.sampling_interval = some h ∧
      P.coefficients.length = 15 ∧
      ⌊long_double.div (long_double.sub 1 P.start) h⌋ = 14 ∧
      ⌈long_double.div (long_double.sub 1 P.start) h⌉ = 15 ∧
      ∀ (M_PI : ℚ) (cosl : ℚ → ℚ), long_double.raised_cosine_value M_PI cosl 1 P = none := by
  obtain ⟨cs, hfill, hlen⟩ := long_double_raised_cosine_fill_length
    { start := 0
      stop := long_double.add 0 (long_double.mul 15 (9838263505978427529 / 2 ^ 67))
      sampling_interval := 9838263505978427529 / 2 ^ 67
      n_samples := 15
      samples := (List.range 15).map fun i : Nat =>
        (fun x : ℚ => x)
          (long_double.add 0 (long_double.mul (9838263505978427529 / 2 ^ 67) (i : ℚ))) }
    (allocate_interpolation (fun x : ℚ => x) 0 1 (15 - 1)).coefficients (by simp)
    (by simp [allocate_interpolation])
  have hP : long_double.raised_cosine_interpolation (fun x => x) 0 1 15 =
      some (some { allocate_interpolation (fun x : ℚ => x) 0 1 (15 - 1) with
        sampling_interval := some (9838263505978427529 / 2 ^ 67)
        coefficients := cs }) := by
    unfold long_double.raised_cosine_interpolation
    rw [if_neg (by norm_num), if_neg (by norm_num)]
    simp only [long_double_interval_1_15, long_double_samples_1_15, Option.some_bind, hfill,
      Option.map_some']
  have hcs : cs.length = 15 := hlen
  refine ⟨_, 9838263505978427529 / 2 ^ 67, hP, rfl, rfl, rfl, hcs, ?_, ?_, ?_⟩
  · show ⌊long_double.div (long_double.sub 1 0) (9838263505978427529 / 2 ^ 67)⌋ = 14
    rw [long_double_position_1_15, long_double_floor_1_15]
  · show ⌈long_double.div (long_double.sub 1 0) (9838263505978427529 / 2 ^ 67)⌉ = 15
    rw [long_double_position_1_15, long_double_ceil_1_15]
  · intro M_PI cosl
    unfold long_double.raised_cosine_value
    simp only [allocate_interpolation]
    rw [if_neg (by norm_num)]
    rw [if_neg (by norm_num)]
    simp only [long_double_position_1_15, long_double_floor_1_15, long_double_ceil_1_15]
    rw [if_neg (by norm_num)]
    have h14 : ∃ v, load cs (Int.toNat 14) = some v :=
      ⟨_, load_eq cs 14 (by rw [hcs]; norm_num)⟩
    obtain ⟨v, hv⟩ := h14
    have h15 : load cs (Int.toNat 15) = none := by
      unfold load
      rw [List.getElem?_eq_none]
      rw [hcs]
      exact le_refl _
    rw [hv, h15]
    rfl

section long_double_third

theorem long_double_interval_1_3 :
    long_double.div 1 3 = 12297829382473034411 / 2 ^ 65 := by
  unfold long_double.div
  rw [long_double.nearest_of_scaled (1 / 3) 65 12297829382473034411
    (by norm_num [abs_of_pos]) (by norm_num [abs_of_pos]) (by norm_num [abs_lt])]
  norm_num

theorem long_double_count_1_3 :
    long_double.div (long_double.sub 1 0) (12297829382473034411 / 2 ^ 65) = 3 := by
  rw [long_double_one]
  unfold long_double.div
  rw [long_double.nearest_of_scaled _ 62 (3 * 2 ^ 62)
    (by norm_num [abs_of_pos]) (by norm_num [abs_of_pos]) (by norm_num [abs_lt])]
  norm_num

theorem long_double_four : long_double.add 3 1 = 4 := by
  unfold long_double.add
  rw [long_double.nearest_of_scaled _ 61 (4 * 2 ^ 61)
    (by norm_num [abs_of_pos]) (by norm_num [abs_of_pos]) (by norm_num [abs_lt])]
  norm_num

theorem long_double_end_1_3 :
    long_double.add 0 (long_double.mul 4 (12297829382473034411 / 2 ^ 65)) =
      12297829382473034411 / 2 ^ 63 := by
  have hm : long_double.mul 4 (12297829382473034411 / 2 ^ 65) =
      12297829382473034411 / 2 ^ 63 := by
    unfold long_double.mul
    rw [long_double.nearest_of_exact (4 * (12297829382473034411 / 2 ^ 65)) 63
      12297829382473034411 (by norm_num [abs_of_pos]) (by norm_num [abs_of_pos])
      (by norm_num)]
    norm_num
  rw [hm]
  unfold long_double.add
  rw [long_double.nearest_of_exact (0 + 12297829382473034411 / 2 ^ 63) 63
    12297829382473034411 (by norm_num [abs_of_pos]) (by norm_num [abs_of_pos])
    (by norm_num)]
  norm_num

theorem long_double_samples_1_3 (f : ℚ → ℚ) :
    long_double.sample_values f 0 1 (12297829382473034411 / 2 ^ 65) =
      some (some
        { start := 0
          stop := long_double.add 0 (long_double.mul 4 (12297829382473034411 / 2 ^ 65))
          sampling_interval := 12297829382473034411 / 2 ^ 65
          n_samples := 4
          samples := (List.range 4).map fun i : Nat =>
            f (long_double.add 0 (long_double.mul (12297829382473034411 / 2 ^ 65) (i : ℚ))) }) := by
  unfold long_double.sample_values
  rw [if_neg (by norm_num), if_neg (by norm_num)]
  simp only [long_double_count_1_3]
  norm_num [long_double_four]
  exact ⟨rfl, rfl⟩

end long_double_third

/-- C20, counterexample. Sampling `[0, 1]` every `1` takes two samples and records the end
`2`, which exceeds the requested end `1` by a full interval, not by strictly less. In
`long double` arithmetic, sampling `[0, 1]` with the interval `1.0L / 3` (rounded up) takes
four samples and records the end `4 * interval`, which exceeds the requested end `1` by
more than one interval. -/
theorem C20_recorded_end_full_interval :
    (∃ sf : sampled_function ℚ, sample_values (fun x : ℚ => x) 0 1 1 = some (some sf) ∧
      sf.n_samples = 2 ∧ sf.stop = 2 ∧ ¬ (sf.stop - 1 < 1)) ∧
    (∃ sf : sampled_function ℚ,
      long_double.sample_values (fun x => x) 0 1 (long_double.div 1 3) = some (some sf) ∧
      sf.n_samples = 4 ∧ sf.sampling_interval = long_double.div 1 3 ∧
      sf.stop = 4 * long_double.div 1 3 ∧ long_double.div 1 3 < sf.stop - 1) := by
  constructor
  · refine ⟨_, sample_values_valid (fun x : ℚ => x) 0 1 1 (by norm_num) (by norm_num),
      ?_, ?_, ?_⟩
    · simp
    · norm_num
    · norm_num
  · rw [long_double_interval_1_3]
    refine ⟨_, long_double_samples_1_3 _, rfl, rfl, ?_, ?_⟩
    · show long_double.add 0 (long_double.mul 4 (12297829382473034411 / 2 ^ 65)) = _
      rw [long_double_end_1_3]
      norm_num
    · show _ < long_double.add 0 (long_double.mul 4 (12297829382473034411 / 2 ^ 65)) - 1
      rw [long_double_end_1_3]
      norm_num

/-- C27, counterexample. For the zero function as both `function1` and `function2` on
`[0, 1]` with `points = 1` the quotient is `0 / 0`, and `function_error` returns `NAN`,
which is not a non-negative number. In `long double` arithmetic, for `points = 15` on
`[0, 1]` the call of `sample_values` that `function_error` makes, with the interval
`(1 - 0) / 15`, returns `15` samples, so the sums run over `i = 0..14`, not over
`i = 0..points`. -/
theorem C27_function_error_nan_on_zero_function :
    function_error Real.sqrt (fun _ : ℝ => 0) (fun _ : ℝ => 0) 0 1 1 = some .nan ∧
    ∃ sf : sampled_function ℚ,
      long_double.sample_values (fun _ => 1) 0 1
        (long_double.div (long_double.sub 1 0) ((15 : Nat) : ℚ)) = some (some sf) ∧
      sf.n_samples = 15 ∧ sf.samples.length = 15 := by
  constructor
  · rw [function_error_spec Real.sqrt _ _ 0 1 1 (by norm_num) (by norm_num)]
    simp [squared_difference_sum, squared_sum, extended.div, extended.sqrtl]
  · rw [long_double_interval_1_15]
    exact ⟨_, long_double_samples_1_15 _, rfl, by simp⟩

end Project1

